import Mathlib

/-!
# CHOOSER_DD: walk-forward market chooser with drawdown bounds

A shallow embedding of `CHOOSER_DD/CHOOSER_DD.CPP` and the properties proved about it.

Modelling conventions.

* A C `int` is a Lean `Int`.  Every cursor of the walk-forward loop stays between `0` and
  `n_cases`, itself an `int`, so no addition in the modelled code can wrap.
* A C `double` is an element of a linearly ordered field `α` (exact arithmetic).  The
  definitions are polymorphic in `α`: they evaluate on `ℚ` and the theorems hold on `ℝ`.
  The library functions `exp` and `sqrt` of `math.h` are parameters of the functions that
  call them.
* Where the rounding of `double` arithmetic, an infinity or a NaN decides a property, the
  code is embedded a second time, under the same names with the suffix `_fl`: every
  operation on finite values is followed by a rounding `fl` (`round_binary64` is rounding to
  the nearest value with 53 significant bits, ties to even), and the walk-forward pass works
  on values of the type `Dbl`, which adds `+inf`, `-inf` and NaN.  The exponent range is
  not bounded (no overflow, no underflow) and the sign of a zero is not kept.
* A `double *` is a function `Int → α` from element index to value; pointer arithmetic
  `p + k` is the function `fun i => p (k + i)`.
* A `for (i = lo ; i < hi ; i++)` loop whose body neither assigns `i` nor leaves the loop is
  `forLoop lo hi body`.
* The functions `unifrand` and `qsortd`, which the source declares and does not define, are
  parameters: `unifrand k` is the value of the `k`-th call, and `qsortd first last data` is
  the array that the call leaves in `data`.
* Definitions whose names end in `_reads` or `_days` list the array cells that the modelled
  code reads; like the `trace` of the walk-forward store they are ghosts of the model.
-/

namespace ChooserDD

/-! ## Definitions -/

/-- The C loop `for (i = lo ; i < hi ; i++) body`, threading the state `s` through the
bodies for `i = lo, lo+1, ..., hi-1` in that order. -/
def forLoop {σ : Type} (lo hi : Int) (body : Int → σ → σ) (s : σ) : σ :=
  List.foldl (fun (st : σ) (k : Nat) => body (lo + (k : Int)) st) s (List.range (hi - lo).toNat)

section Drawdown

variable {α : Type} [LinearOrderedField α]

/-- The local variables of `drawdown` that live across loop iterations. -/
structure DDState (α : Type) where
  cumulative : α
  max_price : α
  dd : α

/-- The body of the loop of `drawdown` (lines 61-68) at index `icase`, with the sum and the
difference of the code read as exact operations of the field `α`. The code computes them in
`double`, where each result is rounded; `drawdown_body_fl` is that reading, and it is this
one when the rounding is the identity. -/
def drawdown_body (trades : Int → α) (icase : Int) (s : DDState α) : DDState α :=
  let cumulative := s.cumulative + trades icase
  if cumulative > s.max_price then
    { cumulative := cumulative, max_price := cumulative, dd := s.dd }
  else
    let loss := s.max_price - cumulative
    if loss > s.dd then
      { cumulative := cumulative, max_price := s.max_price, dd := loss }
    else
      { cumulative := cumulative, max_price := s.max_price, dd := s.dd }

/-- The state of `drawdown` when its loop exits (lines 57-69). -/
def drawdown_loop (n : Int) (trades : Int → α) : DDState α :=
  forLoop 1 n (drawdown_body trades)
    { cumulative := trades 0, max_price := trades 0, dd := 0 }

/-- The raw log-scale loss `dd` of `drawdown` just before the percentage conversion. -/
def drawdown_dd (n : Int) (trades : Int → α) : α :=
  (drawdown_loop n trades).dd

/-- The function `drawdown` (lines 49-72): percent drawdown of a series of log equity
changes. -/
def drawdown (exp : α → α) (n : Int) (trades : Int → α) : α :=
  100 * (1 - exp (-(drawdown_dd n trades)))

/-- The cumulative log-equity `S_k = trades[0] + ... + trades[k]` of the specification. -/
def cumLogEquity (trades : Int → α) (k : Nat) : α :=
  ∑ m in Finset.range (k + 1), trades (m : Int)

/-- The array `[0, -1, -2, -3]` as a `double *`. -/
def linearDecline : Int → α := fun i =>
  if i = 0 then 0 else if i = 1 then -1 else if i = 2 then -2 else if i = 3 then -3 else 0

/-- The array `[0, -1, -1, -1]` as a `double *`: the log equity changes whose running sum
is the path `0, -1, -2, -3`. -/
def unitLosses : Int → α := fun i =>
  if i = 0 then 0 else if i = 1 then -1 else if i = 2 then -1 else if i = 3 then -1 else 0

/-- The array `trades` with `c` added to every element after the first. -/
def shift_tail (c : α) (trades : Int → α) : Int → α := fun i =>
  if 1 ≤ i then trades i + c else trades i

/-- The array `trades` with `c` added to its first element. -/
def shift_head (c : α) (trades : Int → α) : Int → α := fun i =>
  if i = 0 then trades i + c else trades i

/-- The array `[0, -1]` as a `double *`. -/
def downStep : Int → α := fun i => if i = 1 then -1 else 0


/-- What the loop of `drawdown` has computed after processing indices `1..m`. -/
structure DDInv (trades : Int → α) (m : Nat) (s : DDState α) : Prop where
  cum : s.cumulative = cumLogEquity trades m
  max_ub : ∀ i, i ≤ m → cumLogEquity trades i ≤ s.max_price
  max_at : ∃ i, i ≤ m ∧ cumLogEquity trades i = s.max_price
  dd_ub : ∀ i j, i ≤ j → j ≤ m → cumLogEquity trades i - cumLogEquity trades j ≤ s.dd
  dd_at : ∃ i j, i ≤ j ∧ j ≤ m ∧ s.dd = cumLogEquity trades i - cumLogEquity trades j

end Drawdown

section Quantile

variable {α : Type} [LinearOrderedField α] [FloorRing α]

/-- The C conversion `(int) x` of a `double`: truncation toward zero. -/
def truncToInt (x : α) : Int :=
  if 0 ≤ x then ⌊x⌋ else ⌈x⌉

/-- The index `k` at which `find_quantile` reads `data` (lines 144-146). -/
def find_quantile_k (n : Int) (frac : α) : Int :=
  let k := truncToInt (frac * ((n + 1 : Int) : α)) - 1
  if k < 0 then 0 else k

/-- The function `find_quantile` (lines 140-148). -/
def find_quantile (n : Int) (data : Int → α) (frac : α) : α :=
  data (find_quantile_k n frac)

/-- The index `k` at which `drawdown_quantiles` reads the sorted `work` for a level written
as the literal `level` (the statement pairs of lines 110-112, 115-117, 120-122, 125-127). -/
def drawdown_quantiles_k (level : α) (nboot : Int) : Int :=
  let k := truncToInt (level * ((nboot + 1 : Int) : α)) - 1
  if k < 0 then 0 else k

/-- The index of `*q001` in `drawdown_quantiles` (line 110, literal `0.999`). -/
def k_q001 (nboot : Int) : Int := drawdown_quantiles_k (999 / 1000 : α) nboot

/-- The index of `*q01` in `drawdown_quantiles` (line 115, literal `0.99`). -/
def k_q01 (nboot : Int) : Int := drawdown_quantiles_k (99 / 100 : α) nboot

/-- The index of `*q05` in `drawdown_quantiles` (line 120, literal `0.95`). -/
def k_q05 (nboot : Int) : Int := drawdown_quantiles_k (95 / 100 : α) nboot

/-- The index of `*q10` in `drawdown_quantiles` (line 125, literal `0.90`). -/
def k_q10 (nboot : Int) : Int := drawdown_quantiles_k (90 / 100 : α) nboot

end Quantile
section Rounding

variable {α : Type} [LinearOrderedField α] [FloorRing α]

/-- The integer nearest to `q`; of two equally near integers the even one. -/
def round_half_even (q : α) : Int :=
  let f := ⌊q⌋
  let r := q - (f : α)
  if r < 1 / 2 then f
  else if 1 / 2 < r then f + 1
  else if f % 2 = 0 then f
  else f + 1

/-- The value of type `double` (IEEE 754 binary64: 53 significant bits) that is nearest to
`x`, with ties to the even significand: what an arithmetic operation of the code stores when
its exact result is `x`.  Overflow and gradual underflow are not modelled: the exponent is
not bounded. -/
def round_binary64 (x : α) : α :=
  if x = 0 then 0
  else (round_half_even (x / 2 ^ (Int.log 2 |x| - 52)) : α) * 2 ^ (Int.log 2 |x| - 52)

/-- The body of the loop of `drawdown` (lines 61-68) at index `icase`, the result of the
addition of line 61 and of the subtraction of line 65 being rounded by `fl`.  With the
identity for `fl` this is `drawdown_body`, which reads the arithmetic as exact. -/
def drawdown_body_fl (fl : α → α) (trades : Int → α) (icase : Int) (s : DDState α) :
    DDState α :=
  let cumulative := fl (s.cumulative + trades icase)
  if cumulative > s.max_price then
    { cumulative := cumulative, max_price := cumulative, dd := s.dd }
  else
    let loss := fl (s.max_price - cumulative)
    if loss > s.dd then
      { cumulative := cumulative, max_price := s.max_price, dd := loss }
    else
      { cumulative := cumulative, max_price := s.max_price, dd := s.dd }

/-- The raw loss `dd` of `drawdown` when its loop exits (lines 57-69), with rounding
`fl`. -/
def drawdown_dd_fl (fl : α → α) (n : Int) (trades : Int → α) : α :=
  (forLoop 1 n (drawdown_body_fl fl trades)
    { cumulative := trades 0, max_price := trades 0, dd := 0 }).dd

/-- The function `drawdown` (lines 49-72) with rounding `fl`; `exp` is the library function,
whose result is a `double`. -/
def drawdown_fl (fl : α → α) (exp : α → α) (n : Int) (trades : Int → α) : α :=
  fl (100 * fl (1 - exp (-(drawdown_dd_fl fl n trades))))

/-- The array `[1e17, -1]` as a `double *`. -/
def hugeStart : Int → α := fun i => if i = 1 then -1 else if i = 0 then 10 ^ 17 else 0

end Rounding


section Resampling

variable {α : Type} [LinearOrderedField α] [FloorRing α]

/-- The index drawn for one element of a bootstrap sample from a source of `n` values
(lines 100-102, and again lines 880-882); `u` is the value that `unifrand ()` returned. -/
def resample_index (u : α) (n : Int) : Int :=
  let k := truncToInt (u * (n : α))
  if k ≥ n then n - 1 else k

/-- The loop that fills `quantsample` in `drawdown_quantiles` (lines 99-104).  The function
`unifrand` is declared in the source but not defined there: its successive results are the
parameter `unifrand`, and the loop state is the array together with the number of calls
made so far. -/
def fill_quantsample (unifrand : Nat → α) (n_changes n_trades : Int) (b_changes : Int → α)
    (st : (Int → α) × Nat) : (Int → α) × Nat :=
  forLoop 0 n_trades
    (fun i (st : (Int → α) × Nat) =>
      (Function.update st.1 i (b_changes (resample_index (unifrand st.2) n_changes)), st.2 + 1))
    st

/-- The loop that fills `bootsample` in `main` (lines 879-884), with `unifrand` and the loop
state as in `fill_quantsample`. -/
def fill_bootsample (unifrand : Nat → α) (n : Int) (OOS2 : Int → α) (OOS2_start : Int)
    (st : (Int → α) × Nat) : (Int → α) × Nat :=
  forLoop 0 n
    (fun i (st : (Int → α) × Nat) =>
      (Function.update st.1 i (OOS2 (resample_index (unifrand st.2) n + OOS2_start)), st.2 + 1))
    st

end Resampling

section Bootstrap

variable {α : Type} [LinearOrderedField α] [FloorRing α]

/-- The loop of `drawdown_quantiles` that fills `work` (lines 98-106); the loop state is
`(quantsample, work, calls)`, where `calls` is the number of calls of `unifrand` made so
far. -/
def drawdown_quantiles_loop (exp : α → α) (unifrand : Nat → α) (n_changes n_trades : Int)
    (b_changes : Int → α) (nboot : Int) (st : (Int → α) × (Int → α) × Nat) :
    (Int → α) × (Int → α) × Nat :=
  forLoop 0 nboot
    (fun iboot (st : (Int → α) × (Int → α) × Nat) =>
      let filled := fill_quantsample unifrand n_changes n_trades b_changes (st.1, st.2.2)
      (filled.1, Function.update st.2.1 iboot (drawdown exp n_trades filled.1), filled.2))
    st

/-- What a call of `drawdown_quantiles` leaves behind: the four values stored through the
pointers `q001`, `q01`, `q05`, `q10`, the two work areas and the number of calls of
`unifrand`. -/
structure Quantiles (α : Type) where
  q001 : α
  q01 : α
  q05 : α
  q10 : α
  quantsample : Int → α
  work : Int → α
  calls : Nat

/-- The function `drawdown_quantiles` (lines 83-129).  The function `qsortd` is declared
at line 30 and not defined in the source: `qsortd first last data` is the array that the
call `qsortd ( first , last , data )` leaves in `data`. -/
def drawdown_quantiles (exp : α → α) (unifrand : Nat → α)
    (qsortd : Int → Int → (Int → α) → Int → α) (n_changes n_trades : Int)
    (b_changes : Int → α) (nboot : Int) (quantsample work : Int → α) (calls : Nat) :
    Quantiles α :=
  let st := drawdown_quantiles_loop exp unifrand n_changes n_trades b_changes nboot
    (quantsample, work, calls)
  let sorted := qsortd 0 (nboot - 1) st.2.1
  { q001 := sorted (k_q001 (α := α) nboot)
    q01 := sorted (k_q01 (α := α) nboot)
    q05 := sorted (k_q05 (α := α) nboot)
    q10 := sorted (k_q10 (α := α) nboot)
    quantsample := st.1
    work := sorted
    calls := st.2.2 }

/-- The arrays that the bootstrap loop of `main` assigns, and the number of calls of
`unifrand`. -/
structure BootState (α : Type) where
  bootsample : Int → α
  quantile_sample : Int → α
  work : Int → α
  q001 : Int → α
  q01 : Int → α
  q05 : Int → α
  q10 : Int → α
  calls : Nat

/-- The body of the bootstrap loop of `main` (lines 879-888) for repetition `iboot`; `n` is
`OOS2_end - OOS2_start`.  The progress dots of lines 877-878 are left out. -/
def bootstrap_body (exp : α → α) (unifrand : Nat → α)
    (qsortd : Int → Int → (Int → α) → Int → α) (n n_trades quantile_reps : Int)
    (OOS2 : Int → α) (OOS2_start : Int) (iboot : Int) (b : BootState α) : BootState α :=
  let filled := fill_bootsample unifrand n OOS2 OOS2_start (b.bootsample, b.calls)
  let q := drawdown_quantiles exp unifrand qsortd n n_trades filled.1 quantile_reps
    b.quantile_sample b.work filled.2
  { bootsample := filled.1
    quantile_sample := q.quantsample
    work := q.work
    q001 := Function.update b.q001 iboot q.q001
    q01 := Function.update b.q01 iboot q.q01
    q05 := Function.update b.q05 iboot q.q05
    q10 := Function.update b.q10 iboot q.q10
    calls := q.calls }

/-- The bootstrap loop of `main` (lines 876-889). -/
def bootstrap_loop (exp : α → α) (unifrand : Nat → α)
    (qsortd : Int → Int → (Int → α) → Int → α) (n n_trades quantile_reps bootstrap_reps : Int)
    (OOS2 : Int → α) (OOS2_start : Int) (b : BootState α) : BootState α :=
  forLoop 0 bootstrap_reps
    (bootstrap_body exp unifrand qsortd n n_trades quantile_reps OOS2 OOS2_start) b

/-- One entry of the table of lines 901-931: the array `q` is sorted (lines 892-895), then
read by `find_quantile` at the confidence `frac`. -/
def table_entry (qsortd : Int → Int → (Int → α) → Int → α) (bootstrap_reps : Int)
    (q : Int → α) (frac : α) : α :=
  find_quantile bootstrap_reps (qsortd 0 (bootstrap_reps - 1) q) frac

/-- The array `data` is in ascending order on the indices `first .. last`. -/
def Ascending (first last : Int) (data : Int → α) : Prop :=
  ∀ i j, first ≤ i → i ≤ j → j ≤ last → data i ≤ data j

/-- Every element that `qsortd` leaves at the indices `first .. last` is one of the elements
that were there. -/
def KeepsValues (qsortd : Int → Int → (Int → α) → Int → α) : Prop :=
  ∀ first last data i, first ≤ i → i ≤ last →
    ∃ j, first ≤ j ∧ j ≤ last ∧ qsortd first last data i = data j
/-- A sort routine for arrays of one element: it leaves the array as it is. -/
def qsortd_single (_first _last : Int) (data : Int → α) : Int → α := data

/-- A bootstrap state whose indeterminate contents are all zero. -/
def zeroBoot : BootState α :=
  { bootsample := fun _ => 0, quantile_sample := fun _ => 0, work := fun _ => 0,
    q001 := fun _ => 0, q01 := fun _ => 0, q05 := fun _ => 0, q10 := fun _ => 0, calls := 0 }

/-- A sort routine of the kind `qsortd` is declared to be: the elements `first .. last` of
`data` are replaced by the same values in ascending order (here by insertion); the other
elements are left alone. -/
def qsortd_insertion (first last : Int) (data : Int → α) : Int → α := fun i =>
  if first ≤ i ∧ i ≤ last then
    (List.insertionSort (fun a b => a ≤ b)
      ((List.range (last - first + 1).toNat).map (fun (k : Nat) => data (first + (k : Int))))).getD
      (i - first).toNat (data i)
  else data i

/-- A stream of values in `[0, 1)`: the residues of a quadratic modulo `101`, over `101`.
With `sixChanges`, `n_trades = 5` and `nboot = 20` it gives 20 paths whose three largest raw
losses are `7`, `8` and `10`. -/
def unifrand_quadratic (k : Nat) : α := (((k * k * 37 + k * 11 + 5) % 101 : Nat) : α) / 101

/-- The changes `3, -2, 1, -4, 2, -1` of a small history, as a `double *`. -/
def sixChanges : Int → α := fun i =>
  if i = 0 then 3 else if i = 1 then -2 else if i = 2 then 1 else if i = 3 then -4
  else if i = 4 then 2 else -1


end Bootstrap



section Criteria

variable {α : Type} [LinearOrderedField α]

/-- The function `total_return` (lines 159-162). -/
def total_return (n : Int) (prices : Int → α) : α :=
  prices (n - 1) - prices 0

/-- The function `sharpe_ratio` (lines 173-187); `sqrt` is the library square root. -/
def sharpe_ratio (sqrt : α → α) (n : Int) (prices : Int → α) : α :=
  let mean := (prices (n - 1) - prices 0) / ((n : α) - 1)
  let var := forLoop 1 n
    (fun i (var : α) =>
      let diff := (prices i - prices (i - 1)) - mean
      var + diff * diff)
    (1 / 10 ^ 60)
  mean / sqrt (var / (((n - 1 : Int)) : α))

/-- The function `profit_factor` (lines 198-214); the loop state is `(win_sum, lose_sum)`. -/
def profit_factor (n : Int) (prices : Int → α) : α :=
  let sums := forLoop 1 n
    (fun i (ws : α × α) =>
      let ret := prices i - prices (i - 1)
      if ret > 0 then (ws.1 + ret, ws.2) else (ws.1, ws.2 - ret))
    ((1 / 10 ^ 60 : α), (1 / 10 ^ 60 : α))
  sums.1 / sums.2

/-- The function `criterion` (lines 225-237). -/
def criterion (sqrt : α → α) (which : Int) (n : Int) (prices : Int → α) : α :=
  if which = 0 then total_return n prices
  else if which = 1 then sharpe_ratio sqrt n prices
  else if which = 2 then profit_factor n prices
  else -(10 ^ 60)

/-- The value of `var` when the loop of `sharpe_ratio` exits (lines 178-184). -/
def sharpe_ratio_var (n : Int) (prices : Int → α) : α :=
  forLoop 1 n
    (fun i (var : α) =>
      let diff := (prices i - prices (i - 1)) - (prices (n - 1) - prices 0) / ((n : α) - 1)
      var + diff * diff)
    (1 / 10 ^ 60)

/-- The pair `(win_sum, lose_sum)` when the loop of `profit_factor` exits (lines 203-211). -/
def profit_factor_sums (n : Int) (prices : Int → α) : α × α :=
  forLoop 1 n
    (fun i (ws : α × α) =>
      let ret := prices i - prices (i - 1)
      if ret > 0 then (ws.1 + ret, ws.2) else (ws.1, ws.2 - ret))
    ((1 / 10 ^ 60 : α), (1 / 10 ^ 60 : α))


/-- The window `[0, 1, 3]` as a `double *`. -/
def risingWindow : Int → α := fun i => if i = 0 then 0 else if i = 1 then 1 else 3

/-- The window `[1, 3, 2, 5]` as a `double *`. -/
def zigzagWindow : Int → α := fun i =>
  if i = 0 then 1 else if i = 1 then 3 else if i = 2 then 2 else 5

/-- The window `prices` with `c` added to every element. -/
def shift_window (c : α) (prices : Int → α) : Int → α := fun i => prices i + c


end Criteria

section WalkForward

variable {α : Type} [LinearOrderedField α]

/-- The constant `n_criteria` (line 294). -/
def n_criteria : Int := 3

/-- What the walk-forward pass of `main` receives: the sizes, the two command-line window
lengths and the matrix of log closing prices `market_close[market][case]`. -/
structure Config (α : Type) where
  n_markets : Int
  n_cases : Int
  IS_n : Int
  OOS1_n : Int
  market_close : Int → Int → α

/-- A record of one assignment to `OOS1` or `OOS2`, kept in the order of execution.  This is
a ghost of the model, not a variable of the program. -/
inductive Event where
  /-- The assignment to `OOS1[icrit*n_cases+day]` of line 763, from market `ibest`. -/
  | oos1 (icrit day ibest : Int)
  /-- The assignment to `OOS2[day]` of line 809, from criterion `ibestcrit` and market
  `ibest`. -/
  | oos2 (day ibestcrit ibest : Int)
  deriving DecidableEq, Repr

/-- The window cursors of `main` (line 253). -/
structure Cursors where
  IS_start : Int
  OOS1_start : Int
  OOS1_end : Int
  OOS2_start : Int
  OOS2_end : Int
  deriving DecidableEq, Repr

/-- The other variables of `main` that the walk-forward loop assigns, and the ghost
`trace`. -/
structure Store (α : Type) where
  ibest : Int
  ibestcrit : Int
  crit_count : Int → Int
  OOS1 : Int → α
  OOS2 : Int → α
  trace : List Event

/-- The cursors at loop entry (lines 738-740). -/
def init_cursors (cfg : Config α) : Cursors :=
  { IS_start := 0
    OOS1_start := cfg.IS_n
    OOS1_end := cfg.IS_n
    OOS2_start := cfg.IS_n + cfg.OOS1_n
    OOS2_end := cfg.IS_n + cfg.OOS1_n }

/-- The store at loop entry: `garbage` holds the indeterminate contents of the variables
that are not initialised and of the allocated arrays; the counters of the criteria are
zeroed (lines 735-736). -/
def init_store (garbage : Store α) : Store α :=
  { garbage with
    crit_count := forLoop 0 n_criteria (fun i cc => Function.update cc i 0) garbage.crit_count
    trace := [] }

/-- The market-selection loop (lines 755-762, and again lines 799-806): scores every market
under criterion `which` on the `IS_n` prices that start at case `start`; the loop state is
`(best_crit, ibest)`. -/
def best_market (sqrt : α → α) (cfg : Config α) (which start : Int) (ibest : Int) : α × Int :=
  forLoop 0 cfg.n_markets
    (fun imarket (b : α × Int) =>
      let crit := criterion sqrt which cfg.IS_n (fun i => cfg.market_close imarket (start + i))
      if crit > b.1 then (crit, imarket) else b)
    (-(10 ^ 60), ibest)

/-- The body of the loop over the criteria (lines 755-763) for criterion `icrit`. -/
def criteria_body (sqrt : α → α) (cfg : Config α) (c : Cursors) (icrit : Int) (m : Store α) :
    Store α :=
  let ibest := (best_market sqrt cfg icrit c.IS_start m.ibest).2
  { m with
    ibest := ibest
    OOS1 := Function.update m.OOS1 (icrit * cfg.n_cases + c.OOS1_end)
      (cfg.market_close ibest c.OOS1_end - cfg.market_close ibest (c.OOS1_end - 1))
    trace := m.trace ++ [Event.oos1 icrit c.OOS1_end ibest] }

/-- The loop over the criteria (lines 754-764). -/
def criteria_pass (sqrt : α → α) (cfg : Config α) (c : Cursors) (m : Store α) : Store α :=
  forLoop 0 n_criteria (criteria_body sqrt cfg c) m

/-- The sum of criterion `icrit` over the current OOS1 window (lines 788-790). -/
def oos1_sum (cfg : Config α) (c : Cursors) (OOS1 : Int → α) (icrit : Int) : α :=
  forLoop c.OOS1_start c.OOS1_end (fun i crit => crit + OOS1 (icrit * cfg.n_cases + i)) 0

/-- The search for the best criterion (lines 786-795); the loop state is
`(best_crit, ibestcrit)`. -/
def best_criterion (cfg : Config α) (c : Cursors) (m : Store α) : α × Int :=
  forLoop 0 n_criteria
    (fun icrit (b : α × Int) =>
      let crit := oos1_sum cfg c m.OOS1 icrit
      if crit > b.1 then (crit, icrit) else b)
    (-(10 ^ 60), m.ibestcrit)

/-- What lines 786-809 do to the store once OOS1 is full. -/
def steady_store (sqrt : α → α) (cfg : Config α) (c : Cursors) (m : Store α) : Store α :=
  let ibestcrit := (best_criterion cfg c m).2
  let ibest := (best_market sqrt cfg ibestcrit (c.OOS2_end - cfg.IS_n) m.ibest).2
  { m with
    ibestcrit := ibestcrit
    crit_count := Function.update m.crit_count ibestcrit (m.crit_count ibestcrit + 1)
    ibest := ibest
    OOS2 := Function.update m.OOS2 c.OOS2_end
      (cfg.market_close ibest c.OOS2_end - cfg.market_close ibest (c.OOS2_end - 1))
    trace := m.trace ++ [Event.oos2 c.OOS2_end ibestcrit ibest] }

/-- How one pass through the body of the main loop ends. -/
inductive Step (α : Type) where
  /-- The `break` of line 767. -/
  | done (c : Cursors) (m : Store α)
  /-- The `continue` of line 776, or the end of the body at line 812. -/
  | again (c : Cursors) (m : Store α)

/-- The cursors with which a pass through the loop body ends. -/
def Step.cursors : Step α → Cursors
  | Step.done c _ => c
  | Step.again c _ => c

/-- The store with which a pass through the loop body ends. -/
def Step.store : Step α → Store α
  | Step.done _ m => m
  | Step.again _ m => m

/-- The first half of the window advance (lines 772-773). -/
def advance (c : Cursors) : Cursors :=
  { c with IS_start := c.IS_start + 1, OOS1_end := c.OOS1_end + 1 }

/-- The second half of the window advance (lines 810-811). -/
def finish_advance (c : Cursors) : Cursors :=
  { c with OOS1_start := c.OOS1_start + 1, OOS2_end := c.OOS2_end + 1 }

/-- One pass through the body of the main loop (lines 748-812). -/
def loop_body (sqrt : α → α) (cfg : Config α) (c : Cursors) (m : Store α) : Step α :=
  let m1 := criteria_pass sqrt cfg c m
  if c.OOS1_end ≥ cfg.n_cases - 1 then Step.done c m1
  else
    let c2 := advance c
    if c2.OOS1_end - c2.OOS1_start < cfg.OOS1_n then Step.again c2 m1
    else Step.again (finish_advance c2) (steady_store sqrt cfg c2 m1)

set_option linter.unusedVariables false in
/-- The main loop (lines 748-812), from the top of the body with cursors `c` and store `m`
to the state in which it is left. -/
def main_loop (sqrt : α → α) (cfg : Config α) (c : Cursors) (m : Store α) :
    Cursors × Store α :=
  match h : loop_body sqrt cfg c m with
  | Step.done c1 m1 => (c1, m1)
  | Step.again c1 m1 => main_loop sqrt cfg c1 m1
termination_by (cfg.n_cases - c.OOS1_end).toNat
decreasing_by
  simp only [loop_body] at h
  split at h
  · cases h
  · split at h
    · cases h
      simp only [advance]
      omega
    · cases h
      simp only [advance, finish_advance]
      omega

/-- The state at the top of the loop body when it is entered for the `k`-th time after
the first, if the loop runs that long. -/
def loop_top (sqrt : α → α) (cfg : Config α) : Nat → Cursors → Store α →
    Option (Cursors × Store α)
  | 0, c, m => some (c, m)
  | k + 1, c, m =>
    match loop_body sqrt cfg c m with
    | Step.done _ _ => none
    | Step.again c1 m1 => loop_top sqrt cfg k c1 m1

/-- The walk-forward pass of `main` (lines 735-812). -/
def walk_forward (sqrt : α → α) (cfg : Config α) (garbage : Store α) : Cursors × Store α :=
  main_loop sqrt cfg (init_cursors cfg) (init_store garbage)

/-- The choices `(ibestcrit, ibest)` recorded in a trace for the assignments to `OOS2[t]`,
in order. -/
def oos2_choices (t : Int) : List Event → List (Int × Int)
  | [] => []
  | Event.oos2 day ibestcrit ibest :: es =>
    if day = t then (ibestcrit, ibest) :: oos2_choices t es else oos2_choices t es
  | Event.oos1 _ _ _ :: es => oos2_choices t es

/-- The days of the assignments to `OOS2` recorded in a trace, in order. -/
def oos2_days : List Event → List Int
  | [] => []
  | Event.oos2 day _ _ :: es => day :: oos2_days es
  | Event.oos1 _ _ _ :: es => oos2_days es

/-- The days of the assignments to the `OOS1` series of criterion `icrit` recorded in a
trace, in order. -/
def oos1_days (icrit : Int) : List Event → List Int
  | [] => []
  | Event.oos1 ic day _ :: es => if ic = icrit then day :: oos1_days icrit es else oos1_days icrit es
  | Event.oos2 _ _ _ :: es => oos1_days icrit es

/-- The integers `lo, lo+1, ..., hi-1` in increasing order. -/
def intRange (lo hi : Int) : List Int :=
  List.map (fun (k : Nat) => lo + (k : Int)) (List.range (hi - lo).toNat)

/-- The score of market `imarket` under criterion `which` on the `IS_n` prices that start
at case `start`, as the market-selection loop computes it (lines 757 and 801). -/
def market_score (sqrt : α → α) (cfg : Config α) (which start : Int) (imarket : Int) : α :=
  criterion sqrt which cfg.IS_n (fun i => cfg.market_close imarket (start + i))

/-- The all-zero price matrix of two markets and five cases, with `IS_n = 2` and
`OOS1_n = 1`. -/
def flatConfig : Config ℝ :=
  { n_markets := 2, n_cases := 5, IS_n := 2, OOS1_n := 1, market_close := fun _ _ => 0 }

/-- A store whose indeterminate contents are all zero. -/
def zeroStore : Store ℝ :=
  { ibest := 0, ibestcrit := 0, crit_count := fun _ => 0, OOS1 := fun _ => 0,
    OOS2 := fun _ => 0, trace := [] }

/-- The configuration `cfg` with the price matrix replaced by `close2`: the same
dimensions, `IS_n` and `OOS1_n`. -/
def Config.with_prices (cfg : Config α) (close2 : Int → Int → α) : Config α :=
  { cfg with market_close := close2 }

/-- The all-zero price matrix of two markets and four cases, with `IS_n = 2` and
`OOS1_n = 1`. -/
def fourCases : Config ℝ :=
  { n_markets := 2, n_cases := 4, IS_n := 2, OOS1_n := 1, market_close := fun _ _ => 0 }

/-- The all-zero price matrix of two markets and six cases, with `IS_n = 2` and
`OOS1_n = 2`. -/
def sixCases : Config ℝ :=
  { n_markets := 2, n_cases := 6, IS_n := 2, OOS1_n := 2, market_close := fun _ _ => 0 }

/-- The all-zero price matrix of three markets and 500 cases, with `IS_n = 50` and
`OOS1_n = 20`. -/
def endToEnd : Config ℝ :=
  { n_markets := 3, n_cases := 500, IS_n := 50, OOS1_n := 20, market_close := fun _ _ => 0 }

/-- A price matrix that is zero on the cases before `4` and one from case `4` on. -/
def lateJump : Int → Int → ℝ := fun _ d => if d < 4 then 0 else 1

/-- How `main` ends, as far as the walk-forward pass is concerned. -/
inductive MainResult (α : Type) where
  /-- The call `exit ( status )` of line 271 or line 287, before any file is opened. -/
  | exited (status : Int)
  /-- The walk-forward loop was entered, and left with these cursors and this store. -/
  | walked (c : Cursors) (m : Store α)

/-- The way of `main` to the walk-forward loop: the test of the number of arguments
(lines 266-272), the test of `IS_n` and `OOS1_n` (lines 282-288), then the walk-forward pass
on the configuration that the reading and the alignment of the market files deliver.  The
reading and the alignment (lines 320-634) are taken to succeed; nothing between line 288 and
the loop tests `IS_n`, `OOS1_n` or `n_cases`. -/
def main_flow (sqrt : α → α) (argc : Int) (cfg : Config α) (garbage : Store α) :
    MainResult α :=
  if argc ≠ 4 then MainResult.exited 0
  else if cfg.IS_n < 2 ∨ cfg.OOS1_n < 1 then MainResult.exited 0
  else MainResult.walked (walk_forward sqrt cfg garbage).1 (walk_forward sqrt cfg garbage).2

/-- The all-zero price matrix of two markets and three cases, with `IS_n = 2` and
`OOS1_n = 1`: one case fewer than `IS_n + OOS1_n + 1`. -/
def threeCases : Config ℝ :=
  { n_markets := 2, n_cases := 3, IS_n := 2, OOS1_n := 1, market_close := fun _ _ => 0 }

/-- The all-zero price matrix of two markets and six cases, with `IS_n = 1` and
`OOS1_n = 2`. -/
def shortWindow : Config ℝ :=
  { n_markets := 2, n_cases := 6, IS_n := 1, OOS1_n := 2, market_close := fun _ _ => 0 }


/-- At every steady-state pass of the run some criterion's sum over the OOS1 window exceeds
the sentinel `-1e60`, so that `ibestcrit` is assigned. -/
def SumsExceedSentinel (sqrt : α → α) (cfg : Config α) (g : Store α) : Prop :=
  ∀ k c m, loop_top sqrt cfg k (init_cursors cfg) (init_store g) = some (c, m) →
    ¬ c.OOS1_end ≥ cfg.n_cases - 1 →
    ¬ (advance c).OOS1_end - (advance c).OOS1_start < cfg.OOS1_n →
    ∃ j, 0 ≤ j ∧ j < n_criteria ∧
      oos1_sum cfg (advance c) (criteria_pass sqrt cfg c m).OOS1 j > -(10 ^ 60)


/-- The market recorded in an event. -/
def Event.market : Event → Int
  | Event.oos1 _ _ b => b
  | Event.oos2 _ _ b => b

/-- A score function attains its maximum over `0 ≤ j < n` at `b`, and at no index below
`b`. -/
def IsFirstArgmax (n : Int) (score : Int → α) (b : Int) : Prop :=
  0 ≤ b ∧ b < n ∧ (∀ j, 0 ≤ j → j < n → score j ≤ score b) ∧
    (∀ j, 0 ≤ j → j < b → score j < score b)

/-- The relations between the cursors at the top of the loop body. -/
structure TopInv (cfg : Config α) (c : Cursors) : Prop where
  is_end : c.OOS1_end = c.IS_start + cfg.IS_n
  lo : cfg.IS_n ≤ c.OOS1_end
  oos2_start : c.OOS2_start = cfg.IS_n + cfg.OOS1_n
  phase : (c.OOS1_end < cfg.IS_n + cfg.OOS1_n ∧ c.OOS1_start = cfg.IS_n ∧
        c.OOS2_end = cfg.IS_n + cfg.OOS1_n) ∨
      (cfg.IS_n + cfg.OOS1_n ≤ c.OOS1_end ∧ c.OOS1_start = c.OOS1_end - cfg.OOS1_n + 1 ∧
        c.OOS2_end = c.OOS1_end + 1)

/-- What holds at the top of the loop body in a run that has data for at least one OOS2
case. -/
structure RunInv (cfg : Config α) (c : Cursors) (m : Store α) : Prop where
  top : TopInv cfg c
  hi : c.OOS1_end ≤ cfg.n_cases - 1
  days2 : oos2_days m.trace = intRange (cfg.IS_n + cfg.OOS1_n) c.OOS2_end
  days1 : ∀ ic, ic = 0 ∨ ic = 1 ∨ ic = 2 → oos1_days ic m.trace = intRange cfg.IS_n c.OOS1_end

/-- What two runs whose prices agree on the cases before `t` share at the top of the loop
body: the choices recorded for `OOS2[t]`, and, as long as `OOS1_end ≤ t`, the selected
market and criterion and the whole of `OOS1`. -/
structure Agree (cfg : Config α) (t : Int) (c : Cursors) (m1 m2 : Store α) : Prop where
  top : TopInv cfg c
  choices : oos2_choices t m2.trace = oos2_choices t m1.trace
  early : c.OOS1_end ≤ t →
    m2.ibest = m1.ibest ∧ m2.ibestcrit = m1.ibestcrit ∧ m2.OOS1 = m1.OOS1

/-- Every choice recorded for an assignment to `OOS2` is for a case before `OOS2_end`, and
`OOS2` holds there the return of the market chosen. -/
def RecordsOOS2 (cfg : Config α) (c : Cursors) (m : Store α) : Prop :=
  ∀ d cr b, (cr, b) ∈ oos2_choices d m.trace →
    d < c.OOS2_end ∧ m.OOS2 d = cfg.market_close b d - cfg.market_close b (d - 1)

/-- What holds at the top of the loop body in a run in which market `A` has been selected
at every decision so far. -/
structure AllA (cfg : Config α) (A : Int) (c : Cursors) (m : Store α) : Prop where
  top : TopInv cfg c
  hi : c.OOS1_end ≤ cfg.n_cases - 1
  markets : ∀ e, e ∈ m.trace → e.market = A
  oos1 : ∀ ic, ic = 0 ∨ ic = 1 ∨ ic = 2 → ∀ d, cfg.IS_n ≤ d → d < c.OOS1_end →
    m.OOS1 (ic * cfg.n_cases + d) = cfg.market_close A d - cfg.market_close A (d - 1)
  oos2 : ∀ d, cfg.IS_n + cfg.OOS1_n ≤ d → d < c.OOS2_end →
    m.OOS2 d = cfg.market_close A d - cfg.market_close A (d - 1)

/-- The indices at which `criterion ( which , n , prices )` reads `prices`, in order:
`total_return` reads `prices[n-1]` and `prices[0]` (line 161), `sharpe_ratio` those two
(line 178) and then `prices[i]`, `prices[i-1]` for `i = 1 .. n-1` (line 182), and
`profit_factor` `prices[i]`, `prices[i-1]` for `i = 1 .. n-1` (line 206).  This and the next
three definitions are ghosts of the model: they list the cells that the code reads. -/
def criterion_reads (which n : Int) : List Int :=
  if which = 0 then [n - 1, 0]
  else if which = 1 then
    [n - 1, 0] ++ forLoop 1 n (fun i (rd : List Int) => rd ++ [i, i - 1]) []
  else if which = 2 then forLoop 1 n (fun i (rd : List Int) => rd ++ [i, i - 1]) []
  else []

/-- The cases `day` of the reads `market_close[..][day]` in the market-selection loop
(lines 756-762, and again lines 800-806) for criterion `which` and the window that starts at
case `start`, followed by those of the return of the market selected at case `at_case`
(line 763, and again line 809). -/
def selection_days (cfg : Config α) (which start at_case : Int) : List Int :=
  forLoop 0 cfg.n_markets
      (fun _ (rd : List Int) =>
        rd ++ (criterion_reads which cfg.IS_n).map (fun k => start + k)) []
    ++ [at_case, at_case - 1]

/-- The cases `day` of the reads `market_close[..][day]` in the loop over the criteria
(lines 754-764). -/
def criteria_pass_days (cfg : Config α) (c : Cursors) : List Int :=
  forLoop 0 n_criteria
    (fun icrit (rd : List Int) => rd ++ selection_days cfg icrit c.IS_start c.OOS1_end) []

/-- The cases `day` of the reads `market_close[..][day]` in one pass through the body of
the main loop, which `loop_body` models. -/
def loop_body_days (sqrt : α → α) (cfg : Config α) (c : Cursors) (m : Store α) : List Int :=
  criteria_pass_days cfg c ++
    if c.OOS1_end ≥ cfg.n_cases - 1 then []
    else if (advance c).OOS1_end - (advance c).OOS1_start < cfg.OOS1_n then []
    else selection_days cfg (best_criterion cfg (advance c) (criteria_pass sqrt cfg c m)).2
      ((advance c).OOS2_end - cfg.IS_n) (advance c).OOS2_end

/-- The mean performance `crit_perf[i]` of criterion `i` (lines 823-827), computed with the
cursors with which the main loop was left. -/
def crit_perf (cfg : Config α) (c : Cursors) (OOS1 : Int → α) (i : Int) : α :=
  25200 * forLoop c.OOS2_start c.OOS2_end
      (fun j (sum : α) => sum + OOS1 (i * cfg.n_cases + j)) 0
    / ((c.OOS2_end - c.OOS2_start : Int) : α)

/-- The mean return `final_perf` of the system (lines 836-840). -/
def final_perf (c : Cursors) (OOS2 : Int → α) : α :=
  25200 * forLoop c.OOS2_start c.OOS2_end (fun i (sum : α) => sum + OOS2 i) 0
    / ((c.OOS2_end - c.OOS2_start : Int) : α)

/-- A store whose indeterminate contents are `7` in the two arrays and zero elsewhere. -/
def sevenStore : Store ℝ :=
  { ibest := 0, ibestcrit := 0, crit_count := fun _ => 0, OOS1 := fun _ => 7,
    OOS2 := fun _ => 7, trace := [] }

/-- What the arrays `OOS1` and `OOS2` hold at the top of the loop body in the run that
started from the indeterminate store `g`: each cell `OOS1[ic*n_cases+d]` of a case `d` from
`IS_n` up to `OOS1_end - 1` holds the return of the market named in a recorded assignment,
and every other cell of `OOS1`, and every cell of `OOS2` outside
`IS_n + OOS1_n .. OOS2_end - 1`, holds what it held at the start. -/
structure Written (cfg : Config α) (g : Store α) (c : Cursors) (m : Store α) : Prop where
  top : TopInv cfg c
  hi : c.OOS1_end ≤ cfg.n_cases - 1
  oos1 : ∀ ic, ic = 0 ∨ ic = 1 ∨ ic = 2 → ∀ d, cfg.IS_n ≤ d → d < c.OOS1_end →
    ∃ b, Event.oos1 ic d b ∈ m.trace ∧
      m.OOS1 (ic * cfg.n_cases + d) = cfg.market_close b d - cfg.market_close b (d - 1)
  oos1_rest : ∀ x,
    (∀ ic, ic = 0 ∨ ic = 1 ∨ ic = 2 → ∀ d, cfg.IS_n ≤ d → d < c.OOS1_end →
      x ≠ ic * cfg.n_cases + d) →
    m.OOS1 x = g.OOS1 x
  oos2_rest : ∀ d, d < cfg.IS_n + cfg.OOS1_n ∨ c.OOS2_end ≤ d → m.OOS2 d = g.OOS2 d


end WalkForward

section Ieee

variable {α : Type} [LinearOrderedField α]

/-- A value of type `double` as the walk-forward pass can meet it: a finite number, one of
the two infinities, or a NaN.  The closing prices are read with `atof`, kept as `float`, and
tested only against the high and the low of the record (lines 516-526), so that `log`
(line 681) delivers `-inf` for a close of `0` and a NaN for a negative close.  The sign of a
zero is not kept, and a finite result is never replaced by an infinity: overflow is not
modelled. -/
inductive Dbl (α : Type) where
  /-- A finite value. -/
  | fin (x : α)
  /-- The value `+inf`. -/
  | pinf
  /-- The value `-inf`. -/
  | ninf
  /-- A NaN. -/
  | nan

/-- The sum `a + b` of two values of type `double`; `fl` rounds the exact result of an
operation on finite values. -/
def Dbl.add (fl : α → α) : Dbl α → Dbl α → Dbl α
  | Dbl.fin x, Dbl.fin y => Dbl.fin (fl (x + y))
  | Dbl.nan, _ => Dbl.nan
  | _, Dbl.nan => Dbl.nan
  | Dbl.pinf, Dbl.ninf => Dbl.nan
  | Dbl.ninf, Dbl.pinf => Dbl.nan
  | Dbl.pinf, _ => Dbl.pinf
  | Dbl.ninf, _ => Dbl.ninf
  | Dbl.fin _, Dbl.pinf => Dbl.pinf
  | Dbl.fin _, Dbl.ninf => Dbl.ninf

/-- The difference `a - b` of two values of type `double`. -/
def Dbl.sub (fl : α → α) : Dbl α → Dbl α → Dbl α
  | Dbl.fin x, Dbl.fin y => Dbl.fin (fl (x - y))
  | Dbl.nan, _ => Dbl.nan
  | _, Dbl.nan => Dbl.nan
  | Dbl.pinf, Dbl.pinf => Dbl.nan
  | Dbl.ninf, Dbl.ninf => Dbl.nan
  | Dbl.pinf, _ => Dbl.pinf
  | Dbl.ninf, _ => Dbl.ninf
  | Dbl.fin _, Dbl.pinf => Dbl.ninf
  | Dbl.fin _, Dbl.ninf => Dbl.pinf

/-- The infinity with the sign of `s`, and a NaN when `s` is zero: the product of `+inf`
and a finite value `s`. -/
def Dbl.signed_inf (s : α) : Dbl α :=
  if 0 < s then Dbl.pinf else if s < 0 then Dbl.ninf else Dbl.nan

/-- The product `a * b` of two values of type `double`. -/
def Dbl.mul (fl : α → α) : Dbl α → Dbl α → Dbl α
  | Dbl.fin x, Dbl.fin y => Dbl.fin (fl (x * y))
  | Dbl.nan, _ => Dbl.nan
  | _, Dbl.nan => Dbl.nan
  | Dbl.pinf, Dbl.fin y => Dbl.signed_inf y
  | Dbl.ninf, Dbl.fin y => Dbl.signed_inf (-y)
  | Dbl.fin x, Dbl.pinf => Dbl.signed_inf x
  | Dbl.fin x, Dbl.ninf => Dbl.signed_inf (-x)
  | Dbl.pinf, Dbl.pinf => Dbl.pinf
  | Dbl.pinf, Dbl.ninf => Dbl.ninf
  | Dbl.ninf, Dbl.pinf => Dbl.ninf
  | Dbl.ninf, Dbl.ninf => Dbl.pinf

/-- The quotient `a / b` of two values of type `double`.  A zero divisor is taken to be
`+0`: the only zero that the modelled code can divide by is `n - 1.0` with `n = 1`. -/
def Dbl.div (fl : α → α) : Dbl α → Dbl α → Dbl α
  | Dbl.fin x, Dbl.fin y => if y = 0 then Dbl.signed_inf x else Dbl.fin (fl (x / y))
  | Dbl.nan, _ => Dbl.nan
  | _, Dbl.nan => Dbl.nan
  | Dbl.fin _, Dbl.pinf => Dbl.fin 0
  | Dbl.fin _, Dbl.ninf => Dbl.fin 0
  | Dbl.pinf, Dbl.fin y => if 0 ≤ y then Dbl.pinf else Dbl.ninf
  | Dbl.ninf, Dbl.fin y => if 0 ≤ y then Dbl.ninf else Dbl.pinf
  | Dbl.pinf, Dbl.pinf => Dbl.nan
  | Dbl.pinf, Dbl.ninf => Dbl.nan
  | Dbl.ninf, Dbl.pinf => Dbl.nan
  | Dbl.ninf, Dbl.ninf => Dbl.nan

/-- The comparison `a > b` of two values of type `double`: false when either is a NaN. -/
def Dbl.gt : Dbl α → Dbl α → Prop
  | Dbl.fin x, Dbl.fin y => y < x
  | Dbl.pinf, Dbl.fin _ => True
  | Dbl.pinf, Dbl.ninf => True
  | Dbl.fin _, Dbl.ninf => True
  | _, _ => False

instance Dbl.gt_decidable (a b : Dbl α) : Decidable (Dbl.gt a b) := by
  cases a <;> cases b <;> unfold Dbl.gt <;> infer_instance

/-- The library function `sqrt` on a value of type `double`; the parameter `sqrt` is its
value on a finite argument that is not negative. -/
def Dbl.sqrt (sqrt : α → α) : Dbl α → Dbl α
  | Dbl.fin x => if x < 0 then Dbl.nan else Dbl.fin (sqrt x)
  | Dbl.pinf => Dbl.pinf
  | Dbl.ninf => Dbl.nan
  | Dbl.nan => Dbl.nan

/-- The constant `-1.e60` of lines 236, 755, 786 and 799. -/
def minus_1e60 (fl : α → α) : Dbl α := Dbl.fin (-(fl (10 ^ 60)))

/-- The constant `1.e-60` of lines 180 and 203. -/
def tiny_1em60 (fl : α → α) : Dbl α := Dbl.fin (fl (1 / 10 ^ 60))

/-- The function `total_return` (lines 159-162) in `double` arithmetic. -/
def total_return_fl (fl : α → α) (n : Int) (prices : Int → Dbl α) : Dbl α :=
  Dbl.sub fl (prices (n - 1)) (prices 0)

/-- The function `sharpe_ratio` (lines 173-187) in `double` arithmetic. -/
def sharpe_ratio_fl (fl sqrt : α → α) (n : Int) (prices : Int → Dbl α) : Dbl α :=
  let mean := Dbl.div fl (Dbl.sub fl (prices (n - 1)) (prices 0)) (Dbl.fin (fl ((n : α) - 1)))
  let var := forLoop 1 n
    (fun i (var : Dbl α) =>
      let diff := Dbl.sub fl (Dbl.sub fl (prices i) (prices (i - 1))) mean
      Dbl.add fl var (Dbl.mul fl diff diff))
    (tiny_1em60 fl)
  Dbl.div fl mean (Dbl.sqrt sqrt (Dbl.div fl var (Dbl.fin (fl (((n - 1 : Int)) : α)))))

/-- The function `profit_factor` (lines 198-214) in `double` arithmetic; the loop state is
`(win_sum, lose_sum)`. -/
def profit_factor_fl (fl : α → α) (n : Int) (prices : Int → Dbl α) : Dbl α :=
  let sums := forLoop 1 n
    (fun i (ws : Dbl α × Dbl α) =>
      let ret := Dbl.sub fl (prices i) (prices (i - 1))
      if Dbl.gt ret (Dbl.fin 0) then (Dbl.add fl ws.1 ret, ws.2)
      else (ws.1, Dbl.sub fl ws.2 ret))
    (tiny_1em60 fl, tiny_1em60 fl)
  Dbl.div fl sums.1 sums.2

/-- The function `criterion` (lines 225-237) in `double` arithmetic. -/
def criterion_fl (fl sqrt : α → α) (which : Int) (n : Int) (prices : Int → Dbl α) : Dbl α :=
  if which = 0 then total_return_fl fl n prices
  else if which = 1 then sharpe_ratio_fl fl sqrt n prices
  else if which = 2 then profit_factor_fl fl n prices
  else minus_1e60 fl

/-- The score of market `imarket` under criterion `which` on the `IS_n` prices that start
at case `start`, as the market-selection loop computes it (lines 757 and 801) in `double`
arithmetic. -/
def market_score_fl (fl sqrt : α → α) (cfg : Config (Dbl α)) (which start : Int)
    (imarket : Int) : Dbl α :=
  criterion_fl fl sqrt which cfg.IS_n (fun i => cfg.market_close imarket (start + i))

/-- The market-selection loop (lines 755-762, and again lines 799-806) in `double`
arithmetic; the loop state is `(best_crit, ibest)`. -/
def best_market_fl (fl sqrt : α → α) (cfg : Config (Dbl α)) (which start : Int)
    (ibest : Int) : Dbl α × Int :=
  forLoop 0 cfg.n_markets
    (fun imarket (b : Dbl α × Int) =>
      let crit := criterion_fl fl sqrt which cfg.IS_n
        (fun i => cfg.market_close imarket (start + i))
      if Dbl.gt crit b.1 then (crit, imarket) else b)
    (minus_1e60 fl, ibest)

/-- The body of the loop over the criteria (lines 755-763) for criterion `icrit`, in
`double` arithmetic. -/
def criteria_body_fl (fl sqrt : α → α) (cfg : Config (Dbl α)) (c : Cursors) (icrit : Int)
    (m : Store (Dbl α)) : Store (Dbl α) :=
  let ibest := (best_market_fl fl sqrt cfg icrit c.IS_start m.ibest).2
  { m with
    ibest := ibest
    OOS1 := Function.update m.OOS1 (icrit * cfg.n_cases + c.OOS1_end)
      (Dbl.sub fl (cfg.market_close ibest c.OOS1_end) (cfg.market_close ibest (c.OOS1_end - 1)))
    trace := m.trace ++ [Event.oos1 icrit c.OOS1_end ibest] }

/-- The loop over the criteria (lines 754-764) in `double` arithmetic. -/
def criteria_pass_fl (fl sqrt : α → α) (cfg : Config (Dbl α)) (c : Cursors)
    (m : Store (Dbl α)) : Store (Dbl α) :=
  forLoop 0 n_criteria (criteria_body_fl fl sqrt cfg c) m

/-- The sum of criterion `icrit` over the current OOS1 window (lines 788-790) in `double`
arithmetic. -/
def oos1_sum_fl (fl : α → α) (cfg : Config (Dbl α)) (c : Cursors) (OOS1 : Int → Dbl α)
    (icrit : Int) : Dbl α :=
  forLoop c.OOS1_start c.OOS1_end
    (fun i crit => Dbl.add fl crit (OOS1 (icrit * cfg.n_cases + i))) (Dbl.fin 0)

/-- The search for the best criterion (lines 786-795) in `double` arithmetic; the loop
state is `(best_crit, ibestcrit)`. -/
def best_criterion_fl (fl : α → α) (cfg : Config (Dbl α)) (c : Cursors) (m : Store (Dbl α)) :
    Dbl α × Int :=
  forLoop 0 n_criteria
    (fun icrit (b : Dbl α × Int) =>
      let crit := oos1_sum_fl fl cfg c m.OOS1 icrit
      if Dbl.gt crit b.1 then (crit, icrit) else b)
    (minus_1e60 fl, m.ibestcrit)

/-- What lines 786-809 do to the store once OOS1 is full, in `double` arithmetic. -/
def steady_store_fl (fl sqrt : α → α) (cfg : Config (Dbl α)) (c : Cursors)
    (m : Store (Dbl α)) : Store (Dbl α) :=
  let ibestcrit := (best_criterion_fl fl cfg c m).2
  let ibest := (best_market_fl fl sqrt cfg ibestcrit (c.OOS2_end - cfg.IS_n) m.ibest).2
  { m with
    ibestcrit := ibestcrit
    crit_count := Function.update m.crit_count ibestcrit (m.crit_count ibestcrit + 1)
    ibest := ibest
    OOS2 := Function.update m.OOS2 c.OOS2_end
      (Dbl.sub fl (cfg.market_close ibest c.OOS2_end) (cfg.market_close ibest (c.OOS2_end - 1)))
    trace := m.trace ++ [Event.oos2 c.OOS2_end ibestcrit ibest] }

/-- One pass through the body of the main loop (lines 748-812) in `double` arithmetic. -/
def loop_body_fl (fl sqrt : α → α) (cfg : Config (Dbl α)) (c : Cursors) (m : Store (Dbl α)) :
    Step (Dbl α) :=
  let m1 := criteria_pass_fl fl sqrt cfg c m
  if c.OOS1_end ≥ cfg.n_cases - 1 then Step.done c m1
  else
    let c2 := advance c
    if c2.OOS1_end - c2.OOS1_start < cfg.OOS1_n then Step.again c2 m1
    else Step.again (finish_advance c2) (steady_store_fl fl sqrt cfg c2 m1)

set_option linter.unusedVariables false in
/-- The main loop (lines 748-812) in `double` arithmetic, from the top of the body with
cursors `c` and store `m` to the state in which it is left. -/
def main_loop_fl (fl sqrt : α → α) (cfg : Config (Dbl α)) (c : Cursors) (m : Store (Dbl α)) :
    Cursors × Store (Dbl α) :=
  match h : loop_body_fl fl sqrt cfg c m with
  | Step.done c1 m1 => (c1, m1)
  | Step.again c1 m1 => main_loop_fl fl sqrt cfg c1 m1
termination_by (cfg.n_cases - c.OOS1_end).toNat
decreasing_by
  simp only [loop_body_fl] at h
  split at h
  · cases h
  · split at h
    · cases h
      simp only [advance]
      omega
    · cases h
      simp only [advance, finish_advance]
      omega

/-- The walk-forward pass of `main` (lines 735-812) in `double` arithmetic. -/
def walk_forward_fl (fl sqrt : α → α) (cfg : Config (Dbl α)) (garbage : Store (Dbl α)) :
    Cursors × Store (Dbl α) :=
  main_loop_fl fl sqrt cfg (init_cursors cfg) (init_store garbage)

/-- What holds at the top of the loop body in a run in `double` arithmetic in which market
`A` has been selected at every decision so far. -/
structure AllA_fl (fl : α → α) (cfg : Config (Dbl α)) (A : Int) (c : Cursors)
    (m : Store (Dbl α)) : Prop where
  top : TopInv cfg c
  hi : c.OOS1_end ≤ cfg.n_cases - 1
  markets : ∀ e, e ∈ m.trace → e.market = A
  count1 : ∀ ic, ic = 0 ∨ ic = 1 ∨ ic = 2 → oos1_days ic m.trace = intRange cfg.IS_n c.OOS1_end
  count2 : oos2_days m.trace = intRange (cfg.IS_n + cfg.OOS1_n) c.OOS2_end
  oos1 : ∀ ic, ic = 0 ∨ ic = 1 ∨ ic = 2 → ∀ d, cfg.IS_n ≤ d → d < c.OOS1_end →
    m.OOS1 (ic * cfg.n_cases + d)
      = Dbl.sub fl (cfg.market_close A d) (cfg.market_close A (d - 1))
  oos2 : ∀ d, cfg.IS_n + cfg.OOS1_n ≤ d → d < c.OOS2_end →
    m.OOS2 d = Dbl.sub fl (cfg.market_close A d) (cfg.market_close A (d - 1))

/-- A matrix of two markets and four cases, with `IS_n = 2` and `OOS1_n = 1`, in which the
log price of market `1` rises by `1` and that of market `0` falls by `1` from each case to
the next. -/
def upAndDown : Config (Dbl ℝ) :=
  { n_markets := 2, n_cases := 4, IS_n := 2, OOS1_n := 1,
    market_close := fun m d => if m = 1 then Dbl.fin (d : ℝ) else Dbl.fin (-(d : ℝ)) }

/-- The matrix that lines 679-682 build from two market files that give, on four common
dates, the closes `1`, `1`, `0`, `1` (with `IS_n = 2` and `OOS1_n = 1`): `log 1 = 0` and
`log 0 = -inf`. -/
def zeroClose : Config (Dbl ℝ) :=
  { n_markets := 2, n_cases := 4, IS_n := 2, OOS1_n := 1,
    market_close := fun _ d => if d = 2 then Dbl.ninf else Dbl.fin 0 }

/-- The matrix that lines 679-682 build from two market files that give, on four common
dates, the closes `1`, `0`, `1`, `1` (with `IS_n = 2` and `OOS1_n = 1`).  The cells
`market_close[m][d]` with `m` outside `0 .. n_markets-1` are not part of the matrix: they
stand for what the memory holds there, here `1` for `d = 2` and `0` otherwise. -/
def earlyZeroClose : Config (Dbl ℝ) :=
  { n_markets := 2, n_cases := 4, IS_n := 2, OOS1_n := 1,
    market_close := fun m d =>
      if m = 0 ∨ m = 1 then (if d = 1 then Dbl.ninf else Dbl.fin 0)
      else (if d = 2 then Dbl.fin 1 else Dbl.fin 0) }

/-- A store of values of type `double` whose indeterminate contents are zero, except that
the variables `ibest` and `ibestcrit`, which are not initialised, hold `7` and `5`. -/
def staleDbl : Store (Dbl ℝ) :=
  { ibest := 7, ibestcrit := 5, crit_count := fun _ => 0, OOS1 := fun _ => Dbl.fin 0,
    OOS2 := fun _ => Dbl.fin 0, trace := [] }

end Ieee

section Alignment

variable {α : Type}

/-- The arrays and variables of `main` that the date alignment of lines 585-634 assigns:
`market_date[i][k]` and `market_close[i][k]` are the date and the close of record `k` of
market `i`. -/
structure AlignState (α : Type) where
  market_index : Int → Int
  grand_index : Int
  market_date : Int → Int → Int
  market_close : Int → Int → α
  date : Int

/-- The search for the latest current date (lines 593-598); the loop state is
`(max_date, date)`. -/
def scan_max_date (n_markets : Int) (s : AlignState α) : Int × Int :=
  forLoop 0 n_markets
    (fun i (md : Int × Int) =>
      let date := s.market_date i (s.market_index i)
      if date > md.1 then (date, date) else (md.1, date))
    (0, s.date)

/-- The `while` loop of lines 605-610 for one market, whose dates are `dates` and whose
number of records is `n`, from the index `idx`; the result is `(market_index[i], date)`. -/
def skip_to (dates : Int → Int) (n max_date : Int) (idx date : Int) : Int × Int :=
  if idx < n then
    if dates idx ≥ max_date then (idx, dates idx)
    else skip_to dates n max_date (idx + 1) (dates idx)
  else (idx, date)
termination_by (n - idx).toNat
decreasing_by omega

/-- The variables with which the loop of lines 604-616 is left. -/
structure Advanced where
  i : Int
  market_index : Int → Int
  date : Int
  all_same_date : Int

/-- The loop of lines 604-616 from market `i` on: each market is advanced to the first
record dated `max_date` or later; the loop is left at the first market that runs out of
records. -/
def advance_markets (n_markets : Int) (market_n : Int → Int) (market_date : Int → Int → Int)
    (max_date : Int) (i : Int) (market_index : Int → Int) (date all_same_date : Int) :
    Advanced :=
  if i < n_markets then
    let r := skip_to (market_date i) (market_n i) max_date (market_index i) date
    let index1 := Function.update market_index i r.1
    let same1 := if r.2 ≠ max_date then 0 else all_same_date
    if r.1 ≥ market_n i then
      { i := i, market_index := index1, date := r.2, all_same_date := same1 }
    else advance_markets n_markets market_n market_date max_date (i + 1) index1 r.2 same1
  else { i := i, market_index := market_index, date := date, all_same_date := all_same_date }
termination_by (n_markets - i).toNat
decreasing_by omega

/-- The body of the loop of lines 624-629 for market `i`; the loop state is
`(market_date, market_close, market_index)`.  The first assignment is the one that the
argument of `assert` makes. -/
def grab_body (max_date grand_index : Int) (i : Int)
    (st : (Int → Int → Int) × (Int → Int → α) × (Int → Int)) :
    (Int → Int → Int) × (Int → Int → α) × (Int → Int) :=
  let date1 := Function.update st.1 i (Function.update (st.1 i) (st.2.2 i) max_date)
  let date2 := Function.update date1 i (Function.update (date1 i) grand_index max_date)
  let close2 := Function.update st.2.1 i
    (Function.update (st.2.1 i) grand_index (st.2.1 i (st.2.2 i)))
  (date2, close2, Function.update st.2.2 i (st.2.2 i + 1))

/-- How one pass through the body of the alignment loop ends. -/
inductive AlignStep (α : Type) where
  /-- One of the `break` statements of lines 615 and 619. -/
  | done (s : AlignState α)
  /-- The end of the body at line 632. -/
  | again (s : AlignState α)
  /-- The assertion of line 625 fails. -/
  | assert_failed

/-- One pass through the body of the alignment loop (lines 589-632).  The assertion of
line 625 assigns `max_date` and tests the value assigned, which is the same for every
market: it fails in the first pass of the loop of line 624 or in none. -/
def align_pass (n_markets : Int) (market_n : Int → Int) (s : AlignState α) : AlignStep α :=
  let scan := scan_max_date n_markets s
  let max_date := scan.1
  let adv := advance_markets n_markets market_n s.market_date max_date 0 s.market_index scan.2 1
  if adv.i < n_markets then
    AlignStep.done { s with market_index := adv.market_index, date := adv.date }
  else if adv.all_same_date ≠ 0 then
    if 0 < n_markets ∧ max_date = 0 then AlignStep.assert_failed
    else
      let grabbed := forLoop 0 n_markets (grab_body max_date s.grand_index)
        (s.market_date, s.market_close, adv.market_index)
      AlignStep.again
        { market_index := grabbed.2.2
          grand_index := s.grand_index + 1
          market_date := grabbed.1
          market_close := grabbed.2.1
          date := adv.date }
  else AlignStep.again { s with market_index := adv.market_index, date := adv.date }

/-- How the alignment loop ends. -/
inductive AlignEnd (α : Type) where
  /-- The loop was left by `break`, in this state. -/
  | finished (s : AlignState α)
  /-- The assertion of line 625 failed. -/
  | assert_failed

/-- The alignment loop (lines 589-632), run for at most `fuel` passes: `none` when the loop
has not ended by then. -/
def align_loop (n_markets : Int) (market_n : Int → Int) : Nat → AlignState α →
    Option (AlignEnd α)
  | 0, _ => none
  | fuel + 1, s =>
    match align_pass n_markets market_n s with
    | AlignStep.done s1 => some (AlignEnd.finished s1)
    | AlignStep.assert_failed => some AlignEnd.assert_failed
    | AlignStep.again s1 => align_loop n_markets market_n fuel s1

/-- The state in which the alignment loop is entered (lines 585-587): the records as read,
the indices zeroed; `garbage` holds the indeterminate contents of `market_index` and of
`date`. -/
def align_init (n_markets : Int) (dates : Int → Int → Int) (closes : Int → Int → α)
    (garbage : AlignState α) : AlignState α :=
  { market_index := forLoop 0 n_markets (fun i mi => Function.update mi i 0)
      garbage.market_index
    grand_index := 0
    market_date := dates
    market_close := closes
    date := garbage.date }

/-- The date `d` is present in the history of every market. -/
def IsCommon (n_markets : Int) (market_n : Int → Int) (dates : Int → Int → Int) (d : Int) :
    Prop :=
  ∀ i, 0 ≤ i → i < n_markets → ∃ k, 0 ≤ k ∧ k < market_n i ∧ dates i k = d

/-- What the reader of the market files (lines 421-471) guarantees of the histories it
stores: at least one market, at least one record in each, and each date later than the one
before it, the first later than the initial `prior_date = 0`. -/
structure Histories (n_markets : Int) (market_n : Int → Int) (dates : Int → Int → Int) :
    Prop where
  markets : 1 ≤ n_markets
  records : ∀ i, 0 ≤ i → i < n_markets → 1 ≤ market_n i
  first : ∀ i, 0 ≤ i → i < n_markets → 0 < dates i 0
  increasing : ∀ i k, 0 ≤ i → i < n_markets → 0 ≤ k → k + 1 < market_n i →
    dates i k < dates i (k + 1)

/-- What holds at the top of the body of the alignment loop, for the histories `dates`,
`closes` as they were read. -/
structure AlignInv (n_markets : Int) (market_n : Int → Int) (dates : Int → Int → Int)
    (closes : Int → Int → α) (s : AlignState α) : Prop where
  grand_nonneg : 0 ≤ s.grand_index
  index_lo : ∀ i, 0 ≤ i → i < n_markets → s.grand_index ≤ s.market_index i
  index_hi : ∀ i, 0 ≤ i → i < n_markets → s.market_index i ≤ market_n i
  unread : ∀ i, 0 ≤ i → i < n_markets → ∀ k, s.market_index i ≤ k →
    s.market_date i k = dates i k ∧ s.market_close i k = closes i k
  kept : ∀ g, 0 ≤ g → g < s.grand_index → ∀ i, 0 ≤ i → i < n_markets →
    ∃ k, 0 ≤ k ∧ k < s.market_index i ∧ dates i k = s.market_date 0 g ∧
      s.market_date i g = s.market_date 0 g ∧ s.market_close i g = closes i k
  sorted : ∀ g g', 0 ≤ g → g < g' → g' < s.grand_index →
    s.market_date 0 g < s.market_date 0 g'
  complete : ∀ d, IsCommon n_markets market_n dates d →
    (∃ g, 0 ≤ g ∧ g < s.grand_index ∧ s.market_date 0 g = d) ∨
    (∀ i, 0 ≤ i → i < n_markets →
      ∃ k, s.market_index i ≤ k ∧ k < market_n i ∧ dates i k = d)

/-- What the alignment has to deliver: the retained rows `0 .. grand_index - 1` hold exactly
the common dates in increasing order, each with the close that each market recorded on that
date. -/
structure Aligned (n_markets : Int) (market_n : Int → Int) (dates : Int → Int → Int)
    (closes : Int → Int → α) (s : AlignState α) : Prop where
  grand_nonneg : 0 ≤ s.grand_index
  kept : ∀ g, 0 ≤ g → g < s.grand_index → ∀ i, 0 ≤ i → i < n_markets →
    ∃ k, 0 ≤ k ∧ k < market_n i ∧ dates i k = s.market_date 0 g ∧
      s.market_date i g = s.market_date 0 g ∧ s.market_close i g = closes i k
  sorted : ∀ g g', 0 ≤ g → g < g' → g' < s.grand_index →
    s.market_date 0 g < s.market_date 0 g'
  complete : ∀ d, IsCommon n_markets market_n dates d →
    ∃ g, 0 ≤ g ∧ g < s.grand_index ∧ s.market_date 0 g = d

/-- The number of records not yet passed, over all markets. -/
def records_left (n_markets : Int) (market_n : Int → Int) (s : AlignState α) : Int :=
  ∑ i in Finset.Ico 0 n_markets, (market_n i - s.market_index i)


/-- Two small histories: market 0 has the dates 1, 3, 5 and market 1 the dates 1, 2, 3, 4, 5. -/
def twoHistories_n (i : Int) : Int := if i = 0 then 3 else 5

def twoHistories_dates (i k : Int) : Int := if i = 0 then 2 * k + 1 else k + 1

def twoHistories_closes (i k : Int) : Int := 100 * i + k

def twoHistories_garbage : AlignState Int :=
  { market_index := fun _ => 7, grand_index := 7, market_date := fun _ _ => 7,
    market_close := fun _ _ => 7, date := 7 }

/-- The reads `market_date[i][market_index[i]]` of the search for the latest current date
(line 596), in order, each as the pair `(i, market_index[i])`.  This and the next three
definitions are ghosts of the model: they list the cells that the loop reads. -/
def scan_reads (n_markets : Int) (s : AlignState α) : List (Int × Int) :=
  forLoop 0 n_markets (fun i (rd : List (Int × Int)) => rd ++ [(i, s.market_index i)]) []

/-- The reads `market_date[i][market_index[i]]` of line 606 in the `while` loop of market
`i`, which `skip_to` models, from the index `idx`. -/
def skip_reads (i : Int) (dates : Int → Int) (n max_date : Int) (idx : Int) :
    List (Int × Int) :=
  if idx < n then
    if dates idx ≥ max_date then [(i, idx)]
    else (i, idx) :: skip_reads i dates n max_date (idx + 1)
  else []
termination_by (n - idx).toNat
decreasing_by omega

/-- The reads of line 606 in the loop of lines 604-616, which `advance_markets` models, from
market `i` on. -/
def advance_reads (n_markets : Int) (market_n : Int → Int) (market_date : Int → Int → Int)
    (max_date : Int) (i : Int) (market_index : Int → Int) (date : Int) : List (Int × Int) :=
  if i < n_markets then
    let r := skip_to (market_date i) (market_n i) max_date (market_index i) date
    let reads := skip_reads i (market_date i) (market_n i) max_date (market_index i)
    if r.1 ≥ market_n i then reads
    else reads ++ advance_reads n_markets market_n market_date max_date (i + 1)
      (Function.update market_index i r.1) r.2
  else []
termination_by (n_markets - i).toNat
decreasing_by omega

/-- The reads of `market_date` at `market_index` in one pass through the body of the
alignment loop: those of line 596, then those of line 606. -/
def pass_reads (n_markets : Int) (market_n : Int → Int) (s : AlignState α) :
    List (Int × Int) :=
  scan_reads n_markets s ++
    advance_reads n_markets market_n s.market_date (scan_max_date n_markets s).1 0
      s.market_index (scan_max_date n_markets s).2

/-- The reads of `market_date` at `market_index` in the first `fuel` passes of the alignment
loop, in order. -/
def align_reads (n_markets : Int) (market_n : Int → Int) : Nat → AlignState α →
    List (Int × Int)
  | 0, _ => []
  | fuel + 1, s =>
    pass_reads n_markets market_n s ++
      match align_pass n_markets market_n s with
      | AlignStep.again s1 => align_reads n_markets market_n fuel s1
      | AlignStep.done _ => []
      | AlignStep.assert_failed => []

/-- Two markets with one record each, of the same day. -/
def sameDay_n (_i : Int) : Int := 1

/-- The dates of `sameDay_n`: the record of each market is of 2 January 2020; the cells
after it hold `0`. -/
def sameDay_dates (_i k : Int) : Int := if k = 0 then 20200102 else 0

/-- The closes of `sameDay_n`. -/
def sameDay_closes (i _k : Int) : Int := 100 + i


end Alignment


/-! ## Lemmas on `forLoop` -/

theorem forLoop_empty {σ : Type} (lo hi : Int) (body : Int → σ → σ) (s : σ) (h : hi ≤ lo) :
    forLoop lo hi body s = s := by
  have h0 : (hi - lo).toNat = 0 := by omega
  simp [forLoop, h0]

theorem forLoop_succ {σ : Type} (lo hi : Int) (body : Int → σ → σ) (s : σ) (h : lo ≤ hi) :
    forLoop lo (hi + 1) body s = body hi (forLoop lo hi body s) := by
  have h1 : (hi + 1 - lo).toNat = (hi - lo).toNat + 1 := by omega
  have h2 : lo + ((hi - lo).toNat : Int) = hi := by omega
  simp only [forLoop, h1, List.range_succ, List.foldl_append, List.foldl_cons, List.foldl_nil, h2]

theorem forLoop_invariant {σ : Type} (lo hi : Int) (body : Int → σ → σ) (s : σ)
    (P : Int → σ → Prop) (hle : lo ≤ hi) (h0 : P lo s)
    (hstep : ∀ i st, lo ≤ i → i < hi → P i st → P (i + 1) (body i st)) :
    P hi (forLoop lo hi body s) := by
  have key : ∀ k, lo ≤ k → k ≤ hi → P k (forLoop lo k body s) := by
    intro k hk
    refine Int.le_induction (P := fun k => k ≤ hi → P k (forLoop lo k body s)) ?_ ?_ k hk
    · intro _
      rw [forLoop_empty _ _ _ _ (le_refl _)]
      exact h0
    · intro k hk ih hk1
      rw [forLoop_succ _ _ _ _ hk]
      exact hstep k _ hk (by omega) (ih (by omega))
  exact key hi hle (le_refl _)

theorem forLoop_congr {σ : Type} (lo hi : Int) (f g : Int → σ → σ) (s : σ)
    (h : ∀ i, lo ≤ i → i < hi → ∀ st, f i st = g i st) :
    forLoop lo hi f s = forLoop lo hi g s := by
  rcases le_or_lt hi lo with hle | hlt
  · rw [forLoop_empty _ _ _ _ hle, forLoop_empty _ _ _ _ hle]
  · exact forLoop_invariant lo hi f s (fun k st => st = forLoop lo k g s) (le_of_lt hlt)
      (forLoop_empty _ _ _ _ (le_refl _)).symm
      (fun i st hi1 hi2 hst => by
        show f i st = forLoop lo (i + 1) g s
        have hst1 : st = forLoop lo i g s := hst
        rw [forLoop_succ _ _ _ _ hi1, ← hst1]
        exact h i hi1 hi2 st)

theorem forLoop_zero_three {σ : Type} (body : Int → σ → σ) (s : σ) :
    forLoop 0 3 body s = body 2 (body 1 (body 0 s)) := by
  have h3 : ((3 : Int) - 0).toNat = 3 := by decide
  simp only [forLoop, h3, List.range_succ, List.range_zero, List.nil_append, List.cons_append,
    List.foldl_cons, List.foldl_nil]
  rfl

/-! ## Drawdown -/

section DrawdownThms

variable {α : Type} [LinearOrderedField α]

theorem cumLogEquity_succ (trades : Int → α) (k : Nat) :
    cumLogEquity trades (k + 1) = cumLogEquity trades k + trades ((k : Int) + 1) := by
  unfold cumLogEquity
  rw [Finset.sum_range_succ]
  push_cast
  rfl

theorem ddInv_init (trades : Int → α) :
    DDInv trades 0 { cumulative := trades 0, max_price := trades 0, dd := 0 } := by
  have h0 : cumLogEquity trades 0 = trades 0 := by simp [cumLogEquity]
  refine ⟨h0.symm, ?_, ⟨0, le_refl _, h0⟩, ?_, ⟨0, 0, le_refl _, le_refl _, by simp⟩⟩
  · intro i hi
    have : i = 0 := by omega
    subst this
    exact le_of_eq h0
  · intro i j hij hj
    have hj0 : j = 0 := by omega
    have hi0 : i = 0 := by omega
    subst hj0; subst hi0
    simp

theorem ddInv_step (trades : Int → α) (m : Nat) (s : DDState α) (h : DDInv trades m s) :
    DDInv trades (m + 1) (drawdown_body trades ((m : Int) + 1) s) := by
  obtain ⟨hc, hub, ⟨im, him, hima⟩, hdub, ⟨di, dj, hdij, hdj, hdd⟩⟩ := h
  have hS := cumLogEquity_succ trades m
  have hdd0 : 0 ≤ s.dd := by
    have := hdub 0 0 (le_refl _) (Nat.zero_le _)
    simpa using this
  unfold drawdown_body
  simp only [hc, ← hS]
  by_cases h1 : cumLogEquity trades (m + 1) > s.max_price
  · rw [if_pos h1]
    refine ⟨rfl, ?_, ⟨m + 1, le_refl _, rfl⟩, ?_, ⟨di, dj, hdij, by omega, hdd⟩⟩
    · intro i hi
      rcases Nat.lt_or_ge i (m + 1) with hlt | hge
      · exact le_trans (hub i (by omega)) (le_of_lt h1)
      · have : i = m + 1 := by omega
        subst this
        exact le_refl _
    · intro i j hij hj
      rcases Nat.lt_or_ge j (m + 1) with hlt | hge
      · exact hdub i j hij (by omega)
      · have hj1 : j = m + 1 := by omega
        subst hj1
        rcases Nat.lt_or_ge i (m + 1) with hlt | hge
        · have := hub i (by omega)
          show cumLogEquity trades i - cumLogEquity trades (m + 1) ≤ s.dd
          linarith
        · have hi1 : i = m + 1 := by omega
          subst hi1
          simpa using hdd0
  · rw [if_neg h1]
    have h1le : cumLogEquity trades (m + 1) ≤ s.max_price := not_lt.mp h1
    have hmaxub : ∀ i, i ≤ m + 1 → cumLogEquity trades i ≤ s.max_price := by
      intro i hi
      rcases Nat.lt_or_ge i (m + 1) with hlt | hge
      · exact hub i (by omega)
      · have : i = m + 1 := by omega
        subst this
        exact h1le
    by_cases h2 : s.max_price - cumLogEquity trades (m + 1) > s.dd
    · simp only [if_pos h2]
      refine ⟨rfl, hmaxub, ⟨im, by omega, hima⟩, ?_, ⟨im, m + 1, by omega, le_refl _, ?_⟩⟩
      · intro i j hij hj
        show cumLogEquity trades i - cumLogEquity trades j
          ≤ s.max_price - cumLogEquity trades (m + 1)
        rcases Nat.lt_or_ge j (m + 1) with hlt | hge
        · exact le_trans (hdub i j hij (by omega)) (le_of_lt h2)
        · have hj1 : j = m + 1 := by omega
          subst hj1
          have := hmaxub i hij
          linarith
      · show s.max_price - cumLogEquity trades (m + 1)
          = cumLogEquity trades im - cumLogEquity trades (m + 1)
        rw [hima]
    · simp only [if_neg h2]
      have h2le : s.max_price - cumLogEquity trades (m + 1) ≤ s.dd := not_lt.mp h2
      refine ⟨rfl, hmaxub, ⟨im, by omega, hima⟩, ?_, ⟨di, dj, hdij, by omega, hdd⟩⟩
      intro i j hij hj
      show cumLogEquity trades i - cumLogEquity trades j ≤ s.dd
      rcases Nat.lt_or_ge j (m + 1) with hlt | hge
      · exact hdub i j hij (by omega)
      · have hj1 : j = m + 1 := by omega
        subst hj1
        have := hmaxub i hij
        linarith

theorem ddInv_loop (trades : Int → α) (m : Nat) :
    DDInv trades m (drawdown_loop ((m : Int) + 1) trades) := by
  induction m with
  | zero =>
    have : drawdown_loop (((0 : Nat) : Int) + 1) trades
        = { cumulative := trades 0, max_price := trades 0, dd := 0 } := by
      unfold drawdown_loop
      exact forLoop_empty _ _ _ _ (by simp)
    rw [this]
    exact ddInv_init trades
  | succ k ih =>
    have : drawdown_loop (((k + 1 : Nat) : Int) + 1) trades
        = drawdown_body trades ((k : Int) + 1) (drawdown_loop ((k : Int) + 1) trades) := by
      unfold drawdown_loop
      push_cast
      exact forLoop_succ _ _ _ _ (by omega)
    rw [this]
    exact ddInv_step trades k _ ih

/-- C1: for `n ≥ 1`, over the reals, `drawdown n trades` is `100 * (1 - exp (-D))` where `D`
is the greatest of the differences `S_i - S_j` over all index pairs `0 ≤ i ≤ j < n` of the
cumulative log-equity `S_k = trades[0] + ... + trades[k]`. -/
theorem drawdown_eq_max_peak_to_trough (n : Int) (trades : Int → ℝ) (hn : 1 ≤ n) :
    ∃ D : ℝ,
      IsGreatest {d : ℝ | ∃ i j : Nat, i ≤ j ∧ (j : Int) < n ∧
        d = cumLogEquity trades i - cumLogEquity trades j} D ∧
      drawdown_dd n trades = D ∧
      drawdown Real.exp n trades = 100 * (1 - Real.exp (-D)) := by
  obtain ⟨m, hm⟩ : ∃ m : Nat, n = (m : Int) + 1 := ⟨(n - 1).toNat, by omega⟩
  subst hm
  have inv := ddInv_loop trades m
  refine ⟨drawdown_dd ((m : Int) + 1) trades, ⟨?_, ?_⟩, rfl, rfl⟩
  · obtain ⟨i, j, hij, hj, hd⟩ := inv.dd_at
    exact ⟨i, j, hij, by omega, hd⟩
  · rintro d ⟨i, j, hij, hj, rfl⟩
    exact inv.dd_ub i j hij (by omega)

/-- C1 at the four-element series `[0, -1, -2, -3]`. -/
theorem drawdown_eq_max_peak_to_trough_witness :
    (1 : Int) ≤ 4 ∧
    ∃ D : ℝ,
      IsGreatest {d : ℝ | ∃ i j : Nat, i ≤ j ∧ (j : Int) < 4 ∧
        d = cumLogEquity linearDecline i - cumLogEquity linearDecline j} D ∧
      drawdown_dd 4 linearDecline = D ∧
      drawdown Real.exp 4 linearDecline = 100 * (1 - Real.exp (-D)) :=
  ⟨by decide, drawdown_eq_max_peak_to_trough 4 linearDecline (by decide)⟩

theorem drawdown_dd_linearDecline : drawdown_dd 4 (linearDecline : Int → α) = 6 := by
  have h3 : ((4 : Int) - 1).toNat = 3 := by decide
  simp only [drawdown_dd, drawdown_loop, forLoop, h3, List.range_succ, List.range_zero,
    List.nil_append, List.cons_append, List.foldl_cons, List.foldl_nil, drawdown_body,
    linearDecline]
  norm_num

theorem drawdown_dd_unitLosses : drawdown_dd 4 (unitLosses : Int → α) = 3 := by
  have h3 : ((4 : Int) - 1).toNat = 3 := by decide
  simp only [drawdown_dd, drawdown_loop, forLoop, h3, List.range_succ, List.range_zero,
    List.nil_append, List.cons_append, List.foldl_cons, List.foldl_nil, drawdown_body,
    unitLosses]
  norm_num

theorem exp_neg_three_bounds : (0.04978 : ℝ) < Real.exp (-3) ∧ Real.exp (-3) < 0.04979 := by
  have h1 := Real.exp_one_gt_d9
  have h2 := Real.exp_one_lt_d9
  have h3 : Real.exp 3 = Real.exp 1 ^ 3 := by
    rw [← Real.exp_nat_mul]
    norm_num
  have hpos : (0 : ℝ) < Real.exp 1 := Real.exp_pos 1
  have hlo : (2.7182818283 : ℝ) ^ 3 < Real.exp 1 ^ 3 :=
    pow_lt_pow_left₀ h1 (by norm_num) (by norm_num)
  have hhi : Real.exp 1 ^ 3 < (2.7182818286 : ℝ) ^ 3 :=
    pow_lt_pow_left₀ h2 (le_of_lt hpos) (by norm_num)
  have h3pos : (0 : ℝ) < Real.exp 3 := Real.exp_pos 3
  rw [Real.exp_neg, h3]
  rw [h3] at h3pos
  constructor
  · rw [lt_inv_comm₀ (by norm_num) h3pos]
    refine lt_trans hhi ?_
    norm_num
  · rw [inv_lt_comm₀ h3pos (by norm_num)]
    refine lt_trans ?_ hlo
    norm_num

/-- C10 as stated fails: on the array `[0, -1, -2, -3]` the running sum of `drawdown` is
`0, -1, -3, -6`, so the raw loss `dd` is `6`, not `3`, and the value returned is
`100 * (1 - exp (-6))`, not `100 * (1 - exp (-3))`. -/
theorem drawdown_linearDecline_not_three :
    drawdown_dd 4 (linearDecline : Int → ℝ) = 6 ∧
    drawdown Real.exp 4 linearDecline = 100 * (1 - Real.exp (-6)) ∧
    ¬ (drawdown_dd 4 (linearDecline : Int → ℝ) = 3 ∧
        drawdown Real.exp 4 linearDecline = 100 * (1 - Real.exp (-3))) := by
  have hdd : drawdown_dd 4 (linearDecline : Int → ℝ) = 6 := drawdown_dd_linearDecline
  refine ⟨hdd, by unfold drawdown; rw [hdd], ?_⟩
  rintro ⟨h3, -⟩
  rw [hdd] at h3
  norm_num at h3

/-- C10, amended: on the log equity changes `[0, -1, -1, -1]`, whose cumulative path is the
linear decline `0, -1, -2, -3`, the raw loss `dd` of `drawdown` is `3` and the value
returned is `100 * (1 - exp (-3))`, within `0.001` of `95.021`. -/
theorem drawdown_unitLosses :
    drawdown_dd 4 (unitLosses : Int → ℝ) = 3 ∧
    drawdown Real.exp 4 unitLosses = 100 * (1 - Real.exp (-3)) ∧
    |drawdown Real.exp 4 unitLosses - 95.021| < 0.001 := by
  have hdd : drawdown_dd 4 (unitLosses : Int → ℝ) = 3 := drawdown_dd_unitLosses
  have hv : drawdown Real.exp 4 unitLosses = 100 * (1 - Real.exp (-3)) := by
    unfold drawdown
    rw [hdd]
  refine ⟨hdd, hv, ?_⟩
  rw [hv, abs_lt]
  obtain ⟨hlo, hhi⟩ := exp_neg_three_bounds
  constructor <;> linarith

end DrawdownThms

/-! ## Quantile indices -/

section QuantileThms

variable {α : Type} [LinearOrderedField α] [FloorRing α]

theorem truncToInt_of_nonneg (x : α) (h : 0 ≤ x) : truncToInt x = ⌊x⌋ := by
  simp [truncToInt, h]

/-- The clamped index `max (trunc (p * (n + 1)) - 1) 0` lies in `[0, n)` when `n ≥ 1` and
`0 ≤ p < 1`. -/
theorem clamped_index_range (n : Int) (p : α) (hn : 1 ≤ n) (h0 : 0 ≤ p) (h1 : p < 1) :
    0 ≤ max (truncToInt (p * ((n + 1 : Int) : α)) - 1) 0 ∧
      max (truncToInt (p * ((n + 1 : Int) : α)) - 1) 0 < n := by
  have hpos : (0 : α) < ((n + 1 : Int) : α) := by exact_mod_cast (by omega : (0 : Int) < n + 1)
  have hx0 : 0 ≤ p * ((n + 1 : Int) : α) := mul_nonneg h0 (le_of_lt hpos)
  have hx1 : p * ((n + 1 : Int) : α) < ((n + 1 : Int) : α) := by
    have := mul_lt_mul_of_pos_right h1 hpos
    simpa using this
  rw [truncToInt_of_nonneg _ hx0]
  have hfl : ⌊p * ((n + 1 : Int) : α)⌋ < n + 1 := Int.floor_lt.mpr hx1
  refine ⟨le_max_right _ _, ?_⟩
  rw [max_lt_iff]
  constructor <;> omega

theorem find_quantile_k_eq_max (n : Int) (frac : α) :
    find_quantile_k n frac = max (truncToInt (frac * ((n + 1 : Int) : α)) - 1) 0 := by
  unfold find_quantile_k
  simp only
  split_ifs with h
  · rw [max_eq_right (le_of_lt h)]
  · rw [max_eq_left (not_lt.mp h)]

theorem drawdown_quantiles_k_eq_max (level : α) (nboot : Int) :
    drawdown_quantiles_k level nboot
      = max (truncToInt (level * ((nboot + 1 : Int) : α)) - 1) 0 := by
  unfold drawdown_quantiles_k
  simp only
  split_ifs with h
  · rw [max_eq_right (le_of_lt h)]
  · rw [max_eq_left (not_lt.mp h)]

/-- C9: for `n ≥ 1` and `0 ≤ frac < 1` the index `k = max (trunc (frac * (n + 1)) - 1) 0` at
which `find_quantile` reads satisfies `0 ≤ k < n`, and for `nboot ≥ 1` the four indices at
which `drawdown_quantiles` reads (levels 0.999, 0.99, 0.95, 0.90) satisfy `0 ≤ k < nboot`. -/
theorem quantile_indices_in_range (n nboot : Int) (frac : α) (hn : 1 ≤ n) (h0 : 0 ≤ frac)
    (h1 : frac < 1) (hb : 1 ≤ nboot) :
    (find_quantile_k n frac = max (truncToInt (frac * ((n + 1 : Int) : α)) - 1) 0 ∧
      0 ≤ find_quantile_k n frac ∧ find_quantile_k n frac < n) ∧
    (0 ≤ k_q001 (α := α) nboot ∧ k_q001 (α := α) nboot < nboot) ∧
    (0 ≤ k_q01 (α := α) nboot ∧ k_q01 (α := α) nboot < nboot) ∧
    (0 ≤ k_q05 (α := α) nboot ∧ k_q05 (α := α) nboot < nboot) ∧
    (0 ≤ k_q10 (α := α) nboot ∧ k_q10 (α := α) nboot < nboot) := by
  refine ⟨⟨find_quantile_k_eq_max n frac, ?_⟩, ?_, ?_, ?_, ?_⟩
  · rw [find_quantile_k_eq_max]
    exact clamped_index_range n frac hn h0 h1
  · unfold k_q001
    rw [drawdown_quantiles_k_eq_max]
    exact clamped_index_range nboot _ hb (by norm_num) (by norm_num)
  · unfold k_q01
    rw [drawdown_quantiles_k_eq_max]
    exact clamped_index_range nboot _ hb (by norm_num) (by norm_num)
  · unfold k_q05
    rw [drawdown_quantiles_k_eq_max]
    exact clamped_index_range nboot _ hb (by norm_num) (by norm_num)
  · unfold k_q10
    rw [drawdown_quantiles_k_eq_max]
    exact clamped_index_range nboot _ hb (by norm_num) (by norm_num)

/-- C9 at the smallest sizes `n = 1`, `nboot = 1`, with `frac = 95/100`, over the
rationals. -/
theorem quantile_indices_in_range_witness :
    (find_quantile_k 1 (95 / 100 : ℚ) = max (truncToInt ((95 / 100 : ℚ) * ((1 + 1 : Int) : ℚ)) - 1) 0 ∧
      0 ≤ find_quantile_k 1 (95 / 100 : ℚ) ∧ find_quantile_k 1 (95 / 100 : ℚ) < 1) ∧
    (0 ≤ k_q001 (α := ℚ) 1 ∧ k_q001 (α := ℚ) 1 < 1) ∧
    (0 ≤ k_q01 (α := ℚ) 1 ∧ k_q01 (α := ℚ) 1 < 1) ∧
    (0 ≤ k_q05 (α := ℚ) 1 ∧ k_q05 (α := ℚ) 1 < 1) ∧
    (0 ≤ k_q10 (α := ℚ) 1 ∧ k_q10 (α := ℚ) 1 < 1) :=
  quantile_indices_in_range 1 1 (95 / 100 : ℚ) (by decide) (by norm_num) (by norm_num)
    (by decide)

end QuantileThms

/-! ## Selection of the best market and of the best criterion -/

section Selection

variable {α : Type} [LinearOrderedField α]

/-- The scan `if (crit > best_crit) { best_crit = crit ; ibest = i ; }` over `0 ≤ i < n`,
started from `(s0, i0)`: either no score exceeds `s0` and the state is unchanged, or the
state holds the maximal score and the first index that attains it. -/
theorem argmax_scan (n : Int) (score : Int → α) (s0 : α) (i0 : Int) :
    ((∀ j, 0 ≤ j → j < n → score j ≤ s0) ∧
        forLoop 0 n (fun i (b : α × Int) => if score i > b.1 then (score i, i) else b) (s0, i0)
          = (s0, i0)) ∨
      (s0 < (forLoop 0 n (fun i (b : α × Int) => if score i > b.1 then (score i, i) else b)
          (s0, i0)).1 ∧
        (forLoop 0 n (fun i (b : α × Int) => if score i > b.1 then (score i, i) else b)
          (s0, i0)).1
          = score (forLoop 0 n (fun i (b : α × Int) => if score i > b.1 then (score i, i) else b)
            (s0, i0)).2 ∧
        IsFirstArgmax n score
          (forLoop 0 n (fun i (b : α × Int) => if score i > b.1 then (score i, i) else b)
            (s0, i0)).2) := by
  rcases lt_or_le n 0 with hneg | hn
  · left
    exact ⟨fun j h1 h2 => by omega, forLoop_empty _ _ _ _ (le_of_lt hneg)⟩
  · refine forLoop_invariant 0 n _ (s0, i0)
      (fun k r => ((∀ j, 0 ≤ j → j < k → score j ≤ s0) ∧ r = (s0, i0)) ∨
        (s0 < r.1 ∧ r.1 = score r.2 ∧ IsFirstArgmax k score r.2)) hn ?_ ?_
    · left
      exact ⟨fun j h1 h2 => by omega, rfl⟩
    · intro i st hi0 hin hP
      by_cases hgt : score i > st.1
      · right
        simp only [if_pos hgt]
        refine ⟨?_, trivial, hi0, by omega, ?_, ?_⟩
        · rcases hP with ⟨_, hst⟩ | ⟨hlt, _, _⟩
          · rw [hst] at hgt
            exact hgt
          · exact lt_trans hlt hgt
        · intro j hj0 hj
          rcases eq_or_lt_of_le (show j ≤ i by omega) with hji | hji
          · rw [hji]
          · rcases hP with ⟨hall, hst⟩ | ⟨_, heq, _, _, hmax, _⟩
            · rw [hst] at hgt
              exact le_of_lt (lt_of_le_of_lt (hall j hj0 hji) hgt)
            · exact le_of_lt (lt_of_le_of_lt (heq ▸ hmax j hj0 hji) hgt)
        · intro j hj0 hji
          rcases hP with ⟨hall, hst⟩ | ⟨_, heq, _, _, hmax, _⟩
          · rw [hst] at hgt
            exact lt_of_le_of_lt (hall j hj0 hji) hgt
          · exact lt_of_le_of_lt (heq ▸ hmax j hj0 hji) hgt
      · simp only [if_neg hgt]
        have hle : score i ≤ st.1 := not_lt.mp hgt
        rcases hP with ⟨hall, hst⟩ | ⟨hlt, heq, hb0, hbk, hmax, hfirst⟩
        · left
          refine ⟨?_, hst⟩
          intro j hj0 hj
          rcases eq_or_lt_of_le (show j ≤ i by omega) with hji | hji
          · rw [hji]
            rw [hst] at hle
            exact hle
          · exact hall j hj0 hji
        · right
          refine ⟨hlt, heq, hb0, by omega, ?_, hfirst⟩
          intro j hj0 hj
          rcases eq_or_lt_of_le (show j ≤ i by omega) with hji | hji
          · rw [hji, ← heq]
            exact hle
          · exact hmax j hj0 hji

theorem best_criterion_first_argmax (cfg : Config α) (c : Cursors) (m : Store α)
    (h : ∃ j, 0 ≤ j ∧ j < n_criteria ∧ oos1_sum cfg c m.OOS1 j > -(10 ^ 60)) :
    IsFirstArgmax n_criteria (oos1_sum cfg c m.OOS1) (best_criterion cfg c m).2 := by
  obtain ⟨j, hj0, hj1, hj⟩ := h
  rcases argmax_scan n_criteria (oos1_sum cfg c m.OOS1) (-(10 ^ 60)) m.ibestcrit with
    ⟨hall, _⟩ | ⟨_, _, hfa⟩
  · exact absurd hj (not_lt.mpr (hall j hj0 hj1))
  · exact hfa

end Selection

section Loop

variable {α : Type} [LinearOrderedField α]

theorem loop_body_done_iff (sqrt : α → α) (cfg : Config α) (c : Cursors) (m : Store α)
    (h : c.OOS1_end ≥ cfg.n_cases - 1) :
    loop_body sqrt cfg c m = Step.done c (criteria_pass sqrt cfg c m) := by
  simp only [loop_body, if_pos h]

theorem loop_body_filling (sqrt : α → α) (cfg : Config α) (c : Cursors) (m : Store α)
    (h : ¬ c.OOS1_end ≥ cfg.n_cases - 1)
    (hf : (advance c).OOS1_end - (advance c).OOS1_start < cfg.OOS1_n) :
    loop_body sqrt cfg c m = Step.again (advance c) (criteria_pass sqrt cfg c m) := by
  simp only [loop_body, if_neg h, if_pos hf]

theorem loop_body_steady (sqrt : α → α) (cfg : Config α) (c : Cursors) (m : Store α)
    (h : ¬ c.OOS1_end ≥ cfg.n_cases - 1)
    (hf : ¬ (advance c).OOS1_end - (advance c).OOS1_start < cfg.OOS1_n) :
    loop_body sqrt cfg c m = Step.again (finish_advance (advance c))
      (steady_store sqrt cfg (advance c) (criteria_pass sqrt cfg c m)) := by
  simp only [loop_body, if_neg h, if_neg hf]

theorem loop_body_again_end (sqrt : α → α) (cfg : Config α) (c c1 : Cursors) (m m1 : Store α)
    (h : loop_body sqrt cfg c m = Step.again c1 m1) :
    c1.OOS1_end = c.OOS1_end + 1 ∧ c.OOS1_end < cfg.n_cases - 1 := by
  simp only [loop_body] at h
  split at h
  · cases h
  · split at h
    · cases h
      exact ⟨rfl, by omega⟩
    · cases h
      exact ⟨rfl, by omega⟩

theorem main_loop_done (sqrt : α → α) (cfg : Config α) (c c1 : Cursors) (m m1 : Store α)
    (h : loop_body sqrt cfg c m = Step.done c1 m1) :
    main_loop sqrt cfg c m = (c1, m1) := by
  rw [main_loop]
  split
  · rename_i c2 m2 h2
    rw [h] at h2
    cases h2
    rfl
  · rename_i c2 m2 h2
    rw [h] at h2
    cases h2

theorem main_loop_again (sqrt : α → α) (cfg : Config α) (c c1 : Cursors) (m m1 : Store α)
    (h : loop_body sqrt cfg c m = Step.again c1 m1) :
    main_loop sqrt cfg c m = main_loop sqrt cfg c1 m1 := by
  rw [main_loop]
  split
  · rename_i c2 m2 h2
    rw [h] at h2
    cases h2
  · rename_i c2 m2 h2
    rw [h] at h2
    cases h2
    rfl

/-- Proof rule for the main loop: a property `P` of the state at the top of the body that
every pass preserves, and that gives `Q` when the pass leaves the loop, gives `Q` of the
state in which the loop is left. -/
theorem main_loop_rule (sqrt : α → α) (cfg : Config α) (P : Cursors → Store α → Prop)
    (Q : Cursors → Store α → Prop)
    (hdone : ∀ c m c1 m1, P c m → loop_body sqrt cfg c m = Step.done c1 m1 → Q c1 m1)
    (hagain : ∀ c m c1 m1, P c m → loop_body sqrt cfg c m = Step.again c1 m1 → P c1 m1)
    (c : Cursors) (m : Store α) (h : P c m) :
    Q (main_loop sqrt cfg c m).1 (main_loop sqrt cfg c m).2 := by
  generalize hk : (cfg.n_cases - c.OOS1_end).toNat = k
  induction k using Nat.strong_induction_on generalizing c m with
  | _ k ih =>
    cases hb : loop_body sqrt cfg c m with
    | done c1 m1 =>
      rw [main_loop_done sqrt cfg c c1 m m1 hb]
      exact hdone c m c1 m1 h hb
    | again c1 m1 =>
      rw [main_loop_again sqrt cfg c c1 m m1 hb]
      have hdec := loop_body_again_end sqrt cfg c c1 m m1 hb
      exact ih (cfg.n_cases - c1.OOS1_end).toNat (by omega) c1 m1
        (hagain c m c1 m1 h hb) rfl

theorem loop_top_rule (sqrt : α → α) (cfg : Config α) (P : Cursors → Store α → Prop)
    (hagain : ∀ c m c1 m1, P c m → loop_body sqrt cfg c m = Step.again c1 m1 → P c1 m1)
    (k : Nat) (c : Cursors) (m : Store α) (h : P c m) (c1 : Cursors) (m1 : Store α)
    (hk : loop_top sqrt cfg k c m = some (c1, m1)) : P c1 m1 := by
  induction k generalizing c m with
  | zero =>
    simp only [loop_top, Option.some.injEq, Prod.mk.injEq] at hk
    obtain ⟨rfl, rfl⟩ := hk
    exact h
  | succ k ih =>
    simp only [loop_top] at hk
    cases hb : loop_body sqrt cfg c m with
    | done c2 m2 =>
      rw [hb] at hk
      cases hk
    | again c2 m2 =>
      rw [hb] at hk
      exact ih c2 m2 (hagain c m c2 m2 h hb) hk

end Loop

/-! ## Traces and cursors of the walk-forward loop -/

section Traces

variable {α : Type} [LinearOrderedField α]

theorem intRange_empty (lo hi : Int) (h : hi ≤ lo) : intRange lo hi = [] := by
  have h0 : (hi - lo).toNat = 0 := by omega
  simp [intRange, h0]

theorem intRange_succ (lo hi : Int) (h : lo ≤ hi) :
    intRange lo (hi + 1) = intRange lo hi ++ [hi] := by
  have h1 : (hi + 1 - lo).toNat = (hi - lo).toNat + 1 := by omega
  have h2 : lo + ((hi - lo).toNat : Int) = hi := by omega
  simp only [intRange, h1, List.range_succ, List.map_append, List.map_cons, List.map_nil, h2]

theorem intRange_length (lo hi : Int) : (intRange lo hi).length = (hi - lo).toNat := by
  simp [intRange]

theorem mem_intRange (lo hi x : Int) : x ∈ intRange lo hi ↔ lo ≤ x ∧ x < hi := by
  simp only [intRange, List.mem_map, List.mem_range]
  constructor
  · rintro ⟨k, hk, rfl⟩
    omega
  · intro hx
    exact ⟨(x - lo).toNat, by omega, by omega⟩

theorem intRange_nodup (lo hi : Int) : (intRange lo hi).Nodup := by
  unfold intRange
  refine List.Nodup.map ?_ (List.nodup_range _)
  intro a b hab
  simp only at hab
  omega

theorem intRange_sorted (lo hi : Int) : (intRange lo hi).Sorted (· < ·) := by
  unfold intRange
  rw [List.Sorted, List.pairwise_map]
  refine List.Pairwise.imp ?_ (List.pairwise_lt_range _)
  intro a b hab
  omega

theorem oos2_days_append (a b : List Event) :
    oos2_days (a ++ b) = oos2_days a ++ oos2_days b := by
  induction a with
  | nil => rfl
  | cons e es ih =>
    cases e with
    | oos1 ic d ib => simpa [oos2_days] using ih
    | oos2 d cr ib => simpa [oos2_days] using ih

theorem oos1_days_append (icrit : Int) (a b : List Event) :
    oos1_days icrit (a ++ b) = oos1_days icrit a ++ oos1_days icrit b := by
  induction a with
  | nil => rfl
  | cons e es ih =>
    cases e with
    | oos1 ic d ib =>
      by_cases h : ic = icrit
      · simp [oos1_days, h, ih]
      · simp [oos1_days, h, ih]
    | oos2 d cr ib => simpa [oos1_days] using ih

theorem oos2_choices_append (t : Int) (a b : List Event) :
    oos2_choices t (a ++ b) = oos2_choices t a ++ oos2_choices t b := by
  induction a with
  | nil => rfl
  | cons e es ih =>
    cases e with
    | oos1 ic d ib => simpa [oos2_choices] using ih
    | oos2 d cr ib =>
      by_cases h : d = t
      · simp [oos2_choices, h, ih]
      · simp [oos2_choices, h, ih]

theorem criteria_pass_eq (sqrt : α → α) (cfg : Config α) (c : Cursors) (m : Store α) :
    criteria_pass sqrt cfg c m
      = criteria_body sqrt cfg c 2 (criteria_body sqrt cfg c 1 (criteria_body sqrt cfg c 0 m)) :=
  forLoop_zero_three _ _

theorem criteria_pass_trace_eq (sqrt : α → α) (cfg : Config α) (c : Cursors) (m : Store α) :
    (criteria_pass sqrt cfg c m).trace
      = m.trace ++
        [Event.oos1 0 c.OOS1_end (best_market sqrt cfg 0 c.IS_start m.ibest).2,
         Event.oos1 1 c.OOS1_end
          (best_market sqrt cfg 1 c.IS_start (best_market sqrt cfg 0 c.IS_start m.ibest).2).2,
         Event.oos1 2 c.OOS1_end
          (best_market sqrt cfg 2 c.IS_start
            (best_market sqrt cfg 1 c.IS_start
              (best_market sqrt cfg 0 c.IS_start m.ibest).2).2).2] := by
  rw [criteria_pass_eq]
  simp only [criteria_body, List.append_assoc, List.cons_append, List.nil_append]

theorem criteria_pass_trace (sqrt : α → α) (cfg : Config α) (c : Cursors) (m : Store α) :
    ∃ b0 b1 b2, (criteria_pass sqrt cfg c m).trace
      = m.trace ++ [Event.oos1 0 c.OOS1_end b0, Event.oos1 1 c.OOS1_end b1,
          Event.oos1 2 c.OOS1_end b2] :=
  ⟨_, _, _, criteria_pass_trace_eq sqrt cfg c m⟩

theorem criteria_pass_crit_count (sqrt : α → α) (cfg : Config α) (c : Cursors) (m : Store α) :
    (criteria_pass sqrt cfg c m).crit_count = m.crit_count := by
  rw [criteria_pass_eq]
  rfl

theorem criteria_pass_ibestcrit (sqrt : α → α) (cfg : Config α) (c : Cursors) (m : Store α) :
    (criteria_pass sqrt cfg c m).ibestcrit = m.ibestcrit := by
  rw [criteria_pass_eq]
  rfl

theorem criteria_pass_OOS2 (sqrt : α → α) (cfg : Config α) (c : Cursors) (m : Store α) :
    (criteria_pass sqrt cfg c m).OOS2 = m.OOS2 := by
  rw [criteria_pass_eq]
  rfl

theorem criteria_pass_oos2_days (sqrt : α → α) (cfg : Config α) (c : Cursors) (m : Store α) :
    oos2_days (criteria_pass sqrt cfg c m).trace = oos2_days m.trace := by
  obtain ⟨b0, b1, b2, h⟩ := criteria_pass_trace sqrt cfg c m
  rw [h, oos2_days_append]
  simp [oos2_days]

theorem criteria_pass_oos2_choices (sqrt : α → α) (cfg : Config α) (c : Cursors) (m : Store α)
    (t : Int) :
    oos2_choices t (criteria_pass sqrt cfg c m).trace = oos2_choices t m.trace := by
  obtain ⟨b0, b1, b2, h⟩ := criteria_pass_trace sqrt cfg c m
  rw [h, oos2_choices_append]
  simp [oos2_choices]

theorem criteria_pass_oos1_days (sqrt : α → α) (cfg : Config α) (c : Cursors) (m : Store α)
    (icrit : Int) (hic : icrit = 0 ∨ icrit = 1 ∨ icrit = 2) :
    oos1_days icrit (criteria_pass sqrt cfg c m).trace
      = oos1_days icrit m.trace ++ [c.OOS1_end] := by
  obtain ⟨b0, b1, b2, h⟩ := criteria_pass_trace sqrt cfg c m
  rw [h, oos1_days_append]
  rcases hic with rfl | rfl | rfl <;> simp [oos1_days]

theorem steady_store_trace (sqrt : α → α) (cfg : Config α) (c : Cursors) (m : Store α) :
    (steady_store sqrt cfg c m).trace
      = m.trace ++ [Event.oos2 c.OOS2_end (steady_store sqrt cfg c m).ibestcrit
          (steady_store sqrt cfg c m).ibest] := rfl

theorem steady_store_oos2_days (sqrt : α → α) (cfg : Config α) (c : Cursors) (m : Store α) :
    oos2_days (steady_store sqrt cfg c m).trace = oos2_days m.trace ++ [c.OOS2_end] := by
  rw [steady_store_trace, oos2_days_append]
  rfl

theorem steady_store_oos1_days (sqrt : α → α) (cfg : Config α) (c : Cursors) (m : Store α)
    (icrit : Int) :
    oos1_days icrit (steady_store sqrt cfg c m).trace = oos1_days icrit m.trace := by
  rw [steady_store_trace, oos1_days_append]
  simp [oos1_days]

omit [LinearOrderedField α] in
theorem topInv_init (cfg : Config α) (h1 : 1 ≤ cfg.OOS1_n) : TopInv cfg (init_cursors cfg) := by
  refine ⟨?_, ?_, rfl, ?_⟩
  · simp [init_cursors]
  · simp [init_cursors]
  · refine Or.inl ⟨?_, rfl, rfl⟩
    show cfg.IS_n < cfg.IS_n + cfg.OOS1_n
    omega

theorem topInv_again (sqrt : α → α) (cfg : Config α) (c c1 : Cursors) (m m1 : Store α)
    (hinv : TopInv cfg c) (h : loop_body sqrt cfg c m = Step.again c1 m1) : TopInv cfg c1 := by
  obtain ⟨h1, h2, h3, h4⟩ := hinv
  simp only [loop_body] at h
  split at h
  · cases h
  · rename_i hnb
    split at h
    · rename_i hf
      cases h
      simp only [advance] at hf
      refine ⟨?_, ?_, h3, ?_⟩
      · show c.OOS1_end + 1 = c.IS_start + 1 + cfg.IS_n
        omega
      · show cfg.IS_n ≤ c.OOS1_end + 1
        omega
      · show (c.OOS1_end + 1 < cfg.IS_n + cfg.OOS1_n ∧ c.OOS1_start = cfg.IS_n ∧
            c.OOS2_end = cfg.IS_n + cfg.OOS1_n) ∨
          (cfg.IS_n + cfg.OOS1_n ≤ c.OOS1_end + 1 ∧
            c.OOS1_start = c.OOS1_end + 1 - cfg.OOS1_n + 1 ∧ c.OOS2_end = c.OOS1_end + 1 + 1)
        omega
    · rename_i hf
      cases h
      simp only [advance] at hf
      refine ⟨?_, ?_, h3, ?_⟩
      · show c.OOS1_end + 1 = c.IS_start + 1 + cfg.IS_n
        omega
      · show cfg.IS_n ≤ c.OOS1_end + 1
        omega
      · show (c.OOS1_end + 1 < cfg.IS_n + cfg.OOS1_n ∧ c.OOS1_start + 1 = cfg.IS_n ∧
            c.OOS2_end + 1 = cfg.IS_n + cfg.OOS1_n) ∨
          (cfg.IS_n + cfg.OOS1_n ≤ c.OOS1_end + 1 ∧
            c.OOS1_start + 1 = c.OOS1_end + 1 - cfg.OOS1_n + 1 ∧
            c.OOS2_end + 1 = c.OOS1_end + 1 + 1)
        omega

omit [LinearOrderedField α] in
theorem runInv_init (cfg : Config α) (g : Store α) (h1 : 1 ≤ cfg.OOS1_n)
    (hn : cfg.IS_n + 1 ≤ cfg.n_cases) : RunInv cfg (init_cursors cfg) (init_store g) := by
  refine ⟨topInv_init cfg h1, ?_, ?_, ?_⟩
  · show cfg.IS_n ≤ cfg.n_cases - 1
    omega
  · exact (intRange_empty _ _ (le_refl _)).symm
  · intro ic _
    exact (intRange_empty _ _ (le_refl _)).symm

theorem runInv_again (sqrt : α → α) (cfg : Config α) (c c1 : Cursors) (m m1 : Store α)
    (hinv : RunInv cfg c m) (h : loop_body sqrt cfg c m = Step.again c1 m1) :
    RunInv cfg c1 m1 := by
  have htop := topInv_again sqrt cfg c c1 m m1 hinv.top h
  have hend := loop_body_again_end sqrt cfg c c1 m m1 h
  obtain ⟨⟨t1, t2, t3, t4⟩, _, hd2, hd1⟩ := hinv
  refine ⟨htop, by omega, ?_, ?_⟩
  · by_cases hf : (advance c).OOS1_end - (advance c).OOS1_start < cfg.OOS1_n
    · rw [loop_body_filling sqrt cfg c m (by omega) hf] at h
      cases h
      rw [criteria_pass_oos2_days, hd2]
      rfl
    · rw [loop_body_steady sqrt cfg c m (by omega) hf] at h
      cases h
      rw [steady_store_oos2_days, criteria_pass_oos2_days, hd2]
      show intRange (cfg.IS_n + cfg.OOS1_n) c.OOS2_end ++ [c.OOS2_end]
        = intRange (cfg.IS_n + cfg.OOS1_n) (c.OOS2_end + 1)
      rw [intRange_succ _ _ (by omega)]
  · intro ic hic
    rw [hend.1, intRange_succ _ _ t2, ← hd1 ic hic]
    by_cases hf : (advance c).OOS1_end - (advance c).OOS1_start < cfg.OOS1_n
    · rw [loop_body_filling sqrt cfg c m (by omega) hf] at h
      cases h
      exact criteria_pass_oos1_days sqrt cfg c m ic hic
    · rw [loop_body_steady sqrt cfg c m (by omega) hf] at h
      cases h
      rw [steady_store_oos1_days]
      exact criteria_pass_oos1_days sqrt cfg c m ic hic

/-- The cursors and the recorded assignments when the walk-forward loop is left, for
`OOS1_n ≥ 1` and `n_cases ≥ IS_n + OOS1_n + 1`. -/
theorem walk_forward_final (sqrt : α → α) (cfg : Config α) (g : Store α)
    (h1 : 1 ≤ cfg.OOS1_n) (hn : cfg.IS_n + cfg.OOS1_n + 1 ≤ cfg.n_cases) :
    (walk_forward sqrt cfg g).1.OOS1_end = cfg.n_cases - 1 ∧
    (walk_forward sqrt cfg g).1.OOS2_end = cfg.n_cases ∧
    oos2_days (walk_forward sqrt cfg g).2.trace
      = intRange (cfg.IS_n + cfg.OOS1_n) cfg.n_cases ∧
    ∀ ic, ic = 0 ∨ ic = 1 ∨ ic = 2 →
      oos1_days ic (walk_forward sqrt cfg g).2.trace = intRange cfg.IS_n cfg.n_cases := by
  refine main_loop_rule sqrt cfg (RunInv cfg)
    (fun c1 m1 => c1.OOS1_end = cfg.n_cases - 1 ∧ c1.OOS2_end = cfg.n_cases ∧
      oos2_days m1.trace = intRange (cfg.IS_n + cfg.OOS1_n) cfg.n_cases ∧
      ∀ ic, ic = 0 ∨ ic = 1 ∨ ic = 2 → oos1_days ic m1.trace = intRange cfg.IS_n cfg.n_cases)
    ?_ (fun c m c1 m1 => runInv_again sqrt cfg c c1 m m1) (init_cursors cfg) (init_store g)
    (runInv_init cfg g h1 (by omega))
  intro c m c1 m1 hinv hb
  obtain ⟨⟨t1, t2, t3, t4⟩, hhi, hd2, hd1⟩ := hinv
  by_cases hbrk : c.OOS1_end ≥ cfg.n_cases - 1
  · rw [loop_body_done_iff sqrt cfg c m hbrk] at hb
    cases hb
    have he : c.OOS1_end = cfg.n_cases - 1 := by omega
    have h2 : c.OOS2_end = cfg.n_cases := by omega
    refine ⟨he, h2, ?_, ?_⟩
    · rw [criteria_pass_oos2_days, hd2, h2]
    · intro ic hic
      rw [criteria_pass_oos1_days sqrt cfg c m ic hic, hd1 ic hic]
      have : cfg.n_cases = c.OOS1_end + 1 := by omega
      rw [this, intRange_succ _ _ t2]
  · simp only [loop_body, if_neg hbrk] at hb
    split at hb <;> cases hb

end Traces

/-! ## The walk-forward claims -/

section WalkForwardClaims

variable {α : Type} [LinearOrderedField α]

/-- C3: for `IS_n ≥ 2`, `OOS1_n ≥ 1` and `n_cases > IS_n + OOS1_n`, when the walk-forward
loop is left `OOS1_end = n_cases - 1` and `OOS2_end = n_cases`: the two assertions that
follow the loop hold. -/
theorem cursors_at_loop_exit (sqrt : α → α) (cfg : Config α) (g : Store α)
    (_hIS : 2 ≤ cfg.IS_n) (h1 : 1 ≤ cfg.OOS1_n) (hn : cfg.n_cases > cfg.IS_n + cfg.OOS1_n) :
    (walk_forward sqrt cfg g).1.OOS1_end = cfg.n_cases - 1 ∧
      (walk_forward sqrt cfg g).1.OOS2_end = cfg.n_cases := by
  have h := walk_forward_final sqrt cfg g h1 (by omega)
  exact ⟨h.1, h.2.1⟩

/-- C3 at `n_cases = 6`, `IS_n = 2`, `OOS1_n = 2`. -/
theorem cursors_at_loop_exit_witness :
    (2 ≤ sixCases.IS_n ∧ 1 ≤ sixCases.OOS1_n ∧
      sixCases.n_cases > sixCases.IS_n + sixCases.OOS1_n) ∧
    (walk_forward Real.sqrt sixCases zeroStore).1.OOS1_end = 5 ∧
    (walk_forward Real.sqrt sixCases zeroStore).1.OOS2_end = 6 :=
  ⟨by decide,
    cursors_at_loop_exit Real.sqrt sixCases zeroStore (by decide) (by decide) (by decide)⟩

theorem loop_top_succ_of_again (sqrt : α → α) (cfg : Config α) (k : Nat) (c c1 : Cursors)
    (m m1 : Store α) (h : loop_body sqrt cfg c m = Step.again c1 m1) :
    loop_top sqrt cfg (k + 1) c m = loop_top sqrt cfg k c1 m1 := by
  simp only [loop_top, h]

/-- The cursors at the end of a pass through the loop body satisfy the relations of the top
of the body, whether the pass leaves the loop or not. -/
theorem topInv_pass_end (sqrt : α → α) (cfg : Config α) (c : Cursors) (m : Store α)
    (hinv : TopInv cfg c) : TopInv cfg (loop_body sqrt cfg c m).cursors := by
  cases hb : loop_body sqrt cfg c m with
  | done c1 m1 =>
    by_cases hbrk : c.OOS1_end ≥ cfg.n_cases - 1
    · rw [loop_body_done_iff sqrt cfg c m hbrk] at hb
      cases hb
      exact hinv
    · simp only [loop_body, if_neg hbrk] at hb
      split at hb <;> cases hb
  | again c1 m1 => exact topInv_again sqrt cfg c c1 m m1 hinv hb

theorem topInv_loop_top (sqrt : α → α) (cfg : Config α) (g : Store α) (h1 : 1 ≤ cfg.OOS1_n)
    (k : Nat) (c : Cursors) (m : Store α)
    (hk : loop_top sqrt cfg k (init_cursors cfg) (init_store g) = some (c, m)) :
    TopInv cfg c :=
  loop_top_rule sqrt cfg (fun c _ => TopInv cfg c)
    (fun c m c1 m1 hP hb => topInv_again sqrt cfg c c1 m m1 hP hb) k (init_cursors cfg)
    (init_store g) (topInv_init cfg h1) c m hk

/-- C8 as stated fails: with `n_cases = 6`, `IS_n = 2`, `OOS1_n = 2` the first pass through
the loop body, which is still filling OOS1, ends with `IS_start = 1` and `OOS1_start = 2`,
and the second pass, the first of the steady state, ends with `IS_start = 2` and
`OOS1_start = 3`; neither has `OOS1_start = IS_start + IS_n`. -/
theorem oos1_start_not_is_start_plus_is_n :
    (2 ≤ sixCases.IS_n ∧ 1 ≤ sixCases.OOS1_n ∧
      sixCases.n_cases ≥ sixCases.IS_n + sixCases.OOS1_n + 1) ∧
    (∃ c m, loop_top Real.sqrt sixCases 1 (init_cursors sixCases) (init_store zeroStore)
        = some (c, m) ∧ c.IS_start = 1 ∧ c.OOS1_start = 2 ∧ c.OOS2_end = 4 ∧
        c.OOS1_start ≠ c.IS_start + sixCases.IS_n) ∧
    (∃ c m, loop_top Real.sqrt sixCases 2 (init_cursors sixCases) (init_store zeroStore)
        = some (c, m) ∧ c.IS_start = 2 ∧ c.OOS1_start = 3 ∧ c.OOS2_end = 5 ∧
        c.OOS1_start ≠ c.IS_start + sixCases.IS_n) := by
  have hb1 : loop_body Real.sqrt sixCases (init_cursors sixCases) (init_store zeroStore)
      = Step.again (advance (init_cursors sixCases))
          (criteria_pass Real.sqrt sixCases (init_cursors sixCases) (init_store zeroStore)) :=
    loop_body_filling _ _ _ _ (by decide) (by decide)
  have hb2 : loop_body Real.sqrt sixCases (advance (init_cursors sixCases))
        (criteria_pass Real.sqrt sixCases (init_cursors sixCases) (init_store zeroStore))
      = Step.again (finish_advance (advance (advance (init_cursors sixCases))))
          (steady_store Real.sqrt sixCases (advance (advance (init_cursors sixCases)))
            (criteria_pass Real.sqrt sixCases (advance (init_cursors sixCases))
              (criteria_pass Real.sqrt sixCases (init_cursors sixCases)
                (init_store zeroStore)))) :=
    loop_body_steady _ _ _ _ (by decide) (by decide)
  refine ⟨by decide, ?_, ?_⟩
  · refine ⟨advance (init_cursors sixCases),
      criteria_pass Real.sqrt sixCases (init_cursors sixCases) (init_store zeroStore), ?_, ?_⟩
    · rw [loop_top_succ_of_again _ _ _ _ _ _ _ hb1]
      rfl
    · decide
  · refine ⟨finish_advance (advance (advance (init_cursors sixCases))),
      steady_store Real.sqrt sixCases (advance (advance (init_cursors sixCases)))
        (criteria_pass Real.sqrt sixCases (advance (init_cursors sixCases))
          (criteria_pass Real.sqrt sixCases (init_cursors sixCases)
            (init_store zeroStore))), ?_, ?_⟩
    · rw [loop_top_succ_of_again _ _ _ _ _ _ _ hb1, loop_top_succ_of_again _ _ _ _ _ _ _ hb2]
      rfl
    · decide

/-- C8, amended: for `OOS1_n ≥ 1`, at the end of every pass through the loop body
`OOS1_end = IS_start + IS_n`; while OOS1 is being filled `OOS1_start` is still `IS_n` and
the window `[OOS1_start, OOS1_end)` has fewer than `OOS1_n` cases, and in the steady state
`OOS1_start = IS_start + IS_n - OOS1_n + 1`. -/
theorem window_invariant (sqrt : α → α) (cfg : Config α) (g : Store α) (h1 : 1 ≤ cfg.OOS1_n)
    (k : Nat) (c : Cursors) (m : Store α)
    (hk : loop_top sqrt cfg k (init_cursors cfg) (init_store g) = some (c, m)) :
    (loop_body sqrt cfg c m).cursors.OOS1_end
        = (loop_body sqrt cfg c m).cursors.IS_start + cfg.IS_n ∧
      (((loop_body sqrt cfg c m).cursors.OOS1_end < cfg.IS_n + cfg.OOS1_n ∧
          (loop_body sqrt cfg c m).cursors.OOS1_start = cfg.IS_n ∧
          (loop_body sqrt cfg c m).cursors.OOS1_end
            - (loop_body sqrt cfg c m).cursors.OOS1_start < cfg.OOS1_n) ∨
        (cfg.IS_n + cfg.OOS1_n ≤ (loop_body sqrt cfg c m).cursors.OOS1_end ∧
          (loop_body sqrt cfg c m).cursors.OOS1_start
            = (loop_body sqrt cfg c m).cursors.IS_start + cfg.IS_n - cfg.OOS1_n + 1)) := by
  have htop := topInv_loop_top sqrt cfg g h1 k c m hk
  obtain ⟨t1, t2, t3, t4⟩ := topInv_pass_end sqrt cfg c m htop
  refine ⟨t1, ?_⟩
  omega

/-- C8, amended, at the first pass of the run with `n_cases = 6`, `IS_n = 2`, `OOS1_n = 2`. -/
theorem window_invariant_witness :
    1 ≤ sixCases.OOS1_n ∧
    loop_top Real.sqrt sixCases 0 (init_cursors sixCases) (init_store zeroStore)
      = some (init_cursors sixCases, init_store zeroStore) ∧
    (loop_body Real.sqrt sixCases (init_cursors sixCases)
        (init_store zeroStore)).cursors.OOS1_end
      = (loop_body Real.sqrt sixCases (init_cursors sixCases)
        (init_store zeroStore)).cursors.IS_start + sixCases.IS_n :=
  ⟨by decide, rfl,
    (window_invariant Real.sqrt sixCases zeroStore (by decide) 0 (init_cursors sixCases)
      (init_store zeroStore) rfl).1⟩

theorem int_Ico_succ (lo k : Int) (h : lo ≤ k) :
    Finset.Ico lo (k + 1) = insert k (Finset.Ico lo k) := by
  ext x
  simp only [Finset.mem_Ico, Finset.mem_insert]
  omega

/-- The accumulation loop of lines 788-790 computes the sum of the entries of the window. -/
theorem oos1_sum_eq_sum (cfg : Config α) (c : Cursors) (OOS1 : Int → α) (icrit : Int) :
    oos1_sum cfg c OOS1 icrit
      = ∑ i in Finset.Ico c.OOS1_start c.OOS1_end, OOS1 (icrit * cfg.n_cases + i) := by
  unfold oos1_sum
  rcases le_or_lt c.OOS1_end c.OOS1_start with hle | hlt
  · rw [forLoop_empty _ _ _ _ hle, Finset.Ico_eq_empty (by omega), Finset.sum_empty]
  · refine forLoop_invariant c.OOS1_start c.OOS1_end _ 0
      (fun k acc => acc = ∑ i in Finset.Ico c.OOS1_start k, OOS1 (icrit * cfg.n_cases + i))
      (le_of_lt hlt) ?_ ?_
    · simp
    · intro i st hi1 hi2 hst
      show st + OOS1 (icrit * cfg.n_cases + i)
        = ∑ j in Finset.Ico c.OOS1_start (i + 1), OOS1 (icrit * cfg.n_cases + j)
      have hst1 : st = ∑ j in Finset.Ico c.OOS1_start i, OOS1 (icrit * cfg.n_cases + j) := hst
      rw [int_Ico_succ _ _ hi1, Finset.sum_insert (by simp), hst1, add_comm]

/-- C5: at every steady-state pass of the run (with `OOS1_n ≥ 1`), the window
`[OOS1_start, OOS1_end)` has exactly `OOS1_n` cases, the loop of lines 788-790 sums the OOS1
entries of each criterion over it, `ibestcrit` attains the maximal sum and is the lowest
criterion index that does (provided some sum exceeds the sentinel `-1e60`), and the counter
of `ibestcrit` goes up by one while every other counter is unchanged. -/
theorem best_criterion_step (sqrt : α → α) (cfg : Config α) (g : Store α)
    (h1 : 1 ≤ cfg.OOS1_n) (k : Nat) (c : Cursors) (m : Store α)
    (hk : loop_top sqrt cfg k (init_cursors cfg) (init_store g) = some (c, m))
    (hnb : ¬ c.OOS1_end ≥ cfg.n_cases - 1)
    (hst : ¬ (advance c).OOS1_end - (advance c).OOS1_start < cfg.OOS1_n) :
    loop_body sqrt cfg c m = Step.again (finish_advance (advance c))
        (steady_store sqrt cfg (advance c) (criteria_pass sqrt cfg c m)) ∧
      (advance c).OOS1_end - (advance c).OOS1_start = cfg.OOS1_n ∧
      (Finset.Ico (advance c).OOS1_start (advance c).OOS1_end).card = cfg.OOS1_n ∧
      (∀ icrit, oos1_sum cfg (advance c) (criteria_pass sqrt cfg c m).OOS1 icrit
        = ∑ i in Finset.Ico (advance c).OOS1_start (advance c).OOS1_end,
            (criteria_pass sqrt cfg c m).OOS1 (icrit * cfg.n_cases + i)) ∧
      ((∃ j, 0 ≤ j ∧ j < n_criteria ∧
          oos1_sum cfg (advance c) (criteria_pass sqrt cfg c m).OOS1 j > -(10 ^ 60)) →
        IsFirstArgmax n_criteria (oos1_sum cfg (advance c) (criteria_pass sqrt cfg c m).OOS1)
          (steady_store sqrt cfg (advance c) (criteria_pass sqrt cfg c m)).ibestcrit) ∧
      (steady_store sqrt cfg (advance c) (criteria_pass sqrt cfg c m)).crit_count
          (steady_store sqrt cfg (advance c) (criteria_pass sqrt cfg c m)).ibestcrit
        = m.crit_count
            (steady_store sqrt cfg (advance c) (criteria_pass sqrt cfg c m)).ibestcrit + 1 ∧
      ∀ j, j ≠ (steady_store sqrt cfg (advance c) (criteria_pass sqrt cfg c m)).ibestcrit →
        (steady_store sqrt cfg (advance c) (criteria_pass sqrt cfg c m)).crit_count j
          = m.crit_count j := by
  obtain ⟨t1, t2, t3, t4⟩ := topInv_loop_top sqrt cfg g h1 k c m hk
  have hw : (advance c).OOS1_end - (advance c).OOS1_start = cfg.OOS1_n := by
    have hst1 : ¬ (c.OOS1_end + 1 - c.OOS1_start < cfg.OOS1_n) := hst
    show c.OOS1_end + 1 - c.OOS1_start = cfg.OOS1_n
    omega
  refine ⟨loop_body_steady sqrt cfg c m hnb hst, hw, ?_,
    fun icrit => oos1_sum_eq_sum cfg (advance c) _ icrit,
    fun h => best_criterion_first_argmax cfg (advance c) (criteria_pass sqrt cfg c m) h, ?_, ?_⟩
  · rw [Int.card_Ico, hw, Int.toNat_of_nonneg (by omega)]
  · have hcc : (criteria_pass sqrt cfg c m).crit_count = m.crit_count :=
      criteria_pass_crit_count sqrt cfg c m
    simp only [steady_store, hcc, Function.update_same]
  · intro j hj
    have hcc : (criteria_pass sqrt cfg c m).crit_count = m.crit_count :=
      criteria_pass_crit_count sqrt cfg c m
    simp only [steady_store, hcc]
    exact Function.update_noteq hj _ _

/-- C5 at the first pass of the run with `n_cases = 4`, `IS_n = 2`, `OOS1_n = 1`, which is a
steady-state pass. -/
theorem best_criterion_step_witness :
    (1 ≤ fourCases.OOS1_n ∧
      loop_top Real.sqrt fourCases 0 (init_cursors fourCases) (init_store zeroStore)
        = some (init_cursors fourCases, init_store zeroStore) ∧
      ¬ (init_cursors fourCases).OOS1_end ≥ fourCases.n_cases - 1 ∧
      ¬ (advance (init_cursors fourCases)).OOS1_end
          - (advance (init_cursors fourCases)).OOS1_start < fourCases.OOS1_n) ∧
    (advance (init_cursors fourCases)).OOS1_end - (advance (init_cursors fourCases)).OOS1_start
      = fourCases.OOS1_n :=
  ⟨⟨by decide, rfl, by decide, by decide⟩,
    (best_criterion_step Real.sqrt fourCases zeroStore (by decide) 0 (init_cursors fourCases)
      (init_store zeroStore) rfl (by decide) (by decide)).2.1⟩

end WalkForwardClaims

/-! ## No look-ahead -/

section NoLookAhead

variable {α : Type} [LinearOrderedField α]

theorem criterion_congr (sqrt : α → α) (which n : Int) (p q : Int → α) (hn : 1 ≤ n)
    (h : ∀ i, 0 ≤ i → i < n → p i = q i) :
    criterion sqrt which n p = criterion sqrt which n q := by
  have h0 : p 0 = q 0 := h 0 (le_refl _) (by omega)
  have hl : p (n - 1) = q (n - 1) := h (n - 1) (by omega) (by omega)
  have hvar : forLoop 1 n
        (fun i (var : α) =>
          var + ((p i - p (i - 1)) - (p (n - 1) - p 0) / ((n : α) - 1))
            * ((p i - p (i - 1)) - (p (n - 1) - p 0) / ((n : α) - 1)))
        (1 / 10 ^ 60)
      = forLoop 1 n
        (fun i (var : α) =>
          var + ((q i - q (i - 1)) - (q (n - 1) - q 0) / ((n : α) - 1))
            * ((q i - q (i - 1)) - (q (n - 1) - q 0) / ((n : α) - 1)))
        (1 / 10 ^ 60) := by
    refine forLoop_congr _ _ _ _ _ ?_
    intro i hi1 hi2 st
    simp only [h i (by omega) hi2, h (i - 1) (by omega) (by omega), h0, hl]
  have hpf : forLoop 1 n
        (fun i (ws : α × α) =>
          if p i - p (i - 1) > 0 then (ws.1 + (p i - p (i - 1)), ws.2)
          else (ws.1, ws.2 - (p i - p (i - 1))))
        ((1 / 10 ^ 60 : α), (1 / 10 ^ 60 : α))
      = forLoop 1 n
        (fun i (ws : α × α) =>
          if q i - q (i - 1) > 0 then (ws.1 + (q i - q (i - 1)), ws.2)
          else (ws.1, ws.2 - (q i - q (i - 1))))
        ((1 / 10 ^ 60 : α), (1 / 10 ^ 60 : α)) := by
    refine forLoop_congr _ _ _ _ _ ?_
    intro i hi1 hi2 st
    simp only [h i (by omega) hi2, h (i - 1) (by omega) (by omega)]
  simp only [criterion, total_return, sharpe_ratio, profit_factor]
  rw [hvar, hpf, h0, hl]

theorem best_market_congr (sqrt : α → α) (cfg : Config α) (close2 : Int → Int → α)
    (which start ibest : Int) (hIS : 1 ≤ cfg.IS_n)
    (h : ∀ mkt i, 0 ≤ i → i < cfg.IS_n →
      close2 mkt (start + i) = cfg.market_close mkt (start + i)) :
    best_market sqrt (cfg.with_prices close2) which start ibest
      = best_market sqrt cfg which start ibest := by
  unfold best_market
  show forLoop 0 cfg.n_markets _ _ = forLoop 0 cfg.n_markets _ _
  refine forLoop_congr _ _ _ _ _ ?_
  intro imarket _ _ st
  have hc : criterion sqrt which cfg.IS_n (fun i => close2 imarket (start + i))
      = criterion sqrt which cfg.IS_n (fun i => cfg.market_close imarket (start + i)) :=
    criterion_congr sqrt which cfg.IS_n _ _ hIS (fun i hi0 hi1 => h imarket i hi0 hi1)
  show (if criterion sqrt which cfg.IS_n (fun i => close2 imarket (start + i)) > st.1 then
        (criterion sqrt which cfg.IS_n (fun i => close2 imarket (start + i)), imarket)
      else st) = _
  rw [hc]

theorem best_criterion_congr (cfg : Config α) (close2 : Int → Int → α) (c : Cursors)
    (m1 m2 : Store α) (hO : m2.OOS1 = m1.OOS1) (hb : m2.ibestcrit = m1.ibestcrit) :
    best_criterion (cfg.with_prices close2) c m2 = best_criterion cfg c m1 := by
  unfold best_criterion oos1_sum
  rw [hO, hb]
  rfl

/-- The loop over the criteria in two runs whose prices agree on the in-sample window: the
same markets are chosen, and the same values are stored if the prices of the two cases
`OOS1_end - 1` and `OOS1_end` agree as well. -/
theorem criteria_pass_agree (sqrt : α → α) (cfg : Config α) (close2 : Int → Int → α)
    (c : Cursors) (m1 m2 : Store α) (hIS : 1 ≤ cfg.IS_n)
    (hwin : ∀ mkt i, 0 ≤ i → i < cfg.IS_n →
      close2 mkt (c.IS_start + i) = cfg.market_close mkt (c.IS_start + i))
    (hib : m2.ibest = m1.ibest) :
    (criteria_pass sqrt (cfg.with_prices close2) c m2).ibest
        = (criteria_pass sqrt cfg c m1).ibest ∧
      ((∀ mkt, close2 mkt c.OOS1_end = cfg.market_close mkt c.OOS1_end) →
        (∀ mkt, close2 mkt (c.OOS1_end - 1) = cfg.market_close mkt (c.OOS1_end - 1)) →
        m2.OOS1 = m1.OOS1 →
        (criteria_pass sqrt (cfg.with_prices close2) c m2).OOS1
          = (criteria_pass sqrt cfg c m1).OOS1) := by
  have hbm : ∀ which ib, best_market sqrt (cfg.with_prices close2) which c.IS_start ib
      = best_market sqrt cfg which c.IS_start ib :=
    fun which ib => best_market_congr sqrt cfg close2 which c.IS_start ib hIS hwin
  rw [criteria_pass_eq, criteria_pass_eq]
  simp only [criteria_body, hbm, hib]
  refine ⟨trivial, ?_⟩
  intro he he1 hO
  simp only [Config.with_prices, he, he1, hO]

/-- Proof rule for two runs of the main loop that differ in the price matrix only: they
make the same passes, so a relation between the two stores that every kind of pass
preserves holds when the loops are left. -/
theorem main_loop_rule2 (sqrt : α → α) (cfg : Config α) (close2 : Int → Int → α)
    (P Q : Cursors → Store α → Store α → Prop)
    (hdone : ∀ c m1 m2, P c m1 m2 → c.OOS1_end ≥ cfg.n_cases - 1 →
      Q c (criteria_pass sqrt cfg c m1) (criteria_pass sqrt (cfg.with_prices close2) c m2))
    (hfill : ∀ c m1 m2, P c m1 m2 → ¬ c.OOS1_end ≥ cfg.n_cases - 1 →
      (advance c).OOS1_end - (advance c).OOS1_start < cfg.OOS1_n →
      P (advance c) (criteria_pass sqrt cfg c m1)
        (criteria_pass sqrt (cfg.with_prices close2) c m2))
    (hsteady : ∀ c m1 m2, P c m1 m2 → ¬ c.OOS1_end ≥ cfg.n_cases - 1 →
      ¬ (advance c).OOS1_end - (advance c).OOS1_start < cfg.OOS1_n →
      P (finish_advance (advance c))
        (steady_store sqrt cfg (advance c) (criteria_pass sqrt cfg c m1))
        (steady_store sqrt (cfg.with_prices close2) (advance c)
          (criteria_pass sqrt (cfg.with_prices close2) c m2)))
    (c : Cursors) (m1 m2 : Store α) (h : P c m1 m2) :
    Q (main_loop sqrt cfg c m1).1 (main_loop sqrt cfg c m1).2
      (main_loop sqrt (cfg.with_prices close2) c m2).2 := by
  generalize hk : (cfg.n_cases - c.OOS1_end).toNat = k
  induction k using Nat.strong_induction_on generalizing c m1 m2 with
  | _ k ih =>
    by_cases hbrk : c.OOS1_end ≥ cfg.n_cases - 1
    · rw [main_loop_done sqrt cfg c _ m1 _ (loop_body_done_iff sqrt cfg c m1 hbrk),
        main_loop_done sqrt (cfg.with_prices close2) c _ m2 _
          (loop_body_done_iff sqrt (cfg.with_prices close2) c m2 hbrk)]
      exact hdone c m1 m2 h hbrk
    · by_cases hf : (advance c).OOS1_end - (advance c).OOS1_start < cfg.OOS1_n
      · rw [main_loop_again sqrt cfg c _ m1 _ (loop_body_filling sqrt cfg c m1 hbrk hf),
          main_loop_again sqrt (cfg.with_prices close2) c _ m2 _
            (loop_body_filling sqrt (cfg.with_prices close2) c m2 hbrk hf)]
        refine ih (cfg.n_cases - (advance c).OOS1_end).toNat ?_ (advance c) _ _
          (hfill c m1 m2 h hbrk hf) rfl
        have : (advance c).OOS1_end = c.OOS1_end + 1 := rfl
        omega
      · rw [main_loop_again sqrt cfg c _ m1 _ (loop_body_steady sqrt cfg c m1 hbrk hf),
          main_loop_again sqrt (cfg.with_prices close2) c _ m2 _
            (loop_body_steady sqrt (cfg.with_prices close2) c m2 hbrk hf)]
        refine ih (cfg.n_cases - (finish_advance (advance c)).OOS1_end).toNat ?_
          (finish_advance (advance c)) _ _ (hsteady c m1 m2 h hbrk hf) rfl
        have : (finish_advance (advance c)).OOS1_end = c.OOS1_end + 1 := rfl
        omega

theorem steady_store_oos2_choices (sqrt : α → α) (cfg : Config α) (c : Cursors) (m : Store α)
    (t : Int) :
    oos2_choices t (steady_store sqrt cfg c m).trace
      = oos2_choices t m.trace ++
        (if c.OOS2_end = t then
          [((steady_store sqrt cfg c m).ibestcrit, (steady_store sqrt cfg c m).ibest)]
        else []) := by
  rw [steady_store_trace, oos2_choices_append]
  simp only [oos2_choices]

theorem agree_criteria_pass (sqrt : α → α) (cfg : Config α) (close2 : Int → Int → α) (t : Int)
    (hIS : 1 ≤ cfg.IS_n)
    (hag : ∀ mkt d, d < t → close2 mkt d = cfg.market_close mkt d)
    (c : Cursors) (m1 m2 : Store α) (h : Agree cfg t c m1 m2) :
    oos2_choices t (criteria_pass sqrt (cfg.with_prices close2) c m2).trace
        = oos2_choices t (criteria_pass sqrt cfg c m1).trace ∧
      (c.OOS1_end ≤ t →
        (criteria_pass sqrt (cfg.with_prices close2) c m2).ibest
          = (criteria_pass sqrt cfg c m1).ibest ∧
        (criteria_pass sqrt (cfg.with_prices close2) c m2).ibestcrit
          = (criteria_pass sqrt cfg c m1).ibestcrit) ∧
      (c.OOS1_end < t →
        (criteria_pass sqrt (cfg.with_prices close2) c m2).OOS1
          = (criteria_pass sqrt cfg c m1).OOS1) := by
  obtain ⟨⟨t1, t2, t3, t4⟩, hch, hearly⟩ := h
  refine ⟨by rw [criteria_pass_oos2_choices, criteria_pass_oos2_choices, hch], ?_, ?_⟩
  · intro hle
    obtain ⟨hib, hic, _⟩ := hearly hle
    refine ⟨(criteria_pass_agree sqrt cfg close2 c m1 m2 hIS
      (fun mkt i _ hi1 => hag mkt _ (by omega)) hib).1, ?_⟩
    rw [criteria_pass_ibestcrit, criteria_pass_ibestcrit, hic]
  · intro hlt
    obtain ⟨hib, _, hO⟩ := hearly (le_of_lt hlt)
    exact (criteria_pass_agree sqrt cfg close2 c m1 m2 hIS
      (fun mkt i _ hi1 => hag mkt _ (by omega)) hib).2
      (fun mkt => hag mkt _ hlt) (fun mkt => hag mkt _ (by omega)) hO

theorem steady_store_agree (sqrt : α → α) (cfg : Config α) (close2 : Int → Int → α) (t : Int)
    (hIS : 1 ≤ cfg.IS_n)
    (hag : ∀ mkt d, d < t → close2 mkt d = cfg.market_close mkt d)
    (c : Cursors) (m1 m2 : Store α) (hle : c.OOS2_end ≤ t) (hib : m2.ibest = m1.ibest)
    (hic : m2.ibestcrit = m1.ibestcrit) (hO : m2.OOS1 = m1.OOS1) :
    (steady_store sqrt (cfg.with_prices close2) c m2).ibestcrit
        = (steady_store sqrt cfg c m1).ibestcrit ∧
      (steady_store sqrt (cfg.with_prices close2) c m2).ibest
        = (steady_store sqrt cfg c m1).ibest ∧
      (steady_store sqrt (cfg.with_prices close2) c m2).OOS1
        = (steady_store sqrt cfg c m1).OOS1 := by
  have hbc := best_criterion_congr cfg close2 c m1 m2 hO hic
  have hbm : ∀ which ib,
      best_market sqrt (cfg.with_prices close2) which (c.OOS2_end - cfg.IS_n) ib
        = best_market sqrt cfg which (c.OOS2_end - cfg.IS_n) ib :=
    fun which ib => best_market_congr sqrt cfg close2 which _ ib hIS
      (fun mkt i _ hi1 => hag mkt _ (by omega))
  refine ⟨?_, ?_, hO⟩
  · show (best_criterion (cfg.with_prices close2) c m2).2 = (best_criterion cfg c m1).2
    rw [hbc]
  · show (best_market sqrt (cfg.with_prices close2)
        (best_criterion (cfg.with_prices close2) c m2).2 (c.OOS2_end - cfg.IS_n) m2.ibest).2
      = (best_market sqrt cfg (best_criterion cfg c m1).2 (c.OOS2_end - cfg.IS_n) m1.ibest).2
    rw [hbc, hbm, hib]

omit [LinearOrderedField α] in
theorem agree_init (cfg : Config α) (t : Int) (g : Store α) (h1 : 1 ≤ cfg.OOS1_n) :
    Agree cfg t (init_cursors cfg) (init_store g) (init_store g) :=
  ⟨topInv_init cfg h1, rfl, fun _ => ⟨rfl, rfl, rfl⟩⟩

theorem agree_fill (sqrt : α → α) (cfg : Config α) (close2 : Int → Int → α) (t : Int)
    (hIS : 1 ≤ cfg.IS_n)
    (hag : ∀ mkt d, d < t → close2 mkt d = cfg.market_close mkt d)
    (c : Cursors) (m1 m2 : Store α) (h : Agree cfg t c m1 m2)
    (hbrk : ¬ c.OOS1_end ≥ cfg.n_cases - 1)
    (hf : (advance c).OOS1_end - (advance c).OOS1_start < cfg.OOS1_n) :
    Agree cfg t (advance c) (criteria_pass sqrt cfg c m1)
      (criteria_pass sqrt (cfg.with_prices close2) c m2) := by
  obtain ⟨hch, hle, hlt⟩ := agree_criteria_pass sqrt cfg close2 t hIS hag c m1 m2 h
  refine ⟨topInv_again sqrt cfg c _ m1 _ h.top (loop_body_filling sqrt cfg c m1 hbrk hf),
    hch, ?_⟩
  intro he
  have he1 : c.OOS1_end + 1 ≤ t := he
  exact ⟨(hle (by omega)).1, (hle (by omega)).2, hlt (by omega)⟩

theorem agree_steady (sqrt : α → α) (cfg : Config α) (close2 : Int → Int → α) (t : Int)
    (hIS : 1 ≤ cfg.IS_n)
    (hag : ∀ mkt d, d < t → close2 mkt d = cfg.market_close mkt d)
    (c : Cursors) (m1 m2 : Store α) (h : Agree cfg t c m1 m2)
    (hbrk : ¬ c.OOS1_end ≥ cfg.n_cases - 1)
    (hf : ¬ (advance c).OOS1_end - (advance c).OOS1_start < cfg.OOS1_n) :
    Agree cfg t (finish_advance (advance c))
      (steady_store sqrt cfg (advance c) (criteria_pass sqrt cfg c m1))
      (steady_store sqrt (cfg.with_prices close2) (advance c)
        (criteria_pass sqrt (cfg.with_prices close2) c m2)) := by
  obtain ⟨hch, hle, hlt⟩ := agree_criteria_pass sqrt cfg close2 t hIS hag c m1 m2 h
  have htop := h.top
  have h2 : (advance c).OOS2_end = c.OOS1_end + 1 := by
    obtain ⟨t1, t2, t3, t4⟩ := htop
    have hf1 : ¬ (c.OOS1_end + 1 - c.OOS1_start < cfg.OOS1_n) := hf
    show c.OOS2_end = c.OOS1_end + 1
    omega
  have key : c.OOS1_end + 1 ≤ t →
      (steady_store sqrt (cfg.with_prices close2) (advance c)
          (criteria_pass sqrt (cfg.with_prices close2) c m2)).ibestcrit
        = (steady_store sqrt cfg (advance c) (criteria_pass sqrt cfg c m1)).ibestcrit ∧
      (steady_store sqrt (cfg.with_prices close2) (advance c)
          (criteria_pass sqrt (cfg.with_prices close2) c m2)).ibest
        = (steady_store sqrt cfg (advance c) (criteria_pass sqrt cfg c m1)).ibest ∧
      (steady_store sqrt (cfg.with_prices close2) (advance c)
          (criteria_pass sqrt (cfg.with_prices close2) c m2)).OOS1
        = (steady_store sqrt cfg (advance c) (criteria_pass sqrt cfg c m1)).OOS1 :=
    fun he => steady_store_agree sqrt cfg close2 t hIS hag (advance c) _ _ (by omega)
      (hle (by omega)).1 (hle (by omega)).2 (hlt (by omega))
  refine ⟨topInv_again sqrt cfg c _ m1 _ htop (loop_body_steady sqrt cfg c m1 hbrk hf), ?_, ?_⟩
  · rw [steady_store_oos2_choices, steady_store_oos2_choices, hch]
    by_cases hd : (advance c).OOS2_end = t
    · obtain ⟨k1, k2, _⟩ := key (by omega)
      rw [k1, k2]
    · simp only [if_neg hd]
  · intro he
    have he1 : c.OOS1_end + 1 ≤ t := he
    obtain ⟨k1, k2, k3⟩ := key he1
    exact ⟨k2, k1, k3⟩

/-- Two runs whose prices agree on the cases before `t` record the same choices for
`OOS2[t]`. -/
theorem walk_forward_choices_agree (sqrt : α → α) (cfg : Config α) (close2 : Int → Int → α)
    (g : Store α) (t : Int) (hIS : 1 ≤ cfg.IS_n) (h1 : 1 ≤ cfg.OOS1_n)
    (hag : ∀ mkt d, d < t → close2 mkt d = cfg.market_close mkt d) :
    oos2_choices t (walk_forward sqrt (cfg.with_prices close2) g).2.trace
      = oos2_choices t (walk_forward sqrt cfg g).2.trace :=
  main_loop_rule2 sqrt cfg close2 (Agree cfg t)
    (fun _ m1 m2 => oos2_choices t m2.trace = oos2_choices t m1.trace)
    (fun c m1 m2 h _ => (agree_criteria_pass sqrt cfg close2 t hIS hag c m1 m2 h).1)
    (agree_fill sqrt cfg close2 t hIS hag)
    (agree_steady sqrt cfg close2 t hIS hag)
    (init_cursors cfg) (init_store g) (init_store g) (agree_init cfg t g h1)

theorem oos2_choices_length (t : Int) (tr : List Event) :
    (oos2_choices t tr).length = (oos2_days tr).count t := by
  induction tr with
  | nil => rfl
  | cons e es ih =>
    cases e with
    | oos1 ic d ib => simpa [oos2_choices, oos2_days] using ih
    | oos2 d cr ib =>
      by_cases h : d = t
      · simp [oos2_choices, oos2_days, h, ih]
      · simp [oos2_choices, oos2_days, h, ih, List.count_cons_of_ne (Ne.symm h)]

theorem recordsOOS2_criteria_pass (sqrt : α → α) (cfg : Config α) (c c1 : Cursors)
    (m : Store α) (h : RecordsOOS2 cfg c m) (hc : c1.OOS2_end = c.OOS2_end) :
    RecordsOOS2 cfg c1 (criteria_pass sqrt cfg c m) := by
  intro d cr b hmem
  rw [criteria_pass_oos2_choices] at hmem
  rw [criteria_pass_OOS2, hc]
  exact h d cr b hmem

theorem recordsOOS2_steady (sqrt : α → α) (cfg : Config α) (c : Cursors) (m : Store α)
    (h : RecordsOOS2 cfg c m) :
    RecordsOOS2 cfg (finish_advance c) (steady_store sqrt cfg c m) := by
  intro d cr b hmem
  rw [steady_store_oos2_choices, List.mem_append] at hmem
  show d < c.OOS2_end + 1 ∧
    Function.update m.OOS2 c.OOS2_end
        (cfg.market_close (steady_store sqrt cfg c m).ibest c.OOS2_end
          - cfg.market_close (steady_store sqrt cfg c m).ibest (c.OOS2_end - 1)) d
      = cfg.market_close b d - cfg.market_close b (d - 1)
  rcases hmem with hold | hnew
  · obtain ⟨hd, hv⟩ := h d cr b hold
    refine ⟨by omega, ?_⟩
    rw [Function.update_noteq (by omega)]
    exact hv
  · by_cases hd : c.OOS2_end = d
    · rw [if_pos hd, List.mem_singleton, Prod.mk.injEq] at hnew
      obtain ⟨_, hb⟩ := hnew
      subst hd
      rw [Function.update_same, hb]
      exact ⟨by omega, rfl⟩
    · rw [if_neg hd] at hnew
      cases hnew

theorem recordsOOS2_final (sqrt : α → α) (cfg : Config α) (g : Store α) :
    ∀ d cr b, (cr, b) ∈ oos2_choices d (walk_forward sqrt cfg g).2.trace →
      (walk_forward sqrt cfg g).2.OOS2 d = cfg.market_close b d - cfg.market_close b (d - 1) := by
  refine main_loop_rule sqrt cfg (RecordsOOS2 cfg)
    (fun _ m1 => ∀ d cr b, (cr, b) ∈ oos2_choices d m1.trace →
      m1.OOS2 d = cfg.market_close b d - cfg.market_close b (d - 1))
    ?_ ?_ (init_cursors cfg) (init_store g) ?_
  · intro c m c1 m1 hP hb d cr b hmem
    by_cases hbrk : c.OOS1_end ≥ cfg.n_cases - 1
    · rw [loop_body_done_iff sqrt cfg c m hbrk] at hb
      cases hb
      exact (recordsOOS2_criteria_pass sqrt cfg c c m hP rfl d cr b hmem).2
    · simp only [loop_body, if_neg hbrk] at hb
      split at hb <;> cases hb
  · intro c m c1 m1 hP hb
    by_cases hbrk : c.OOS1_end ≥ cfg.n_cases - 1
    · rw [loop_body_done_iff sqrt cfg c m hbrk] at hb
      cases hb
    · by_cases hf : (advance c).OOS1_end - (advance c).OOS1_start < cfg.OOS1_n
      · rw [loop_body_filling sqrt cfg c m hbrk hf] at hb
        cases hb
        exact recordsOOS2_criteria_pass sqrt cfg c (advance c) m hP rfl
      · rw [loop_body_steady sqrt cfg c m hbrk hf] at hb
        cases hb
        exact recordsOOS2_steady sqrt cfg (advance c) _
          (recordsOOS2_criteria_pass sqrt cfg c (advance c) m hP rfl)
  · intro d cr b hmem
    cases hmem

/-- C6: let two price matrices of the same dimensions agree on every case before `t`, where
`IS_n + OOS1_n ≤ t < n_cases`, and run the walk-forward loop on each with the same `IS_n ≥ 2`
and `OOS1_n ≥ 1` (and the same indeterminate initial contents).  Each run makes exactly one
choice for `OOS2[t]`, the two runs choose the same criterion and the same market, and in
each run `OOS2[t]` is the step of that market's own prices from case `t - 1` to case `t`. -/
theorem no_look_ahead (sqrt : α → α) (cfg : Config α) (close2 : Int → Int → α) (g : Store α)
    (t : Int) (hIS : 2 ≤ cfg.IS_n) (h1 : 1 ≤ cfg.OOS1_n) (ht : cfg.IS_n + cfg.OOS1_n ≤ t)
    (htn : t < cfg.n_cases)
    (hag : ∀ mkt d, d < t → close2 mkt d = cfg.market_close mkt d) :
    ∃ ibestcrit ibest,
      oos2_choices t (walk_forward sqrt cfg g).2.trace = [(ibestcrit, ibest)] ∧
      oos2_choices t (walk_forward sqrt (cfg.with_prices close2) g).2.trace
        = [(ibestcrit, ibest)] ∧
      (walk_forward sqrt cfg g).2.OOS2 t
        = cfg.market_close ibest t - cfg.market_close ibest (t - 1) ∧
      (walk_forward sqrt (cfg.with_prices close2) g).2.OOS2 t
        = close2 ibest t - close2 ibest (t - 1) := by
  have hdays := (walk_forward_final sqrt cfg g h1 (by omega)).2.2.1
  have hlen : (oos2_choices t (walk_forward sqrt cfg g).2.trace).length = 1 := by
    rw [oos2_choices_length, hdays]
    exact List.count_eq_one_of_mem (intRange_nodup _ _)
      ((mem_intRange _ _ _).mpr ⟨ht, htn⟩)
  obtain ⟨⟨cr, b⟩, hx⟩ := List.length_eq_one.mp hlen
  have h2 := walk_forward_choices_agree sqrt cfg close2 g t (by omega) h1 hag
  refine ⟨cr, b, hx, by rw [h2, hx], ?_, ?_⟩
  · exact recordsOOS2_final sqrt cfg g t cr b (by rw [hx]; exact List.mem_singleton_self _)
  · exact recordsOOS2_final sqrt (cfg.with_prices close2) g t cr b
      (by rw [h2, hx]; exact List.mem_singleton_self _)

/-- C6 at `t = 4` for the all-zero matrix of six cases and the matrix that jumps to one at
case `4`, with `IS_n = 2` and `OOS1_n = 2`. -/
theorem no_look_ahead_witness :
    (2 ≤ sixCases.IS_n ∧ 1 ≤ sixCases.OOS1_n ∧ sixCases.IS_n + sixCases.OOS1_n ≤ 4 ∧
      4 < sixCases.n_cases ∧
      ∀ mkt d, d < 4 → lateJump mkt d = sixCases.market_close mkt d) ∧
    ∃ ibestcrit ibest,
      oos2_choices 4 (walk_forward Real.sqrt sixCases zeroStore).2.trace
        = [(ibestcrit, ibest)] ∧
      oos2_choices 4 (walk_forward Real.sqrt (sixCases.with_prices lateJump) zeroStore).2.trace
        = [(ibestcrit, ibest)] ∧
      (walk_forward Real.sqrt sixCases zeroStore).2.OOS2 4
        = sixCases.market_close ibest 4 - sixCases.market_close ibest (4 - 1) ∧
      (walk_forward Real.sqrt (sixCases.with_prices lateJump) zeroStore).2.OOS2 4
        = lateJump ibest 4 - lateJump ibest (4 - 1) :=
  ⟨⟨by decide, by decide, by decide, by decide,
      fun mkt d hd => by simp [lateJump, sixCases, hd]⟩,
    no_look_ahead Real.sqrt sixCases lateJump zeroStore 4 (by decide) (by decide) (by decide)
      (by decide) (fun mkt d hd => by simp [lateJump, sixCases, hd])⟩

end NoLookAhead

/-! ## Drawdown of rising paths and of shifted inputs -/

section DrawdownShift

variable {α : Type} [LinearOrderedField α]

theorem drawdown_loop_nonneg (n : Int) (trades : Int → α) (hn : 1 ≤ n)
    (h : ∀ i, 1 ≤ i → i < n → 0 ≤ trades i) :
    (drawdown_loop n trades).dd = 0 ∧
      (drawdown_loop n trades).max_price = (drawdown_loop n trades).cumulative := by
  unfold drawdown_loop
  refine forLoop_invariant 1 n (drawdown_body trades) _
    (fun _ s => s.dd = 0 ∧ s.max_price = s.cumulative) hn ⟨rfl, rfl⟩ ?_
  rintro i st hi1 hi2 ⟨hdd, hmax⟩
  have ht := h i hi1 hi2
  unfold drawdown_body
  simp only
  by_cases h1 : st.cumulative + trades i > st.max_price
  · rw [if_pos h1]
    exact ⟨hdd, rfl⟩
  · rw [if_neg h1]
    have heq : st.cumulative + trades i = st.max_price := by
      have hle : st.cumulative + trades i ≤ st.max_price := not_lt.mp h1
      rw [hmax] at hle ⊢
      linarith
    have h2 : ¬ st.max_price - (st.cumulative + trades i) > st.dd := by
      rw [heq, hdd]
      simp
    rw [if_neg h2]
    exact ⟨hdd, heq.symm⟩

/-- C11: over the reals, for `n ≥ 1` and an input whose elements after the first are all
`≥ 0` (a non-decreasing cumulative path) `drawdown` returns exactly `0`; in particular
`drawdown(1, [x]) = 0` whatever `x` is. -/
theorem drawdown_zero_of_nondecreasing (n : Int) (trades : Int → ℝ) (hn : 1 ≤ n)
    (h : ∀ i, 1 ≤ i → i < n → 0 ≤ trades i) :
    drawdown_dd n trades = 0 ∧ drawdown Real.exp n trades = 0 ∧
      ∀ single : Int → ℝ, drawdown Real.exp 1 single = 0 := by
  have key : ∀ (k : Int) (t : Int → ℝ), 1 ≤ k → (∀ i, 1 ≤ i → i < k → 0 ≤ t i) →
      drawdown_dd k t = 0 ∧ drawdown Real.exp k t = 0 := by
    intro k t hk ht
    have hdd : drawdown_dd k t = 0 := (drawdown_loop_nonneg k t hk ht).1
    refine ⟨hdd, ?_⟩
    unfold drawdown
    rw [hdd]
    simp
  exact ⟨(key n trades hn h).1, (key n trades hn h).2,
    fun single => (key 1 single (le_refl _) (fun i h1 h2 => by omega)).2⟩

/-- C11 on the three-element input `[5, 0, 2]`. -/
theorem drawdown_zero_of_nondecreasing_witness :
    ((1 : Int) ≤ 3 ∧
      ∀ i : Int, 1 ≤ i → i < 3 →
        (0 : ℝ) ≤ (fun j : Int => if j = 0 then (5 : ℝ) else if j = 1 then 0 else 2) i) ∧
    drawdown Real.exp 3 (fun j : Int => if j = 0 then (5 : ℝ) else if j = 1 then 0 else 2)
      = 0 :=
  ⟨⟨by decide, fun i h1 h2 => by
      have hi : i = 1 ∨ i = 2 := by omega
      rcases hi with rfl | rfl <;> norm_num⟩,
    (drawdown_zero_of_nondecreasing 3 _ (by decide) (fun i h1 h2 => by
      have hi : i = 1 ∨ i = 2 := by omega
      rcases hi with rfl | rfl <;> norm_num)).2.1⟩

/-- A map of loop states that commutes with the loop bodies commutes with the loops. -/
theorem forLoop_map {σ τ : Type} (lo hi : Int) (f : Int → σ → σ) (g : Int → τ → τ)
    (F : σ → τ) (s : σ) (h : ∀ i, lo ≤ i → i < hi → ∀ st, g i (F st) = F (f i st)) :
    forLoop lo hi g (F s) = F (forLoop lo hi f s) := by
  rcases le_or_lt hi lo with hle | hlt
  · rw [forLoop_empty _ _ _ _ hle, forLoop_empty _ _ _ _ hle]
  · exact forLoop_invariant lo hi g (F s) (fun k st => st = F (forLoop lo k f s)) (le_of_lt hlt)
      (by
        show F s = F (forLoop lo lo f s)
        rw [forLoop_empty _ _ _ _ (le_refl _)])
      (fun i st hi1 hi2 hst => by
        show g i st = F (forLoop lo (i + 1) f s)
        have hst1 : st = F (forLoop lo i f s) := hst
        rw [forLoop_succ _ _ _ _ hi1, hst1]
        exact h i hi1 hi2 _)

/-- The loop of `drawdown` on two inputs that agree after the first element: the running
sum and the running maximum differ by the difference of the first elements, `dd` is the
same. -/
theorem drawdown_loop_head (n : Int) (t1 t2 : Int → α) (h : ∀ i, 1 ≤ i → t2 i = t1 i) :
    drawdown_loop n t2
      = { cumulative := (drawdown_loop n t1).cumulative + (t2 0 - t1 0)
          max_price := (drawdown_loop n t1).max_price + (t2 0 - t1 0)
          dd := (drawdown_loop n t1).dd } := by
  unfold drawdown_loop
  have hinit : ({ cumulative := t2 0, max_price := t2 0, dd := 0 } : DDState α)
      = (fun s : DDState α =>
          ({ cumulative := s.cumulative + (t2 0 - t1 0)
             max_price := s.max_price + (t2 0 - t1 0)
             dd := s.dd } : DDState α))
        { cumulative := t1 0, max_price := t1 0, dd := 0 } := by
    simp
  rw [hinit]
  refine forLoop_map 1 n (drawdown_body t1) (drawdown_body t2)
    (fun s : DDState α =>
      ({ cumulative := s.cumulative + (t2 0 - t1 0)
         max_price := s.max_price + (t2 0 - t1 0)
         dd := s.dd } : DDState α))
    { cumulative := t1 0, max_price := t1 0, dd := 0 } ?_
  intro i hi1 _ st
  unfold drawdown_body
  simp only [h i hi1]
  have e1 : st.cumulative + (t2 0 - t1 0) + t1 i = st.cumulative + t1 i + (t2 0 - t1 0) := by
    ring
  have e2 : st.max_price + (t2 0 - t1 0) - (st.cumulative + t1 i + (t2 0 - t1 0))
      = st.max_price - (st.cumulative + t1 i) := by ring
  rw [e1, e2]
  by_cases h1 : st.cumulative + t1 i > st.max_price
  · have h1' : st.cumulative + t1 i + (t2 0 - t1 0) > st.max_price + (t2 0 - t1 0) := by
      linarith
    rw [if_pos h1, if_pos h1']
  · have h1' : ¬ st.cumulative + t1 i + (t2 0 - t1 0) > st.max_price + (t2 0 - t1 0) := by
      intro hc
      exact h1 (by linarith)
    rw [if_neg h1, if_neg h1']
    by_cases h2 : st.max_price - (st.cumulative + t1 i) > st.dd
    · rw [if_pos h2, if_pos h2]
    · rw [if_neg h2, if_neg h2]

theorem drawdown_dd_head (n : Int) (t1 t2 : Int → α) (h : ∀ i, 1 ≤ i → t2 i = t1 i) :
    drawdown_dd n t2 = drawdown_dd n t1 := by
  unfold drawdown_dd
  rw [drawdown_loop_head n t1 t2 h]

theorem drawdown_dd_downStep : drawdown_dd 2 (downStep : Int → α) = 1 := by
  have h1 : ((2 : Int) - 1).toNat = 1 := by decide
  simp only [drawdown_dd, drawdown_loop, forLoop, h1, List.range_succ, List.range_zero,
    List.nil_append, List.foldl_cons, List.foldl_nil, drawdown_body, downStep]
  norm_num

theorem drawdown_dd_shift_tail_downStep :
    drawdown_dd 2 (shift_tail 1 (downStep : Int → α)) = 0 := by
  have h1 : ((2 : Int) - 1).toNat = 1 := by decide
  simp only [drawdown_dd, drawdown_loop, forLoop, h1, List.range_succ, List.range_zero,
    List.nil_append, List.foldl_cons, List.foldl_nil, drawdown_body, downStep, shift_tail]
  norm_num

/-- C12 as stated fails: adding `1` to the element after the first of `[0, -1]` gives
`[0, 0]`, whose drawdown is `0`, while the drawdown of `[0, -1]` is `100 * (1 - exp (-1))`,
which is not `0`. -/
theorem drawdown_shift_tail_changes :
    drawdown Real.exp 2 (shift_tail 1 downStep) = 0 ∧
      drawdown Real.exp 2 downStep = 100 * (1 - Real.exp (-1)) ∧
      drawdown Real.exp 2 (shift_tail 1 downStep) ≠ drawdown Real.exp 2 downStep := by
  have ha : drawdown Real.exp 2 (shift_tail 1 downStep) = 0 := by
    unfold drawdown
    rw [drawdown_dd_shift_tail_downStep]
    simp
  have hb : drawdown Real.exp 2 downStep = 100 * (1 - Real.exp (-1)) := by
    unfold drawdown
    rw [drawdown_dd_downStep]
  refine ⟨ha, hb, ?_⟩
  rw [ha, hb]
  have hlt : Real.exp (-1) < 1 := by
    rw [Real.exp_lt_one_iff]
    norm_num
  intro h0
  linarith

/-- C12, amended: in exact real arithmetic, adding a constant `c` to the first element of the
input, which moves the whole cumulative path by `c`, leaves `drawdown(n, trades)` unchanged.
The statement is about the exact model `drawdown_body` only: in `double` the moved path is
rounded, and `drawdown(2, [1e17, -1])` is `0` while `drawdown(2, [0, -1])` is `63.2...`
(`drawdown_dd_fl_hugeStart`, `drawdown_dd_fl_downStep`). -/
theorem drawdown_shift_head (exp : α → α) (n : Int) (trades : Int → α) (c : α) :
    drawdown_dd n (shift_head c trades) = drawdown_dd n trades ∧
      drawdown exp n (shift_head c trades) = drawdown exp n trades := by
  have h : drawdown_dd n (shift_head c trades) = drawdown_dd n trades :=
    drawdown_dd_head n trades (shift_head c trades) (fun i hi => by
      have : ¬ i = 0 := by omega
      simp [shift_head, this])
  refine ⟨h, ?_⟩
  unfold drawdown
  rw [h]

end DrawdownShift

/-! ## The criteria -/

section CriteriaThms

variable {α : Type} [LinearOrderedField α]

theorem sharpe_ratio_eq (sqrt : α → α) (n : Int) (prices : Int → α) :
    sharpe_ratio sqrt n prices
      = (prices (n - 1) - prices 0) / ((n : α) - 1)
        / sqrt (sharpe_ratio_var n prices / (((n - 1 : Int)) : α)) := rfl

theorem profit_factor_eq (n : Int) (prices : Int → α) :
    profit_factor n prices = (profit_factor_sums n prices).1 / (profit_factor_sums n prices).2 :=
  rfl

theorem tiny_pos : (0 : α) < 1 / 10 ^ 60 := by positivity

theorem sharpe_ratio_var_ge (n : Int) (prices : Int → α) :
    (1 / 10 ^ 60 : α) ≤ sharpe_ratio_var n prices := by
  unfold sharpe_ratio_var
  rcases le_or_lt n 1 with hle | hlt
  · rw [forLoop_empty _ _ _ _ hle]
  · refine forLoop_invariant 1 n _ _ (fun _ var => (1 / 10 ^ 60 : α) ≤ var) (le_of_lt hlt)
      (le_refl _) ?_
    intro i st _ _ hst
    have hsq := mul_self_nonneg
      ((prices i - prices (i - 1)) - (prices (n - 1) - prices 0) / ((n : α) - 1))
    have hst1 : (1 / 10 ^ 60 : α) ≤ st := hst
    show (1 / 10 ^ 60 : α) ≤ st
      + ((prices i - prices (i - 1)) - (prices (n - 1) - prices 0) / ((n : α) - 1))
        * ((prices i - prices (i - 1)) - (prices (n - 1) - prices 0) / ((n : α) - 1))
    linarith

theorem profit_factor_sums_ge (n : Int) (prices : Int → α) :
    (1 / 10 ^ 60 : α) ≤ (profit_factor_sums n prices).1 ∧
      (1 / 10 ^ 60 : α) ≤ (profit_factor_sums n prices).2 := by
  unfold profit_factor_sums
  rcases le_or_lt n 1 with hle | hlt
  · rw [forLoop_empty _ _ _ _ hle]
    exact ⟨le_refl _, le_refl _⟩
  · refine forLoop_invariant 1 n _ _
      (fun _ (ws : α × α) => (1 / 10 ^ 60 : α) ≤ ws.1 ∧ (1 / 10 ^ 60 : α) ≤ ws.2)
      (le_of_lt hlt) ⟨le_refl _, le_refl _⟩ ?_
    rintro i st _ _ ⟨h1, h2⟩
    by_cases hr : prices i - prices (i - 1) > 0
    · simp only [if_pos hr]
      exact ⟨by linarith, h2⟩
    · simp only [if_neg hr]
      have hr' : prices i - prices (i - 1) ≤ 0 := not_lt.mp hr
      exact ⟨h1, by linarith⟩

/-- C17: over the reals, for a window of length `n ≥ 2`, the divisor
`sqrt (var / (n - 1))` of `sharpe_ratio` and the divisor `lose_sum` of `profit_factor` are
strictly positive (`var ≥ 1e-60` and `lose_sum ≥ 1e-60` whatever the steps are). -/
theorem criteria_divisors_pos (n : Int) (prices : Int → ℝ) (hn : 2 ≤ n) :
    (sharpe_ratio Real.sqrt n prices
        = (prices (n - 1) - prices 0) / ((n : ℝ) - 1)
          / Real.sqrt (sharpe_ratio_var n prices / (((n - 1 : Int)) : ℝ)) ∧
      1 / 10 ^ 60 ≤ sharpe_ratio_var n prices ∧
      0 < Real.sqrt (sharpe_ratio_var n prices / (((n - 1 : Int)) : ℝ))) ∧
    (profit_factor n prices
        = (profit_factor_sums n prices).1 / (profit_factor_sums n prices).2 ∧
      1 / 10 ^ 60 ≤ (profit_factor_sums n prices).2 ∧
      0 < (profit_factor_sums n prices).2) := by
  have hv := sharpe_ratio_var_ge n prices
  have hs := (profit_factor_sums_ge n prices).2
  have ht : (0 : ℝ) < 1 / 10 ^ 60 := tiny_pos
  have hn1 : (0 : ℝ) < (((n - 1 : Int)) : ℝ) := by exact_mod_cast (by omega : (0 : Int) < n - 1)
  refine ⟨⟨rfl, hv, ?_⟩, rfl, hs, lt_of_lt_of_le ht hs⟩
  exact Real.sqrt_pos.mpr (div_pos (lt_of_lt_of_le ht hv) hn1)

/-- C17 on the constant window `[0, 0]`, whose steps are all identical. -/
theorem criteria_divisors_pos_witness :
    (2 : Int) ≤ 2 ∧
    0 < Real.sqrt (sharpe_ratio_var 2 (fun _ => (0 : ℝ)) / (((2 - 1 : Int)) : ℝ)) ∧
    0 < (profit_factor_sums 2 (fun _ => (0 : ℝ))).2 :=
  ⟨le_refl _, (criteria_divisors_pos 2 (fun _ => (0 : ℝ)) (le_refl _)).1.2.2,
    (criteria_divisors_pos 2 (fun _ => (0 : ℝ)) (le_refl _)).2.2.2⟩

/-- An accumulation loop `acc += f i` computes `acc + ∑ f i`. -/
theorem forLoop_add_eq_sum (lo hi : Int) (f : Int → α) (a : α) :
    forLoop lo hi (fun i (acc : α) => acc + f i) a = a + ∑ i in Finset.Ico lo hi, f i := by
  rcases le_or_lt hi lo with hle | hlt
  · rw [forLoop_empty _ _ _ _ hle, Finset.Ico_eq_empty (by omega), Finset.sum_empty, add_zero]
  · refine forLoop_invariant lo hi _ a
      (fun k acc => acc = a + ∑ i in Finset.Ico lo k, f i) (le_of_lt hlt) ?_ ?_
    · simp
    · intro i st hi1 _ hst
      show st + f i = a + ∑ j in Finset.Ico lo (i + 1), f j
      have hst1 : st = a + ∑ j in Finset.Ico lo i, f j := hst
      have hins : Finset.Ico lo (i + 1) = insert i (Finset.Ico lo i) := by
        ext x
        simp only [Finset.mem_Ico, Finset.mem_insert]
        omega
      rw [hins, Finset.sum_insert (by simp), hst1]
      ring

/-- The single-step differences of a window sum to its total change. -/
theorem sum_steps_telescope (prices : Int → α) (n : Int) (hn : 1 ≤ n) :
    ∑ i in Finset.Ico 1 n, (prices i - prices (i - 1)) = prices (n - 1) - prices 0 := by
  refine Int.le_induction
    (P := fun n => ∑ i in Finset.Ico 1 n, (prices i - prices (i - 1)) = prices (n - 1) - prices 0)
    ?_ ?_ n hn
  · simp
  · intro k hk ih
    have hins : Finset.Ico 1 (k + 1) = insert k (Finset.Ico 1 k) := by
      ext x
      simp only [Finset.mem_Ico, Finset.mem_insert]
      omega
    show ∑ i in Finset.Ico 1 (k + 1), (prices i - prices (i - 1))
      = prices (k + 1 - 1) - prices 0
    have ih1 : ∑ i in Finset.Ico 1 k, (prices i - prices (i - 1)) = prices (k - 1) - prices 0 :=
      ih
    rw [hins, Finset.sum_insert (by simp), ih1, add_sub_cancel_right]
    ring

/-- C18: for a window of length `n ≥ 2`, with `d i = prices[i] - prices[i-1]` the `n - 1`
single-step differences and `m` their arithmetic mean, the shortcut
`(prices[n-1] - prices[0]) / (n - 1)` of the code equals `m` and `sharpe_ratio` returns
`m / sqrt ((1e-60 + ∑ (d i - m)^2) / (n - 1))`. -/
theorem sharpe_ratio_formula (sqrt : α → α) (n : Int) (prices : Int → α) (hn : 2 ≤ n) :
    (prices (n - 1) - prices 0) / ((n : α) - 1)
        = (∑ i in Finset.Ico 1 n, (prices i - prices (i - 1))) / ((n : α) - 1) ∧
      sharpe_ratio sqrt n prices
        = (∑ i in Finset.Ico 1 n, (prices i - prices (i - 1))) / ((n : α) - 1)
          / sqrt ((1 / 10 ^ 60
              + ∑ i in Finset.Ico 1 n,
                  ((prices i - prices (i - 1))
                    - (∑ j in Finset.Ico 1 n, (prices j - prices (j - 1))) / ((n : α) - 1)) ^ 2)
            / ((n : α) - 1)) := by
  have htel := sum_steps_telescope prices n (by omega)
  refine ⟨by rw [htel], ?_⟩
  rw [sharpe_ratio_eq, htel]
  have hvar : sharpe_ratio_var n prices
      = 1 / 10 ^ 60 + ∑ i in Finset.Ico 1 n,
          ((prices i - prices (i - 1)) - (prices (n - 1) - prices 0) / ((n : α) - 1)) ^ 2 := by
    unfold sharpe_ratio_var
    have := forLoop_add_eq_sum 1 n
      (fun i => ((prices i - prices (i - 1)) - (prices (n - 1) - prices 0) / ((n : α) - 1))
        * ((prices i - prices (i - 1)) - (prices (n - 1) - prices 0) / ((n : α) - 1)))
      (1 / 10 ^ 60 : α)
    rw [this]
    congr 1
    refine Finset.sum_congr rfl (fun i _ => ?_)
    ring
  have hcast : (((n - 1 : Int)) : α) = (n : α) - 1 := by push_cast; ring
  rw [hvar, hcast]

/-- C18 on the window `[0, 1, 3]`. -/
theorem sharpe_ratio_formula_witness :
    (2 : Int) ≤ 3 ∧
    ((risingWindow (3 - 1) : ℝ) - risingWindow 0) / (((3 : Int) : ℝ) - 1)
      = (∑ i in Finset.Ico (1 : Int) 3, ((risingWindow i : ℝ) - risingWindow (i - 1)))
        / (((3 : Int) : ℝ) - 1) :=
  ⟨by decide, (sharpe_ratio_formula Real.sqrt 3 risingWindow (by decide)).1⟩

theorem criterion_unknown (sqrt : α → α) (which n : Int) (prices : Int → α)
    (h : which ≠ 0 ∧ which ≠ 1 ∧ which ≠ 2) : criterion sqrt which n prices = -(10 ^ 60) := by
  simp [criterion, h.1, h.2.1, h.2.2]

/-- C14 as stated fails: called with the criterion index `3`, `criterion` does not fail but
hands the score `-1e60` back to the caller. -/
theorem criterion_three_returns :
    criterion Real.sqrt 3 2 (fun _ => (0 : ℝ)) = -(10 ^ 60) :=
  criterion_unknown Real.sqrt 3 2 _ (by decide)

/-- C14, amended: called with a criterion index outside `{0, 1, 2}`, `criterion` returns the
sentinel score `-1e60`; under such an index no market scores above the initial `best_crit`,
so the market-selection loop leaves `ibest` as it was. -/
theorem criterion_unknown_is_sentinel (sqrt : α → α) (cfg : Config α) (which n : Int)
    (prices : Int → α) (start ibest : Int) (h : which ≠ 0 ∧ which ≠ 1 ∧ which ≠ 2) :
    criterion sqrt which n prices = -(10 ^ 60) ∧
      best_market sqrt cfg which start ibest = (-(10 ^ 60), ibest) := by
  refine ⟨criterion_unknown sqrt which n prices h, ?_⟩
  rcases argmax_scan cfg.n_markets (market_score sqrt cfg which start) (-(10 ^ 60)) ibest with
    ⟨_, hsame⟩ | ⟨hlt, heq, _⟩
  · exact hsame
  · exfalso
    have hs : market_score sqrt cfg which start
        (best_market sqrt cfg which start ibest).2 = -(10 ^ 60) :=
      criterion_unknown sqrt which cfg.IS_n _ h
    have hlt' : -(10 ^ 60) < (best_market sqrt cfg which start ibest).1 := hlt
    have heq' : (best_market sqrt cfg which start ibest).1
        = market_score sqrt cfg which start (best_market sqrt cfg which start ibest).2 := heq
    rw [heq', hs] at hlt'
    exact lt_irrefl _ hlt'

/-- C14, amended, at the criterion index `7` on the all-zero matrix. -/
theorem criterion_unknown_is_sentinel_witness :
    ((7 : Int) ≠ 0 ∧ (7 : Int) ≠ 1 ∧ (7 : Int) ≠ 2) ∧
    criterion Real.sqrt 7 2 (fun _ => (0 : ℝ)) = -(10 ^ 60) ∧
    best_market Real.sqrt flatConfig 7 0 1 = (-(10 ^ 60), 1) :=
  ⟨by decide,
    criterion_unknown_is_sentinel Real.sqrt flatConfig 7 2 (fun _ => (0 : ℝ)) 0 1 (by decide)⟩

end CriteriaThms

/-! ## Configuration errors -/

section ConfigErrors

variable {α : Type} [LinearOrderedField α]

/-- C13 as stated fails twice: with `IS_n = 1` the program stops before the simulation, but
with exit status `0`; and with `n_cases = 3`, `IS_n = 2`, `OOS1_n = 1`, one case fewer than
`IS_n + OOS1_n + 1`, it does not stop: the walk-forward loop is entered. -/
theorem config_errors_not_rejected :
    (shortWindow.IS_n < 2 ∧
      main_flow Real.sqrt 4 shortWindow zeroStore = MainResult.exited 0) ∧
    (threeCases.n_cases < threeCases.IS_n + threeCases.OOS1_n + 1 ∧
      main_flow Real.sqrt 4 threeCases zeroStore
        = MainResult.walked (walk_forward Real.sqrt threeCases zeroStore).1
            (walk_forward Real.sqrt threeCases zeroStore).2) := by
  refine ⟨⟨by decide, ?_⟩, by decide, ?_⟩
  · have h : shortWindow.IS_n < 2 ∨ shortWindow.OOS1_n < 1 := Or.inl (by decide)
    simp only [main_flow, ne_eq, not_true_eq_false, if_false, if_pos h]
  · have h : ¬ (threeCases.IS_n < 2 ∨ threeCases.OOS1_n < 1) := by decide
    simp only [main_flow, ne_eq, not_true_eq_false, if_false, if_neg h]

/-- C13, amended: `IS_n < 2` or `OOS1_n < 1` makes the program stop before the walk-forward
simulation starts, with exit status `0`; and whenever the program is given its three
arguments with `IS_n ≥ 2` and `OOS1_n ≥ 1` the walk-forward loop is entered, whatever
`n_cases` is. -/
theorem config_guard (sqrt : α → α) (argc : Int) (cfg : Config α) (g : Store α) :
    (cfg.IS_n < 2 ∨ cfg.OOS1_n < 1 → main_flow sqrt argc cfg g = MainResult.exited 0) ∧
    (argc = 4 → 2 ≤ cfg.IS_n → 1 ≤ cfg.OOS1_n →
      main_flow sqrt argc cfg g
        = MainResult.walked (walk_forward sqrt cfg g).1 (walk_forward sqrt cfg g).2) := by
  constructor
  · intro h
    unfold main_flow
    split_ifs <;> rfl
  · intro ha h1 h2
    have h : ¬ (cfg.IS_n < 2 ∨ cfg.OOS1_n < 1) := by omega
    subst ha
    simp only [main_flow, ne_eq, not_true_eq_false, if_false, if_neg h]

/-- C13, amended, at `IS_n = 1` and at `n_cases = 6`, `IS_n = 2`, `OOS1_n = 2`. -/
theorem config_guard_witness :
    ((shortWindow.IS_n < 2 ∨ shortWindow.OOS1_n < 1) ∧
      main_flow Real.sqrt 4 shortWindow zeroStore = MainResult.exited 0) ∧
    (((4 : Int) = 4 ∧ 2 ≤ sixCases.IS_n ∧ 1 ≤ sixCases.OOS1_n) ∧
      main_flow Real.sqrt 4 sixCases zeroStore
        = MainResult.walked (walk_forward Real.sqrt sixCases zeroStore).1
            (walk_forward Real.sqrt sixCases zeroStore).2) :=
  ⟨⟨by decide, (config_guard Real.sqrt 4 shortWindow zeroStore).1 (by decide)⟩,
    ⟨by decide,
      (config_guard Real.sqrt 4 sixCases zeroStore).2 rfl (by decide) (by decide)⟩⟩

end ConfigErrors

/-! ## Resampling -/

section ResamplingThms

variable {α : Type} [LinearOrderedField α] [FloorRing α]

theorem resample_index_range (u : α) (n : Int) (h0 : 0 ≤ u) (hn : 1 ≤ n) :
    0 ≤ resample_index u n ∧ resample_index u n < n := by
  have hpos : (0 : α) ≤ (n : α) := by exact_mod_cast (by omega : (0 : Int) ≤ n)
  have hx : 0 ≤ u * (n : α) := mul_nonneg h0 hpos
  have hfl : 0 ≤ ⌊u * (n : α)⌋ := Int.floor_nonneg.mpr hx
  unfold resample_index
  simp only [truncToInt_of_nonneg _ hx]
  split_ifs with hk
  · omega
  · omega

omit [LinearOrderedField α] [FloorRing α] in
/-- A loop that stores at each index a value of `src` taken at an index in `[lo, hi)` leaves
only such values at the indices it has passed. -/
theorem fill_from_source (len : Int) (src : Int → α) (lo hi : Int)
    (pick : Nat → Int) (hpick : ∀ r, lo ≤ pick r ∧ pick r < hi) (st : (Int → α) × Nat)
    (i : Int) (hi0 : 0 ≤ i) (hi1 : i < len) :
    ∃ k, lo ≤ k ∧ k < hi ∧
      (forLoop 0 len
        (fun j (st : (Int → α) × Nat) => (Function.update st.1 j (src (pick st.2)), st.2 + 1))
        st).1 i = src k := by
  have hlen : (0 : Int) ≤ len := by omega
  have key := forLoop_invariant 0 len
    (fun j (st : (Int → α) × Nat) => (Function.update st.1 j (src (pick st.2)), st.2 + 1)) st
    (fun k st => ∀ i, 0 ≤ i → i < k → ∃ idx, lo ≤ idx ∧ idx < hi ∧ st.1 i = src idx) hlen
    (fun i h0 h1 => by omega)
    (fun j s hj0 _ hs i' h0 h1 => by
      rcases eq_or_lt_of_le (show i' ≤ j by omega) with heq | hlt
      · subst heq
        exact ⟨pick s.2, (hpick s.2).1, (hpick s.2).2, by simp⟩
      · obtain ⟨idx, a, b, c⟩ := hs i' h0 hlt
        refine ⟨idx, a, b, ?_⟩
        show Function.update s.1 j (src (pick s.2)) i' = src idx
        rw [Function.update_noteq (by omega)]
        exact c)
  exact key i hi0 hi1

theorem walk_forward_topInv {β : Type} [LinearOrderedField β] (sqrt : β → β) (cfg : Config β)
    (g : Store β) (h1 : 1 ≤ cfg.OOS1_n) : TopInv cfg (walk_forward sqrt cfg g).1 := by
  refine main_loop_rule sqrt cfg (fun c _ => TopInv cfg c) (fun c _ => TopInv cfg c) ?_ ?_
    (init_cursors cfg) (init_store g) (topInv_init cfg h1)
  · intro c m c1 m1 hP hb
    have := topInv_pass_end sqrt cfg c m hP
    rw [hb] at this
    exact this
  · intro c m c1 m1 hP hb
    exact topInv_again sqrt cfg c c1 m m1 hP hb

/-- C19: for `unifrand` results in `[0, 1]` and a source of `n ≥ 1` values the index
`trunc (u * n)`, clamped down to `n - 1`, lies in `[0, n)`; so every element of a synthetic
path built in `drawdown_quantiles` is one of `b_changes[0..n_changes-1]`, and every element
of a bootstrap sample built in `main` after a run with `OOS1_n ≥ 1` and
`n_cases ≥ IS_n + OOS1_n + 1` is the value of `OOS2` at a day at which the run assigned
`OOS2`. -/
theorem resampling_draws_from_source (unifrand : Nat → α)
    (hu : ∀ j, 0 ≤ unifrand j ∧ unifrand j ≤ 1) :
    (∀ (u : α) (n : Int), 0 ≤ u → u ≤ 1 → 1 ≤ n →
      0 ≤ resample_index u n ∧ resample_index u n < n) ∧
    (∀ (n_changes n_trades : Int) (b_changes : Int → α) (st : (Int → α) × Nat) (i : Int),
      1 ≤ n_changes → 0 ≤ i → i < n_trades →
      ∃ k, 0 ≤ k ∧ k < n_changes ∧
        (fill_quantsample unifrand n_changes n_trades b_changes st).1 i = b_changes k) ∧
    (∀ (sqrt : α → α) (cfg : Config α) (g : Store α) (st : (Int → α) × Nat) (i : Int),
      1 ≤ cfg.OOS1_n → cfg.n_cases ≥ cfg.IS_n + cfg.OOS1_n + 1 → 0 ≤ i →
      i < (walk_forward sqrt cfg g).1.OOS2_end - (walk_forward sqrt cfg g).1.OOS2_start →
      ∃ d, d ∈ oos2_days (walk_forward sqrt cfg g).2.trace ∧
        (fill_bootsample unifrand
          ((walk_forward sqrt cfg g).1.OOS2_end - (walk_forward sqrt cfg g).1.OOS2_start)
          (walk_forward sqrt cfg g).2.OOS2 (walk_forward sqrt cfg g).1.OOS2_start st).1 i
          = (walk_forward sqrt cfg g).2.OOS2 d) := by
  refine ⟨fun u n h0 _ hn => resample_index_range u n h0 hn, ?_, ?_⟩
  · intro n_changes n_trades b_changes st i hn hi0 hi1
    exact fill_from_source n_trades b_changes 0 n_changes
      (fun r => resample_index (unifrand r) n_changes)
      (fun r => resample_index_range _ _ (hu r).1 hn) st i hi0 hi1
  · intro sqrt cfg g st i h1 hn hi0 hi1
    have hfin := walk_forward_final sqrt cfg g h1 hn
    have htop := walk_forward_topInv sqrt cfg g h1
    have hs : (walk_forward sqrt cfg g).1.OOS2_start = cfg.IS_n + cfg.OOS1_n := htop.oos2_start
    have he : (walk_forward sqrt cfg g).1.OOS2_end = cfg.n_cases := hfin.2.1
    have hpos : 1 ≤ (walk_forward sqrt cfg g).1.OOS2_end
        - (walk_forward sqrt cfg g).1.OOS2_start := by omega
    obtain ⟨d, hd0, hd1, hd⟩ := fill_from_source
      ((walk_forward sqrt cfg g).1.OOS2_end - (walk_forward sqrt cfg g).1.OOS2_start)
      (walk_forward sqrt cfg g).2.OOS2
      (walk_forward sqrt cfg g).1.OOS2_start (walk_forward sqrt cfg g).1.OOS2_end
      (fun r => resample_index (unifrand r)
          ((walk_forward sqrt cfg g).1.OOS2_end - (walk_forward sqrt cfg g).1.OOS2_start)
        + (walk_forward sqrt cfg g).1.OOS2_start)
      (fun r => by
        have := resample_index_range (unifrand r)
          ((walk_forward sqrt cfg g).1.OOS2_end - (walk_forward sqrt cfg g).1.OOS2_start)
          (hu r).1 hpos
        constructor <;> beta_reduce <;> omega) st i hi0 hi1
    refine ⟨d, ?_, hd⟩
    rw [hfin.2.2.1, mem_intRange]
    omega

/-- C19 for the generator that always returns `1/2`, over the rationals. -/
theorem resampling_draws_from_source_witness :
    (∀ j : Nat, (0 : ℚ) ≤ (fun _ => 1 / 2) j ∧ (fun _ : Nat => (1 / 2 : ℚ)) j ≤ 1) ∧
    0 ≤ resample_index (1 / 2 : ℚ) 5 ∧ resample_index (1 / 2 : ℚ) 5 < 5 :=
  ⟨fun _ => by norm_num,
    (resampling_draws_from_source (fun _ : Nat => (1 / 2 : ℚ)) (fun _ => by norm_num)).1
      (1 / 2) 5 (by norm_num) (by norm_num) (by decide)⟩

end ResamplingThms

/-! ## The selection counters -/

section Counters

variable {α : Type} [LinearOrderedField α]

theorem sum_Ico_n_criteria (f : Int → Int) :
    ∑ i in Finset.Ico 0 n_criteria, f i = f 0 + f 1 + f 2 := by
  have h : Finset.Ico (0 : Int) n_criteria = {0, 1, 2} := by decide
  rw [h]
  simp [Finset.sum_insert, add_assoc]

/-- A scan in which no score exceeds the starting value leaves its state unchanged. -/
theorem argmax_scan_unchanged (n : Int) (score : Int → α) (s0 : α) (i0 : Int)
    (h : ∀ j, 0 ≤ j → j < n → score j ≤ s0) :
    forLoop 0 n (fun i (b : α × Int) => if score i > b.1 then (score i, i) else b) (s0, i0)
      = (s0, i0) := by
  rcases argmax_scan n score s0 i0 with ⟨_, hsame⟩ | ⟨hlt, heq, hb0, hb1, _, _⟩
  · exact hsame
  · exfalso
    rw [heq] at hlt
    exact absurd hlt (not_lt.mpr (h _ hb0 hb1))

/-- The values that the loop over the criteria stores in `OOS1`. -/
theorem criteria_pass_OOS1_written (sqrt : α → α) (cfg : Config α) (c : Cursors) (m : Store α)
    (hn : cfg.n_cases ≠ 0) (ic : Int) (hic : ic = 0 ∨ ic = 1 ∨ ic = 2) :
    ∃ b, Event.oos1 ic c.OOS1_end b ∈ (criteria_pass sqrt cfg c m).trace ∧
      (criteria_pass sqrt cfg c m).OOS1 (ic * cfg.n_cases + c.OOS1_end)
        = cfg.market_close b c.OOS1_end - cfg.market_close b (c.OOS1_end - 1) := by
  rw [criteria_pass_trace_eq, criteria_pass_eq]
  simp only [criteria_body]
  rcases hic with rfl | rfl | rfl
  · refine ⟨(best_market sqrt cfg 0 c.IS_start m.ibest).2, by simp, ?_⟩
    rw [Function.update_noteq (by omega), Function.update_noteq (by omega),
      Function.update_same]
  · refine ⟨(best_market sqrt cfg 1 c.IS_start (best_market sqrt cfg 0 c.IS_start m.ibest).2).2,
      by simp, ?_⟩
    rw [Function.update_noteq (by omega), Function.update_same]
  · refine ⟨(best_market sqrt cfg 2 c.IS_start
        (best_market sqrt cfg 1 c.IS_start (best_market sqrt cfg 0 c.IS_start m.ibest).2).2).2,
      by simp, ?_⟩
    rw [Function.update_same]

/-- The loop over the criteria leaves the rest of `OOS1` alone. -/
theorem criteria_pass_OOS1_other (sqrt : α → α) (cfg : Config α) (c : Cursors) (m : Store α)
    (x : Int) (h0 : x ≠ 0 * cfg.n_cases + c.OOS1_end) (h1 : x ≠ 1 * cfg.n_cases + c.OOS1_end)
    (h2 : x ≠ 2 * cfg.n_cases + c.OOS1_end) :
    (criteria_pass sqrt cfg c m).OOS1 x = m.OOS1 x := by
  rw [criteria_pass_eq]
  simp only [criteria_body]
  rw [Function.update_noteq h2, Function.update_noteq h1, Function.update_noteq h0]

theorem loop_top_snoc (sqrt : α → α) (cfg : Config α) (k : Nat) (c0 c c1 : Cursors)
    (m0 m m1 : Store α) (hk : loop_top sqrt cfg k c0 m0 = some (c, m))
    (hb : loop_body sqrt cfg c m = Step.again c1 m1) :
    loop_top sqrt cfg (k + 1) c0 m0 = some (c1, m1) := by
  induction k generalizing c0 m0 with
  | zero =>
    simp only [loop_top, Option.some.injEq, Prod.mk.injEq] at hk
    obtain ⟨rfl, rfl⟩ := hk
    simp only [loop_top, hb]
  | succ k ih =>
    cases hb0 : loop_body sqrt cfg c0 m0 with
    | done c2 m2 =>
      simp only [loop_top, hb0] at hk
      cases hk
    | again c2 m2 =>
      rw [loop_top_succ_of_again sqrt cfg k c0 c2 m0 m2 hb0] at hk
      rw [loop_top_succ_of_again sqrt cfg (k + 1) c0 c2 m0 m2 hb0]
      exact ih c2 m2 hk

omit [LinearOrderedField α] in
theorem init_store_crit_count (g : Store α) :
    (init_store g).crit_count 0 = 0 ∧ (init_store g).crit_count 1 = 0 ∧
      (init_store g).crit_count 2 = 0 := by
  have h : (init_store g).crit_count
      = Function.update (Function.update (Function.update g.crit_count 0 0) 1 0) 2 0 :=
    forLoop_zero_three (fun i (cc : Int → Int) => Function.update cc i 0) g.crit_count
  rw [h]
  refine ⟨?_, ?_, ?_⟩
  · rw [Function.update_noteq (by decide), Function.update_noteq (by decide),
      Function.update_same]
  · rw [Function.update_noteq (by decide), Function.update_same]
  · rw [Function.update_same]

theorem counters_after_increment (cc : Int → Int) (ib : Int) (h0 : 0 ≤ ib)
    (h3 : ib < n_criteria) :
    Function.update cc ib (cc ib + 1) 0 + Function.update cc ib (cc ib + 1) 1
        + Function.update cc ib (cc ib + 1) 2 = cc 0 + cc 1 + cc 2 + 1 ∧
      (0 ≤ cc 0 → 0 ≤ Function.update cc ib (cc ib + 1) 0) ∧
      (0 ≤ cc 1 → 0 ≤ Function.update cc ib (cc ib + 1) 1) ∧
      (0 ≤ cc 2 → 0 ≤ Function.update cc ib (cc ib + 1) 2) := by
  have hib : ib = 0 ∨ ib = 1 ∨ ib = 2 := by
    simp only [n_criteria] at h3
    omega
  rcases hib with rfl | rfl | rfl
  · simp only [Function.update_same, Function.update_noteq (show (1 : Int) ≠ 0 by decide),
      Function.update_noteq (show (2 : Int) ≠ 0 by decide)]
    omega
  · simp only [Function.update_same, Function.update_noteq (show (0 : Int) ≠ 1 by decide),
      Function.update_noteq (show (2 : Int) ≠ 1 by decide)]
    omega
  · simp only [Function.update_same, Function.update_noteq (show (0 : Int) ≠ 2 by decide),
      Function.update_noteq (show (1 : Int) ≠ 2 by decide)]
    omega

/-- The counters of the three criteria when the walk-forward loop is left, in a run in which
`ibestcrit` is assigned at every steady-state pass. -/
theorem counters_final (sqrt : α → α) (cfg : Config α) (g : Store α)
    (h : SumsExceedSentinel sqrt cfg g) :
    (walk_forward sqrt cfg g).2.crit_count 0 + (walk_forward sqrt cfg g).2.crit_count 1
        + (walk_forward sqrt cfg g).2.crit_count 2
        = (walk_forward sqrt cfg g).1.OOS2_end - (walk_forward sqrt cfg g).1.OOS2_start ∧
      0 ≤ (walk_forward sqrt cfg g).2.crit_count 0 ∧
      0 ≤ (walk_forward sqrt cfg g).2.crit_count 1 ∧
      0 ≤ (walk_forward sqrt cfg g).2.crit_count 2 := by
  refine main_loop_rule sqrt cfg
    (fun c m => (∃ k, loop_top sqrt cfg k (init_cursors cfg) (init_store g) = some (c, m)) ∧
      m.crit_count 0 + m.crit_count 1 + m.crit_count 2 = c.OOS2_end - c.OOS2_start ∧
      0 ≤ m.crit_count 0 ∧ 0 ≤ m.crit_count 1 ∧ 0 ≤ m.crit_count 2)
    (fun c m => m.crit_count 0 + m.crit_count 1 + m.crit_count 2 = c.OOS2_end - c.OOS2_start ∧
      0 ≤ m.crit_count 0 ∧ 0 ≤ m.crit_count 1 ∧ 0 ≤ m.crit_count 2)
    ?_ ?_ (init_cursors cfg) (init_store g) ?_
  · rintro c m c1 m1 ⟨_, hsum, hc0, hc1, hc2⟩ hb
    by_cases hbrk : c.OOS1_end ≥ cfg.n_cases - 1
    · rw [loop_body_done_iff sqrt cfg c m hbrk] at hb
      cases hb
      rw [criteria_pass_crit_count]
      exact ⟨hsum, hc0, hc1, hc2⟩
    · simp only [loop_body, if_neg hbrk] at hb
      split at hb <;> cases hb
  · rintro c m c1 m1 ⟨⟨k, hk⟩, hsum, hc0, hc1, hc2⟩ hb
    refine ⟨⟨k + 1, loop_top_snoc sqrt cfg k _ c c1 _ m m1 hk hb⟩, ?_⟩
    by_cases hbrk : c.OOS1_end ≥ cfg.n_cases - 1
    · rw [loop_body_done_iff sqrt cfg c m hbrk] at hb
      cases hb
    · by_cases hf : (advance c).OOS1_end - (advance c).OOS1_start < cfg.OOS1_n
      · rw [loop_body_filling sqrt cfg c m hbrk hf] at hb
        cases hb
        rw [criteria_pass_crit_count]
        exact ⟨hsum, hc0, hc1, hc2⟩
      · rw [loop_body_steady sqrt cfg c m hbrk hf] at hb
        cases hb
        obtain ⟨hb0, hb3, _, _⟩ := best_criterion_first_argmax cfg (advance c)
          (criteria_pass sqrt cfg c m) (h k c m hk hbrk hf)
        have hcc : (criteria_pass sqrt cfg c m).crit_count = m.crit_count :=
          criteria_pass_crit_count sqrt cfg c m
        obtain ⟨e1, e2, e3, e4⟩ := counters_after_increment m.crit_count
          (best_criterion cfg (advance c) (criteria_pass sqrt cfg c m)).2 hb0 hb3
        simp only [steady_store, hcc]
        refine ⟨?_, e2 hc0, e3 hc1, e4 hc2⟩
        rw [e1, hsum]
        show c.OOS2_end - c.OOS2_start + 1 = c.OOS2_end + 1 - c.OOS2_start
        ring
  · obtain ⟨z0, z1, z2⟩ := init_store_crit_count g
    refine ⟨⟨0, rfl⟩, ?_, by rw [z0], by rw [z1], by rw [z2]⟩
    rw [z0, z1, z2]
    show (0 : Int) + 0 + 0 = cfg.IS_n + cfg.OOS1_n - (cfg.IS_n + cfg.OOS1_n)
    ring

/-- The counters in a run that assigns `ibestcrit` at every steady-state pass: when the
walk-forward loop is left after a run in which, at every steady-state pass, some criterion's
sum over the OOS1 window exceeds the sentinel `-1e60`, the counters
`crit_count[0..n_criteria-1]` sum to `OOS2_end - OOS2_start`, and each of them is `≥ 0`. -/
theorem counters_sum_to_realizations (sqrt : α → α) (cfg : Config α) (g : Store α)
    (h : SumsExceedSentinel sqrt cfg g) :
    ∑ i in Finset.Ico 0 n_criteria, (walk_forward sqrt cfg g).2.crit_count i
        = (walk_forward sqrt cfg g).1.OOS2_end - (walk_forward sqrt cfg g).1.OOS2_start ∧
      ∀ i, 0 ≤ i → i < n_criteria → 0 ≤ (walk_forward sqrt cfg g).2.crit_count i := by
  obtain ⟨hsum, h0, h1, h2⟩ := counters_final sqrt cfg g h
  refine ⟨by rw [sum_Ico_n_criteria, hsum], ?_⟩
  intro i hi0 hi3
  have hi : i = 0 ∨ i = 1 ∨ i = 2 := by
    simp only [n_criteria] at hi3
    omega
  rcases hi with rfl | rfl | rfl
  · exact h0
  · exact h1
  · exact h2

theorem fourCases_sums_exceed : SumsExceedSentinel Real.sqrt fourCases zeroStore := by
  intro k c m hk hnb hst
  have hb0 := loop_body_steady Real.sqrt fourCases (init_cursors fourCases)
    (init_store zeroStore) (by decide) (by decide)
  cases k with
  | zero =>
    simp only [loop_top, Option.some.injEq, Prod.mk.injEq] at hk
    obtain ⟨rfl, rfl⟩ := hk
    refine ⟨0, le_refl _, by decide, ?_⟩
    rw [oos1_sum_eq_sum]
    have hI : Finset.Ico (advance (init_cursors fourCases)).OOS1_start
        (advance (init_cursors fourCases)).OOS1_end = {2} := by decide
    rw [hI, Finset.sum_singleton]
    obtain ⟨b, _, hb⟩ := criteria_pass_OOS1_written Real.sqrt fourCases
      (init_cursors fourCases) (init_store zeroStore) (by decide) 0 (Or.inl rfl)
    have he : (init_cursors fourCases).OOS1_end = 2 := rfl
    rw [he] at hb
    rw [hb]
    simp only [fourCases]
    norm_num
  | succ k =>
    rw [loop_top_succ_of_again _ _ _ _ _ _ _ hb0] at hk
    cases k with
    | zero =>
      simp only [loop_top, Option.some.injEq, Prod.mk.injEq] at hk
      obtain ⟨rfl, rfl⟩ := hk
      exact absurd (by decide) hnb
    | succ k =>
      have hb1 := loop_body_done_iff Real.sqrt fourCases
        (finish_advance (advance (init_cursors fourCases)))
        (steady_store Real.sqrt fourCases (advance (init_cursors fourCases))
          (criteria_pass Real.sqrt fourCases (init_cursors fourCases) (init_store zeroStore)))
        (by decide)
      simp only [loop_top, hb1] at hk
      cases hk

/-- The counters on the all-zero matrix with `n_cases = 4`, `IS_n = 2`, `OOS1_n = 1`. -/
theorem counters_sum_to_realizations_witness :
    SumsExceedSentinel Real.sqrt fourCases zeroStore ∧
    ∑ i in Finset.Ico 0 n_criteria, (walk_forward Real.sqrt fourCases zeroStore).2.crit_count i
      = (walk_forward Real.sqrt fourCases zeroStore).1.OOS2_end
        - (walk_forward Real.sqrt fourCases zeroStore).1.OOS2_start :=
  ⟨fourCases_sums_exceed,
    (counters_sum_to_realizations Real.sqrt fourCases zeroStore fourCases_sums_exceed).1⟩

end Counters

/-! ## A market that dominates the other -/

section Dominance

variable {α : Type} [LinearOrderedField α]

/-- The scan over two candidates returns `A` when `A` scores above the other candidate, or
no candidate scores above the starting value, and `A` is the starting index or scores above
the starting value. -/
theorem scan_two_picks (score : Int → α) (s0 : α) (i0 A : Int) (hA : A = 0 ∨ A = 1)
    (h : score (1 - A) < score A ∨ (score 0 ≤ s0 ∧ score 1 ≤ s0))
    (hi : i0 = A ∨ s0 < score A) :
    (forLoop 0 2 (fun i (b : α × Int) => if score i > b.1 then (score i, i) else b)
      (s0, i0)).2 = A := by
  rcases argmax_scan 2 score s0 i0 with ⟨hall, hsame⟩ | ⟨hlt, heq, hb0, hb1, hmax, _⟩
  · rw [hsame]
    rcases hi with hi | hi
    · exact hi
    · exact absurd hi (not_lt.mpr (hall A (by omega) (by omega)))
  · rcases h with h | ⟨h0, h1⟩
    · by_contra hne
      have hb : (forLoop 0 2
          (fun i (b : α × Int) => if score i > b.1 then (score i, i) else b) (s0, i0)).2
          = 1 - A := by omega
      have := hmax A (by omega) (by omega)
      rw [hb] at this
      exact absurd h (not_lt.mpr this)
    · exfalso
      rw [heq] at hlt
      have hb : (forLoop 0 2
          (fun i (b : α × Int) => if score i > b.1 then (score i, i) else b) (s0, i0)).2 = 0 ∨
          (forLoop 0 2
          (fun i (b : α × Int) => if score i > b.1 then (score i, i) else b) (s0, i0)).2 = 1 := by
        omega
      rcases hb with hb | hb
      · rw [hb] at hlt
        exact absurd hlt (not_lt.mpr h0)
      · rw [hb] at hlt
        exact absurd hlt (not_lt.mpr h1)

theorem best_market_picks (sqrt : α → α) (cfg : Config α) (which start ibest A : Int)
    (hnm : cfg.n_markets = 2) (hA : A = 0 ∨ A = 1)
    (h : market_score sqrt cfg which start (1 - A) < market_score sqrt cfg which start A ∨
      (market_score sqrt cfg which start 0 ≤ -(10 ^ 60) ∧
        market_score sqrt cfg which start 1 ≤ -(10 ^ 60)))
    (hi : ibest = A ∨ -(10 ^ 60) < market_score sqrt cfg which start A) :
    (best_market sqrt cfg which start ibest).2 = A := by
  have := scan_two_picks (market_score sqrt cfg which start) (-(10 ^ 60)) ibest A hA h hi
  unfold best_market
  rw [hnm]
  exact this

/-- The loop over the criteria when market `A` scores above the sentinel and above the other
market under each criterion on the current in-sample window: `A` is chosen three times. -/
theorem criteria_pass_picks (sqrt : α → α) (cfg : Config α) (A : Int) (c : Cursors)
    (m : Store α) (hnm : cfg.n_markets = 2) (hA : A = 0 ∨ A = 1)
    (hdom : ∀ which, which = 0 ∨ which = 1 ∨ which = 2 →
      market_score sqrt cfg which c.IS_start (1 - A) < market_score sqrt cfg which c.IS_start A)
    (hsent : ∀ which, which = 0 ∨ which = 1 ∨ which = 2 →
      -(10 ^ 60) < market_score sqrt cfg which c.IS_start A) :
    (criteria_pass sqrt cfg c m).ibest = A ∧
      (criteria_pass sqrt cfg c m).trace
        = m.trace ++ [Event.oos1 0 c.OOS1_end A, Event.oos1 1 c.OOS1_end A,
            Event.oos1 2 c.OOS1_end A] ∧
      (criteria_pass sqrt cfg c m).OOS1
        = Function.update (Function.update (Function.update m.OOS1
              (0 * cfg.n_cases + c.OOS1_end)
              (cfg.market_close A c.OOS1_end - cfg.market_close A (c.OOS1_end - 1)))
            (1 * cfg.n_cases + c.OOS1_end)
            (cfg.market_close A c.OOS1_end - cfg.market_close A (c.OOS1_end - 1)))
          (2 * cfg.n_cases + c.OOS1_end)
          (cfg.market_close A c.OOS1_end - cfg.market_close A (c.OOS1_end - 1)) := by
  have hb0 : (best_market sqrt cfg 0 c.IS_start m.ibest).2 = A :=
    best_market_picks sqrt cfg 0 c.IS_start m.ibest A hnm hA (Or.inl (hdom 0 (Or.inl rfl)))
      (Or.inr (hsent 0 (Or.inl rfl)))
  have hb1 : (best_market sqrt cfg 1 c.IS_start A).2 = A :=
    best_market_picks sqrt cfg 1 c.IS_start A A hnm hA
      (Or.inl (hdom 1 (Or.inr (Or.inl rfl)))) (Or.inl rfl)
  have hb2 : (best_market sqrt cfg 2 c.IS_start A).2 = A :=
    best_market_picks sqrt cfg 2 c.IS_start A A hnm hA
      (Or.inl (hdom 2 (Or.inr (Or.inr rfl)))) (Or.inl rfl)
  refine ⟨?_, ?_, ?_⟩
  · rw [criteria_pass_eq]
    simp only [criteria_body, hb0, hb1, hb2]
  · rw [criteria_pass_trace_eq]
    simp only [hb0, hb1, hb2]
  · rw [criteria_pass_eq]
    simp only [criteria_body, hb0, hb1, hb2]

/-- The market-selection loop of the steady state keeps `A` when it starts from `A` and `A`
scores above the other market under each of the three criteria. -/
theorem steady_store_picks (sqrt : α → α) (cfg : Config α) (A : Int) (c : Cursors)
    (m : Store α) (hnm : cfg.n_markets = 2) (hA : A = 0 ∨ A = 1) (hib : m.ibest = A)
    (hdom : ∀ which, which = 0 ∨ which = 1 ∨ which = 2 →
      market_score sqrt cfg which (c.OOS2_end - cfg.IS_n) (1 - A)
        < market_score sqrt cfg which (c.OOS2_end - cfg.IS_n) A) :
    (steady_store sqrt cfg c m).ibest = A := by
  show (best_market sqrt cfg (best_criterion cfg c m).2 (c.OOS2_end - cfg.IS_n) m.ibest).2 = A
  refine best_market_picks sqrt cfg _ _ m.ibest A hnm hA ?_ (Or.inl hib)
  by_cases hw : (best_criterion cfg c m).2 = 0 ∨ (best_criterion cfg c m).2 = 1 ∨
      (best_criterion cfg c m).2 = 2
  · exact Or.inl (hdom _ hw)
  · right
    have hne : (best_criterion cfg c m).2 ≠ 0 ∧ (best_criterion cfg c m).2 ≠ 1 ∧
        (best_criterion cfg c m).2 ≠ 2 := by
      refine ⟨fun h => hw (Or.inl h), fun h => hw (Or.inr (Or.inl h)),
        fun h => hw (Or.inr (Or.inr h))⟩
    have hs : ∀ j, market_score sqrt cfg (best_criterion cfg c m).2 (c.OOS2_end - cfg.IS_n) j
        = -(10 ^ 60) := fun j => criterion_unknown sqrt _ cfg.IS_n _ hne
    rw [hs 0, hs 1]
    exact ⟨le_refl _, le_refl _⟩

theorem allA_criteria_pass (sqrt : α → α) (cfg : Config α) (A : Int) (c : Cursors)
    (m : Store α) (hnm : cfg.n_markets = 2) (hA : A = 0 ∨ A = 1) (hIS : 2 ≤ cfg.IS_n)
    (hdom : ∀ which start, which = 0 ∨ which = 1 ∨ which = 2 → 0 ≤ start →
      start + cfg.IS_n ≤ cfg.n_cases →
      market_score sqrt cfg which start (1 - A) < market_score sqrt cfg which start A)
    (hsent : ∀ which start, which = 0 ∨ which = 1 ∨ which = 2 → 0 ≤ start →
      start + cfg.IS_n ≤ cfg.n_cases → -(10 ^ 60) < market_score sqrt cfg which start A)
    (h : AllA cfg A c m) :
    (criteria_pass sqrt cfg c m).ibest = A ∧
      (∀ e, e ∈ (criteria_pass sqrt cfg c m).trace → e.market = A) ∧
      (∀ ic, ic = 0 ∨ ic = 1 ∨ ic = 2 → ∀ d, cfg.IS_n ≤ d → d < c.OOS1_end + 1 →
        (criteria_pass sqrt cfg c m).OOS1 (ic * cfg.n_cases + d)
          = cfg.market_close A d - cfg.market_close A (d - 1)) := by
  obtain ⟨⟨t1, t2, t3, t4⟩, hhi, hmk, ho1, _⟩ := h
  obtain ⟨hib, htr, hO⟩ := criteria_pass_picks sqrt cfg A c m hnm hA
    (fun which hw => hdom which c.IS_start hw (by omega) (by omega))
    (fun which hw => hsent which c.IS_start hw (by omega) (by omega))
  refine ⟨hib, ?_, ?_⟩
  · intro e he
    rw [htr, List.mem_append] at he
    rcases he with he | he
    · exact hmk e he
    · simp only [List.mem_cons, List.mem_singleton, List.not_mem_nil, or_false] at he
      rcases he with rfl | rfl | rfl <;> rfl
  · intro ic hic d hd0 hd1
    rw [hO]
    rcases eq_or_lt_of_le (show d ≤ c.OOS1_end by omega) with hde | hde
    · subst hde
      rcases hic with rfl | rfl | rfl
      · rw [Function.update_noteq (by omega), Function.update_noteq (by omega),
          Function.update_same]
      · rw [Function.update_noteq (by omega), Function.update_same]
      · rw [Function.update_same]
    · have hold := ho1 ic hic d hd0 hde
      rcases hic with rfl | rfl | rfl
      · rw [Function.update_noteq (by omega), Function.update_noteq (by omega),
          Function.update_noteq (by omega)]
        exact hold
      · rw [Function.update_noteq (by omega), Function.update_noteq (by omega),
          Function.update_noteq (by omega)]
        exact hold
      · rw [Function.update_noteq (by omega), Function.update_noteq (by omega),
          Function.update_noteq (by omega)]
        exact hold

theorem allA_init (cfg : Config α) (A : Int) (g : Store α) (h1 : 1 ≤ cfg.OOS1_n)
    (hn : cfg.IS_n + 1 ≤ cfg.n_cases) : AllA cfg A (init_cursors cfg) (init_store g) := by
  refine ⟨topInv_init cfg h1, ?_, ?_, ?_, ?_⟩
  · show cfg.IS_n ≤ cfg.n_cases - 1
    omega
  · intro e he
    cases he
  · intro ic _ d hd0 hd1
    have hd1' : d < cfg.IS_n := hd1
    omega
  · intro d hd0 hd1
    have hd1' : d < cfg.IS_n + cfg.OOS1_n := hd1
    omega

theorem allA_again (sqrt : α → α) (cfg : Config α) (A : Int) (hnm : cfg.n_markets = 2)
    (hA : A = 0 ∨ A = 1) (hIS : 2 ≤ cfg.IS_n)
    (hdom : ∀ which start, which = 0 ∨ which = 1 ∨ which = 2 → 0 ≤ start →
      start + cfg.IS_n ≤ cfg.n_cases →
      market_score sqrt cfg which start (1 - A) < market_score sqrt cfg which start A)
    (hsent : ∀ which start, which = 0 ∨ which = 1 ∨ which = 2 → 0 ≤ start →
      start + cfg.IS_n ≤ cfg.n_cases → -(10 ^ 60) < market_score sqrt cfg which start A)
    (c : Cursors) (m : Store α) (c1 : Cursors) (m1 : Store α) (h : AllA cfg A c m)
    (hb : loop_body sqrt cfg c m = Step.again c1 m1) : AllA cfg A c1 m1 := by
  have htop := topInv_again sqrt cfg c c1 m m1 h.top hb
  have hend := loop_body_again_end sqrt cfg c c1 m m1 hb
  obtain ⟨hib, hmk, ho1⟩ := allA_criteria_pass sqrt cfg A c m hnm hA hIS hdom hsent h
  obtain ⟨⟨t1, t2, t3, t4⟩, hhi, _, _, ho2⟩ := h
  have hbrk : ¬ c.OOS1_end ≥ cfg.n_cases - 1 := by omega
  by_cases hf : (advance c).OOS1_end - (advance c).OOS1_start < cfg.OOS1_n
  · rw [loop_body_filling sqrt cfg c m hbrk hf] at hb
    cases hb
    refine ⟨htop, by omega, hmk, ?_, ?_⟩
    · intro ic hic d hd0 hd1
      exact ho1 ic hic d hd0 hd1
    · intro d hd0 hd1
      rw [criteria_pass_OOS2]
      exact ho2 d hd0 hd1
  · rw [loop_body_steady sqrt cfg c m hbrk hf] at hb
    cases hb
    have hf1 : ¬ (c.OOS1_end + 1 - c.OOS1_start < cfg.OOS1_n) := hf
    have h2 : (advance c).OOS2_end = c.OOS1_end + 1 := by
      show c.OOS2_end = c.OOS1_end + 1
      omega
    have hsb : (steady_store sqrt cfg (advance c) (criteria_pass sqrt cfg c m)).ibest = A :=
      steady_store_picks sqrt cfg A (advance c) _ hnm hA hib
        (fun which hw => hdom which _ hw (by omega) (by omega))
    refine ⟨htop, by omega, ?_, ?_, ?_⟩
    · intro e he
      rw [steady_store_trace, List.mem_append, List.mem_singleton] at he
      rcases he with he | rfl
      · exact hmk e he
      · exact hsb
    · intro ic hic d hd0 hd1
      exact ho1 ic hic d hd0 hd1
    · intro d hd0 hd1
      have hd1' : d < c.OOS2_end + 1 := hd1
      show Function.update (criteria_pass sqrt cfg c m).OOS2 (advance c).OOS2_end
          (cfg.market_close
              (steady_store sqrt cfg (advance c) (criteria_pass sqrt cfg c m)).ibest
              (advance c).OOS2_end
            - cfg.market_close
              (steady_store sqrt cfg (advance c) (criteria_pass sqrt cfg c m)).ibest
              ((advance c).OOS2_end - 1)) d
        = cfg.market_close A d - cfg.market_close A (d - 1)
      rw [hsb, criteria_pass_OOS2]
      have h2' : (advance c).OOS2_end = c.OOS2_end := rfl
      rw [h2']
      rcases eq_or_lt_of_le (show d ≤ c.OOS2_end by omega) with hde | hde
      · subst hde
        rw [Function.update_same]
      · rw [Function.update_noteq (by omega)]
        exact ho2 d hd0 hde

/-- The run on a two-market matrix in which market `A` scores above the sentinel and above
the other market under each criterion on every in-sample window of the matrix. -/
theorem walk_forward_allA (sqrt : α → α) (cfg : Config α) (g : Store α) (A : Int)
    (hnm : cfg.n_markets = 2) (hA : A = 0 ∨ A = 1) (hIS : 2 ≤ cfg.IS_n) (h1 : 1 ≤ cfg.OOS1_n)
    (hn : cfg.n_cases ≥ cfg.IS_n + cfg.OOS1_n + 1)
    (hdom : ∀ which start, which = 0 ∨ which = 1 ∨ which = 2 → 0 ≤ start →
      start + cfg.IS_n ≤ cfg.n_cases →
      market_score sqrt cfg which start (1 - A) < market_score sqrt cfg which start A)
    (hsent : ∀ which start, which = 0 ∨ which = 1 ∨ which = 2 → 0 ≤ start →
      start + cfg.IS_n ≤ cfg.n_cases → -(10 ^ 60) < market_score sqrt cfg which start A) :
    (∀ e, e ∈ (walk_forward sqrt cfg g).2.trace → e.market = A) ∧
      (∀ ic d, 0 ≤ ic → ic < n_criteria → cfg.IS_n ≤ d → d < cfg.n_cases →
        (walk_forward sqrt cfg g).2.OOS1 (ic * cfg.n_cases + d)
          = cfg.market_close A d - cfg.market_close A (d - 1)) ∧
      (∀ d, cfg.IS_n + cfg.OOS1_n ≤ d → d < cfg.n_cases →
        (walk_forward sqrt cfg g).2.OOS2 d
          = cfg.market_close A d - cfg.market_close A (d - 1)) := by
  refine main_loop_rule sqrt cfg (AllA cfg A)
    (fun _ m1 => (∀ e, e ∈ m1.trace → e.market = A) ∧
      (∀ ic d, 0 ≤ ic → ic < n_criteria → cfg.IS_n ≤ d → d < cfg.n_cases →
        m1.OOS1 (ic * cfg.n_cases + d) = cfg.market_close A d - cfg.market_close A (d - 1)) ∧
      (∀ d, cfg.IS_n + cfg.OOS1_n ≤ d → d < cfg.n_cases →
        m1.OOS2 d = cfg.market_close A d - cfg.market_close A (d - 1)))
    ?_ (fun c m c1 m1 => allA_again sqrt cfg A hnm hA hIS hdom hsent c m c1 m1)
    (init_cursors cfg) (init_store g) (allA_init cfg A g h1 (by omega))
  intro c m c1 m1 hP hb
  by_cases hbrk : c.OOS1_end ≥ cfg.n_cases - 1
  · rw [loop_body_done_iff sqrt cfg c m hbrk] at hb
    cases hb
    obtain ⟨_, hmk, ho1⟩ := allA_criteria_pass sqrt cfg A c m hnm hA hIS hdom hsent hP
    obtain ⟨⟨t1, t2, t3, t4⟩, hhi, _, _, ho2⟩ := hP
    refine ⟨hmk, ?_, ?_⟩
    · intro ic d hic0 hic3 hd0 hd1
      have hic : ic = 0 ∨ ic = 1 ∨ ic = 2 := by
        simp only [n_criteria] at hic3
        omega
      exact ho1 ic hic d hd0 (by omega)
    · intro d hd0 hd1
      rw [criteria_pass_OOS2]
      exact ho2 d hd0 (by omega)
  · simp only [loop_body, if_neg hbrk] at hb
    split at hb <;> cases hb

theorem forLoop_one_two {σ : Type} (f : Int → σ → σ) (s : σ) : forLoop 1 2 f s = f 1 s := by
  have h1 : ((2 : Int) - 1).toNat = 1 := by decide
  simp only [forLoop, h1, List.range_succ, List.range_zero, List.nil_append, List.foldl_cons,
    List.foldl_nil]
  rfl

theorem sqrt_tiny_pos : (0 : ℝ) < Real.sqrt (1 / 10 ^ 60) :=
  Real.sqrt_pos.mpr (by positivity)

end Dominance

/-! ## Date alignment -/

section AlignmentThms

variable {α : Type}

theorem histories_mono {nm : Int} {n : Int → Int} {D : Int → Int → Int}
    (h : Histories nm n D) (i : Int) (hi0 : 0 ≤ i) (hi1 : i < nm) (k k' : Int) (hk : 0 ≤ k)
    (hkk : k < k') (hk' : k' < n i) : D i k < D i k' := by
  have key : ∀ m, k + 1 ≤ m → m < n i → D i k < D i m := by
    intro m hm
    refine Int.le_induction (P := fun m => m < n i → D i k < D i m) ?_ ?_ m hm
    · intro hlt
      exact h.increasing i k hi0 hi1 hk hlt
    · intro m hm ih hlt
      exact lt_trans (ih (by omega)) (h.increasing i m hi0 hi1 (by omega) hlt)
  exact key k' (by omega) hk'

theorem histories_mono_le {nm : Int} {n : Int → Int} {D : Int → Int → Int}
    (h : Histories nm n D) (i : Int) (hi0 : 0 ≤ i) (hi1 : i < nm) (k k' : Int) (hk : 0 ≤ k)
    (hkk : k ≤ k') (hk' : k' < n i) : D i k ≤ D i k' := by
  rcases eq_or_lt_of_le hkk with rfl | hlt
  · exact le_refl _
  · exact le_of_lt (histories_mono h i hi0 hi1 k k' hk hlt hk')

theorem histories_pos {nm : Int} {n : Int → Int} {D : Int → Int → Int}
    (h : Histories nm n D) (i : Int) (hi0 : 0 ≤ i) (hi1 : i < nm) (k : Int) (hk : 0 ≤ k)
    (hk' : k < n i) : 0 < D i k :=
  lt_of_lt_of_le (h.first i hi0 hi1) (histories_mono_le h i hi0 hi1 0 k (le_refl _) hk hk')

/-- If the date of record `k` is before the date of record `k'` then `k < k'`. -/
theorem histories_lt_of_date_lt {nm : Int} {n : Int → Int} {D : Int → Int → Int}
    (h : Histories nm n D) (i : Int) (hi0 : 0 ≤ i) (hi1 : i < nm) (k k' : Int)
    (hkn : k < n i) (hk' : 0 ≤ k') (hd : D i k < D i k') : k < k' := by
  by_contra hge
  have := histories_mono_le h i hi0 hi1 k' k hk' (by omega) hkn
  omega

theorem scan_max_date_spec (nm : Int) (s : AlignState α) :
    (∀ i, 0 ≤ i → i < nm → s.market_date i (s.market_index i) ≤ (scan_max_date nm s).1) ∧
      ((scan_max_date nm s).1 = 0 ∨
        ∃ i, 0 ≤ i ∧ i < nm ∧ s.market_date i (s.market_index i) = (scan_max_date nm s).1) ∧
      0 ≤ (scan_max_date nm s).1 := by
  unfold scan_max_date
  rcases lt_or_le nm 0 with hneg | hnn
  · rw [forLoop_empty _ _ _ _ (le_of_lt hneg)]
    exact ⟨fun i h0 h1 => by omega, Or.inl rfl, le_refl _⟩
  · refine forLoop_invariant 0 nm _ _
      (fun k (md : Int × Int) =>
        (∀ i, 0 ≤ i → i < k → s.market_date i (s.market_index i) ≤ md.1) ∧
        (md.1 = 0 ∨ ∃ i, 0 ≤ i ∧ i < k ∧ s.market_date i (s.market_index i) = md.1) ∧
        0 ≤ md.1) hnn ⟨fun i h0 h1 => by omega, Or.inl rfl, le_refl _⟩ ?_
    rintro i st hi0 hi1 ⟨hub, hat, hnonneg⟩
    by_cases hgt : s.market_date i (s.market_index i) > st.1
    · simp only [if_pos hgt]
      refine ⟨?_, Or.inr ⟨i, hi0, by omega, rfl⟩, by omega⟩
      intro j hj0 hj1
      rcases eq_or_lt_of_le (show j ≤ i by omega) with rfl | hlt
      · exact le_refl _
      · have := hub j hj0 hlt
        omega
    · simp only [if_neg hgt]
      refine ⟨?_, ?_, hnonneg⟩
      · intro j hj0 hj1
        rcases eq_or_lt_of_le (show j ≤ i by omega) with rfl | hlt
        · omega
        · exact hub j hj0 hlt
      · rcases hat with h0 | ⟨j, hj0, hj1, hj⟩
        · exact Or.inl h0
        · exact Or.inr ⟨j, hj0, by omega, hj⟩

theorem skip_to_spec (dates : Int → Int) (n M : Int) (idx date : Int) :
    idx ≤ (skip_to dates n M idx date).1 ∧
      (idx ≤ n → (skip_to dates n M idx date).1 ≤ n) ∧
      (∀ k, idx ≤ k → k < (skip_to dates n M idx date).1 → dates k < M) ∧
      ((skip_to dates n M idx date).1 < n →
        M ≤ dates (skip_to dates n M idx date).1 ∧
        (skip_to dates n M idx date).2 = dates (skip_to dates n M idx date).1) := by
  generalize hm : (n - idx).toNat = m
  induction m using Nat.strong_induction_on generalizing idx date with
  | _ m ih =>
    rw [skip_to]
    by_cases h1 : idx < n
    · rw [if_pos h1]
      by_cases h2 : dates idx ≥ M
      · rw [if_pos h2]
        exact ⟨le_refl _, fun _ => le_of_lt h1, fun k hk0 hk1 => by omega, fun _ => ⟨h2, rfl⟩⟩
      · rw [if_neg h2]
        obtain ⟨a, b, c, d⟩ := ih (n - (idx + 1)).toNat (by omega) (idx + 1) (dates idx) rfl
        refine ⟨by omega, fun _ => b (by omega), ?_, d⟩
        intro k hk0 hk1
        rcases eq_or_lt_of_le hk0 with rfl | hlt
        · omega
        · exact c k (by omega) hk1
    · rw [if_neg h1]
      exact ⟨le_refl _, fun h => h, fun k hk0 hk1 => by omega, fun h => absurd h h1⟩

/-- The pass over the markets that advances each to the first record dated `M` or later. -/
theorem advance_markets_spec (nm : Int) (n : Int → Int) (md : Int → Int → Int) (M : Int)
    (i : Int) (mi : Int → Int) (date same : Int) (hi : i ≤ nm) (res : Advanced)
    (hres : res = advance_markets nm n md M i mi date same) :
    i ≤ res.i ∧ res.i ≤ nm ∧
      (∀ j, j < i → res.market_index j = mi j) ∧
      (∀ j, i ≤ j → j < nm → mi j ≤ res.market_index j) ∧
      (∀ j, i ≤ j → j < nm → mi j ≤ n j → res.market_index j ≤ n j) ∧
      (∀ j, i ≤ j → j < nm → ∀ k, mi j ≤ k → k < res.market_index j → md j k < M) ∧
      (∀ j, i ≤ j → j < res.i → res.market_index j < n j ∧ M ≤ md j (res.market_index j)) ∧
      (res.i < nm → n res.i ≤ res.market_index res.i) ∧
      (res.i = nm → (res.all_same_date ≠ 0 ↔
        same ≠ 0 ∧ ∀ j, i ≤ j → j < nm → md j (res.market_index j) = M)) := by
  generalize hm : (nm - i).toNat = m
  induction m using Nat.strong_induction_on generalizing i mi date same res with
  | _ m ih =>
    rw [advance_markets] at hres
    by_cases h1 : i < nm
    · rw [if_pos h1] at hres
      obtain ⟨sa, sb, sc, sd⟩ := skip_to_spec (md i) (n i) M (mi i) date
      by_cases h2 : (skip_to (md i) (n i) M (mi i) date).1 ≥ n i
      · simp only [if_pos h2] at hres
        subst hres
        refine ⟨le_refl _, le_of_lt h1, ?_, ?_, ?_, ?_, ?_, ?_, ?_⟩
        · intro j hj
          exact Function.update_noteq (by omega) _ _
        · intro j hj0 hj1
          by_cases hji : j = i
          · subst hji
            simpa using sa
          · simp [Function.update_noteq hji]
        · intro j hj0 hj1 hjn
          by_cases hji : j = i
          · subst hji
            simpa using sb hjn
          · simpa [Function.update_noteq hji] using hjn
        · intro j hj0 hj1 k hk0 hk1
          by_cases hji : j = i
          · subst hji
            exact sc k hk0 (by simpa using hk1)
          · simp only [Function.update_noteq hji] at hk1
            omega
        · intro j hj0 hj1
          exact absurd hj1 (by simpa using hj0)
        · intro _
          simpa using h2
        · intro hEq
          exact absurd hEq (by simpa using ne_of_lt h1)
      · simp only [if_neg h2] at hres
        obtain ⟨a, b, c, d, e, f, g, h, k⟩ := ih (nm - (i + 1)).toNat (by omega) (i + 1)
          (Function.update mi i (skip_to (md i) (n i) M (mi i) date).1)
          (skip_to (md i) (n i) M (mi i) date).2
          (if (skip_to (md i) (n i) M (mi i) date).2 ≠ M then 0 else same)
          (by omega) res hres rfl
        have hri : res.market_index i = (skip_to (md i) (n i) M (mi i) date).1 := by
          rw [c i (by omega)]
          simp
        have hlt : (skip_to (md i) (n i) M (mi i) date).1 < n i := by omega
        obtain ⟨sd1, sd2⟩ := sd hlt
        refine ⟨by omega, b, ?_, ?_, ?_, ?_, ?_, h, ?_⟩
        · intro j hj
          rw [c j (by omega)]
          exact Function.update_noteq (by omega) _ _
        · intro j hj0 hj1
          by_cases hji : j = i
          · subst hji
            rw [hri]
            exact sa
          · have := d j (by omega) hj1
            simpa [Function.update_noteq hji] using this
        · intro j hj0 hj1 hjn
          by_cases hji : j = i
          · subst hji
            rw [hri]
            exact sb hjn
          · have := e j (by omega) hj1
            simp only [Function.update_noteq hji] at this
            exact this hjn
        · intro j hj0 hj1 k0 hk0 hk1
          by_cases hji : j = i
          · subst hji
            rw [hri] at hk1
            exact sc k0 hk0 hk1
          · have := f j (by omega) hj1 k0
            simp only [Function.update_noteq hji] at this
            exact this hk0 hk1
        · intro j hj0 hj1
          by_cases hji : j = i
          · subst hji
            rw [hri]
            exact ⟨hlt, sd1⟩
          · exact g j (by omega) hj1
        · intro hEq
          rw [k hEq]
          constructor
          · rintro ⟨hs, hall⟩
            by_cases hne : (skip_to (md i) (n i) M (mi i) date).2 ≠ M
            · rw [if_pos hne] at hs
              exact absurd rfl hs
            · rw [if_neg hne] at hs
              refine ⟨hs, ?_⟩
              intro j hj0 hj1
              by_cases hji : j = i
              · subst hji
                rw [hri, ← sd2]
                exact not_not.mp hne
              · exact hall j (by omega) hj1
          · rintro ⟨hs, hall⟩
            have hiM := hall i (le_refl _) h1
            rw [hri, ← sd2] at hiM
            refine ⟨?_, fun j hj0 hj1 => hall j (by omega) hj1⟩
            rw [if_neg (not_not.mpr hiM)]
            exact hs
    · rw [if_neg h1] at hres
      subst hres
      refine ⟨le_refl _, hi, fun j _ => rfl, fun j _ _ => le_refl _, fun j _ _ h => h,
        fun j _ _ k hk0 hk1 => by omega,
        fun j hj0 hj1 => absurd hj1 (by simpa using hj0), fun h => absurd h h1, ?_⟩
      intro _
      constructor
      · intro hs
        exact ⟨hs, fun j hj0 hj1 => by omega⟩
      · rintro ⟨hs, _⟩
        exact hs

/-- The loop that stores a common date: every market's row gets the date and the close at
`grand_index`, and its index moves on by one. -/
theorem grab_loop_spec (nm M G : Int) (hnm : 0 ≤ nm) (md : Int → Int → Int)
    (mc : Int → Int → α) (mi : Int → Int) :
    ∀ i, (0 ≤ i ∧ i < nm →
        (forLoop 0 nm (grab_body M G) (md, mc, mi)).2.2 i = mi i + 1 ∧
        (forLoop 0 nm (grab_body M G) (md, mc, mi)).1 i =
          Function.update (Function.update (md i) (mi i) M) G M ∧
        (forLoop 0 nm (grab_body M G) (md, mc, mi)).2.1 i =
          Function.update (mc i) G (mc i (mi i))) ∧
      (¬ (0 ≤ i ∧ i < nm) →
        (forLoop 0 nm (grab_body M G) (md, mc, mi)).2.2 i = mi i ∧
        (forLoop 0 nm (grab_body M G) (md, mc, mi)).1 i = md i ∧
        (forLoop 0 nm (grab_body M G) (md, mc, mi)).2.1 i = mc i) := by
  refine forLoop_invariant 0 nm (grab_body M G) (md, mc, mi)
    (fun k st => ∀ i, (0 ≤ i ∧ i < k →
        st.2.2 i = mi i + 1 ∧
        st.1 i = Function.update (Function.update (md i) (mi i) M) G M ∧
        st.2.1 i = Function.update (mc i) G (mc i (mi i))) ∧
      (¬ (0 ≤ i ∧ i < k) → st.2.2 i = mi i ∧ st.1 i = md i ∧ st.2.1 i = mc i)) hnm ?_ ?_
  · intro i
    exact ⟨fun h => by omega, fun _ => ⟨rfl, rfl, rfl⟩⟩
  · intro k st hk0 hk1 ih i
    obtain ⟨_, hk⟩ := ih k
    obtain ⟨e1, e2, e3⟩ := hk (by omega)
    by_cases hik : i = k
    · subst hik
      refine ⟨fun _ => ?_, fun h => absurd ⟨hk0, by omega⟩ h⟩
      simp only [grab_body, Function.update_same, e1, e2, e3]
      exact ⟨trivial, trivial, trivial⟩
    · obtain ⟨a, b⟩ := ih i
      simp only [grab_body, Function.update_noteq hik]
      constructor
      · intro h
        exact a ⟨h.1, by omega⟩
      · intro h
        exact b (by omega)

/-- A common date that lies ahead in every market is not earlier than the latest of the
current dates. -/
theorem max_date_le_ahead {nm : Int} {n : Int → Int} {D : Int → Int → Int}
    {P : Int → Int → α} (h : Histories nm n D) (s : AlignState α)
    (inv : AlignInv nm n D P s) (d : Int)
    (ah : ∀ i, 0 ≤ i → i < nm → ∃ k, s.market_index i ≤ k ∧ k < n i ∧ D i k = d) :
    (scan_max_date nm s).1 ≤ d := by
  obtain ⟨_, S2, _⟩ := scan_max_date_spec nm s
  have hnm := h.markets
  rcases S2 with h0 | ⟨j, hj0, hj1, hj⟩
  · obtain ⟨k, hk0, hk1, hk2⟩ := ah 0 (le_refl _) (by omega)
    have hidx := le_trans inv.grand_nonneg (inv.index_lo 0 (le_refl _) (by omega))
    have := histories_pos h 0 (le_refl _) (by omega) k (by omega) hk1
    omega
  · obtain ⟨k, hk0, hk1, hk2⟩ := ah j hj0 hj1
    have hidx := le_trans inv.grand_nonneg (inv.index_lo j hj0 hj1)
    have := histories_mono_le h j hj0 hj1 (s.market_index j) k hidx hk0 hk1
    rw [(inv.unread j hj0 hj1 (s.market_index j) (le_refl _)).1] at hj
    omega

/-- Moving the indices forward over records that no common date needs keeps the invariant. -/
theorem alignInv_skip {nm : Int} {n : Int → Int} {D : Int → Int → Int}
    {P : Int → Int → α} (s : AlignState α) (inv : AlignInv nm n D P s)
    (mi : Int → Int) (dt : Int)
    (hlo : ∀ i, 0 ≤ i → i < nm → s.market_index i ≤ mi i)
    (hhi : ∀ i, 0 ≤ i → i < nm → mi i ≤ n i)
    (hB : ∀ d, (∀ i, 0 ≤ i → i < nm → ∃ k, s.market_index i ≤ k ∧ k < n i ∧ D i k = d) →
      ∀ i, 0 ≤ i → i < nm → ∃ k, mi i ≤ k ∧ k < n i ∧ D i k = d) :
    AlignInv nm n D P { s with market_index := mi, date := dt } := by
  refine ⟨inv.grand_nonneg, ?_, hhi, ?_, ?_, inv.sorted, ?_⟩
  · intro i hi0 hi1
    exact le_trans (inv.index_lo i hi0 hi1) (hlo i hi0 hi1)
  · intro i hi0 hi1 k hk
    exact inv.unread i hi0 hi1 k (le_trans (hlo i hi0 hi1) hk)
  · intro g hg0 hg1 i hi0 hi1
    obtain ⟨k, hk0, hk1, rest⟩ := inv.kept g hg0 hg1 i hi0 hi1
    exact ⟨k, hk0, lt_of_lt_of_le hk1 (hlo i hi0 hi1), rest⟩
  · intro d hd
    rcases inv.complete d hd with r | ah
    · exact Or.inl r
    · exact Or.inr (hB d ah)

/-- Storing a date on which every market has its current record keeps the invariant. -/
theorem alignInv_grab {nm : Int} {n : Int → Int} {D : Int → Int → Int}
    {P : Int → Int → α} (h : Histories nm n D) (s : AlignState α)
    (inv : AlignInv nm n D P s) (mi : Int → Int) (M : Int) (s1 : AlignState α)
    (hlo : ∀ i, 0 ≤ i → i < nm → s.market_index i ≤ mi i)
    (hhi : ∀ i, 0 ≤ i → i < nm → mi i < n i)
    (hM : ∀ i, 0 ≤ i → i < nm → D i (mi i) = M)
    (hA : ∀ d, (∀ i, 0 ≤ i → i < nm → ∃ k, s.market_index i ≤ k ∧ k < n i ∧ D i k = d) →
      M ≤ d)
    (hG : s1.grand_index = s.grand_index + 1)
    (hidx : ∀ i, 0 ≤ i → i < nm → s1.market_index i = mi i + 1)
    (hdate : ∀ i, 0 ≤ i → i < nm → s1.market_date i =
      Function.update (Function.update (s.market_date i) (mi i) M) s.grand_index M)
    (hclose : ∀ i, 0 ≤ i → i < nm → s1.market_close i =
      Function.update (s.market_close i) s.grand_index (s.market_close i (mi i))) :
    AlignInv nm n D P s1 := by
  have hnm := h.markets
  have hG0 := inv.grand_nonneg
  have lo2 : ∀ i, 0 ≤ i → i < nm → s.grand_index ≤ mi i := fun i hi0 hi1 =>
    le_trans (inv.index_lo i hi0 hi1) (hlo i hi0 hi1)
  have dlt : ∀ i, 0 ≤ i → i < nm → ∀ g, g < s.grand_index →
      s1.market_date i g = s.market_date i g := by
    intro i hi0 hi1 g hg
    have := lo2 i hi0 hi1
    rw [hdate i hi0 hi1, Function.update_noteq (ne_of_lt hg),
      Function.update_noteq (by omega)]
  have dG : ∀ i, 0 ≤ i → i < nm → s1.market_date i s.grand_index = M := by
    intro i hi0 hi1
    rw [hdate i hi0 hi1, Function.update_same]
  have dgt : ∀ i, 0 ≤ i → i < nm → ∀ k, mi i < k →
      s1.market_date i k = s.market_date i k := by
    intro i hi0 hi1 k hk
    have := lo2 i hi0 hi1
    rw [hdate i hi0 hi1, Function.update_noteq (by omega), Function.update_noteq (by omega)]
  have cne : ∀ i, 0 ≤ i → i < nm → ∀ k, k ≠ s.grand_index →
      s1.market_close i k = s.market_close i k := by
    intro i hi0 hi1 k hk
    rw [hclose i hi0 hi1, Function.update_noteq hk]
  have cG : ∀ i, 0 ≤ i → i < nm →
      s1.market_close i s.grand_index = s.market_close i (mi i) := by
    intro i hi0 hi1
    rw [hclose i hi0 hi1, Function.update_same]
  refine ⟨by omega, ?_, ?_, ?_, ?_, ?_, ?_⟩
  · intro i hi0 hi1
    have := lo2 i hi0 hi1
    rw [hG, hidx i hi0 hi1]
    omega
  · intro i hi0 hi1
    have := hhi i hi0 hi1
    rw [hidx i hi0 hi1]
    omega
  · intro i hi0 hi1 k hk
    rw [hidx i hi0 hi1] at hk
    have h1 := lo2 i hi0 hi1
    have h2 := hlo i hi0 hi1
    rw [dgt i hi0 hi1 k (by omega), cne i hi0 hi1 k (by omega)]
    exact inv.unread i hi0 hi1 k (by omega)
  · intro g hg0 hg1 i hi0 hi1
    rw [hG] at hg1
    rw [hidx i hi0 hi1]
    rcases eq_or_lt_of_le (show g ≤ s.grand_index by omega) with rfl | hlt
    · refine ⟨mi i, by have := lo2 i hi0 hi1; omega, by omega, ?_, ?_, ?_⟩
      · rw [dG 0 (le_refl _) (by omega)]
        exact hM i hi0 hi1
      · rw [dG 0 (le_refl _) (by omega), dG i hi0 hi1]
      · rw [cG i hi0 hi1]
        exact (inv.unread i hi0 hi1 (mi i) (hlo i hi0 hi1)).2
    · obtain ⟨k, hk0, hk1, hk2, hk3, hk4⟩ := inv.kept g hg0 hlt i hi0 hi1
      have := hlo i hi0 hi1
      refine ⟨k, hk0, by omega, ?_, ?_, ?_⟩
      · rw [dlt 0 (le_refl _) (by omega) g hlt]
        exact hk2
      · rw [dlt 0 (le_refl _) (by omega) g hlt, dlt i hi0 hi1 g hlt]
        exact hk3
      · rw [cne i hi0 hi1 g (by omega)]
        exact hk4
  · intro g g' hg0 hgg hg1
    rw [hG] at hg1
    have z0 : (0 : Int) ≤ 0 := le_refl _
    have z1 : (0 : Int) < nm := by omega
    obtain ⟨k, hk0, hk1, hk2, _⟩ := inv.kept g hg0 (by omega) 0 z0 z1
    rw [dlt 0 z0 z1 g (by omega)]
    rcases eq_or_lt_of_le (show g' ≤ s.grand_index by omega) with rfl | hlt
    · rw [dG 0 z0 z1, ← hk2, ← hM 0 z0 z1]
      have := hlo 0 z0 z1
      exact histories_mono h 0 z0 z1 k (mi 0) hk0 (by omega) (hhi 0 z0 z1)
    · rw [dlt 0 z0 z1 g' hlt]
      exact inv.sorted g g' hg0 hgg hlt
  · intro d hd
    have z0 : (0 : Int) ≤ 0 := le_refl _
    have z1 : (0 : Int) < nm := by omega
    rcases inv.complete d hd with ⟨g, hg0, hg1, hg2⟩ | ah
    · refine Or.inl ⟨g, hg0, by omega, ?_⟩
      rw [dlt 0 z0 z1 g hg1]
      exact hg2
    · have hMd := hA d ah
      by_cases hdM : d = M
      · refine Or.inl ⟨s.grand_index, hG0, by omega, ?_⟩
        rw [dG 0 z0 z1]
        exact hdM.symm
      · refine Or.inr ?_
        intro i hi0 hi1
        obtain ⟨k, hk0, hk1, hk2⟩ := ah i hi0 hi1
        have hidx0 := le_trans hG0 (inv.index_lo i hi0 hi1)
        have : mi i < k := histories_lt_of_date_lt h i hi0 hi1 (mi i) k (hhi i hi0 hi1)
          (by omega) (by rw [hM i hi0 hi1, hk2]; omega)
        exact ⟨k, by rw [hidx i hi0 hi1]; omega, hk1, hk2⟩

theorem records_left_lt (nm : Int) (n : Int → Int) (s s1 : AlignState α)
    (hle : ∀ i, 0 ≤ i → i < nm → s.market_index i ≤ s1.market_index i)
    (hlt : ∃ i, 0 ≤ i ∧ i < nm ∧ s.market_index i < s1.market_index i) :
    records_left nm n s1 < records_left nm n s := by
  unfold records_left
  apply Finset.sum_lt_sum
  · intro i hi
    rw [Finset.mem_Ico] at hi
    have := hle i hi.1 hi.2
    omega
  · obtain ⟨i, hi0, hi1, hi2⟩ := hlt
    exact ⟨i, Finset.mem_Ico.mpr ⟨hi0, hi1⟩, by omega⟩

theorem records_left_nonneg (nm : Int) (n : Int → Int) (s : AlignState α)
    (hhi : ∀ i, 0 ≤ i → i < nm → s.market_index i ≤ n i) : 0 ≤ records_left nm n s := by
  unfold records_left
  apply Finset.sum_nonneg
  intro i hi
  rw [Finset.mem_Ico] at hi
  have := hhi i hi.1 hi.2
  omega

/-- One pass of the alignment loop: it either ends the loop with the retained rows
complete, or keeps the invariant and passes at least one record; the assertion holds. -/
theorem align_pass_spec {nm : Int} {n : Int → Int} {D : Int → Int → Int}
    {P : Int → Int → α} (h : Histories nm n D) (s : AlignState α)
    (inv : AlignInv nm n D P s) :
    match align_pass nm n s with
    | AlignStep.done s1 => Aligned nm n D P s1
    | AlignStep.again s1 =>
        AlignInv nm n D P s1 ∧ records_left nm n s1 < records_left nm n s
    | AlignStep.assert_failed => False := by
  obtain ⟨S1, S2, S3⟩ := scan_max_date_spec nm s
  have hnm := h.markets
  have hA := max_date_le_ahead h s inv
  have adv_spec := advance_markets_spec nm n s.market_date (scan_max_date nm s).1 0
    s.market_index (scan_max_date nm s).2 1 (by omega) _ rfl
  unfold align_pass
  dsimp only
  generalize advance_markets nm n s.market_date (scan_max_date nm s).1 0 s.market_index
    (scan_max_date nm s).2 1 = adv at adv_spec ⊢
  generalize (scan_max_date nm s).1 = M at *
  obtain ⟨a0, a1, -, a3, a4, a5, a6, a7, a8⟩ := adv_spec
  have idx0 : ∀ i, 0 ≤ i → i < nm → 0 ≤ s.market_index i := fun i h0 h1 =>
    le_trans inv.grand_nonneg (inv.index_lo i h0 h1)
  have hB : ∀ d, (∀ i, 0 ≤ i → i < nm → ∃ k, s.market_index i ≤ k ∧ k < n i ∧ D i k = d) →
      ∀ i, 0 ≤ i → i < nm → ∃ k, adv.market_index i ≤ k ∧ k < n i ∧ D i k = d := by
    intro d ah i hi0 hi1
    obtain ⟨k, hk0, hk1, hk2⟩ := ah i hi0 hi1
    refine ⟨k, ?_, hk1, hk2⟩
    by_contra hlt
    have hsk := a5 i hi0 hi1 k hk0 (by omega)
    rw [(inv.unread i hi0 hi1 k hk0).1, hk2] at hsk
    have := hA d ah
    omega
  by_cases hbreak : adv.i < nm
  · simp only [if_pos hbreak]
    refine ⟨inv.grand_nonneg, ?_, inv.sorted, ?_⟩
    · intro g hg0 hg1 i hi0 hi1
      obtain ⟨k, hk0, hk1, rest⟩ := inv.kept g hg0 hg1 i hi0 hi1
      exact ⟨k, hk0, lt_of_lt_of_le hk1 (inv.index_hi i hi0 hi1), rest⟩
    · intro d hd
      rcases inv.complete d hd with r | ah
      · exact r
      · exfalso
        obtain ⟨k, hk0, hk1, _⟩ := hB d ah adv.i a0 hbreak
        have := a7 hbreak
        omega
  · simp only [if_neg hbreak]
    have hEq : adv.i = nm := by omega
    have hin : ∀ j, 0 ≤ j → j < nm → adv.market_index j < n j := fun j hj0 hj1 =>
      (a6 j hj0 (by omega)).1
    have hcur : ∀ j, 0 ≤ j → j < nm →
        s.market_date j (adv.market_index j) = D j (adv.market_index j) := fun j hj0 hj1 =>
      (inv.unread j hj0 hj1 _ (a3 j hj0 hj1)).1
    by_cases hsame : adv.all_same_date ≠ 0
    · simp only [if_pos hsame]
      obtain ⟨_, hall⟩ := (a8 hEq).mp hsame
      have hM : ∀ i, 0 ≤ i → i < nm → D i (adv.market_index i) = M := fun i hi0 hi1 => by
        rw [← hcur i hi0 hi1]
        exact hall i hi0 hi1
      have hMpos : 0 < M := by
        rw [← hM 0 (le_refl _) (by omega)]
        exact histories_pos h 0 (le_refl _) (by omega) _
          (le_trans (idx0 0 (le_refl _) (by omega)) (a3 0 (le_refl _) (by omega)))
          (hin 0 (le_refl _) (by omega))
      have hno : ¬ (0 < nm ∧ M = 0) := fun hc => by omega
      simp only [if_neg hno]
      have gs := grab_loop_spec nm M s.grand_index (by omega) s.market_date s.market_close
        adv.market_index
      generalize forLoop 0 nm (grab_body M s.grand_index)
        (s.market_date, s.market_close, adv.market_index) = grabbed at gs ⊢
      constructor
      · exact alignInv_grab h s inv adv.market_index M _ a3 hin hM hA rfl
          (fun i hi0 hi1 => ((gs i).1 ⟨hi0, hi1⟩).1)
          (fun i hi0 hi1 => ((gs i).1 ⟨hi0, hi1⟩).2.1)
          (fun i hi0 hi1 => ((gs i).1 ⟨hi0, hi1⟩).2.2)
      · apply records_left_lt
        · intro i hi0 hi1
          show s.market_index i ≤ grabbed.2.2 i
          rw [((gs i).1 ⟨hi0, hi1⟩).1]
          have := a3 i hi0 hi1
          omega
        · refine ⟨0, le_refl _, by omega, ?_⟩
          show s.market_index 0 < grabbed.2.2 0
          rw [((gs 0).1 ⟨le_refl _, by omega⟩).1]
          have := a3 0 (le_refl _) (by omega)
          omega
    · simp only [if_neg hsame]
      constructor
      · exact alignInv_skip s inv adv.market_index adv.date a3
          (fun i hi0 hi1 => le_of_lt (hin i hi0 hi1)) hB
      · apply records_left_lt _ _ _ _ a3
        by_contra hnone
        apply hsame
        rw [a8 hEq]
        refine ⟨by decide, ?_⟩
        have hstay : ∀ j, 0 ≤ j → j < nm → adv.market_index j = s.market_index j := by
          intro j hj0 hj1
          by_contra hne
          exact hnone ⟨j, hj0, hj1, lt_of_le_of_ne (a3 j hj0 hj1) (Ne.symm hne)⟩
        intro j hj0 hj1
        have h1 := (a6 j hj0 (by omega)).2
        have h2 := S1 j hj0 hj1
        rw [hstay j hj0 hj1] at h1 ⊢
        omega

/-- With more fuel than records left, the alignment loop ends, and ends aligned. -/
theorem align_loop_spec {nm : Int} {n : Int → Int} {D : Int → Int → Int}
    {P : Int → Int → α} (h : Histories nm n D) (fuel : Nat) :
    ∀ s : AlignState α, AlignInv nm n D P s → records_left nm n s < (fuel : Int) →
      ∃ s1, align_loop nm n fuel s = some (AlignEnd.finished s1) ∧ Aligned nm n D P s1 := by
  induction fuel with
  | zero =>
    intro s inv hlt
    have := records_left_nonneg nm n s inv.index_hi
    simp only [Nat.cast_zero] at hlt
    omega
  | succ fuel ih =>
    intro s inv hlt
    have step := align_pass_spec h s inv
    rw [align_loop]
    generalize align_pass nm n s = r at step ⊢
    cases r with
    | done s1 => exact ⟨s1, rfl, step⟩
    | again s1 =>
      obtain ⟨inv1, hdec⟩ := step
      refine ih s1 inv1 ?_
      push_cast at hlt
      omega
    | assert_failed => exact absurd step id

theorem align_init_index (nm : Int) (D : Int → Int → Int) (P : Int → Int → α)
    (garbage : AlignState α) (i : Int) (hi0 : 0 ≤ i) (hi1 : i < nm) :
    (align_init nm D P garbage).market_index i = 0 := by
  have key : ∀ j, 0 ≤ j → j < nm →
      forLoop 0 nm (fun i (mi : Int → Int) => Function.update mi i 0)
        garbage.market_index j = 0 := by
    refine forLoop_invariant 0 nm _ _
      (fun k (mi : Int → Int) => ∀ j, 0 ≤ j → j < k → mi j = 0) (by omega)
      (fun j h0 h1 => by omega) ?_
    intro k mi hk0 hk1 ihk j hj0 hj1
    by_cases hjk : j = k
    · subst hjk
      exact Function.update_same _ _ _
    · rw [Function.update_noteq hjk]
      exact ihk j hj0 (by omega)
  exact key i hi0 hi1

theorem align_init_inv {nm : Int} {n : Int → Int} {D : Int → Int → Int}
    (P : Int → Int → α) (h : Histories nm n D) (garbage : AlignState α) :
    AlignInv nm n D P (align_init nm D P garbage) := by
  have hidx := align_init_index nm D P garbage
  refine ⟨le_refl _, ?_, ?_, ?_, ?_, ?_, ?_⟩
  · intro i hi0 hi1
    rw [hidx i hi0 hi1]
    exact le_refl _
  · intro i hi0 hi1
    rw [hidx i hi0 hi1]
    have := h.records i hi0 hi1
    omega
  · intro i hi0 hi1 k hk
    exact ⟨rfl, rfl⟩
  · intro g hg0 hg1
    exact absurd hg1 (not_lt.mpr hg0)
  · intro g g' hg0 hgg hg1
    have : g' < 0 := hg1
    omega
  · intro d hd
    refine Or.inr ?_
    intro i hi0 hi1
    obtain ⟨k, hk0, hk1, hk2⟩ := hd i hi0 hi1
    exact ⟨k, by rw [hidx i hi0 hi1]; exact hk0, hk1, hk2⟩

/-- The retained dates of an aligned state, as a set, are the common dates, and their number
is `grand_index`. -/
theorem aligned_count {nm : Int} {n : Int → Int} {D : Int → Int → Int}
    {P : Int → Int → α} {s : AlignState α} (al : Aligned nm n D P s) :
    ∃ S : Finset Int, (∀ d, d ∈ S ↔ IsCommon nm n D d) ∧ (S.card : Int) = s.grand_index := by
  refine ⟨(Finset.Ico 0 s.grand_index).image (s.market_date 0), ?_, ?_⟩
  · intro d
    rw [Finset.mem_image]
    constructor
    · rintro ⟨g, hg, rfl⟩
      rw [Finset.mem_Ico] at hg
      intro i hi0 hi1
      obtain ⟨k, hk0, hk1, hk2, _⟩ := al.kept g hg.1 hg.2 i hi0 hi1
      exact ⟨k, hk0, hk1, hk2⟩
    · intro hd
      obtain ⟨g, hg0, hg1, hg2⟩ := al.complete d hd
      exact ⟨g, Finset.mem_Ico.mpr ⟨hg0, hg1⟩, hg2⟩
  · rw [Finset.card_image_of_injOn, Int.card_Ico]
    · have := al.grand_nonneg
      simp only [sub_zero]
      exact Int.toNat_of_nonneg this
    · intro g hg g' hg' hEq
      rw [Finset.coe_Ico, Set.mem_Ico] at hg hg'
      by_contra hne
      rcases lt_or_gt_of_ne hne with hlt | hgt
      · have := al.sorted g g' hg.1 hlt hg'.2
        omega
      · have := al.sorted g' g hg'.1 hgt hg.2
        omega

/-- C20: given at least one market history, each with at least one record and strictly
increasing dates (positive, as the reader of the files stores them), the alignment loop ends
with `n_cases = grand_index` equal to the number of dates present in every history; the
retained dates `market_date[0][0 .. n_cases-1]` are exactly the common dates, in strictly
increasing order; and `market_close[i][g]` is the close market `i` recorded on the retained
date of row `g`. -/
theorem alignment_keeps_common_dates (nm : Int) (n : Int → Int) (D : Int → Int → Int)
    (P : Int → Int → α) (garbage : AlignState α) (h : Histories nm n D) :
    ∃ fuel0 : Nat, ∀ fuel, fuel0 ≤ fuel →
      ∃ s, align_loop nm n fuel (align_init nm D P garbage) = some (AlignEnd.finished s) ∧
        (∃ S : Finset Int, (∀ d, d ∈ S ↔ IsCommon nm n D d) ∧
          (S.card : Int) = s.grand_index) ∧
        (∀ d, IsCommon nm n D d ↔ ∃ g, 0 ≤ g ∧ g < s.grand_index ∧ s.market_date 0 g = d) ∧
        (∀ g g', 0 ≤ g → g < g' → g' < s.grand_index →
          s.market_date 0 g < s.market_date 0 g') ∧
        (∀ i g, 0 ≤ i → i < nm → 0 ≤ g → g < s.grand_index →
          ∃ k, 0 ≤ k ∧ k < n i ∧ D i k = s.market_date 0 g ∧ s.market_close i g = P i k) := by
  refine ⟨(records_left nm n (align_init nm D P garbage)).toNat + 1, ?_⟩
  intro fuel hfuel
  have inv := align_init_inv P h garbage
  have hnn := records_left_nonneg nm n _ inv.index_hi
  obtain ⟨s, hs, al⟩ := align_loop_spec h fuel _ inv (by omega)
  refine ⟨s, hs, aligned_count al, ?_, al.sorted, ?_⟩
  · intro d
    constructor
    · exact al.complete d
    · rintro ⟨g, hg0, hg1, rfl⟩ i hi0 hi1
      obtain ⟨k, hk0, hk1, hk2, _⟩ := al.kept g hg0 hg1 i hi0 hi1
      exact ⟨k, hk0, hk1, hk2⟩
  · intro i g hi0 hi1 hg0 hg1
    obtain ⟨k, hk0, hk1, hk2, _, hk4⟩ := al.kept g hg0 hg1 i hi0 hi1
    exact ⟨k, hk0, hk1, hk2, hk4⟩

theorem twoHistories_ok : Histories 2 twoHistories_n twoHistories_dates := by
  refine ⟨by decide, ?_, ?_, ?_⟩
  · intro i hi0 hi1
    unfold twoHistories_n
    split_ifs <;> omega
  · intro i hi0 hi1
    unfold twoHistories_dates
    split_ifs <;> omega
  · intro i k hi0 hi1 hk0 hk1
    unfold twoHistories_dates
    split_ifs <;> omega

theorem alignment_keeps_common_dates_witness :
    Histories 2 twoHistories_n twoHistories_dates ∧
    ∃ fuel0 : Nat, ∀ fuel, fuel0 ≤ fuel →
      ∃ s, align_loop 2 twoHistories_n fuel
          (align_init 2 twoHistories_dates twoHistories_closes twoHistories_garbage) =
            some (AlignEnd.finished s) ∧
        (∃ S : Finset Int, (∀ d, d ∈ S ↔ IsCommon 2 twoHistories_n twoHistories_dates d) ∧
          (S.card : Int) = s.grand_index) ∧
        (∀ d, IsCommon 2 twoHistories_n twoHistories_dates d ↔
          ∃ g, 0 ≤ g ∧ g < s.grand_index ∧ s.market_date 0 g = d) ∧
        (∀ g g', 0 ≤ g → g < g' → g' < s.grand_index →
          s.market_date 0 g < s.market_date 0 g') ∧
        (∀ i g, 0 ≤ i → i < 2 → 0 ≤ g → g < s.grand_index →
          ∃ k, 0 ≤ k ∧ k < twoHistories_n i ∧
            twoHistories_dates i k = s.market_date 0 g ∧
            s.market_close i g = twoHistories_closes i k) :=
  ⟨twoHistories_ok,
    alignment_keeps_common_dates 2 twoHistories_n twoHistories_dates twoHistories_closes
      twoHistories_garbage twoHistories_ok⟩

end AlignmentThms

/-! ## Relations between the criteria, and the range of `drawdown` -/

section Relations

variable {α : Type} [LinearOrderedField α]

theorem drawdown_loop_congr (n : Int) (t1 t2 : Int → α) (h0 : t2 0 = t1 0)
    (h : ∀ i, 1 ≤ i → i < n → t2 i = t1 i) : drawdown_loop n t2 = drawdown_loop n t1 := by
  unfold drawdown_loop
  rw [h0]
  apply forLoop_congr
  intro i hi0 hi1 st
  simp only [drawdown_body, h i hi0 hi1]

/-- C26, amended: in exact real arithmetic `drawdown` does not depend on its first element:
two inputs of length `n ≥ 1` that agree on every element after the first give the same raw
loss `dd` and the same percent drawdown. The statement is about the exact model
`drawdown_body` only; with the sums rounded to `double` it fails
(`drawdown_dd_fl_hugeStart`, `drawdown_dd_fl_downStep`). -/
theorem drawdown_ignores_first (exp : α → α) (n : Int) (t1 t2 : Int → α) (_hn : 1 ≤ n)
    (h : ∀ i, 1 ≤ i → i < n → t2 i = t1 i) :
    drawdown_dd n t2 = drawdown_dd n t1 ∧ drawdown exp n t2 = drawdown exp n t1 := by
  have key : drawdown_dd n t2 = drawdown_dd n t1 := by
    have e1 : drawdown_dd n t2 = drawdown_dd n (fun i => if i = 0 then t2 0 else t1 i) := by
      unfold drawdown_dd
      rw [drawdown_loop_congr n (fun i => if i = 0 then t2 0 else t1 i) t2]
      · simp
      · intro i hi0 hi1
        rw [h i hi0 hi1, if_neg (by omega)]
    rw [e1]
    apply drawdown_dd_head
    intro i hi
    rw [if_neg (by omega)]
  exact ⟨key, by unfold drawdown; rw [key]⟩

theorem drawdown_ignores_first_witness :
    ((1 : Int) ≤ 4 ∧
      ∀ i : Int, 1 ≤ i → i < 4 → (shift_head 9 unitLosses : Int → ℝ) i = unitLosses i) ∧
    drawdown Real.exp 4 (shift_head 9 unitLosses) = drawdown Real.exp 4 unitLosses :=
  ⟨⟨by decide, fun i hi0 _ => by unfold shift_head; rw [if_neg (by omega)]⟩,
    (drawdown_ignores_first Real.exp 4 unitLosses (shift_head 9 unitLosses) (by decide)
      (fun i hi0 _ => by unfold shift_head; rw [if_neg (by omega)])).2⟩

theorem drawdown_loop_dd_nonneg (n : Int) (trades : Int → α) :
    0 ≤ (drawdown_loop n trades).dd := by
  unfold drawdown_loop
  rcases lt_or_le n 1 with hlt | hge
  · rw [forLoop_empty _ _ _ _ (le_of_lt hlt)]
  · refine forLoop_invariant 1 n _ _ (fun _ (s : DDState α) => 0 ≤ s.dd) hge (le_refl _) ?_
    intro i st _ _ ih
    unfold drawdown_body
    dsimp only
    split_ifs with h1 h2
    · exact ih
    · exact le_of_lt (lt_of_le_of_lt ih h2)
    · exact ih

theorem drawdown_range (n : Int) (trades : Int → ℝ) :
    0 ≤ drawdown Real.exp n trades ∧ drawdown Real.exp n trades < 100 := by
  have hdd : 0 ≤ drawdown_dd n trades := drawdown_loop_dd_nonneg n trades
  unfold drawdown
  have h1 : Real.exp (-(drawdown_dd n trades)) ≤ 1 := Real.exp_le_one_iff.mpr (by linarith)
  have h2 : 0 < Real.exp (-(drawdown_dd n trades)) := Real.exp_pos _
  constructor <;> nlinarith

theorem total_return_shift (n : Int) (prices : Int → α) (c : α) :
    total_return n (shift_window c prices) = total_return n prices := by
  simp only [total_return, shift_window, add_sub_add_right_eq_sub]

theorem sharpe_ratio_shift (sqrt : α → α) (n : Int) (prices : Int → α) (c : α) :
    sharpe_ratio sqrt n (shift_window c prices) = sharpe_ratio sqrt n prices := by
  simp only [sharpe_ratio, shift_window, add_sub_add_right_eq_sub]

theorem profit_factor_shift (n : Int) (prices : Int → α) (c : α) :
    profit_factor n (shift_window c prices) = profit_factor n prices := by
  simp only [profit_factor, shift_window, add_sub_add_right_eq_sub]

/-- C27: adding a constant `c` to every element of a log-price window of length `n ≥ 2`
leaves `total_return`, `sharpe_ratio` and `profit_factor` unchanged, and hence
`criterion ( which , ... )` for `which` in `{0, 1, 2}`. -/
theorem criteria_shift_invariant (sqrt : α → α) (n : Int) (prices : Int → α) (c : α)
    (which : Int) (_hn : 2 ≤ n) (_hw : which = 0 ∨ which = 1 ∨ which = 2) :
    total_return n (shift_window c prices) = total_return n prices ∧
      sharpe_ratio sqrt n (shift_window c prices) = sharpe_ratio sqrt n prices ∧
      profit_factor n (shift_window c prices) = profit_factor n prices ∧
      criterion sqrt which n (shift_window c prices) = criterion sqrt which n prices := by
  refine ⟨total_return_shift n prices c, sharpe_ratio_shift sqrt n prices c,
    profit_factor_shift n prices c, ?_⟩
  unfold criterion
  rw [total_return_shift, sharpe_ratio_shift, profit_factor_shift]

theorem criteria_shift_invariant_witness :
    ((2 : Int) ≤ 4 ∧ ((1 : Int) = 0 ∨ (1 : Int) = 1 ∨ (1 : Int) = 2)) ∧
    criterion Real.sqrt 1 4 (shift_window 10 zigzagWindow)
      = criterion Real.sqrt 1 4 zigzagWindow :=
  ⟨⟨by decide, by decide⟩,
    (criteria_shift_invariant Real.sqrt 4 zigzagWindow 10 1 (by decide) (by decide)).2.2.2⟩

/-- The difference of the two sums of `profit_factor` is the total return. -/
theorem profit_factor_sums_diff (n : Int) (prices : Int → α) (hn : 1 ≤ n) :
    (profit_factor_sums n prices).1 - (profit_factor_sums n prices).2
      = prices (n - 1) - prices 0 := by
  unfold profit_factor_sums
  refine forLoop_invariant 1 n _ _
    (fun k (ws : α × α) => ws.1 - ws.2 = prices (k - 1) - prices 0) hn (by simp) ?_
  intro i st _ _ ih
  dsimp only
  split_ifs with h
  · show st.1 + (prices i - prices (i - 1)) - st.2 = prices (i + 1 - 1) - prices 0
    rw [add_sub_cancel_right]
    linear_combination ih
  · show st.1 - (st.2 - (prices i - prices (i - 1))) = prices (i + 1 - 1) - prices 0
    rw [add_sub_cancel_right]
    linear_combination ih

/-- The sign of `sharpe_ratio` is the sign of the total return. -/
theorem sharpe_ratio_sign (n : Int) (prices : Int → ℝ) (hn : 2 ≤ n) :
    ∃ d : ℝ, 0 < d ∧ sharpe_ratio Real.sqrt n prices = total_return n prices / d := by
  have hn1 : (0 : ℝ) < (n : ℝ) - 1 := by
    have : (2 : ℝ) ≤ (n : ℝ) := by exact_mod_cast hn
    linarith
  have hn2 : (0 : ℝ) < (((n - 1 : Int)) : ℝ) := by
    push_cast
    exact hn1
  have hvar : (0 : ℝ) < sharpe_ratio_var n prices :=
    lt_of_lt_of_le tiny_pos (sharpe_ratio_var_ge n prices)
  have hs : 0 < Real.sqrt (sharpe_ratio_var n prices / (((n - 1 : Int)) : ℝ)) :=
    Real.sqrt_pos.mpr (div_pos hvar hn2)
  refine ⟨((n : ℝ) - 1) * Real.sqrt (sharpe_ratio_var n prices / (((n - 1 : Int)) : ℝ)),
    mul_pos hn1 hs, ?_⟩
  rw [sharpe_ratio_eq, total_return, div_div]

/-- C25: on every log-price window of length `n ≥ 2`, in exact real arithmetic, the three
criteria agree on whether the window was profitable: `total_return > 0` iff
`sharpe_ratio > 0` iff `profit_factor > 1`, and `total_return = 0` iff `sharpe_ratio = 0`
iff `profit_factor = 1`; `profit_factor` is always strictly positive. -/
theorem criteria_agree_on_sign (n : Int) (prices : Int → ℝ) (hn : 2 ≤ n) :
    ((0 < total_return n prices ↔ 0 < sharpe_ratio Real.sqrt n prices) ∧
      (0 < sharpe_ratio Real.sqrt n prices ↔ 1 < profit_factor n prices)) ∧
    ((total_return n prices = 0 ↔ sharpe_ratio Real.sqrt n prices = 0) ∧
      (sharpe_ratio Real.sqrt n prices = 0 ↔ profit_factor n prices = 1)) ∧
    0 < profit_factor n prices := by
  obtain ⟨d, hd, hsr⟩ := sharpe_ratio_sign n prices hn
  have hdiff := profit_factor_sums_diff n prices (by omega)
  obtain ⟨hw, hl⟩ := profit_factor_sums_ge n prices
  have hwpos : (0 : ℝ) < (profit_factor_sums n prices).1 := lt_of_lt_of_le tiny_pos hw
  have hlpos : (0 : ℝ) < (profit_factor_sums n prices).2 := lt_of_lt_of_le tiny_pos hl
  have htr : total_return n prices
      = (profit_factor_sums n prices).1 - (profit_factor_sums n prices).2 := by
    rw [hdiff, total_return]
  have s1 : 0 < total_return n prices ↔ 0 < sharpe_ratio Real.sqrt n prices := by
    rw [hsr]
    constructor
    · intro h
      exact div_pos h hd
    · intro h
      by_contra hneg
      have : total_return n prices / d ≤ 0 := div_nonpos_of_nonpos_of_nonneg (not_lt.mp hneg)
        (le_of_lt hd)
      linarith
  have s2 : total_return n prices = 0 ↔ sharpe_ratio Real.sqrt n prices = 0 := by
    rw [hsr, div_eq_zero_iff]
    constructor
    · intro h
      exact Or.inl h
    · rintro (h | h)
      · exact h
      · exact absurd h (ne_of_gt hd)
  have p1 : 0 < total_return n prices ↔ 1 < profit_factor n prices := by
    rw [profit_factor_eq, one_lt_div hlpos, htr]
    constructor <;> intro h <;> linarith
  have p2 : total_return n prices = 0 ↔ profit_factor n prices = 1 := by
    rw [profit_factor_eq, div_eq_one_iff_eq (ne_of_gt hlpos), htr]
    constructor <;> intro h <;> linarith
  refine ⟨⟨s1, s1.symm.trans p1⟩, ⟨s2, s2.symm.trans p2⟩, ?_⟩
  rw [profit_factor_eq]
  exact div_pos hwpos hlpos

theorem criteria_agree_on_sign_witness :
    (2 : Int) ≤ 4 ∧ 0 < profit_factor 4 (zigzagWindow : Int → ℝ) :=
  ⟨by decide, (criteria_agree_on_sign 4 zigzagWindow (by decide)).2.2⟩

end Relations

/-! ## The drawdown quantiles and the table of bounds -/

section BootstrapThms

variable {α : Type} [LinearOrderedField α] [FloorRing α]

theorem truncToInt_mono (x y : α) (hx : 0 ≤ x) (hxy : x ≤ y) : truncToInt x ≤ truncToInt y := by
  rw [truncToInt_of_nonneg x hx, truncToInt_of_nonneg y (le_trans hx hxy)]
  exact Int.floor_le_floor hxy

theorem find_quantile_k_mono (n : Int) (f1 f2 : α) (hn : 0 ≤ n) (h0 : 0 ≤ f1) (h12 : f1 ≤ f2) :
    find_quantile_k n f1 ≤ find_quantile_k n f2 := by
  rw [find_quantile_k_eq_max, find_quantile_k_eq_max]
  have hpos : (0 : α) ≤ ((n + 1 : Int) : α) := by exact_mod_cast (by omega : (0 : Int) ≤ n + 1)
  have := truncToInt_mono (f1 * ((n + 1 : Int) : α)) (f2 * ((n + 1 : Int) : α))
    (mul_nonneg h0 hpos) (mul_le_mul_of_nonneg_right h12 hpos)
  exact max_le_max (by omega) (le_refl _)

theorem find_quantile_k_range (n : Int) (frac : α) (hn : 1 ≤ n) (h0 : 0 ≤ frac) (h1 : frac < 1) :
    0 ≤ find_quantile_k n frac ∧ find_quantile_k n frac < n := by
  rw [find_quantile_k_eq_max]
  exact clamped_index_range n frac hn h0 h1

theorem find_quantile_mono (n : Int) (data : Int → α) (f1 f2 : α) (hn : 1 ≤ n)
    (hs : Ascending 0 (n - 1) data) (h0 : 0 ≤ f1) (h12 : f1 ≤ f2) (h2 : f2 < 1) :
    find_quantile n data f1 ≤ find_quantile n data f2 := by
  unfold find_quantile
  have r1 := find_quantile_k_range n f1 hn h0 (lt_of_le_of_lt h12 h2)
  have r2 := find_quantile_k_range n f2 hn (le_trans h0 h12) h2
  exact hs _ _ r1.1 (find_quantile_k_mono n f1 f2 (by omega) h0 h12) (by omega)

theorem drawdown_quantiles_k_eq (level : α) (nboot : Int) :
    drawdown_quantiles_k level nboot = find_quantile_k nboot level := rfl

omit [FloorRing α] in
theorem ascending_single (data : Int → α) (k : Int) : Ascending k k data := by
  intro i j hi hij hj
  have : i = j := by omega
  rw [this]

omit [FloorRing α] in
/-- The list that `qsortd_insertion` sorts has one element for each index `first .. last`. -/
theorem qsortd_insertion_length (first last : Int) (data : Int → α) :
    (List.insertionSort (fun a b => a ≤ b)
      ((List.range (last - first + 1).toNat).map
        (fun (k : Nat) => data (first + (k : Int))))).length = (last - first + 1).toNat := by
  rw [List.length_insertionSort, List.length_map, List.length_range]

omit [FloorRing α] in
/-- The routine `qsortd_insertion` leaves the elements `first .. last` in ascending order. -/
theorem qsortd_insertion_ascending (first last : Int) (data : Int → α) :
    Ascending first last (qsortd_insertion first last data) := by
  intro i j hi hij hj
  unfold qsortd_insertion
  rw [if_pos ⟨hi, by omega⟩, if_pos ⟨by omega, hj⟩]
  have hlen := qsortd_insertion_length first last data
  have hsorted := List.sorted_insertionSort (fun a b : α => a ≤ b)
    ((List.range (last - first + 1).toNat).map (fun (k : Nat) => data (first + (k : Int))))
  have hi' : (i - first).toNat < (List.insertionSort (fun a b => a ≤ b)
      ((List.range (last - first + 1).toNat).map
        (fun (k : Nat) => data (first + (k : Int))))).length := by
    rw [hlen]
    omega
  have hj' : (j - first).toNat < (List.insertionSort (fun a b => a ≤ b)
      ((List.range (last - first + 1).toNat).map
        (fun (k : Nat) => data (first + (k : Int))))).length := by
    rw [hlen]
    omega
  rw [List.getD_eq_getElem _ _ hi', List.getD_eq_getElem _ _ hj']
  exact @List.Sorted.rel_get_of_le _ _ _ _ hsorted ⟨(i - first).toNat, hi'⟩
    ⟨(j - first).toNat, hj'⟩ (by
      show (i - first).toNat ≤ (j - first).toNat
      omega)

omit [FloorRing α] in
/-- The routine `qsortd_insertion` leaves in `first .. last` values that were there. -/
theorem qsortd_insertion_keeps : KeepsValues (qsortd_insertion : Int → Int → (Int → α) → Int → α) := by
  intro first last data i hi0 hi1
  unfold qsortd_insertion
  rw [if_pos ⟨hi0, hi1⟩]
  have hlen := qsortd_insertion_length first last data
  have hi' : (i - first).toNat < (List.insertionSort (fun a b => a ≤ b)
      ((List.range (last - first + 1).toNat).map
        (fun (k : Nat) => data (first + (k : Int))))).length := by
    rw [hlen]
    omega
  rw [List.getD_eq_getElem _ _ hi']
  have hmem := List.getElem_mem hi'
  rw [List.mem_insertionSort, List.mem_map] at hmem
  obtain ⟨k, hk, hk2⟩ := hmem
  rw [List.mem_range] at hk
  exact ⟨first + (k : Int), by omega, by omega, hk2.symm⟩

/-- The four indices of `drawdown_quantiles` for `nboot = 20`. -/
theorem quantile_indices_twenty :
    k_q10 (α := ℝ) 20 = 17 ∧ k_q05 (α := ℝ) 20 = 18 ∧ k_q01 (α := ℝ) 20 = 19 ∧
      k_q001 (α := ℝ) 20 = 19 := by
  have key : ∀ (level : ℝ) (m : Int), 0 ≤ level → (m : ℝ) ≤ level * 21 →
      level * 21 < (m : ℝ) + 1 → 1 ≤ m → drawdown_quantiles_k level 20 = m - 1 := by
    intro level m h0 h1 h2 hm
    rw [drawdown_quantiles_k_eq_max, truncToInt_of_nonneg _ (by positivity)]
    have hf : ⌊level * (((20 + 1 : Int)) : ℝ)⌋ = m := by
      rw [Int.floor_eq_iff]
      push_cast
      constructor <;> linarith
    rw [hf]
    exact max_eq_left (by omega)
  refine ⟨key (90 / 100) 18 (by norm_num) (by norm_num) (by norm_num) (by decide),
    key (95 / 100) 19 (by norm_num) (by norm_num) (by norm_num) (by decide),
    key (99 / 100) 20 (by norm_num) (by norm_num) (by norm_num) (by decide),
    key (999 / 1000) 20 (by norm_num) (by norm_num) (by norm_num) (by decide)⟩

/-- C24: if `qsortd` leaves `work` in ascending order, then for every `nboot ≥ 1`, every
input and every random stream the four outputs of one call of `drawdown_quantiles` satisfy
`q10 ≤ q05 ≤ q01 ≤ q001`; on data of length `n ≥ 1` in ascending order `find_quantile` is
non-decreasing in `frac` over `0 ≤ frac < 1`; so each row of the table is non-decreasing
from confidence `0.5` to `0.95`. -/
theorem quantiles_ordered (exp : α → α) (unifrand : Nat → α)
    (qsortd : Int → Int → (Int → α) → Int → α) (n_changes n_trades : Int)
    (b_changes : Int → α) (nboot : Int) (quantsample work : Int → α) (calls : Nat)
    (hb : 1 ≤ nboot)
    (hsort : Ascending 0 (nboot - 1) (qsortd 0 (nboot - 1)
      (drawdown_quantiles_loop exp unifrand n_changes n_trades b_changes nboot
        (quantsample, work, calls)).2.1)) :
    ((drawdown_quantiles exp unifrand qsortd n_changes n_trades b_changes nboot quantsample
          work calls).q10
        ≤ (drawdown_quantiles exp unifrand qsortd n_changes n_trades b_changes nboot
          quantsample work calls).q05 ∧
      (drawdown_quantiles exp unifrand qsortd n_changes n_trades b_changes nboot quantsample
          work calls).q05
        ≤ (drawdown_quantiles exp unifrand qsortd n_changes n_trades b_changes nboot
          quantsample work calls).q01 ∧
      (drawdown_quantiles exp unifrand qsortd n_changes n_trades b_changes nboot quantsample
          work calls).q01
        ≤ (drawdown_quantiles exp unifrand qsortd n_changes n_trades b_changes nboot
          quantsample work calls).q001) ∧
    (∀ (n : Int) (data : Int → α) (f1 f2 : α), 1 ≤ n → Ascending 0 (n - 1) data →
      0 ≤ f1 → f1 ≤ f2 → f2 < 1 → find_quantile n data f1 ≤ find_quantile n data f2) ∧
    (∀ (bootstrap_reps : Int) (q : Int → α), 1 ≤ bootstrap_reps →
      Ascending 0 (bootstrap_reps - 1) (qsortd 0 (bootstrap_reps - 1) q) →
      table_entry qsortd bootstrap_reps q (5 / 10) ≤ table_entry qsortd bootstrap_reps q (6 / 10) ∧
      table_entry qsortd bootstrap_reps q (6 / 10) ≤ table_entry qsortd bootstrap_reps q (7 / 10) ∧
      table_entry qsortd bootstrap_reps q (7 / 10) ≤ table_entry qsortd bootstrap_reps q (8 / 10) ∧
      table_entry qsortd bootstrap_reps q (8 / 10) ≤ table_entry qsortd bootstrap_reps q (9 / 10) ∧
      table_entry qsortd bootstrap_reps q (9 / 10)
        ≤ table_entry qsortd bootstrap_reps q (95 / 100)) := by
  refine ⟨⟨?_, ?_, ?_⟩, ?_, ?_⟩
  · exact find_quantile_mono nboot _ (90 / 100) (95 / 100) hb hsort (by norm_num) (by norm_num)
      (by norm_num)
  · exact find_quantile_mono nboot _ (95 / 100) (99 / 100) hb hsort (by norm_num) (by norm_num)
      (by norm_num)
  · exact find_quantile_mono nboot _ (99 / 100) (999 / 1000) hb hsort (by norm_num)
      (by norm_num) (by norm_num)
  · intro n data f1 f2 hn hs h0 h12 h2
    exact find_quantile_mono n data f1 f2 hn hs h0 h12 h2
  · intro reps q hr hs
    unfold table_entry
    exact ⟨find_quantile_mono reps _ _ _ hr hs (by norm_num) (by norm_num) (by norm_num),
      find_quantile_mono reps _ _ _ hr hs (by norm_num) (by norm_num) (by norm_num),
      find_quantile_mono reps _ _ _ hr hs (by norm_num) (by norm_num) (by norm_num),
      find_quantile_mono reps _ _ _ hr hs (by norm_num) (by norm_num) (by norm_num),
      find_quantile_mono reps _ _ _ hr hs (by norm_num) (by norm_num) (by norm_num)⟩

theorem quantiles_ordered_witness :
    ((1 : Int) ≤ 20 ∧
      Ascending 0 (20 - 1) (qsortd_insertion 0 (20 - 1)
        (drawdown_quantiles_loop Real.exp unifrand_quadratic 6 5 sixChanges 20
          (fun _ => 0, fun _ => 0, 0)).2.1)) ∧
    (k_q10 (α := ℝ) 20 = 17 ∧ k_q05 (α := ℝ) 20 = 18 ∧ k_q01 (α := ℝ) 20 = 19 ∧
      k_q001 (α := ℝ) 20 = 19) ∧
    (drawdown_quantiles Real.exp unifrand_quadratic qsortd_insertion 6 5 sixChanges 20 (fun _ => 0)
          (fun _ => 0) 0).q10
        ≤ (drawdown_quantiles Real.exp unifrand_quadratic qsortd_insertion 6 5 sixChanges 20
          (fun _ => 0) (fun _ => 0) 0).q05 ∧
      (drawdown_quantiles Real.exp unifrand_quadratic qsortd_insertion 6 5 sixChanges 20 (fun _ => 0)
          (fun _ => 0) 0).q05
        ≤ (drawdown_quantiles Real.exp unifrand_quadratic qsortd_insertion 6 5 sixChanges 20
          (fun _ => 0) (fun _ => 0) 0).q01 ∧
      (drawdown_quantiles Real.exp unifrand_quadratic qsortd_insertion 6 5 sixChanges 20 (fun _ => 0)
          (fun _ => 0) 0).q01
        ≤ (drawdown_quantiles Real.exp unifrand_quadratic qsortd_insertion 6 5 sixChanges 20
          (fun _ => 0) (fun _ => 0) 0).q001 :=
  ⟨⟨by decide, qsortd_insertion_ascending _ _ _⟩, quantile_indices_twenty,
    (quantiles_ordered Real.exp unifrand_quadratic qsortd_insertion 6 5 sixChanges 20 (fun _ => 0)
      (fun _ => 0) 0 (by decide) (qsortd_insertion_ascending _ _ _)).1⟩

/-- Every element of `work` that the loop of `drawdown_quantiles` has assigned is a value
of `drawdown`. -/
theorem drawdown_quantiles_loop_range (unifrand : Nat → ℝ) (n_changes n_trades : Int)
    (b_changes : Int → ℝ) (nboot : Int) (st : (Int → ℝ) × (Int → ℝ) × Nat) (i : Int)
    (hi0 : 0 ≤ i) (hi1 : i < nboot) :
    0 ≤ (drawdown_quantiles_loop Real.exp unifrand n_changes n_trades b_changes nboot st).2.1 i ∧
      (drawdown_quantiles_loop Real.exp unifrand n_changes n_trades b_changes nboot st).2.1 i
        < 100 := by
  have key : ∀ j, 0 ≤ j → j < nboot →
      0 ≤ (drawdown_quantiles_loop Real.exp unifrand n_changes n_trades b_changes nboot
          st).2.1 j ∧
        (drawdown_quantiles_loop Real.exp unifrand n_changes n_trades b_changes nboot st).2.1 j
          < 100 := by
    unfold drawdown_quantiles_loop
    refine forLoop_invariant 0 nboot _ st
      (fun k (s : (Int → ℝ) × (Int → ℝ) × Nat) =>
        ∀ j, 0 ≤ j → j < k → 0 ≤ s.2.1 j ∧ s.2.1 j < 100) (by omega)
      (fun j h0 h1 => by omega) ?_
    intro k s hk0 hk1 ih j hj0 hj1
    dsimp only
    by_cases hjk : j = k
    · subst hjk
      rw [Function.update_same]
      exact drawdown_range _ _
    · rw [Function.update_noteq hjk]
      exact ih j hj0 (by omega)
  exact key i hi0 hi1

/-- The four outputs of `drawdown_quantiles` are values of `drawdown`. -/
theorem drawdown_quantiles_range (unifrand : Nat → ℝ)
    (qsortd : Int → Int → (Int → ℝ) → Int → ℝ) (hq : KeepsValues qsortd)
    (n_changes n_trades : Int) (b_changes : Int → ℝ) (nboot : Int) (hb : 1 ≤ nboot)
    (quantsample work : Int → ℝ) (calls : Nat) :
    (0 ≤ (drawdown_quantiles Real.exp unifrand qsortd n_changes n_trades b_changes nboot
          quantsample work calls).q001 ∧
      (drawdown_quantiles Real.exp unifrand qsortd n_changes n_trades b_changes nboot
          quantsample work calls).q001 < 100) ∧
    (0 ≤ (drawdown_quantiles Real.exp unifrand qsortd n_changes n_trades b_changes nboot
          quantsample work calls).q01 ∧
      (drawdown_quantiles Real.exp unifrand qsortd n_changes n_trades b_changes nboot
          quantsample work calls).q01 < 100) ∧
    (0 ≤ (drawdown_quantiles Real.exp unifrand qsortd n_changes n_trades b_changes nboot
          quantsample work calls).q05 ∧
      (drawdown_quantiles Real.exp unifrand qsortd n_changes n_trades b_changes nboot
          quantsample work calls).q05 < 100) ∧
    (0 ≤ (drawdown_quantiles Real.exp unifrand qsortd n_changes n_trades b_changes nboot
          quantsample work calls).q10 ∧
      (drawdown_quantiles Real.exp unifrand qsortd n_changes n_trades b_changes nboot
          quantsample work calls).q10 < 100) := by
  have key : ∀ frac : ℝ, 0 ≤ frac → frac < 1 →
      0 ≤ qsortd 0 (nboot - 1)
          (drawdown_quantiles_loop Real.exp unifrand n_changes n_trades b_changes nboot
            (quantsample, work, calls)).2.1 (find_quantile_k nboot frac) ∧
        qsortd 0 (nboot - 1)
          (drawdown_quantiles_loop Real.exp unifrand n_changes n_trades b_changes nboot
            (quantsample, work, calls)).2.1 (find_quantile_k nboot frac) < 100 := by
    intro frac h0 h1
    obtain ⟨r0, r1⟩ := find_quantile_k_range nboot frac hb h0 h1
    obtain ⟨j, hj0, hj1, hj⟩ := hq 0 (nboot - 1)
      (drawdown_quantiles_loop Real.exp unifrand n_changes n_trades b_changes nboot
        (quantsample, work, calls)).2.1 (find_quantile_k nboot frac) r0 (by omega)
    rw [hj]
    exact drawdown_quantiles_loop_range unifrand n_changes n_trades b_changes nboot _ j hj0
      (by omega)
  exact ⟨key (999 / 1000) (by norm_num) (by norm_num), key (99 / 100) (by norm_num) (by norm_num),
    key (95 / 100) (by norm_num) (by norm_num), key (90 / 100) (by norm_num) (by norm_num)⟩

/-- Every element of `q001`, `q01`, `q05`, `q10` that the bootstrap loop has assigned is a
value of `drawdown`. -/
theorem bootstrap_loop_range (unifrand : Nat → ℝ) (qsortd : Int → Int → (Int → ℝ) → Int → ℝ)
    (hq : KeepsValues qsortd) (n n_trades quantile_reps bootstrap_reps : Int)
    (hr : 1 ≤ quantile_reps) (OOS2 : Int → ℝ) (OOS2_start : Int) (b : BootState ℝ) (i : Int)
    (hi0 : 0 ≤ i) (hi1 : i < bootstrap_reps) :
    (0 ≤ (bootstrap_loop Real.exp unifrand qsortd n n_trades quantile_reps bootstrap_reps OOS2
          OOS2_start b).q001 i ∧
      (bootstrap_loop Real.exp unifrand qsortd n n_trades quantile_reps bootstrap_reps OOS2
          OOS2_start b).q001 i < 100) ∧
    (0 ≤ (bootstrap_loop Real.exp unifrand qsortd n n_trades quantile_reps bootstrap_reps OOS2
          OOS2_start b).q01 i ∧
      (bootstrap_loop Real.exp unifrand qsortd n n_trades quantile_reps bootstrap_reps OOS2
          OOS2_start b).q01 i < 100) ∧
    (0 ≤ (bootstrap_loop Real.exp unifrand qsortd n n_trades quantile_reps bootstrap_reps OOS2
          OOS2_start b).q05 i ∧
      (bootstrap_loop Real.exp unifrand qsortd n n_trades quantile_reps bootstrap_reps OOS2
          OOS2_start b).q05 i < 100) ∧
    (0 ≤ (bootstrap_loop Real.exp unifrand qsortd n n_trades quantile_reps bootstrap_reps OOS2
          OOS2_start b).q10 i ∧
      (bootstrap_loop Real.exp unifrand qsortd n n_trades quantile_reps bootstrap_reps OOS2
          OOS2_start b).q10 i < 100) := by
  have key : ∀ j, 0 ≤ j → j < bootstrap_reps →
      (0 ≤ (bootstrap_loop Real.exp unifrand qsortd n n_trades quantile_reps bootstrap_reps
            OOS2 OOS2_start b).q001 j ∧
        (bootstrap_loop Real.exp unifrand qsortd n n_trades quantile_reps bootstrap_reps OOS2
            OOS2_start b).q001 j < 100) ∧
      (0 ≤ (bootstrap_loop Real.exp unifrand qsortd n n_trades quantile_reps bootstrap_reps
            OOS2 OOS2_start b).q01 j ∧
        (bootstrap_loop Real.exp unifrand qsortd n n_trades quantile_reps bootstrap_reps OOS2
            OOS2_start b).q01 j < 100) ∧
      (0 ≤ (bootstrap_loop Real.exp unifrand qsortd n n_trades quantile_reps bootstrap_reps
            OOS2 OOS2_start b).q05 j ∧
        (bootstrap_loop Real.exp unifrand qsortd n n_trades quantile_reps bootstrap_reps OOS2
            OOS2_start b).q05 j < 100) ∧
      (0 ≤ (bootstrap_loop Real.exp unifrand qsortd n n_trades quantile_reps bootstrap_reps
            OOS2 OOS2_start b).q10 j ∧
        (bootstrap_loop Real.exp unifrand qsortd n n_trades quantile_reps bootstrap_reps OOS2
            OOS2_start b).q10 j < 100) := by
    unfold bootstrap_loop
    refine forLoop_invariant 0 bootstrap_reps _ b
      (fun k (s : BootState ℝ) => ∀ j, 0 ≤ j → j < k →
        (0 ≤ s.q001 j ∧ s.q001 j < 100) ∧ (0 ≤ s.q01 j ∧ s.q01 j < 100) ∧
        (0 ≤ s.q05 j ∧ s.q05 j < 100) ∧ (0 ≤ s.q10 j ∧ s.q10 j < 100)) (by omega)
      (fun j h0 h1 => by omega) ?_
    intro k s hk0 hk1 ih j hj0 hj1
    unfold bootstrap_body
    dsimp only
    by_cases hjk : j = k
    · subst hjk
      simp only [Function.update_same]
      exact drawdown_quantiles_range unifrand qsortd hq _ _ _ _ hr _ _ _
    · simp only [Function.update_noteq hjk]
      exact ih j hj0 (by omega)
  exact key i hi0 hi1

/-- An entry of the table is a value of `drawdown` if every element of `q` is. -/
theorem table_entry_range (qsortd : Int → Int → (Int → ℝ) → Int → ℝ) (hq : KeepsValues qsortd)
    (bootstrap_reps : Int) (hb : 1 ≤ bootstrap_reps) (q : Int → ℝ) (frac : ℝ) (h0 : 0 ≤ frac)
    (h1 : frac < 1) (hr : ∀ i, 0 ≤ i → i < bootstrap_reps → 0 ≤ q i ∧ q i < 100) :
    0 ≤ table_entry qsortd bootstrap_reps q frac ∧
      table_entry qsortd bootstrap_reps q frac < 100 := by
  unfold table_entry find_quantile
  obtain ⟨r0, r1⟩ := find_quantile_k_range bootstrap_reps frac hb h0 h1
  obtain ⟨j, hj0, hj1, hj⟩ := hq 0 (bootstrap_reps - 1) q (find_quantile_k bootstrap_reps frac)
    r0 (by omega)
  rw [hj]
  exact hr j hj0 (by omega)

/-- C28: in exact real arithmetic, for every input of length `n ≥ 1` the percent drawdown
that `drawdown` returns is at least `0` and below `100`; so every value of the table of
drawdown bounds lies in `[0, 100)`, `qsortd` leaving in the array the values it found
there. -/
theorem drawdown_percent_range (n : Int) (trades : Int → ℝ) (_hn : 1 ≤ n) :
    (0 ≤ drawdown Real.exp n trades ∧ drawdown Real.exp n trades < 100) ∧
    ∀ (unifrand : Nat → ℝ) (qsortd : Int → Int → (Int → ℝ) → Int → ℝ)
      (n_oos n_trades quantile_reps bootstrap_reps : Int) (OOS2 : Int → ℝ) (OOS2_start : Int)
      (b : BootState ℝ) (frac : ℝ),
      KeepsValues qsortd → 1 ≤ quantile_reps → 1 ≤ bootstrap_reps → 0 ≤ frac → frac < 1 →
      (0 ≤ table_entry qsortd bootstrap_reps
            (bootstrap_loop Real.exp unifrand qsortd n_oos n_trades quantile_reps
              bootstrap_reps OOS2 OOS2_start b).q001 frac ∧
        table_entry qsortd bootstrap_reps
            (bootstrap_loop Real.exp unifrand qsortd n_oos n_trades quantile_reps
              bootstrap_reps OOS2 OOS2_start b).q001 frac < 100) ∧
      (0 ≤ table_entry qsortd bootstrap_reps
            (bootstrap_loop Real.exp unifrand qsortd n_oos n_trades quantile_reps
              bootstrap_reps OOS2 OOS2_start b).q01 frac ∧
        table_entry qsortd bootstrap_reps
            (bootstrap_loop Real.exp unifrand qsortd n_oos n_trades quantile_reps
              bootstrap_reps OOS2 OOS2_start b).q01 frac < 100) ∧
      (0 ≤ table_entry qsortd bootstrap_reps
            (bootstrap_loop Real.exp unifrand qsortd n_oos n_trades quantile_reps
              bootstrap_reps OOS2 OOS2_start b).q05 frac ∧
        table_entry qsortd bootstrap_reps
            (bootstrap_loop Real.exp unifrand qsortd n_oos n_trades quantile_reps
              bootstrap_reps OOS2 OOS2_start b).q05 frac < 100) ∧
      (0 ≤ table_entry qsortd bootstrap_reps
            (bootstrap_loop Real.exp unifrand qsortd n_oos n_trades quantile_reps
              bootstrap_reps OOS2 OOS2_start b).q10 frac ∧
        table_entry qsortd bootstrap_reps
            (bootstrap_loop Real.exp unifrand qsortd n_oos n_trades quantile_reps
              bootstrap_reps OOS2 OOS2_start b).q10 frac < 100) := by
  refine ⟨drawdown_range n trades, ?_⟩
  intro unifrand qsortd n_oos n_trades quantile_reps bootstrap_reps OOS2 OOS2_start b frac hq hr
    hb h0 h1
  have hall := bootstrap_loop_range unifrand qsortd hq n_oos n_trades quantile_reps
    bootstrap_reps hr OOS2 OOS2_start b
  exact ⟨table_entry_range qsortd hq bootstrap_reps hb _ frac h0 h1
      (fun i hi0 hi1 => (hall i hi0 hi1).1),
    table_entry_range qsortd hq bootstrap_reps hb _ frac h0 h1
      (fun i hi0 hi1 => (hall i hi0 hi1).2.1),
    table_entry_range qsortd hq bootstrap_reps hb _ frac h0 h1
      (fun i hi0 hi1 => (hall i hi0 hi1).2.2.1),
    table_entry_range qsortd hq bootstrap_reps hb _ frac h0 h1
      (fun i hi0 hi1 => (hall i hi0 hi1).2.2.2)⟩

theorem drawdown_percent_range_witness :
    (1 : Int) ≤ 4 ∧
    (0 ≤ drawdown Real.exp 4 unitLosses ∧ drawdown Real.exp 4 unitLosses < 100) ∧
    (KeepsValues (qsortd_single : Int → Int → (Int → ℝ) → Int → ℝ) ∧
      0 ≤ table_entry qsortd_single 1
        (bootstrap_loop Real.exp (fun _ => 1 / 2) qsortd_single 3 2 1 1 unitLosses 0
          zeroBoot).q001 (1 / 2)) :=
  ⟨by decide, (drawdown_percent_range 4 unitLosses (by decide)).1,
    fun _ _ _ i h0 h1 => ⟨i, h0, h1, rfl⟩,
    ((drawdown_percent_range 4 unitLosses (by decide)).2 (fun _ => 1 / 2) qsortd_single 3 2 1 1
      unitLosses 0 zeroBoot (1 / 2) (fun _ _ _ i h0 h1 => ⟨i, h0, h1, rfl⟩) (by decide)
      (by decide) (by norm_num) (by norm_num)).1.1⟩

end BootstrapThms

/-! ## Reads of the alignment loop -/

section AlignmentReads

variable {α : Type}

theorem forLoop_zero_two {σ : Type} (body : Int → σ → σ) (s : σ) :
    forLoop 0 2 body s = body 1 (body 0 s) := by
  have h2 : ((2 : Int) - 0).toNat = 2 := by decide
  simp only [forLoop, h2, List.range_succ, List.range_zero, List.nil_append, List.cons_append,
    List.foldl_cons, List.foldl_nil]
  rfl

/-- The reads of the `while` loop of line 605 stay below `n`. -/
theorem skip_reads_in_range (i : Int) (dates : Int → Int) (n M idx : Int) :
    ∀ r, r ∈ skip_reads i dates n M idx → r.1 = i ∧ idx ≤ r.2 ∧ r.2 < n := by
  generalize hm : (n - idx).toNat = m
  induction m using Nat.strong_induction_on generalizing idx with
  | _ m ih =>
    intro r hr
    rw [skip_reads] at hr
    by_cases h1 : idx < n
    · rw [if_pos h1] at hr
      by_cases h2 : dates idx ≥ M
      · rw [if_pos h2, List.mem_singleton] at hr
        subst hr
        exact ⟨rfl, le_refl _, h1⟩
      · rw [if_neg h2, List.mem_cons] at hr
        rcases hr with hr | hr
        · subst hr
          exact ⟨rfl, le_refl _, h1⟩
        · obtain ⟨a, b, c⟩ := ih (n - (idx + 1)).toNat (by omega) (idx + 1) rfl r hr
          exact ⟨a, by omega, c⟩
    · rw [if_neg h1] at hr
      exact absurd hr (List.not_mem_nil _)

/-- The reads of line 606 stay below the number of records of the market read. -/
theorem advance_reads_in_range (nm : Int) (n : Int → Int) (md : Int → Int → Int) (M : Int)
    (i : Int) (mi : Int → Int) (date : Int) :
    ∀ r, r ∈ advance_reads nm n md M i mi date → r.2 < n r.1 := by
  generalize hm : (nm - i).toNat = m
  induction m using Nat.strong_induction_on generalizing i mi date with
  | _ m ih =>
    intro r hr
    rw [advance_reads] at hr
    by_cases h1 : i < nm
    · rw [if_pos h1] at hr
      have hskip := skip_reads_in_range i (md i) (n i) M (mi i)
      by_cases h2 : (skip_to (md i) (n i) M (mi i) date).1 ≥ n i
      · simp only [if_pos h2] at hr
        obtain ⟨a, _, c⟩ := hskip r hr
        rw [a]
        exact c
      · simp only [if_neg h2] at hr
        rcases List.mem_append.mp hr with hr | hr
        · obtain ⟨a, _, c⟩ := hskip r hr
          rw [a]
          exact c
        · exact ih (nm - (i + 1)).toNat (by omega) (i + 1) _ _ rfl r hr
    · rw [if_neg h1] at hr
      exact absurd hr (List.not_mem_nil _)

theorem align_reads_succ (nm : Int) (n : Int → Int) (fuel : Nat) (s : AlignState α) :
    align_reads nm n (fuel + 1) s
      = pass_reads nm n s ++
        match align_pass nm n s with
        | AlignStep.again s1 => align_reads nm n fuel s1
        | AlignStep.done _ => []
        | AlignStep.assert_failed => [] := rfl

theorem sameDay_ok : Histories 2 sameDay_n sameDay_dates := by
  refine ⟨by decide, ?_, ?_, ?_⟩
  · intro i _ _
    exact le_refl _
  · intro i _ _
    show (0 : Int) < 20200102
    decide
  · intro i k _ _ hk0 hk1
    unfold sameDay_n at hk1
    omega

/-- The first pass of the alignment loop on `sameDay_dates` keeps the one common date and
moves both indices to `1`, the number of records. -/
theorem sameDay_first_pass (g : AlignState Int) :
    ∃ s1, align_pass 2 sameDay_n (align_init 2 sameDay_dates sameDay_closes g)
        = AlignStep.again s1 ∧ s1.market_index 0 = 1 ∧ s1.market_index 1 = 1 ∧
        s1.grand_index = 1 := by
  have hi : ∀ i, 0 ≤ i → i < 2 →
      (align_init 2 sameDay_dates sameDay_closes g).market_index i = 0 :=
    align_init_index 2 _ _ g
  have hd : (align_init 2 sameDay_dates sameDay_closes g).market_date = sameDay_dates := rfl
  have hG : (align_init 2 sameDay_dates sameDay_closes g).grand_index = 0 := rfl
  generalize align_init 2 sameDay_dates sameDay_closes g = s at hi hd hG
  obtain ⟨S1, S2, _⟩ := scan_max_date_spec 2 s
  have hM : (scan_max_date 2 s).1 = 20200102 := by
    rcases S2 with h0 | ⟨j, hj0, hj1, hj⟩
    · have := S1 0 (by decide) (by decide)
      rw [hi 0 (by decide) (by decide), hd, h0] at this
      exact absurd this (by decide)
    · rw [hi j hj0 hj1, hd] at hj
      exact hj.symm
  have adv_spec := advance_markets_spec 2 sameDay_n s.market_date (scan_max_date 2 s).1 0
    s.market_index (scan_max_date 2 s).2 1 (by decide) _ rfl
  unfold align_pass
  dsimp only
  generalize advance_markets 2 sameDay_n s.market_date (scan_max_date 2 s).1 0 s.market_index
    (scan_max_date 2 s).2 1 = adv at adv_spec ⊢
  rw [hM] at adv_spec ⊢
  obtain ⟨a0, a1, -, a3, -, a5, -, a7, a8⟩ := adv_spec
  have hmi : ∀ j, 0 ≤ j → j < 2 → adv.market_index j = 0 := by
    intro j hj0 hj1
    have h3 := a3 j hj0 hj1
    rw [hi j hj0 hj1] at h3
    by_contra hne
    have := a5 j hj0 hj1 0 (by rw [hi j hj0 hj1]) (by omega)
    rw [hd] at this
    have h2 : ¬ ((20200102 : Int) < 20200102) := by decide
    exact h2 this
  have hI : adv.i = 2 := by
    by_contra hne
    have hlt : adv.i < 2 := by omega
    have := a7 hlt
    rw [hmi adv.i a0 hlt] at this
    have h2 : ¬ ((1 : Int) ≤ 0) := by decide
    exact h2 this
  have hsame : adv.all_same_date ≠ 0 := by
    rw [a8 hI]
    refine ⟨by decide, ?_⟩
    intro j hj0 hj1
    rw [hmi j hj0 hj1, hd]
    rfl
  rw [if_neg (by omega), if_pos hsame, if_neg (by decide)]
  have gs := grab_loop_spec 2 20200102 s.grand_index (by decide) s.market_date s.market_close
    adv.market_index
  refine ⟨_, rfl, ?_, ?_, ?_⟩
  · show (forLoop 0 2 (grab_body 20200102 s.grand_index)
      (s.market_date, s.market_close, adv.market_index)).2.2 0 = 1
    rw [((gs 0).1 ⟨by decide, by decide⟩).1, hmi 0 (by decide) (by decide)]
    rfl
  · show (forLoop 0 2 (grab_body 20200102 s.grand_index)
      (s.market_date, s.market_close, adv.market_index)).2.2 1 = 1
    rw [((gs 1).1 ⟨by decide, by decide⟩).1, hmi 1 (by decide) (by decide)]
    rfl
  · show s.grand_index + 1 = 1
    rw [hG]
    rfl

/-- C21: the alignment loop over-runs a market.  For two markets with one record each, of
the same day, the search for the latest date at the top of the second pass reads
`market_date[0][1]`, and `1` is not below `market_n[0] = 1`; the reads of line 606, which
the test of line 605 guards, are below `market_n[i]` on every input. -/
theorem alignment_overruns_market (g : AlignState Int) :
    Histories 2 sameDay_n sameDay_dates ∧
    (0, 1) ∈ align_reads 2 sameDay_n 2 (align_init 2 sameDay_dates sameDay_closes g) ∧
    ¬ ((1 : Int) < sameDay_n 0) ∧
    (∀ (nm : Int) (n : Int → Int) (md : Int → Int → Int) (M i : Int) (mi : Int → Int)
      (date : Int) (r : Int × Int), r ∈ advance_reads nm n md M i mi date → r.2 < n r.1) := by
  refine ⟨sameDay_ok, ?_, by decide, advance_reads_in_range⟩
  obtain ⟨s1, hs1, h0, _, _⟩ := sameDay_first_pass g
  rw [show (2 : Nat) = 1 + 1 from rfl, align_reads_succ, hs1]
  apply List.mem_append_right
  show (0, 1) ∈ align_reads 2 sameDay_n (0 + 1) s1
  rw [align_reads_succ]
  apply List.mem_append_left
  unfold pass_reads
  apply List.mem_append_left
  unfold scan_reads
  rw [forLoop_zero_two, h0]
  simp

end AlignmentReads

/-! ## The realized series as a selection from the diagnostic series -/

section Selected

variable {α : Type} [LinearOrderedField α]

end Selected

/-! ## The cells that the walk-forward pass reads -/

section Accesses

variable {α : Type} [LinearOrderedField α]

/-- An element of a list that a loop builds by appending comes from one of the passes. -/
theorem mem_forLoop_append {β : Type} (lo hi : Int) (f : Int → List β) (x : β)
    (h : x ∈ forLoop lo hi (fun i (rd : List β) => rd ++ f i) []) :
    ∃ i, lo ≤ i ∧ i < hi ∧ x ∈ f i := by
  rcases lt_or_le hi lo with hlt | hle
  · rw [forLoop_empty _ _ _ _ (le_of_lt hlt)] at h
    cases h
  · exact forLoop_invariant lo hi (fun i (rd : List β) => rd ++ f i) []
      (fun k rd => ∀ y, y ∈ rd → ∃ i, lo ≤ i ∧ i < k ∧ y ∈ f i) hle
      (fun y hy => by cases hy)
      (fun k rd hk0 hk1 ih y hy => by
        rcases List.mem_append.mp hy with hy | hy
        · obtain ⟨i, hi0, hi1, hi2⟩ := ih y hy
          exact ⟨i, hi0, by omega, hi2⟩
        · exact ⟨k, hk0, by omega, hy⟩) x h

/-- The function `criterion` reads its window at indices from `0` to `n - 1`. -/
theorem criterion_reads_in_range (which n : Int) (hn : 1 ≤ n) :
    ∀ k, k ∈ criterion_reads which n → 0 ≤ k ∧ k < n := by
  have hloop : ∀ k, k ∈ forLoop 1 n (fun i (rd : List Int) => rd ++ [i, i - 1]) [] →
      0 ≤ k ∧ k < n := by
    intro k hk
    obtain ⟨i, hi0, hi1, hi2⟩ := mem_forLoop_append 1 n (fun i => [i, i - 1]) k hk
    simp only [List.mem_cons, List.mem_singleton, List.not_mem_nil, or_false] at hi2
    omega
  have hends : ∀ k, k ∈ [n - 1, 0] → 0 ≤ k ∧ k < n := by
    intro k hk
    simp only [List.mem_cons, List.mem_singleton, List.not_mem_nil, or_false] at hk
    omega
  intro k hk
  unfold criterion_reads at hk
  split_ifs at hk
  · exact hends k hk
  · rcases List.mem_append.mp hk with hk | hk
    · exact hends k hk
    · exact hloop k hk
  · exact hloop k hk
  · cases hk

omit [LinearOrderedField α] in
theorem selection_days_in_range (cfg : Config α) (which start at_case : Int)
    (hIS : 1 ≤ cfg.IS_n) (hs0 : 0 ≤ start) (hs1 : start + cfg.IS_n ≤ cfg.n_cases)
    (ha0 : 1 ≤ at_case) (ha1 : at_case < cfg.n_cases) :
    ∀ d, d ∈ selection_days cfg which start at_case → 0 ≤ d ∧ d < cfg.n_cases := by
  intro d hd
  unfold selection_days at hd
  rcases List.mem_append.mp hd with hd | hd
  · obtain ⟨_, _, _, hd⟩ := mem_forLoop_append 0 cfg.n_markets
      (fun _ => (criterion_reads which cfg.IS_n).map (fun k => start + k)) d hd
    obtain ⟨k, hk, rfl⟩ := List.mem_map.mp hd
    have := criterion_reads_in_range which cfg.IS_n hIS k hk
    omega
  · simp only [List.mem_cons, List.mem_singleton, List.not_mem_nil, or_false] at hd
    omega

/-- Every case at which one pass through the loop body reads a price is a case of the
matrix. -/
theorem loop_body_days_in_range (sqrt : α → α) (cfg : Config α) (c : Cursors) (m : Store α)
    (hIS : 2 ≤ cfg.IS_n) (hinv : RunInv cfg c m) :
    ∀ d, d ∈ loop_body_days sqrt cfg c m → 0 ≤ d ∧ d < cfg.n_cases := by
  obtain ⟨⟨t1, t2, t3, t4⟩, hhi, _, _⟩ := hinv
  intro d hd
  unfold loop_body_days at hd
  rcases List.mem_append.mp hd with hd | hd
  · unfold criteria_pass_days at hd
    obtain ⟨icrit, _, _, hd⟩ := mem_forLoop_append 0 n_criteria
      (fun icrit => selection_days cfg icrit c.IS_start c.OOS1_end) d hd
    exact selection_days_in_range cfg icrit c.IS_start c.OOS1_end (by omega) (by omega)
      (by omega) (by omega) (by omega) d hd
  · split_ifs at hd with hbrk hf
    · cases hd
    · cases hd
    · have hf1 : ¬ (c.OOS1_end + 1 - c.OOS1_start < cfg.OOS1_n) := hf
      have h2 : (advance c).OOS2_end = c.OOS1_end + 1 := by
        show c.OOS2_end = c.OOS1_end + 1
        omega
      rw [h2] at hd
      exact selection_days_in_range cfg _ _ _ (by omega) (by omega) (by omega) (by omega)
        (by omega) d hd

theorem runInv_loop_top (sqrt : α → α) (cfg : Config α) (g : Store α) (h1 : 1 ≤ cfg.OOS1_n)
    (hn : cfg.IS_n + 1 ≤ cfg.n_cases) (k : Nat) (c : Cursors) (m : Store α)
    (hk : loop_top sqrt cfg k (init_cursors cfg) (init_store g) = some (c, m)) :
    RunInv cfg c m :=
  loop_top_rule sqrt cfg (RunInv cfg)
    (fun c m c1 m1 hinv hb => runInv_again sqrt cfg c c1 m m1 hinv hb) k (init_cursors cfg)
    (init_store g) (runInv_init cfg g h1 hn) c m hk

/-- The mean of criterion `i` reads the cells `OOS1[i*n_cases+j]` for `j` from `OOS2_start`
to `OOS2_end - 1`. -/
theorem crit_perf_eq_sum (cfg : Config α) (c : Cursors) (OOS1 : Int → α) (i : Int) :
    crit_perf cfg c OOS1 i
      = 25200 * (∑ j in Finset.Ico c.OOS2_start c.OOS2_end, OOS1 (i * cfg.n_cases + j))
        / ((c.OOS2_end - c.OOS2_start : Int) : α) := by
  unfold crit_perf
  rw [forLoop_add_eq_sum, zero_add]

/-- The mean return of the system reads the cells `OOS2[i]` for `i` from `OOS2_start` to
`OOS2_end - 1`. -/
theorem final_perf_eq_sum (c : Cursors) (OOS2 : Int → α) :
    final_perf c OOS2
      = 25200 * (∑ i in Finset.Ico c.OOS2_start c.OOS2_end, OOS2 i)
        / ((c.OOS2_end - c.OOS2_start : Int) : α) := by
  unfold final_perf
  rw [forLoop_add_eq_sum, zero_add]

/-- The case indices and the cells of `OOS1` and `OOS2`, without the market index `ibest`
and the criterion index `ibestcrit`, of which this lemma says nothing: in every run with
`IS_n ≥ 2`, `OOS1_n ≥ 1` and `n_cases ≥ IS_n + OOS1_n + 1`,
every case at which a pass of the walk-forward loop reads a price lies in `[0, n_cases)`;
every cell of `OOS1` that the sum over `[OOS1_start, OOS1_end)` of the search for the best
criterion reads lies in the array and was assigned earlier in the run; every cell of `OOS1`
and of `OOS2` that the mean computations read over `[OOS2_start, OOS2_end)` lies in the array
and was assigned in the run; and so was every cell of `OOS2` that the bootstrap reads. -/
theorem accesses_in_range [FloorRing α] (sqrt : α → α) (cfg : Config α) (g : Store α)
    (hIS : 2 ≤ cfg.IS_n) (h1 : 1 ≤ cfg.OOS1_n)
    (hn : cfg.n_cases ≥ cfg.IS_n + cfg.OOS1_n + 1) :
    (∀ k c m, loop_top sqrt cfg k (init_cursors cfg) (init_store g) = some (c, m) →
      (∀ d, d ∈ loop_body_days sqrt cfg c m → 0 ≤ d ∧ d < cfg.n_cases) ∧
      (¬ c.OOS1_end ≥ cfg.n_cases - 1 →
        ¬ (advance c).OOS1_end - (advance c).OOS1_start < cfg.OOS1_n →
        ∀ icrit i, 0 ≤ icrit → icrit < n_criteria → (advance c).OOS1_start ≤ i →
          i < (advance c).OOS1_end →
          i ∈ oos1_days icrit (criteria_pass sqrt cfg c m).trace ∧
          0 ≤ icrit * cfg.n_cases + i ∧
          icrit * cfg.n_cases + i < n_criteria * cfg.n_cases)) ∧
    (∀ icrit j, 0 ≤ icrit → icrit < n_criteria → (walk_forward sqrt cfg g).1.OOS2_start ≤ j →
      j < (walk_forward sqrt cfg g).1.OOS2_end →
      j ∈ oos1_days icrit (walk_forward sqrt cfg g).2.trace ∧
      0 ≤ icrit * cfg.n_cases + j ∧ icrit * cfg.n_cases + j < n_criteria * cfg.n_cases ∧
      j ∈ oos2_days (walk_forward sqrt cfg g).2.trace ∧ 0 ≤ j ∧ j < cfg.n_cases) ∧
    (∀ u : α, 0 ≤ u →
      resample_index u
          ((walk_forward sqrt cfg g).1.OOS2_end - (walk_forward sqrt cfg g).1.OOS2_start)
        + (walk_forward sqrt cfg g).1.OOS2_start
        ∈ oos2_days (walk_forward sqrt cfg g).2.trace) := by
  obtain ⟨_, f2, f3, f4⟩ := walk_forward_final sqrt cfg g h1 (by omega)
  have fstart := (walk_forward_topInv sqrt cfg g h1).oos2_start
  refine ⟨?_, ?_, ?_⟩
  · intro k c m hk
    have hinv := runInv_loop_top sqrt cfg g h1 (by omega) k c m hk
    refine ⟨loop_body_days_in_range sqrt cfg c m hIS hinv, ?_⟩
    intro hbrk hf icrit i hc0 hc3 hi0 hi1
    obtain ⟨⟨t1, t2, t3, t4⟩, hhi, _, hd1⟩ := hinv
    have hic : icrit = 0 ∨ icrit = 1 ∨ icrit = 2 := by
      simp only [n_criteria] at hc3
      omega
    have hi0' : c.OOS1_start ≤ i := hi0
    have hi1' : i < c.OOS1_end + 1 := hi1
    refine ⟨?_, ?_, ?_⟩
    · rw [criteria_pass_oos1_days sqrt cfg c m icrit hic, hd1 icrit hic, List.mem_append,
        mem_intRange, List.mem_singleton]
      omega
    · rcases hic with rfl | rfl | rfl <;> omega
    · simp only [n_criteria]
      rcases hic with rfl | rfl | rfl <;> omega
  · intro icrit j hc0 hc3 hj0 hj1
    rw [fstart] at hj0
    rw [f2] at hj1
    have hic : icrit = 0 ∨ icrit = 1 ∨ icrit = 2 := by
      simp only [n_criteria] at hc3
      omega
    refine ⟨?_, ?_, ?_, ?_, by omega, hj1⟩
    · rw [f4 icrit hic, mem_intRange]
      omega
    · rcases hic with rfl | rfl | rfl <;> omega
    · simp only [n_criteria]
      rcases hic with rfl | rfl | rfl <;> omega
    · rw [f3, mem_intRange]
      omega
  · intro u hu
    rw [f2, fstart, f3, mem_intRange]
    have := resample_index_range u (cfg.n_cases - (cfg.IS_n + cfg.OOS1_n)) hu (by omega)
    omega

theorem accesses_in_range_witness :
    (2 ≤ sixCases.IS_n ∧ 1 ≤ sixCases.OOS1_n ∧
      sixCases.n_cases ≥ sixCases.IS_n + sixCases.OOS1_n + 1) ∧
    (∀ d, d ∈ loop_body_days Real.sqrt sixCases (init_cursors sixCases) (init_store zeroStore) →
      0 ≤ d ∧ d < sixCases.n_cases) ∧
    (4 ∈ oos1_days 1 (walk_forward Real.sqrt sixCases zeroStore).2.trace ∧
      4 ∈ oos2_days (walk_forward Real.sqrt sixCases zeroStore).2.trace) :=
  ⟨⟨by decide, by decide, by decide⟩,
    ((accesses_in_range Real.sqrt sixCases zeroStore (by decide) (by decide) (by decide)).1
      0 _ _ rfl).1,
    ((accesses_in_range Real.sqrt sixCases zeroStore (by decide) (by decide) (by decide)).2.1
      1 4 (by decide) (by decide)
      (by rw [(walk_forward_topInv Real.sqrt sixCases zeroStore (by decide)).oos2_start]
          decide)
      (by rw [(walk_forward_final Real.sqrt sixCases zeroStore (by decide) (by decide)).2.1]
          decide)).1,
    ((accesses_in_range Real.sqrt sixCases zeroStore (by decide) (by decide) (by decide)).2.1
      1 4 (by decide) (by decide)
      (by rw [(walk_forward_topInv Real.sqrt sixCases zeroStore (by decide)).oos2_start]
          decide)
      (by rw [(walk_forward_final Real.sqrt sixCases zeroStore (by decide) (by decide)).2.1]
          decide)).2.2.2.1⟩

end Accesses

/-! ## The cells of `OOS1` and `OOS2` that the run assigns -/

section Stores

variable {α : Type} [LinearOrderedField α]

/-- The loop over the criteria extends the assigned part of `OOS1` by one case and leaves
the other cells alone. -/
theorem written_criteria_pass (sqrt : α → α) (cfg : Config α) (g : Store α)
    (hIS : 2 ≤ cfg.IS_n) (c : Cursors) (m : Store α) (h : Written cfg g c m) :
    (∀ ic, ic = 0 ∨ ic = 1 ∨ ic = 2 → ∀ d, cfg.IS_n ≤ d → d < c.OOS1_end + 1 →
      ∃ b, Event.oos1 ic d b ∈ (criteria_pass sqrt cfg c m).trace ∧
        (criteria_pass sqrt cfg c m).OOS1 (ic * cfg.n_cases + d)
          = cfg.market_close b d - cfg.market_close b (d - 1)) ∧
    (∀ x,
      (∀ ic, ic = 0 ∨ ic = 1 ∨ ic = 2 → ∀ d, cfg.IS_n ≤ d → d < c.OOS1_end + 1 →
        x ≠ ic * cfg.n_cases + d) →
      (criteria_pass sqrt cfg c m).OOS1 x = g.OOS1 x) := by
  obtain ⟨⟨t1, t2, t3, t4⟩, hhi, ho1, hrest, _⟩ := h
  constructor
  · intro ic hic d hd0 hd1
    rcases eq_or_lt_of_le (show d ≤ c.OOS1_end by omega) with hde | hde
    · subst hde
      exact criteria_pass_OOS1_written sqrt cfg c m (by omega) ic hic
    · obtain ⟨b, hb1, hb2⟩ := ho1 ic hic d hd0 hde
      refine ⟨b, ?_, ?_⟩
      · obtain ⟨b0, b1, b2, htr⟩ := criteria_pass_trace sqrt cfg c m
        rw [htr]
        exact List.mem_append_left _ hb1
      · rw [criteria_pass_OOS1_other sqrt cfg c m _
          (by rcases hic with rfl | rfl | rfl <;> omega)
          (by rcases hic with rfl | rfl | rfl <;> omega)
          (by rcases hic with rfl | rfl | rfl <;> omega)]
        exact hb2
  · intro x hx
    rw [criteria_pass_OOS1_other sqrt cfg c m x
      (hx 0 (Or.inl rfl) c.OOS1_end t2 (by omega))
      (hx 1 (Or.inr (Or.inl rfl)) c.OOS1_end t2 (by omega))
      (hx 2 (Or.inr (Or.inr rfl)) c.OOS1_end t2 (by omega))]
    exact hrest x (fun ic hic d hd0 hd1 => hx ic hic d hd0 (by omega))

theorem written_init (cfg : Config α) (g : Store α) (h1 : 1 ≤ cfg.OOS1_n)
    (hn : cfg.IS_n + 1 ≤ cfg.n_cases) : Written cfg g (init_cursors cfg) (init_store g) := by
  refine ⟨topInv_init cfg h1, ?_, ?_, ?_, ?_⟩
  · show cfg.IS_n ≤ cfg.n_cases - 1
    omega
  · intro ic _ d hd0 hd1
    have hd1' : d < cfg.IS_n := hd1
    omega
  · intro x _
    rfl
  · intro d _
    rfl

theorem written_again (sqrt : α → α) (cfg : Config α) (g : Store α) (hIS : 2 ≤ cfg.IS_n)
    (c : Cursors) (m : Store α) (c1 : Cursors) (m1 : Store α) (h : Written cfg g c m)
    (hb : loop_body sqrt cfg c m = Step.again c1 m1) : Written cfg g c1 m1 := by
  have htop := topInv_again sqrt cfg c c1 m m1 h.top hb
  have hend := loop_body_again_end sqrt cfg c c1 m m1 hb
  obtain ⟨ho1, hrest⟩ := written_criteria_pass sqrt cfg g hIS c m h
  obtain ⟨⟨t1, t2, t3, t4⟩, hhi, _, _, ho2⟩ := h
  have hbrk : ¬ c.OOS1_end ≥ cfg.n_cases - 1 := by omega
  by_cases hf : (advance c).OOS1_end - (advance c).OOS1_start < cfg.OOS1_n
  · rw [loop_body_filling sqrt cfg c m hbrk hf] at hb
    cases hb
    refine ⟨htop, by omega, ho1, hrest, ?_⟩
    intro d hd
    rw [criteria_pass_OOS2]
    exact ho2 d hd
  · rw [loop_body_steady sqrt cfg c m hbrk hf] at hb
    cases hb
    have hf1 : ¬ (c.OOS1_end + 1 - c.OOS1_start < cfg.OOS1_n) := hf
    have h2 : c.OOS2_end = c.OOS1_end + 1 := by omega
    refine ⟨htop, by omega, ?_, hrest, ?_⟩
    · intro ic hic d hd0 hd1
      obtain ⟨b, hb1, hb2⟩ := ho1 ic hic d hd0 hd1
      refine ⟨b, ?_, hb2⟩
      rw [steady_store_trace]
      exact List.mem_append_left _ hb1
    · intro d hd
      have hd' : d < cfg.IS_n + cfg.OOS1_n ∨ c.OOS2_end + 1 ≤ d := hd
      show Function.update (criteria_pass sqrt cfg c m).OOS2 (advance c).OOS2_end _ d = g.OOS2 d
      have h2' : (advance c).OOS2_end = c.OOS2_end := rfl
      rw [h2', Function.update_noteq (by omega), criteria_pass_OOS2]
      exact ho2 d (by omega)

/-- At the end of the run every cell of `OOS1` of a case from `IS_n` on holds the return of
the market of a recorded assignment, and the other cells of `OOS1` and of `OOS2` hold what
they held at the start. -/
theorem walk_forward_written (sqrt : α → α) (cfg : Config α) (g : Store α)
    (hIS : 2 ≤ cfg.IS_n) (h1 : 1 ≤ cfg.OOS1_n)
    (hn : cfg.n_cases ≥ cfg.IS_n + cfg.OOS1_n + 1) :
    (∀ ic, ic = 0 ∨ ic = 1 ∨ ic = 2 → ∀ d, cfg.IS_n ≤ d → d < cfg.n_cases →
      ∃ b, Event.oos1 ic d b ∈ (walk_forward sqrt cfg g).2.trace ∧
        (walk_forward sqrt cfg g).2.OOS1 (ic * cfg.n_cases + d)
          = cfg.market_close b d - cfg.market_close b (d - 1)) ∧
    (∀ x,
      (∀ ic, ic = 0 ∨ ic = 1 ∨ ic = 2 → ∀ d, cfg.IS_n ≤ d → d < cfg.n_cases →
        x ≠ ic * cfg.n_cases + d) →
      (walk_forward sqrt cfg g).2.OOS1 x = g.OOS1 x) ∧
    (∀ d, d < cfg.IS_n + cfg.OOS1_n ∨ cfg.n_cases ≤ d →
      (walk_forward sqrt cfg g).2.OOS2 d = g.OOS2 d) := by
  have hfin := (walk_forward_final sqrt cfg g h1 hn).2.1
  have key := main_loop_rule sqrt cfg (Written cfg g)
    (fun c1 m1 =>
      (∀ ic, ic = 0 ∨ ic = 1 ∨ ic = 2 → ∀ d, cfg.IS_n ≤ d → d < cfg.n_cases →
        ∃ b, Event.oos1 ic d b ∈ m1.trace ∧
          m1.OOS1 (ic * cfg.n_cases + d)
            = cfg.market_close b d - cfg.market_close b (d - 1)) ∧
      (∀ x,
        (∀ ic, ic = 0 ∨ ic = 1 ∨ ic = 2 → ∀ d, cfg.IS_n ≤ d → d < cfg.n_cases →
          x ≠ ic * cfg.n_cases + d) →
        m1.OOS1 x = g.OOS1 x) ∧
      (∀ d, d < cfg.IS_n + cfg.OOS1_n ∨ c1.OOS2_end ≤ d → m1.OOS2 d = g.OOS2 d))
    ?_ (fun c m c1 m1 => written_again sqrt cfg g hIS c m c1 m1)
    (init_cursors cfg) (init_store g) (written_init cfg g h1 (by omega))
  · obtain ⟨k1, k2, k3⟩ := key
    refine ⟨k1, k2, ?_⟩
    intro d hd
    exact k3 d (by
      show d < cfg.IS_n + cfg.OOS1_n ∨ (walk_forward sqrt cfg g).1.OOS2_end ≤ d
      rw [hfin]
      exact hd)
  · intro c m c1 m1 hP hb
    by_cases hbrk : c.OOS1_end ≥ cfg.n_cases - 1
    · rw [loop_body_done_iff sqrt cfg c m hbrk] at hb
      cases hb
      obtain ⟨ho1, hrest⟩ := written_criteria_pass sqrt cfg g hIS c m hP
      obtain ⟨_, hhi, _, _, ho2⟩ := hP
      refine ⟨?_, ?_, ?_⟩
      · intro ic hic d hd0 hd1
        exact ho1 ic hic d hd0 (by omega)
      · intro x hx
        exact hrest x (fun ic hic d hd0 hd1 => hx ic hic d hd0 (by omega))
      · intro d hd
        rw [criteria_pass_OOS2]
        exact ho2 d hd
    · simp only [loop_body, if_neg hbrk] at hb
      split at hb <;> cases hb

/-- C2: for `IS_n ≥ 2`, `OOS1_n ≥ 1` and `n_cases ≥ IS_n + OOS1_n + 1` the walk-forward loop
assigns `OOS2` at the indices `IS_n + OOS1_n, ..., n_cases - 1`, once each and in increasing
order: `n_cases - IS_n - OOS1_n` realizations.  After the run `OOS2[d]` holds, for each of
these indices, the return on day `d` of the market chosen in the one assignment made for
`d`, and every other cell of `OOS2` holds what it held before the run. -/
theorem oos2_realizations (sqrt : α → α) (cfg : Config α) (g : Store α)
    (hIS : 2 ≤ cfg.IS_n) (h1 : 1 ≤ cfg.OOS1_n)
    (hn : cfg.n_cases ≥ cfg.IS_n + cfg.OOS1_n + 1) :
    (oos2_days (walk_forward sqrt cfg g).2.trace
        = intRange (cfg.IS_n + cfg.OOS1_n) cfg.n_cases ∧
      ((oos2_days (walk_forward sqrt cfg g).2.trace).length : Int)
        = cfg.n_cases - cfg.IS_n - cfg.OOS1_n ∧
      (oos2_days (walk_forward sqrt cfg g).2.trace).Nodup ∧
      (oos2_days (walk_forward sqrt cfg g).2.trace).Sorted (· < ·) ∧
      ∀ d, d ∈ oos2_days (walk_forward sqrt cfg g).2.trace ↔
        cfg.IS_n + cfg.OOS1_n ≤ d ∧ d ≤ cfg.n_cases - 1) ∧
    (∀ d, cfg.IS_n + cfg.OOS1_n ≤ d → d < cfg.n_cases →
      ∃ ibestcrit ibest,
        oos2_choices d (walk_forward sqrt cfg g).2.trace = [(ibestcrit, ibest)] ∧
        (walk_forward sqrt cfg g).2.OOS2 d
          = cfg.market_close ibest d - cfg.market_close ibest (d - 1)) ∧
    (∀ d, d < cfg.IS_n + cfg.OOS1_n ∨ cfg.n_cases ≤ d →
      (walk_forward sqrt cfg g).2.OOS2 d = g.OOS2 d) := by
  have h := (walk_forward_final sqrt cfg g h1 hn).2.2.1
  refine ⟨?_, ?_, (walk_forward_written sqrt cfg g hIS h1 hn).2.2⟩
  · rw [h]
    refine ⟨rfl, ?_, intRange_nodup _ _, intRange_sorted _ _, ?_⟩
    · rw [intRange_length]
      omega
    · intro d
      rw [mem_intRange]
      omega
  · intro d hd0 hd1
    have hlen : (oos2_choices d (walk_forward sqrt cfg g).2.trace).length = 1 := by
      rw [oos2_choices_length, h]
      exact List.count_eq_one_of_mem (intRange_nodup _ _)
        ((mem_intRange _ _ _).mpr ⟨hd0, hd1⟩)
    obtain ⟨⟨cr, b⟩, hx⟩ := List.length_eq_one.mp hlen
    exact ⟨cr, b, hx, recordsOOS2_final sqrt cfg g d cr b
      (by rw [hx]; exact List.mem_singleton_self _)⟩

/-- C2 at `n_cases = 500`, `IS_n = 50`, `OOS1_n = 20`, on the all-zero matrix and from
arrays that hold `7`: 430 assignments to `OOS2`; `OOS2[499]` holds the return `0` and
`OOS2[69]` still holds `7`. -/
theorem oos2_realizations_witness :
    (2 ≤ endToEnd.IS_n ∧ 1 ≤ endToEnd.OOS1_n ∧
      endToEnd.n_cases ≥ endToEnd.IS_n + endToEnd.OOS1_n + 1) ∧
    ((oos2_days (walk_forward Real.sqrt endToEnd sevenStore).2.trace).length : Int) = 430 ∧
    (walk_forward Real.sqrt endToEnd sevenStore).2.OOS2 499 = 0 ∧
    (walk_forward Real.sqrt endToEnd sevenStore).2.OOS2 69 = 7 :=
  ⟨by decide,
    (oos2_realizations Real.sqrt endToEnd sevenStore (by decide) (by decide)
      (by decide)).1.2.1,
    ((oos2_realizations Real.sqrt endToEnd sevenStore (by decide) (by decide)
      (by decide)).2.1 499 (by decide) (by decide)).elim
      (fun _ h => h.elim (fun _ hb => hb.2.trans (sub_self 0))),
    (oos2_realizations Real.sqrt endToEnd sevenStore (by decide) (by decide)
      (by decide)).2.2 69 (Or.inl (by decide))⟩

/-- C7 as stated fails: with `n_cases = 4`, `IS_n = 2`, `OOS1_n = 1` the OOS1 series of
criterion `0` is written at the two days `2` and `3`, not at `n_cases - IS_n - 1 = 1` day;
the cell of day `3`, which held `7` before the run, holds the return `0` after it. -/
theorem oos1_decisions_not_minus_one :
    (2 ≤ fourCases.IS_n ∧ 1 ≤ fourCases.OOS1_n ∧
      fourCases.n_cases ≥ fourCases.IS_n + fourCases.OOS1_n + 1) ∧
    oos1_days 0 (walk_forward Real.sqrt fourCases sevenStore).2.trace = [2, 3] ∧
    (sevenStore.OOS1 (0 * fourCases.n_cases + 3) = 7 ∧
      (walk_forward Real.sqrt fourCases sevenStore).2.OOS1 (0 * fourCases.n_cases + 3) = 0) ∧
    ¬ (((oos1_days 0 (walk_forward Real.sqrt fourCases sevenStore).2.trace).dedup.length : Int)
        = fourCases.n_cases - fourCases.IS_n - 1) := by
  have h := (walk_forward_final Real.sqrt fourCases sevenStore (by decide) (by decide)).2.2.2 0
    (Or.inl rfl)
  have h23 : intRange fourCases.IS_n fourCases.n_cases = [2, 3] := by decide
  rw [h23] at h
  rw [h]
  refine ⟨by decide, rfl, ⟨rfl, ?_⟩, ?_⟩
  · obtain ⟨b, _, hb⟩ := (walk_forward_written Real.sqrt fourCases sevenStore (by decide)
      (by decide) (by decide)).1 0 (Or.inl rfl) 3 (by decide) (by decide)
    rw [hb]
    exact sub_self 0
  · decide

/-- C7, amended: for `IS_n ≥ 2`, `OOS1_n ≥ 1` and `n_cases ≥ IS_n + OOS1_n + 1` the OOS1
series of each criterion is written at the days `IS_n, ..., n_cases - 1`, once each and in
increasing order: `n_cases - IS_n` distinct days.  After the run the cell
`OOS1[icrit*n_cases+d]` of each of these days holds the return on day `d` of the market
named in the assignment recorded for it, and every cell of `OOS1` that is not the cell of
such a day for one of the three criteria holds what it held before the run. -/
theorem oos1_decisions (sqrt : α → α) (cfg : Config α) (g : Store α)
    (hIS : 2 ≤ cfg.IS_n) (h1 : 1 ≤ cfg.OOS1_n)
    (hn : cfg.n_cases ≥ cfg.IS_n + cfg.OOS1_n + 1) (icrit : Int)
    (hic : 0 ≤ icrit ∧ icrit < n_criteria) :
    (oos1_days icrit (walk_forward sqrt cfg g).2.trace = intRange cfg.IS_n cfg.n_cases ∧
      ((oos1_days icrit (walk_forward sqrt cfg g).2.trace).dedup.length : Int)
        = cfg.n_cases - cfg.IS_n ∧
      (oos1_days icrit (walk_forward sqrt cfg g).2.trace).Nodup) ∧
    (∀ d, cfg.IS_n ≤ d → d < cfg.n_cases →
      ∃ ibest, Event.oos1 icrit d ibest ∈ (walk_forward sqrt cfg g).2.trace ∧
        (walk_forward sqrt cfg g).2.OOS1 (icrit * cfg.n_cases + d)
          = cfg.market_close ibest d - cfg.market_close ibest (d - 1)) ∧
    (∀ x,
      (∀ ic, 0 ≤ ic → ic < n_criteria → ∀ d, cfg.IS_n ≤ d → d < cfg.n_cases →
        x ≠ ic * cfg.n_cases + d) →
      (walk_forward sqrt cfg g).2.OOS1 x = g.OOS1 x) := by
  have hic3 : icrit = 0 ∨ icrit = 1 ∨ icrit = 2 := by
    obtain ⟨h0, h3⟩ := hic
    simp only [n_criteria] at h3
    omega
  have h := (walk_forward_final sqrt cfg g h1 hn).2.2.2 icrit hic3
  obtain ⟨w1, w2, _⟩ := walk_forward_written sqrt cfg g hIS h1 hn
  refine ⟨?_, w1 icrit hic3, ?_⟩
  · rw [h]
    refine ⟨rfl, ?_, intRange_nodup _ _⟩
    rw [List.Nodup.dedup (intRange_nodup _ _), intRange_length]
    omega
  · intro x hx
    refine w2 x (fun ic hic' d hd0 hd1 => hx ic ?_ ?_ d hd0 hd1)
    · rcases hic' with rfl | rfl | rfl <;> decide
    · rcases hic' with rfl | rfl | rfl <;> decide

/-- C7, amended, at `n_cases = 500`, `IS_n = 50`, `OOS1_n = 20` and criterion `1`, on the
all-zero matrix and from arrays that hold `7`: 450 days; the cell of day `499` holds the
return `0` and the cell `3 * 500` still holds `7`. -/
theorem oos1_decisions_witness :
    (2 ≤ endToEnd.IS_n ∧ 1 ≤ endToEnd.OOS1_n ∧
      endToEnd.n_cases ≥ endToEnd.IS_n + endToEnd.OOS1_n + 1 ∧
      (0 : Int) ≤ 1 ∧ (1 : Int) < n_criteria) ∧
    ((oos1_days 1 (walk_forward Real.sqrt endToEnd sevenStore).2.trace).dedup.length : Int)
      = 450 ∧
    (walk_forward Real.sqrt endToEnd sevenStore).2.OOS1 (1 * endToEnd.n_cases + 499) = 0 ∧
    (walk_forward Real.sqrt endToEnd sevenStore).2.OOS1 (3 * 500) = 7 :=
  ⟨by decide,
    (oos1_decisions Real.sqrt endToEnd sevenStore (by decide) (by decide) (by decide) 1
      (by decide)).1.2.1,
    ((oos1_decisions Real.sqrt endToEnd sevenStore (by decide) (by decide) (by decide) 1
      (by decide)).2.1 499 (by decide) (by decide)).elim
      (fun _ hb => hb.2.trans (sub_self 0)),
    (oos1_decisions Real.sqrt endToEnd sevenStore (by decide) (by decide) (by decide) 1
      (by decide)).2.2 (3 * 500) (fun ic h0 h3 d hd0 hd1 => by
        have h3' : ic < 3 := h3
        have e1 : endToEnd.n_cases = 500 := rfl
        have e2 : endToEnd.IS_n = 50 := rfl
        rw [e1] at hd1 ⊢
        rw [e2] at hd0
        omega)⟩

end Stores

/-! ## Rounding in `drawdown` -/

section RoundingThms

variable {α : Type} [LinearOrderedField α] [FloorRing α]

omit [FloorRing α] in
/-- Without rounding the rounded model of `drawdown` is the exact one. -/
theorem drawdown_fl_id (exp : α → α) (n : Int) (trades : Int → α) :
    drawdown_dd_fl id n trades = drawdown_dd n trades ∧
      drawdown_fl id exp n trades = drawdown exp n trades :=
  ⟨rfl, rfl⟩

theorem round_half_even_bounds (q : α) :
    ⌊q⌋ ≤ round_half_even q ∧ round_half_even q ≤ ⌊q⌋ + 1 := by
  unfold round_half_even
  dsimp only
  split_ifs <;> omega

theorem round_half_even_intCast (n : Int) : round_half_even (n : α) = n := by
  unfold round_half_even
  dsimp only
  rw [Int.floor_intCast, sub_self, if_pos (by norm_num)]

theorem round_binary64_zero : round_binary64 (0 : α) = 0 := if_pos rfl

theorem int_log_two_eq (r : α) (e : Int) (hr : 0 < r) (h1 : (2 : α) ^ e ≤ r)
    (h2 : r < (2 : α) ^ (e + 1)) : Int.log 2 r = e := by
  have a1 : e ≤ Int.log 2 r := by
    rw [← Int.zpow_le_iff_le_log (by decide) hr]
    exact_mod_cast h1
  have a2 : Int.log 2 r < e + 1 := by
    rw [← Int.lt_zpow_iff_log_lt (by decide) hr]
    exact_mod_cast h2
  omega

/-- A number with at most 53 significant bits is a `double`: rounding leaves it alone. -/
theorem round_binary64_exact (x : α) (e n : Int) (hx : x ≠ 0) (h1 : (2 : α) ^ e ≤ |x|)
    (h2 : |x| < (2 : α) ^ (e + 1)) (hn : x = (n : α) * (2 : α) ^ (e - 52)) :
    round_binary64 x = x := by
  have he := int_log_two_eq |x| e (abs_pos.mpr hx) h1 h2
  have hu : (2 : α) ^ (e - 52) ≠ 0 := zpow_ne_zero _ (by norm_num)
  have hq : x / (2 : α) ^ (e - 52) = (n : α) := by
    rw [hn, mul_div_assoc, div_self hu, mul_one]
  unfold round_binary64
  rw [if_neg hx, he, hq, round_half_even_intCast, ← hn]

theorem round_binary64_one : round_binary64 (1 : α) = 1 := by
  refine round_binary64_exact 1 0 (2 ^ 52) one_ne_zero ?_ ?_ ?_
  · rw [abs_one, zpow_zero]
  · rw [abs_one]
    norm_num
  · push_cast
    rw [zpow_neg]
    norm_num

theorem round_binary64_neg_one : round_binary64 (-1 : α) = -1 := by
  refine round_binary64_exact (-1) 0 (-(2 ^ 52)) (by norm_num) ?_ ?_ ?_
  · rw [abs_neg, abs_one, zpow_zero]
  · rw [abs_neg, abs_one]
    norm_num
  · push_cast
    rw [zpow_neg]
    norm_num

/-- In `double` arithmetic `1e17 - 1` is `1e17`: between `2^56` and `2^57` the values of
type `double` are the multiples of `16`. -/
theorem round_binary64_absorbs :
    round_binary64 ((10 : α) ^ 17 + -1) = (10 : α) ^ 17 := by
  have hpos : (0 : α) < (10 : α) ^ 17 + -1 := by norm_num
  have he : Int.log 2 |(10 : α) ^ 17 + -1| = 56 := by
    rw [abs_of_pos hpos]
    exact int_log_two_eq _ 56 hpos (by norm_num) (by norm_num)
  have hu : (2 : α) ^ ((56 : Int) - 52) = 16 := by norm_num
  have hf : ⌊((10 : α) ^ 17 + -1) / 16⌋ = 6249999999999999 := by
    rw [Int.floor_eq_iff]
    constructor <;> norm_num
  unfold round_binary64
  rw [if_neg (ne_of_gt hpos), he, hu]
  unfold round_half_even
  dsimp only
  rw [hf, if_neg (by norm_num), if_pos (by norm_num)]
  norm_num

/-- Rounding keeps a positive number within its binade. -/
theorem round_binary64_between (x : α) (hx : 0 < x) :
    (2 : α) ^ Int.log 2 x ≤ round_binary64 x ∧
      round_binary64 x ≤ (2 : α) ^ (Int.log 2 x + 1) := by
  have two_pos : (0 : α) < 2 := by norm_num
  have hu : (0 : α) < (2 : α) ^ (Int.log 2 x - 52) := zpow_pos two_pos _
  have hlo : (2 : α) ^ Int.log 2 x ≤ x := by
    have := Int.zpow_log_le_self (R := α) (b := 2) (by decide) hx
    exact_mod_cast this
  have hhi : x < (2 : α) ^ (Int.log 2 x + 1) := by
    have := Int.lt_zpow_succ_log_self (R := α) (b := 2) (by decide) x
    exact_mod_cast this
  have e1 : (2 : α) ^ Int.log 2 x = (2 : α) ^ (52 : Int) * (2 : α) ^ (Int.log 2 x - 52) := by
    rw [← zpow_add₀ (ne_of_gt two_pos)]
    congr 1
    ring
  have e2 : (2 : α) ^ (Int.log 2 x + 1)
      = (2 : α) ^ (53 : Int) * (2 : α) ^ (Int.log 2 x - 52) := by
    rw [← zpow_add₀ (ne_of_gt two_pos)]
    congr 1
    ring
  have q1 : (((2 ^ 52 : Int)) : α) ≤ x / (2 : α) ^ (Int.log 2 x - 52) := by
    rw [le_div_iff₀ hu]
    have : (((2 ^ 52 : Int)) : α) = (2 : α) ^ (52 : Int) := by norm_num
    rw [this, ← e1]
    exact hlo
  have q2 : x / (2 : α) ^ (Int.log 2 x - 52) < (((2 ^ 53 : Int)) : α) := by
    rw [div_lt_iff₀ hu]
    have : (((2 ^ 53 : Int)) : α) = (2 : α) ^ (53 : Int) := by norm_num
    rw [this, ← e2]
    exact hhi
  obtain ⟨b1, b2⟩ := round_half_even_bounds (x / (2 : α) ^ (Int.log 2 x - 52))
  have f1 : (2 ^ 52 : Int) ≤ ⌊x / (2 : α) ^ (Int.log 2 x - 52)⌋ := Int.le_floor.mpr q1
  have f2 : ⌊x / (2 : α) ^ (Int.log 2 x - 52)⌋ < (2 ^ 53 : Int) := Int.floor_lt.mpr q2
  have n1 : (2 : α) ^ (52 : Int)
      ≤ ((round_half_even (x / (2 : α) ^ (Int.log 2 x - 52)) : Int) : α) := by
    have : ((2 ^ 52 : Int) : α)
        ≤ ((round_half_even (x / (2 : α) ^ (Int.log 2 x - 52)) : Int) : α) := by
      exact_mod_cast le_trans f1 b1
    have h52 : (((2 ^ 52 : Int)) : α) = (2 : α) ^ (52 : Int) := by norm_num
    rw [← h52]
    exact this
  have n2 : ((round_half_even (x / (2 : α) ^ (Int.log 2 x - 52)) : Int) : α)
      ≤ (2 : α) ^ (53 : Int) := by
    have : ((round_half_even (x / (2 : α) ^ (Int.log 2 x - 52)) : Int) : α)
        ≤ ((2 ^ 53 : Int) : α) := by
      exact_mod_cast (show round_half_even (x / (2 : α) ^ (Int.log 2 x - 52)) ≤ 2 ^ 53 by omega)
    have h53 : (((2 ^ 53 : Int)) : α) = (2 : α) ^ (53 : Int) := by norm_num
    rw [← h53]
    exact this
  unfold round_binary64
  rw [if_neg (ne_of_gt hx), abs_of_pos hx, e1, e2]
  exact ⟨mul_le_mul_of_nonneg_right n1 (le_of_lt hu), mul_le_mul_of_nonneg_right n2 (le_of_lt hu)⟩

theorem round_binary64_ge (k : Int) (x : α) (h : (2 : α) ^ k ≤ x) :
    (2 : α) ^ k ≤ round_binary64 x := by
  have hx : 0 < x := lt_of_lt_of_le (zpow_pos (by norm_num) k) h
  have hk : k ≤ Int.log 2 x := by
    rw [← Int.zpow_le_iff_le_log (by decide) hx]
    exact_mod_cast h
  exact le_trans (zpow_le_zpow_right₀ (by norm_num) hk) (round_binary64_between x hx).1

theorem round_binary64_le (k : Int) (x : α) (hx : 0 < x) (h : x < (2 : α) ^ k) :
    round_binary64 x ≤ (2 : α) ^ k := by
  have hk : Int.log 2 x < k := by
    rw [← Int.lt_zpow_iff_log_lt (by decide) hx]
    exact_mod_cast h
  exact le_trans (round_binary64_between x hx).2
    (zpow_le_zpow_right₀ (by norm_num) (by omega))

/-- The raw loss of `[1e17, -1]` in `double` arithmetic: the sum `1e17 - 1` is stored as
`1e17`, so no loss is seen. -/
theorem drawdown_dd_fl_hugeStart :
    drawdown_dd_fl round_binary64 2 (hugeStart : Int → α) = 0 := by
  unfold drawdown_dd_fl
  rw [forLoop_one_two]
  have h0 : (hugeStart : Int → α) 0 = 10 ^ 17 := by simp [hugeStart]
  have h1 : (hugeStart : Int → α) 1 = -1 := by simp [hugeStart]
  simp only [drawdown_body_fl, h0, h1, round_binary64_absorbs, gt_iff_lt, lt_irrefl, if_false,
    sub_self, round_binary64_zero]

/-- The raw loss of `[0, -1]` in `double` arithmetic. -/
theorem drawdown_dd_fl_downStep :
    drawdown_dd_fl round_binary64 2 (downStep : Int → α) = 1 := by
  unfold drawdown_dd_fl
  rw [forLoop_one_two]
  have h0 : (downStep : Int → α) 0 = 0 := by simp [downStep]
  have h1 : (downStep : Int → α) 1 = -1 := by simp [downStep]
  have hn : ¬ ((-1 : α) > 0) := by norm_num
  have hp : (1 : α) > 0 := by norm_num
  simp only [drawdown_body_fl, h0, h1, zero_add, round_binary64_neg_one, if_neg hn, zero_sub,
    neg_neg, round_binary64_one, if_pos hp]

/-- C26 as stated fails in the arithmetic of the code: the arrays `[1e17, -1]` and `[0, -1]`
agree after the first element, but in `double` arithmetic the sum `1e17 - 1` is stored as
`1e17`, so that `drawdown` sees no loss in the first array and returns `0`, while for the
second the raw loss is `1` and the value returned is at least `32` (it is `63.2...`). -/
theorem drawdown_first_element_matters :
    (∀ i : Int, 1 ≤ i → i < 2 → (hugeStart : Int → ℝ) i = downStep i) ∧
    drawdown_dd_fl round_binary64 2 (hugeStart : Int → ℝ) = 0 ∧
    drawdown_dd_fl round_binary64 2 (downStep : Int → ℝ) = 1 ∧
    drawdown_fl round_binary64 (fun x => round_binary64 (Real.exp x)) 2 hugeStart = 0 ∧
    32 ≤ drawdown_fl round_binary64 (fun x => round_binary64 (Real.exp x)) 2 downStep ∧
    drawdown_fl round_binary64 (fun x => round_binary64 (Real.exp x)) 2 hugeStart
      ≠ drawdown_fl round_binary64 (fun x => round_binary64 (Real.exp x)) 2 downStep := by
  have hA : drawdown_fl round_binary64 (fun x => round_binary64 (Real.exp x)) 2 hugeStart
      = 0 := by
    unfold drawdown_fl
    rw [drawdown_dd_fl_hugeStart]
    simp only [neg_zero, Real.exp_zero, round_binary64_one, sub_self, round_binary64_zero,
      mul_zero]
  have hB : (32 : ℝ)
      ≤ drawdown_fl round_binary64 (fun x => round_binary64 (Real.exp x)) 2 downStep := by
    unfold drawdown_fl
    rw [drawdown_dd_fl_downStep]
    have hexp : Real.exp (-1) < (2 : ℝ) ^ (-1 : Int) := by
      have h2 : (2 : ℝ) < Real.exp 1 := by
        have := Real.add_one_lt_exp (x := 1) one_ne_zero
        linarith
      rw [Real.exp_neg, zpow_neg, zpow_one]
      exact inv_strictAnti₀ (by norm_num) h2
    have hw : round_binary64 (Real.exp (-1)) ≤ (2 : ℝ) ^ (-1 : Int) :=
      round_binary64_le (-1) _ (Real.exp_pos _) hexp
    have hhalf : (2 : ℝ) ^ (-1 : Int) = 1 / 2 := by norm_num
    have h1 : (2 : ℝ) ^ (-1 : Int) ≤ round_binary64 (1 - round_binary64 (Real.exp (-1))) := by
      apply round_binary64_ge
      rw [hhalf] at hw ⊢
      linarith
    have h32 : (2 : ℝ) ^ (5 : Int) = 32 := by norm_num
    rw [← h32]
    apply round_binary64_ge
    rw [h32]
    rw [hhalf] at h1
    linarith
  refine ⟨?_, drawdown_dd_fl_hugeStart, drawdown_dd_fl_downStep, hA, hB, ?_⟩
  · intro i hi0 hi1
    have : i = 1 := by omega
    subst this
    simp [hugeStart, downStep]
  · rw [hA]
    intro h0
    rw [← h0] at hB
    norm_num at hB

end RoundingThms

/-! ## Signs and bounds of rounded values -/

section RoundingSigns

variable {α : Type} [LinearOrderedField α] [FloorRing α]

/-- Rounding to the nearest integer, ties to even, commutes with the change of sign. -/
theorem round_half_even_neg (q : α) : round_half_even (-q) = -round_half_even q := by
  by_cases hq : ((⌊q⌋ : Int) : α) = q
  · rw [← hq, ← Int.cast_neg, round_half_even_intCast, round_half_even_intCast]
  · have h1 : ((⌊q⌋ : Int) : α) < q := lt_of_le_of_ne (Int.floor_le q) hq
    have h2 : q < ((⌊q⌋ : Int) : α) + 1 := Int.lt_floor_add_one q
    have hf : ⌊-q⌋ = -⌊q⌋ - 1 := by
      rw [Int.floor_eq_iff]
      push_cast
      constructor <;> linarith
    unfold round_half_even
    dsimp only
    rw [hf]
    push_cast
    split_ifs <;> first | omega | (exfalso; linarith)

theorem round_binary64_neg (x : α) : round_binary64 (-x) = -round_binary64 x := by
  unfold round_binary64
  by_cases hx : x = 0
  · rw [if_pos hx, if_pos (by rw [hx, neg_zero]), neg_zero]
  · rw [if_neg hx, if_neg (neg_ne_zero.mpr hx), abs_neg, neg_div, round_half_even_neg]
    push_cast
    ring

theorem round_binary64_pos (x : α) (hx : 0 < x) : 0 < round_binary64 x :=
  lt_of_lt_of_le (zpow_pos (by norm_num) _) (round_binary64_between x hx).1

theorem round_binary64_neg_of_neg (x : α) (hx : x < 0) : round_binary64 x < 0 := by
  have h := round_binary64_pos (-x) (neg_pos.mpr hx)
  rw [round_binary64_neg] at h
  linarith

/-- Rounding to `double` keeps every number from `-208` up above the constant `-1.e60`. -/
theorem round_binary64_above_sentinel (x : α) (hx : -208 ≤ x) :
    -(round_binary64 ((10 : α) ^ 60)) < round_binary64 x := by
  have hS : (2 : α) ^ (9 : Int) ≤ round_binary64 ((10 : α) ^ 60) :=
    round_binary64_ge 9 _ (by norm_num)
  have h9 : (2 : α) ^ (9 : Int) = 512 := by norm_num
  rw [h9] at hS
  rcases lt_trichotomy x 0 with hneg | hzero | hpos
  · have h8 : round_binary64 (-x) ≤ (2 : α) ^ (8 : Int) :=
      round_binary64_le 8 (-x) (neg_pos.mpr hneg) (by norm_num; linarith)
    have h256 : (2 : α) ^ (8 : Int) = 256 := by norm_num
    rw [round_binary64_neg, h256] at h8
    linarith
  · rw [hzero, round_binary64_zero]
    linarith
  · have := round_binary64_pos x hpos
    linarith

end RoundingSigns

/-! ## The walk-forward pass in `double` arithmetic -/

section IeeeThms

variable {α : Type} [LinearOrderedField α]

theorem Dbl.sub_fin (fl : α → α) (x y : α) :
    Dbl.sub fl (Dbl.fin x) (Dbl.fin y) = Dbl.fin (fl (x - y)) := rfl

theorem Dbl.add_fin (fl : α → α) (x y : α) :
    Dbl.add fl (Dbl.fin x) (Dbl.fin y) = Dbl.fin (fl (x + y)) := rfl

theorem Dbl.mul_fin (fl : α → α) (x y : α) :
    Dbl.mul fl (Dbl.fin x) (Dbl.fin y) = Dbl.fin (fl (x * y)) := rfl

theorem Dbl.div_fin (fl : α → α) (x y : α) (hy : y ≠ 0) :
    Dbl.div fl (Dbl.fin x) (Dbl.fin y) = Dbl.fin (fl (x / y)) := by
  simp only [Dbl.div, if_neg hy]

theorem Dbl.sqrt_fin (sqrt : α → α) (x : α) (hx : 0 ≤ x) :
    Dbl.sqrt sqrt (Dbl.fin x) = Dbl.fin (sqrt x) := by
  simp only [Dbl.sqrt, if_neg (not_lt.mpr hx)]

theorem Dbl.gt_fin (x y : α) : Dbl.gt (Dbl.fin x) (Dbl.fin y) ↔ y < x := Iff.rfl

theorem Dbl.gt_asymm (a b : Dbl α) (h : Dbl.gt a b) : ¬ Dbl.gt b a := by
  cases a <;> cases b <;> simp only [Dbl.gt] at h ⊢
  · exact not_lt.mpr (le_of_lt h)
  all_goals trivial

theorem Dbl.gt_trans (a b c : Dbl α) (h1 : Dbl.gt a b) (h2 : Dbl.gt b c) : Dbl.gt a c := by
  cases a <;> cases b <;> cases c <;> simp only [Dbl.gt] at h1 h2 ⊢
  · exact lt_trans h2 h1

theorem Dbl.gt_irrefl (a : Dbl α) : ¬ Dbl.gt a a := fun h => Dbl.gt_asymm a a h h

theorem loop_body_fl_done (fl sqrt : α → α) (cfg : Config (Dbl α)) (c : Cursors)
    (m : Store (Dbl α)) (h : c.OOS1_end ≥ cfg.n_cases - 1) :
    loop_body_fl fl sqrt cfg c m = Step.done c (criteria_pass_fl fl sqrt cfg c m) := by
  simp only [loop_body_fl, if_pos h]

theorem loop_body_fl_filling (fl sqrt : α → α) (cfg : Config (Dbl α)) (c : Cursors)
    (m : Store (Dbl α)) (h : ¬ c.OOS1_end ≥ cfg.n_cases - 1)
    (hf : (advance c).OOS1_end - (advance c).OOS1_start < cfg.OOS1_n) :
    loop_body_fl fl sqrt cfg c m = Step.again (advance c) (criteria_pass_fl fl sqrt cfg c m) := by
  simp only [loop_body_fl, if_neg h, if_pos hf]

theorem loop_body_fl_steady (fl sqrt : α → α) (cfg : Config (Dbl α)) (c : Cursors)
    (m : Store (Dbl α)) (h : ¬ c.OOS1_end ≥ cfg.n_cases - 1)
    (hf : ¬ (advance c).OOS1_end - (advance c).OOS1_start < cfg.OOS1_n) :
    loop_body_fl fl sqrt cfg c m = Step.again (finish_advance (advance c))
      (steady_store_fl fl sqrt cfg (advance c) (criteria_pass_fl fl sqrt cfg c m)) := by
  simp only [loop_body_fl, if_neg h, if_neg hf]

theorem loop_body_fl_again_end (fl sqrt : α → α) (cfg : Config (Dbl α)) (c c1 : Cursors)
    (m m1 : Store (Dbl α)) (h : loop_body_fl fl sqrt cfg c m = Step.again c1 m1) :
    c1.OOS1_end = c.OOS1_end + 1 ∧ c.OOS1_end < cfg.n_cases - 1 := by
  simp only [loop_body_fl] at h
  split at h
  · cases h
  · split at h
    · cases h
      exact ⟨rfl, by omega⟩
    · cases h
      exact ⟨rfl, by omega⟩

theorem main_loop_fl_done (fl sqrt : α → α) (cfg : Config (Dbl α)) (c c1 : Cursors)
    (m m1 : Store (Dbl α)) (h : loop_body_fl fl sqrt cfg c m = Step.done c1 m1) :
    main_loop_fl fl sqrt cfg c m = (c1, m1) := by
  rw [main_loop_fl]
  split
  · rename_i c2 m2 h2
    rw [h] at h2
    cases h2
    rfl
  · rename_i c2 m2 h2
    rw [h] at h2
    cases h2

theorem main_loop_fl_again (fl sqrt : α → α) (cfg : Config (Dbl α)) (c c1 : Cursors)
    (m m1 : Store (Dbl α)) (h : loop_body_fl fl sqrt cfg c m = Step.again c1 m1) :
    main_loop_fl fl sqrt cfg c m = main_loop_fl fl sqrt cfg c1 m1 := by
  rw [main_loop_fl]
  split
  · rename_i c2 m2 h2
    rw [h] at h2
    cases h2
  · rename_i c2 m2 h2
    rw [h] at h2
    cases h2
    rfl

/-- Proof rule for the main loop in `double` arithmetic: a property `P` of the state at the
top of the body that every pass preserves, and that gives `Q` when the pass leaves the loop,
gives `Q` of the state in which the loop is left. -/
theorem main_loop_fl_rule (fl sqrt : α → α) (cfg : Config (Dbl α))
    (P : Cursors → Store (Dbl α) → Prop) (Q : Cursors → Store (Dbl α) → Prop)
    (hdone : ∀ c m c1 m1, P c m → loop_body_fl fl sqrt cfg c m = Step.done c1 m1 → Q c1 m1)
    (hagain : ∀ c m c1 m1, P c m → loop_body_fl fl sqrt cfg c m = Step.again c1 m1 → P c1 m1)
    (c : Cursors) (m : Store (Dbl α)) (h : P c m) :
    Q (main_loop_fl fl sqrt cfg c m).1 (main_loop_fl fl sqrt cfg c m).2 := by
  generalize hk : (cfg.n_cases - c.OOS1_end).toNat = k
  induction k using Nat.strong_induction_on generalizing c m with
  | _ k ih =>
    cases hb : loop_body_fl fl sqrt cfg c m with
    | done c1 m1 =>
      rw [main_loop_fl_done fl sqrt cfg c c1 m m1 hb]
      exact hdone c m c1 m1 h hb
    | again c1 m1 =>
      rw [main_loop_fl_again fl sqrt cfg c c1 m m1 hb]
      have hdec := loop_body_fl_again_end fl sqrt cfg c c1 m m1 hb
      exact ih (cfg.n_cases - c1.OOS1_end).toNat (by omega) c1 m1
        (hagain c m c1 m1 h hb) rfl

theorem topInv_again_fl (fl sqrt : α → α) (cfg : Config (Dbl α)) (c c1 : Cursors)
    (m m1 : Store (Dbl α)) (hinv : TopInv cfg c)
    (h : loop_body_fl fl sqrt cfg c m = Step.again c1 m1) : TopInv cfg c1 := by
  obtain ⟨h1, h2, h3, h4⟩ := hinv
  simp only [loop_body_fl] at h
  split at h
  · cases h
  · rename_i hnb
    split at h
    · rename_i hf
      cases h
      simp only [advance] at hf
      refine ⟨?_, ?_, h3, ?_⟩
      · show c.OOS1_end + 1 = c.IS_start + 1 + cfg.IS_n
        omega
      · show cfg.IS_n ≤ c.OOS1_end + 1
        omega
      · show (c.OOS1_end + 1 < cfg.IS_n + cfg.OOS1_n ∧ c.OOS1_start = cfg.IS_n ∧
            c.OOS2_end = cfg.IS_n + cfg.OOS1_n) ∨
          (cfg.IS_n + cfg.OOS1_n ≤ c.OOS1_end + 1 ∧
            c.OOS1_start = c.OOS1_end + 1 - cfg.OOS1_n + 1 ∧ c.OOS2_end = c.OOS1_end + 1 + 1)
        omega
    · rename_i hf
      cases h
      simp only [advance] at hf
      refine ⟨?_, ?_, h3, ?_⟩
      · show c.OOS1_end + 1 = c.IS_start + 1 + cfg.IS_n
        omega
      · show cfg.IS_n ≤ c.OOS1_end + 1
        omega
      · show (c.OOS1_end + 1 < cfg.IS_n + cfg.OOS1_n ∧ c.OOS1_start + 1 = cfg.IS_n ∧
            c.OOS2_end + 1 = cfg.IS_n + cfg.OOS1_n) ∨
          (cfg.IS_n + cfg.OOS1_n ≤ c.OOS1_end + 1 ∧
            c.OOS1_start + 1 = c.OOS1_end + 1 - cfg.OOS1_n + 1 ∧
            c.OOS2_end + 1 = c.OOS1_end + 1 + 1)
        omega

theorem criteria_pass_fl_eq (fl sqrt : α → α) (cfg : Config (Dbl α)) (c : Cursors)
    (m : Store (Dbl α)) :
    criteria_pass_fl fl sqrt cfg c m
      = criteria_body_fl fl sqrt cfg c 2
          (criteria_body_fl fl sqrt cfg c 1 (criteria_body_fl fl sqrt cfg c 0 m)) :=
  forLoop_zero_three _ _

theorem criteria_pass_fl_crit_count (fl sqrt : α → α) (cfg : Config (Dbl α)) (c : Cursors)
    (m : Store (Dbl α)) : (criteria_pass_fl fl sqrt cfg c m).crit_count = m.crit_count := by
  rw [criteria_pass_fl_eq]
  rfl

theorem criteria_pass_fl_ibestcrit (fl sqrt : α → α) (cfg : Config (Dbl α)) (c : Cursors)
    (m : Store (Dbl α)) : (criteria_pass_fl fl sqrt cfg c m).ibestcrit = m.ibestcrit := by
  rw [criteria_pass_fl_eq]
  rfl

theorem criteria_pass_fl_OOS2 (fl sqrt : α → α) (cfg : Config (Dbl α)) (c : Cursors)
    (m : Store (Dbl α)) : (criteria_pass_fl fl sqrt cfg c m).OOS2 = m.OOS2 := by
  rw [criteria_pass_fl_eq]
  rfl

/-- The scan over two candidates in `double` arithmetic returns `A` when `A` scores above
the other candidate, or no candidate scores above the starting value, and `A` is the
starting index or scores above the starting value. -/
theorem scan_two_picks_fl (score : Int → Dbl α) (s0 : Dbl α) (i0 A : Int)
    (hA : A = 0 ∨ A = 1)
    (h : Dbl.gt (score A) (score (1 - A)) ∨ (¬ Dbl.gt (score 0) s0 ∧ ¬ Dbl.gt (score 1) s0))
    (hi : i0 = A ∨ Dbl.gt (score A) s0) :
    (forLoop 0 2 (fun i (b : Dbl α × Int) => if Dbl.gt (score i) b.1 then (score i, i) else b)
      (s0, i0)).2 = A := by
  rw [forLoop_zero_two]
  rcases hA with rfl | rfl
  · have e : ((1 : Int) - 0) = 1 := by decide
    rw [e] at h
    by_cases h0 : Dbl.gt (score 0) s0
    · simp only [if_pos h0]
      rcases h with h | ⟨h, _⟩
      · rw [if_neg (Dbl.gt_asymm _ _ h)]
      · exact absurd h0 h
    · simp only [if_neg h0]
      have hi0 : i0 = 0 := hi.resolve_right h0
      by_cases h1 : Dbl.gt (score 1) s0
      · rcases h with h | ⟨_, h⟩
        · exact absurd (Dbl.gt_trans _ _ _ h h1) h0
        · exact absurd h1 h
      · rw [if_neg h1]
        exact hi0
  · have e : ((1 : Int) - 1) = 0 := by decide
    rw [e] at h
    by_cases h0 : Dbl.gt (score 0) s0
    · simp only [if_pos h0]
      rcases h with h | ⟨h, _⟩
      · rw [if_pos h]
      · exact absurd h0 h
    · simp only [if_neg h0]
      by_cases h1 : Dbl.gt (score 1) s0
      · rw [if_pos h1]
      · rw [if_neg h1]
        exact hi.resolve_right h1

theorem best_market_fl_picks (fl sqrt : α → α) (cfg : Config (Dbl α))
    (which start ibest A : Int) (hnm : cfg.n_markets = 2) (hA : A = 0 ∨ A = 1)
    (h : Dbl.gt (market_score_fl fl sqrt cfg which start A)
        (market_score_fl fl sqrt cfg which start (1 - A)) ∨
      (¬ Dbl.gt (market_score_fl fl sqrt cfg which start 0) (minus_1e60 fl) ∧
        ¬ Dbl.gt (market_score_fl fl sqrt cfg which start 1) (minus_1e60 fl)))
    (hi : ibest = A ∨ Dbl.gt (market_score_fl fl sqrt cfg which start A) (minus_1e60 fl)) :
    (best_market_fl fl sqrt cfg which start ibest).2 = A := by
  have := scan_two_picks_fl (market_score_fl fl sqrt cfg which start) (minus_1e60 fl) ibest A
    hA h hi
  unfold best_market_fl
  rw [hnm]
  exact this

theorem criteria_pass_fl_trace_eq (fl sqrt : α → α) (cfg : Config (Dbl α)) (c : Cursors)
    (m : Store (Dbl α)) :
    (criteria_pass_fl fl sqrt cfg c m).trace
      = m.trace ++
        [Event.oos1 0 c.OOS1_end (best_market_fl fl sqrt cfg 0 c.IS_start m.ibest).2,
         Event.oos1 1 c.OOS1_end
          (best_market_fl fl sqrt cfg 1 c.IS_start
            (best_market_fl fl sqrt cfg 0 c.IS_start m.ibest).2).2,
         Event.oos1 2 c.OOS1_end
          (best_market_fl fl sqrt cfg 2 c.IS_start
            (best_market_fl fl sqrt cfg 1 c.IS_start
              (best_market_fl fl sqrt cfg 0 c.IS_start m.ibest).2).2).2] := by
  rw [criteria_pass_fl_eq]
  simp only [criteria_body_fl, List.append_assoc, List.cons_append, List.nil_append]

theorem criteria_pass_fl_oos2_days (fl sqrt : α → α) (cfg : Config (Dbl α)) (c : Cursors)
    (m : Store (Dbl α)) :
    oos2_days (criteria_pass_fl fl sqrt cfg c m).trace = oos2_days m.trace := by
  rw [criteria_pass_fl_trace_eq, oos2_days_append]
  simp [oos2_days]

theorem criteria_pass_fl_oos1_days (fl sqrt : α → α) (cfg : Config (Dbl α)) (c : Cursors)
    (m : Store (Dbl α)) (icrit : Int) (hic : icrit = 0 ∨ icrit = 1 ∨ icrit = 2) :
    oos1_days icrit (criteria_pass_fl fl sqrt cfg c m).trace
      = oos1_days icrit m.trace ++ [c.OOS1_end] := by
  rw [criteria_pass_fl_trace_eq, oos1_days_append]
  rcases hic with rfl | rfl | rfl <;> simp [oos1_days]

theorem steady_store_fl_trace (fl sqrt : α → α) (cfg : Config (Dbl α)) (c : Cursors)
    (m : Store (Dbl α)) :
    (steady_store_fl fl sqrt cfg c m).trace
      = m.trace ++ [Event.oos2 c.OOS2_end (steady_store_fl fl sqrt cfg c m).ibestcrit
          (steady_store_fl fl sqrt cfg c m).ibest] := rfl

theorem steady_store_fl_oos2_days (fl sqrt : α → α) (cfg : Config (Dbl α)) (c : Cursors)
    (m : Store (Dbl α)) :
    oos2_days (steady_store_fl fl sqrt cfg c m).trace = oos2_days m.trace ++ [c.OOS2_end] := by
  rw [steady_store_fl_trace, oos2_days_append]
  rfl

theorem steady_store_fl_oos1_days (fl sqrt : α → α) (cfg : Config (Dbl α)) (c : Cursors)
    (m : Store (Dbl α)) (icrit : Int) :
    oos1_days icrit (steady_store_fl fl sqrt cfg c m).trace = oos1_days icrit m.trace := by
  rw [steady_store_fl_trace, oos1_days_append]
  simp [oos1_days]

/-- A scan in `double` arithmetic in which no score exceeds the starting value leaves its
state unchanged. -/
theorem scan_unchanged_fl (n : Int) (score : Int → Dbl α) (s0 : Dbl α) (i0 : Int)
    (h : ∀ j, 0 ≤ j → j < n → ¬ Dbl.gt (score j) s0) :
    forLoop 0 n (fun i (b : Dbl α × Int) => if Dbl.gt (score i) b.1 then (score i, i) else b)
      (s0, i0) = (s0, i0) := by
  rcases le_or_lt n 0 with hle | hlt
  · exact forLoop_empty _ _ _ _ hle
  · refine forLoop_invariant 0 n _ (s0, i0) (fun _ st => st = (s0, i0)) (le_of_lt hlt) rfl ?_
    intro i st hi0 hi1 hst
    have hst1 : st = (s0, i0) := hst
    show (if Dbl.gt (score i) st.1 then (score i, i) else st) = (s0, i0)
    rw [hst1, if_neg (h i hi0 hi1)]

/-- The values that the loop over the criteria stores in `OOS1`, in `double` arithmetic. -/
theorem criteria_pass_fl_OOS1_written (fl sqrt : α → α) (cfg : Config (Dbl α)) (c : Cursors)
    (m : Store (Dbl α)) (hn : cfg.n_cases ≠ 0) (ic : Int) (hic : ic = 0 ∨ ic = 1 ∨ ic = 2) :
    ∃ b, Event.oos1 ic c.OOS1_end b ∈ (criteria_pass_fl fl sqrt cfg c m).trace ∧
      (criteria_pass_fl fl sqrt cfg c m).OOS1 (ic * cfg.n_cases + c.OOS1_end)
        = Dbl.sub fl (cfg.market_close b c.OOS1_end) (cfg.market_close b (c.OOS1_end - 1)) := by
  rw [criteria_pass_fl_trace_eq, criteria_pass_fl_eq]
  simp only [criteria_body_fl]
  rcases hic with rfl | rfl | rfl
  · refine ⟨(best_market_fl fl sqrt cfg 0 c.IS_start m.ibest).2, by simp, ?_⟩
    rw [Function.update_noteq (by omega), Function.update_noteq (by omega),
      Function.update_same]
  · refine ⟨(best_market_fl fl sqrt cfg 1 c.IS_start
        (best_market_fl fl sqrt cfg 0 c.IS_start m.ibest).2).2, by simp, ?_⟩
    rw [Function.update_noteq (by omega), Function.update_same]
  · refine ⟨(best_market_fl fl sqrt cfg 2 c.IS_start
        (best_market_fl fl sqrt cfg 1 c.IS_start
          (best_market_fl fl sqrt cfg 0 c.IS_start m.ibest).2).2).2, by simp, ?_⟩
    rw [Function.update_same]

/-- The loop over the criteria in `double` arithmetic leaves the rest of `OOS1` alone. -/
theorem criteria_pass_fl_OOS1_other (fl sqrt : α → α) (cfg : Config (Dbl α)) (c : Cursors)
    (m : Store (Dbl α)) (x : Int) (h0 : x ≠ 0 * cfg.n_cases + c.OOS1_end)
    (h1 : x ≠ 1 * cfg.n_cases + c.OOS1_end) (h2 : x ≠ 2 * cfg.n_cases + c.OOS1_end) :
    (criteria_pass_fl fl sqrt cfg c m).OOS1 x = m.OOS1 x := by
  rw [criteria_pass_fl_eq]
  simp only [criteria_body_fl]
  rw [Function.update_noteq h2, Function.update_noteq h1, Function.update_noteq h0]

/-- A total return that exceeds some value exceeds the sentinel `-1.e60`, when the finite
prices are logarithms of values of type `float` and the rounding keeps `-208` and what is
above it over the sentinel. -/
theorem total_return_above (fl : α → α) (a b z : Dbl α)
    (hfl : ∀ x : α, -208 ≤ x → -(fl (10 ^ 60)) < fl x)
    (ha : ∀ x, a = Dbl.fin x → -104 ≤ x ∧ x ≤ 104)
    (hb : ∀ x, b = Dbl.fin x → -104 ≤ x ∧ x ≤ 104)
    (h : Dbl.gt (Dbl.sub fl a b) z) : Dbl.gt (Dbl.sub fl a b) (minus_1e60 fl) := by
  cases a <;> cases b <;> simp only [Dbl.sub, Dbl.gt, minus_1e60] at h ⊢
  · rename_i x y
    have hx := ha x rfl
    have hy := hb y rfl
    exact hfl (x - y) (by linarith)

/-- The loop over the criteria in `double` arithmetic when market `A` scores above the
other market under each criterion on the current in-sample window, and above the sentinel
under the first: `A` is chosen three times. -/
theorem criteria_pass_fl_picks (fl sqrt : α → α) (cfg : Config (Dbl α)) (A : Int)
    (c : Cursors) (m : Store (Dbl α)) (hnm : cfg.n_markets = 2) (hA : A = 0 ∨ A = 1)
    (hdom : ∀ which, which = 0 ∨ which = 1 ∨ which = 2 →
      Dbl.gt (market_score_fl fl sqrt cfg which c.IS_start A)
        (market_score_fl fl sqrt cfg which c.IS_start (1 - A)))
    (hsent : Dbl.gt (market_score_fl fl sqrt cfg 0 c.IS_start A) (minus_1e60 fl)) :
    (criteria_pass_fl fl sqrt cfg c m).ibest = A ∧
      (criteria_pass_fl fl sqrt cfg c m).trace
        = m.trace ++ [Event.oos1 0 c.OOS1_end A, Event.oos1 1 c.OOS1_end A,
            Event.oos1 2 c.OOS1_end A] ∧
      (criteria_pass_fl fl sqrt cfg c m).OOS1
        = Function.update (Function.update (Function.update m.OOS1
              (0 * cfg.n_cases + c.OOS1_end)
              (Dbl.sub fl (cfg.market_close A c.OOS1_end)
                (cfg.market_close A (c.OOS1_end - 1))))
            (1 * cfg.n_cases + c.OOS1_end)
            (Dbl.sub fl (cfg.market_close A c.OOS1_end)
              (cfg.market_close A (c.OOS1_end - 1))))
          (2 * cfg.n_cases + c.OOS1_end)
          (Dbl.sub fl (cfg.market_close A c.OOS1_end)
            (cfg.market_close A (c.OOS1_end - 1))) := by
  have hb0 : (best_market_fl fl sqrt cfg 0 c.IS_start m.ibest).2 = A :=
    best_market_fl_picks fl sqrt cfg 0 c.IS_start m.ibest A hnm hA
      (Or.inl (hdom 0 (Or.inl rfl))) (Or.inr hsent)
  have hb1 : (best_market_fl fl sqrt cfg 1 c.IS_start A).2 = A :=
    best_market_fl_picks fl sqrt cfg 1 c.IS_start A A hnm hA
      (Or.inl (hdom 1 (Or.inr (Or.inl rfl)))) (Or.inl rfl)
  have hb2 : (best_market_fl fl sqrt cfg 2 c.IS_start A).2 = A :=
    best_market_fl_picks fl sqrt cfg 2 c.IS_start A A hnm hA
      (Or.inl (hdom 2 (Or.inr (Or.inr rfl)))) (Or.inl rfl)
  refine ⟨?_, ?_, ?_⟩
  · rw [criteria_pass_fl_eq]
    simp only [criteria_body_fl, hb0, hb1, hb2]
  · rw [criteria_pass_fl_trace_eq]
    simp only [hb0, hb1, hb2]
  · rw [criteria_pass_fl_eq]
    simp only [criteria_body_fl, hb0, hb1, hb2]

theorem criterion_fl_unknown (fl sqrt : α → α) (which n : Int) (prices : Int → Dbl α)
    (h : which ≠ 0 ∧ which ≠ 1 ∧ which ≠ 2) :
    criterion_fl fl sqrt which n prices = minus_1e60 fl := by
  simp only [criterion_fl, if_neg h.1, if_neg h.2.1, if_neg h.2.2]

/-- The market-selection loop of the steady state in `double` arithmetic keeps `A` when it
starts from `A` and `A` scores above the other market under each of the three criteria. -/
theorem steady_store_fl_picks (fl sqrt : α → α) (cfg : Config (Dbl α)) (A : Int)
    (c : Cursors) (m : Store (Dbl α)) (hnm : cfg.n_markets = 2) (hA : A = 0 ∨ A = 1)
    (hib : m.ibest = A)
    (hdom : ∀ which, which = 0 ∨ which = 1 ∨ which = 2 →
      Dbl.gt (market_score_fl fl sqrt cfg which (c.OOS2_end - cfg.IS_n) A)
        (market_score_fl fl sqrt cfg which (c.OOS2_end - cfg.IS_n) (1 - A))) :
    (steady_store_fl fl sqrt cfg c m).ibest = A := by
  show (best_market_fl fl sqrt cfg (best_criterion_fl fl cfg c m).2 (c.OOS2_end - cfg.IS_n)
    m.ibest).2 = A
  refine best_market_fl_picks fl sqrt cfg _ _ m.ibest A hnm hA ?_ (Or.inl hib)
  by_cases hw : (best_criterion_fl fl cfg c m).2 = 0 ∨ (best_criterion_fl fl cfg c m).2 = 1 ∨
      (best_criterion_fl fl cfg c m).2 = 2
  · exact Or.inl (hdom _ hw)
  · right
    have hne : (best_criterion_fl fl cfg c m).2 ≠ 0 ∧ (best_criterion_fl fl cfg c m).2 ≠ 1 ∧
        (best_criterion_fl fl cfg c m).2 ≠ 2 := by
      refine ⟨fun h => hw (Or.inl h), fun h => hw (Or.inr (Or.inl h)),
        fun h => hw (Or.inr (Or.inr h))⟩
    have hs : ∀ j, market_score_fl fl sqrt cfg (best_criterion_fl fl cfg c m).2
        (c.OOS2_end - cfg.IS_n) j = minus_1e60 fl :=
      fun j => criterion_fl_unknown fl sqrt _ cfg.IS_n _ hne
    rw [hs 0, hs 1]
    exact ⟨Dbl.gt_irrefl _, Dbl.gt_irrefl _⟩

/-- On a window of a matrix whose finite entries for market `A` are logarithms of values of
type `float`, a total return of `A` that exceeds the total return of the other market exceeds
the sentinel `-1.e60`. -/
theorem score_above_sentinel (fl sqrt : α → α) (cfg : Config (Dbl α)) (A start : Int)
    (hIS : 2 ≤ cfg.IS_n) (h0 : 0 ≤ start) (h1 : start + cfg.IS_n ≤ cfg.n_cases)
    (hfl : ∀ x : α, -208 ≤ x → -(fl (10 ^ 60)) < fl x)
    (hrecv : ∀ d x, 0 ≤ d → d < cfg.n_cases → cfg.market_close A d = Dbl.fin x →
      -104 ≤ x ∧ x ≤ 104)
    (hdom : Dbl.gt (market_score_fl fl sqrt cfg 0 start A)
      (market_score_fl fl sqrt cfg 0 start (1 - A))) :
    Dbl.gt (market_score_fl fl sqrt cfg 0 start A) (minus_1e60 fl) := by
  have e : market_score_fl fl sqrt cfg 0 start A
      = Dbl.sub fl (cfg.market_close A (start + (cfg.IS_n - 1)))
          (cfg.market_close A (start + 0)) := by
    simp only [market_score_fl, criterion_fl, if_true, total_return_fl]
  rw [e] at hdom ⊢
  exact total_return_above fl _ _ _ hfl
    (fun x hx => hrecv _ x (by omega) (by omega) hx)
    (fun x hx => hrecv _ x (by omega) (by omega) hx) hdom

theorem allA_fl_criteria_pass (fl sqrt : α → α) (cfg : Config (Dbl α)) (A : Int)
    (c : Cursors) (m : Store (Dbl α)) (hnm : cfg.n_markets = 2) (hA : A = 0 ∨ A = 1)
    (hIS : 2 ≤ cfg.IS_n)
    (hfl : ∀ x : α, -208 ≤ x → -(fl (10 ^ 60)) < fl x)
    (hrecv : ∀ d x, 0 ≤ d → d < cfg.n_cases → cfg.market_close A d = Dbl.fin x →
      -104 ≤ x ∧ x ≤ 104)
    (hdom : ∀ which start, which = 0 ∨ which = 1 ∨ which = 2 → 0 ≤ start →
      start + cfg.IS_n ≤ cfg.n_cases →
      Dbl.gt (market_score_fl fl sqrt cfg which start A)
        (market_score_fl fl sqrt cfg which start (1 - A)))
    (h : AllA_fl fl cfg A c m) :
    (criteria_pass_fl fl sqrt cfg c m).ibest = A ∧
      (∀ e, e ∈ (criteria_pass_fl fl sqrt cfg c m).trace → e.market = A) ∧
      (∀ ic, ic = 0 ∨ ic = 1 ∨ ic = 2 → ∀ d, cfg.IS_n ≤ d → d < c.OOS1_end + 1 →
        (criteria_pass_fl fl sqrt cfg c m).OOS1 (ic * cfg.n_cases + d)
          = Dbl.sub fl (cfg.market_close A d) (cfg.market_close A (d - 1))) := by
  obtain ⟨⟨t1, t2, t3, t4⟩, hhi, hmk, _, _, ho1, _⟩ := h
  obtain ⟨hib, htr, hO⟩ := criteria_pass_fl_picks fl sqrt cfg A c m hnm hA
    (fun which hw => hdom which c.IS_start hw (by omega) (by omega))
    (score_above_sentinel fl sqrt cfg A c.IS_start hIS (by omega) (by omega) hfl hrecv
      (hdom 0 c.IS_start (Or.inl rfl) (by omega) (by omega)))
  refine ⟨hib, ?_, ?_⟩
  · intro e he
    rw [htr, List.mem_append] at he
    rcases he with he | he
    · exact hmk e he
    · simp only [List.mem_cons, List.mem_singleton, List.not_mem_nil, or_false] at he
      rcases he with rfl | rfl | rfl <;> rfl
  · intro ic hic d hd0 hd1
    rw [hO]
    rcases eq_or_lt_of_le (show d ≤ c.OOS1_end by omega) with hde | hde
    · subst hde
      rcases hic with rfl | rfl | rfl
      · rw [Function.update_noteq (by omega), Function.update_noteq (by omega),
          Function.update_same]
      · rw [Function.update_noteq (by omega), Function.update_same]
      · rw [Function.update_same]
    · have hold := ho1 ic hic d hd0 hde
      rcases hic with rfl | rfl | rfl
      · rw [Function.update_noteq (by omega), Function.update_noteq (by omega),
          Function.update_noteq (by omega)]
        exact hold
      · rw [Function.update_noteq (by omega), Function.update_noteq (by omega),
          Function.update_noteq (by omega)]
        exact hold
      · rw [Function.update_noteq (by omega), Function.update_noteq (by omega),
          Function.update_noteq (by omega)]
        exact hold

theorem allA_fl_init (fl : α → α) (cfg : Config (Dbl α)) (A : Int)
    (g : Store (Dbl α)) (h1 : 1 ≤ cfg.OOS1_n) (hn : cfg.IS_n + 1 ≤ cfg.n_cases) :
    AllA_fl fl cfg A (init_cursors cfg) (init_store g) := by
  refine ⟨topInv_init cfg h1, ?_, ?_, ?_, ?_, ?_, ?_⟩
  · show cfg.IS_n ≤ cfg.n_cases - 1
    omega
  · intro e he
    cases he
  · intro ic _
    exact (intRange_empty _ _ (le_refl _)).symm
  · exact (intRange_empty _ _ (le_refl _)).symm
  · intro ic _ d hd0 hd1
    have hd1' : d < cfg.IS_n := hd1
    omega
  · intro d hd0 hd1
    have hd1' : d < cfg.IS_n + cfg.OOS1_n := hd1
    omega

theorem allA_fl_again (fl sqrt : α → α) (cfg : Config (Dbl α)) (A : Int)
    (hnm : cfg.n_markets = 2) (hA : A = 0 ∨ A = 1) (hIS : 2 ≤ cfg.IS_n)
    (hfl : ∀ x : α, -208 ≤ x → -(fl (10 ^ 60)) < fl x)
    (hrecv : ∀ d x, 0 ≤ d → d < cfg.n_cases → cfg.market_close A d = Dbl.fin x →
      -104 ≤ x ∧ x ≤ 104)
    (hdom : ∀ which start, which = 0 ∨ which = 1 ∨ which = 2 → 0 ≤ start →
      start + cfg.IS_n ≤ cfg.n_cases →
      Dbl.gt (market_score_fl fl sqrt cfg which start A)
        (market_score_fl fl sqrt cfg which start (1 - A)))
    (c : Cursors) (m : Store (Dbl α)) (c1 : Cursors) (m1 : Store (Dbl α))
    (h : AllA_fl fl cfg A c m)
    (hb : loop_body_fl fl sqrt cfg c m = Step.again c1 m1) : AllA_fl fl cfg A c1 m1 := by
  have htop := topInv_again_fl fl sqrt cfg c c1 m m1 h.top hb
  have hend := loop_body_fl_again_end fl sqrt cfg c c1 m m1 hb
  obtain ⟨hib, hmk, ho1⟩ :=
    allA_fl_criteria_pass fl sqrt cfg A c m hnm hA hIS hfl hrecv hdom h
  obtain ⟨⟨t1, t2, t3, t4⟩, hhi, _, hc1, hc2, _, ho2⟩ := h
  have hbrk : ¬ c.OOS1_end ≥ cfg.n_cases - 1 := by omega
  have hcount1 : ∀ ic, ic = 0 ∨ ic = 1 ∨ ic = 2 →
      oos1_days ic (criteria_pass_fl fl sqrt cfg c m).trace
        = intRange cfg.IS_n (c.OOS1_end + 1) := by
    intro ic hic
    rw [criteria_pass_fl_oos1_days fl sqrt cfg c m ic hic, hc1 ic hic,
      intRange_succ _ _ t2]
  by_cases hf : (advance c).OOS1_end - (advance c).OOS1_start < cfg.OOS1_n
  · rw [loop_body_fl_filling fl sqrt cfg c m hbrk hf] at hb
    cases hb
    refine ⟨htop, by omega, hmk, hcount1, ?_, ?_, ?_⟩
    · rw [criteria_pass_fl_oos2_days]
      exact hc2
    · intro ic hic d hd0 hd1
      exact ho1 ic hic d hd0 hd1
    · intro d hd0 hd1
      rw [criteria_pass_fl_OOS2]
      exact ho2 d hd0 hd1
  · rw [loop_body_fl_steady fl sqrt cfg c m hbrk hf] at hb
    cases hb
    have hf1 : ¬ (c.OOS1_end + 1 - c.OOS1_start < cfg.OOS1_n) := hf
    have h2 : (advance c).OOS2_end = c.OOS1_end + 1 := by
      show c.OOS2_end = c.OOS1_end + 1
      omega
    have hsb : (steady_store_fl fl sqrt cfg (advance c)
        (criteria_pass_fl fl sqrt cfg c m)).ibest = A :=
      steady_store_fl_picks fl sqrt cfg A (advance c) _ hnm hA hib
        (fun which hw => hdom which _ hw (by omega) (by omega))
    refine ⟨htop, by omega, ?_, ?_, ?_, ?_, ?_⟩
    · intro e he
      rw [steady_store_fl_trace, List.mem_append, List.mem_singleton] at he
      rcases he with he | rfl
      · exact hmk e he
      · exact hsb
    · intro ic hic
      rw [steady_store_fl_oos1_days]
      exact hcount1 ic hic
    · rw [steady_store_fl_oos2_days, criteria_pass_fl_oos2_days, hc2]
      show intRange (cfg.IS_n + cfg.OOS1_n) c.OOS2_end ++ [c.OOS2_end]
        = intRange (cfg.IS_n + cfg.OOS1_n) (c.OOS2_end + 1)
      rw [intRange_succ _ _ (by omega)]
    · intro ic hic d hd0 hd1
      exact ho1 ic hic d hd0 hd1
    · intro d hd0 hd1
      have hd1' : d < c.OOS2_end + 1 := hd1
      show Function.update (criteria_pass_fl fl sqrt cfg c m).OOS2 (advance c).OOS2_end
          (Dbl.sub fl
            (cfg.market_close
              (steady_store_fl fl sqrt cfg (advance c) (criteria_pass_fl fl sqrt cfg c m)).ibest
              (advance c).OOS2_end)
            (cfg.market_close
              (steady_store_fl fl sqrt cfg (advance c) (criteria_pass_fl fl sqrt cfg c m)).ibest
              ((advance c).OOS2_end - 1))) d
        = Dbl.sub fl (cfg.market_close A d) (cfg.market_close A (d - 1))
      rw [hsb, criteria_pass_fl_OOS2]
      have h2' : (advance c).OOS2_end = c.OOS2_end := rfl
      rw [h2']
      rcases eq_or_lt_of_le (show d ≤ c.OOS2_end by omega) with hde | hde
      · subst hde
        rw [Function.update_same]
      · rw [Function.update_noteq (by omega)]
        exact ho2 d hd0 hde

/-- The run in `double` arithmetic on a two-market matrix in which market `A` scores above
the other market under each criterion on every in-sample window of the matrix. -/
theorem walk_forward_fl_allA (fl sqrt : α → α) (cfg : Config (Dbl α)) (g : Store (Dbl α))
    (A : Int) (hnm : cfg.n_markets = 2) (hA : A = 0 ∨ A = 1) (hIS : 2 ≤ cfg.IS_n)
    (h1 : 1 ≤ cfg.OOS1_n) (hn : cfg.n_cases ≥ cfg.IS_n + cfg.OOS1_n + 1)
    (hfl : ∀ x : α, -208 ≤ x → -(fl (10 ^ 60)) < fl x)
    (hrecv : ∀ d x, 0 ≤ d → d < cfg.n_cases → cfg.market_close A d = Dbl.fin x →
      -104 ≤ x ∧ x ≤ 104)
    (hdom : ∀ which start, which = 0 ∨ which = 1 ∨ which = 2 → 0 ≤ start →
      start + cfg.IS_n ≤ cfg.n_cases →
      Dbl.gt (market_score_fl fl sqrt cfg which start A)
        (market_score_fl fl sqrt cfg which start (1 - A))) :
    (∀ e, e ∈ (walk_forward_fl fl sqrt cfg g).2.trace → e.market = A) ∧
      (∀ ic, ic = 0 ∨ ic = 1 ∨ ic = 2 →
        oos1_days ic (walk_forward_fl fl sqrt cfg g).2.trace
          = intRange cfg.IS_n cfg.n_cases) ∧
      oos2_days (walk_forward_fl fl sqrt cfg g).2.trace
        = intRange (cfg.IS_n + cfg.OOS1_n) cfg.n_cases ∧
      (∀ ic d, 0 ≤ ic → ic < n_criteria → cfg.IS_n ≤ d → d < cfg.n_cases →
        (walk_forward_fl fl sqrt cfg g).2.OOS1 (ic * cfg.n_cases + d)
          = Dbl.sub fl (cfg.market_close A d) (cfg.market_close A (d - 1))) ∧
      (∀ d, cfg.IS_n + cfg.OOS1_n ≤ d → d < cfg.n_cases →
        (walk_forward_fl fl sqrt cfg g).2.OOS2 d
          = Dbl.sub fl (cfg.market_close A d) (cfg.market_close A (d - 1))) := by
  refine main_loop_fl_rule fl sqrt cfg (AllA_fl fl cfg A)
    (fun _ m1 => (∀ e, e ∈ m1.trace → e.market = A) ∧
      (∀ ic, ic = 0 ∨ ic = 1 ∨ ic = 2 → oos1_days ic m1.trace = intRange cfg.IS_n cfg.n_cases) ∧
      oos2_days m1.trace = intRange (cfg.IS_n + cfg.OOS1_n) cfg.n_cases ∧
      (∀ ic d, 0 ≤ ic → ic < n_criteria → cfg.IS_n ≤ d → d < cfg.n_cases →
        m1.OOS1 (ic * cfg.n_cases + d)
          = Dbl.sub fl (cfg.market_close A d) (cfg.market_close A (d - 1))) ∧
      (∀ d, cfg.IS_n + cfg.OOS1_n ≤ d → d < cfg.n_cases →
        m1.OOS2 d = Dbl.sub fl (cfg.market_close A d) (cfg.market_close A (d - 1))))
    ?_ (fun c m c1 m1 => allA_fl_again fl sqrt cfg A hnm hA hIS hfl hrecv hdom c m c1 m1)
    (init_cursors cfg) (init_store g) (allA_fl_init fl cfg A g h1 (by omega))
  intro c m c1 m1 hP hb
  by_cases hbrk : c.OOS1_end ≥ cfg.n_cases - 1
  · rw [loop_body_fl_done fl sqrt cfg c m hbrk] at hb
    cases hb
    obtain ⟨_, hmk, ho1⟩ :=
      allA_fl_criteria_pass fl sqrt cfg A c m hnm hA hIS hfl hrecv hdom hP
    obtain ⟨⟨t1, t2, t3, t4⟩, hhi, _, hc1, hc2, _, ho2⟩ := hP
    have he : cfg.n_cases = c.OOS1_end + 1 := by omega
    refine ⟨hmk, ?_, ?_, ?_, ?_⟩
    · intro ic hic
      rw [criteria_pass_fl_oos1_days fl sqrt cfg c m ic hic, hc1 ic hic, he,
        intRange_succ _ _ t2]
    · rw [criteria_pass_fl_oos2_days, hc2]
      have h2 : c.OOS2_end = cfg.n_cases := by omega
      rw [h2]
    · intro ic d hic0 hic3 hd0 hd1
      have hic : ic = 0 ∨ ic = 1 ∨ ic = 2 := by
        simp only [n_criteria] at hic3
        omega
      exact ho1 ic hic d hd0 (by omega)
    · intro d hd0 hd1
      rw [criteria_pass_fl_OOS2]
      exact ho2 d hd0 (by omega)
  · simp only [loop_body_fl, if_neg hbrk] at hb
    split at hb <;> cases hb

end IeeeThms

/-! ## Runs in `double` arithmetic -/

section IeeeRuns

/-- The three criteria in `double` arithmetic on a window of two finite prices whose step is
stored as `1` or as `-1`. -/
theorem two_price_scores (p : Int → Dbl ℝ) (a b r : ℝ) (h0 : p 0 = Dbl.fin a)
    (h1 : p 1 = Dbl.fin b) (hr : round_binary64 (b - a) = r) (hr1 : r = 1 ∨ r = -1) :
    criterion_fl round_binary64 (fun x => round_binary64 (Real.sqrt x)) 0 2 p = Dbl.fin r ∧
    (∃ s, 0 < s ∧ criterion_fl round_binary64 (fun x => round_binary64 (Real.sqrt x)) 1 2 p
      = Dbl.fin (round_binary64 (r / s))) ∧
    criterion_fl round_binary64 (fun x => round_binary64 (Real.sqrt x)) 2 2 p
      = if 0 < r then
          Dbl.fin (round_binary64 (round_binary64 (round_binary64 (1 / 10 ^ 60) + r)
            / round_binary64 (1 / 10 ^ 60)))
        else
          Dbl.fin (round_binary64 (round_binary64 (1 / 10 ^ 60)
            / round_binary64 (round_binary64 (1 / 10 ^ 60) - r))) := by
  have e1 : ((2 : Int) - 1) = 1 := by decide
  have e0 : ((1 : Int) - 1) = 0 := by decide
  have ht : (0 : ℝ) < round_binary64 (1 / 10 ^ 60) := round_binary64_pos _ (by positivity)
  have hrr : round_binary64 r = r := by
    rcases hr1 with rfl | rfl
    · exact round_binary64_one
    · exact round_binary64_neg_one
  have c21 : round_binary64 ((((2 : Int)) : ℝ) - 1) = 1 := by
    have : ((((2 : Int)) : ℝ) - 1) = 1 := by norm_num
    rw [this, round_binary64_one]
  have c1 : round_binary64 ((((1 : Int)) : ℝ)) = 1 := by
    have : ((((1 : Int)) : ℝ)) = 1 := by norm_num
    rw [this, round_binary64_one]
  have hret : Dbl.sub round_binary64 (p 1) (p 0) = Dbl.fin r := by
    rw [h0, h1, Dbl.sub_fin, hr]
  refine ⟨?_, ?_, ?_⟩
  · simp only [criterion_fl, if_true, total_return_fl, e1, hret]
  · have hw : ((1 : Int) = 0) = False := by decide
    have hmean : Dbl.div round_binary64 (Dbl.fin r)
        (Dbl.fin (round_binary64 ((((2 : Int)) : ℝ) - 1))) = Dbl.fin r := by
      rw [c21, Dbl.div_fin _ _ _ one_ne_zero, div_one, hrr]
    have hv : (0 : ℝ) < round_binary64 (round_binary64
        (round_binary64 (1 / 10 ^ 60) + 0) / 1) := by
      apply round_binary64_pos
      rw [div_one]
      apply round_binary64_pos
      rw [add_zero]
      exact ht
    have hs : (0 : ℝ) < round_binary64 (Real.sqrt (round_binary64 (round_binary64
        (round_binary64 (1 / 10 ^ 60) + 0) / 1))) :=
      round_binary64_pos _ (Real.sqrt_pos.mpr hv)
    refine ⟨_, hs, ?_⟩
    simp only [criterion_fl, hw, if_false, if_true, sharpe_ratio_fl, forLoop_one_two, e1, e0,
      hret, hmean, tiny_1em60, Dbl.sub_fin, sub_self, round_binary64_zero, Dbl.mul_fin,
      mul_zero, Dbl.add_fin, c1]
    rw [Dbl.div_fin _ _ _ one_ne_zero, Dbl.sqrt_fin _ _ (le_of_lt hv),
      Dbl.div_fin _ _ _ (ne_of_gt hs)]
  · have hw1 : ((2 : Int) = 0) = False := by decide
    have hw2 : ((2 : Int) = 1) = False := by decide
    simp only [criterion_fl, hw1, hw2, if_false, if_true, profit_factor_fl, forLoop_one_two, e0,
      hret, tiny_1em60, Dbl.gt_fin]
    by_cases hpos : 0 < r
    · rw [if_pos hpos, if_pos hpos]
      simp only [Dbl.add_fin]
      rw [Dbl.div_fin _ _ _ (ne_of_gt ht)]
    · rw [if_neg hpos, if_neg hpos]
      have hrm : r = -1 := by
        rcases hr1 with h | h
        · rw [h] at hpos
          exact absurd one_pos hpos
        · exact h
      have hl : (0 : ℝ) < round_binary64 (round_binary64 (1 / 10 ^ 60) - r) := by
        apply round_binary64_pos
        rw [hrm]
        linarith
      simp only [Dbl.sub_fin]
      rw [Dbl.div_fin _ _ _ (ne_of_gt hl)]

/-- On every window of `upAndDown` market `1` scores above market `0` under each criterion,
in `double` arithmetic. -/
theorem upAndDown_scores (which start : Int) (hw : which = 0 ∨ which = 1 ∨ which = 2) :
    Dbl.gt
      (market_score_fl round_binary64 (fun x => round_binary64 (Real.sqrt x)) upAndDown which
        start 1)
      (market_score_fl round_binary64 (fun x => round_binary64 (Real.sqrt x)) upAndDown which
        start (1 - 1)) := by
  have hup : round_binary64 ((((start + 1 : Int)) : ℝ) - (((start + 0 : Int)) : ℝ)) = 1 := by
    have : (((start + 1 : Int)) : ℝ) - (((start + 0 : Int)) : ℝ) = 1 := by
      push_cast
      ring
    rw [this, round_binary64_one]
  have hdown : round_binary64 (-(((start + 1 : Int)) : ℝ) - -(((start + 0 : Int)) : ℝ))
      = -1 := by
    have : -(((start + 1 : Int)) : ℝ) - -(((start + 0 : Int)) : ℝ) = -1 := by
      push_cast
      ring
    rw [this, round_binary64_neg_one]
  obtain ⟨u0, ⟨s1, hs1, u1⟩, u2⟩ := two_price_scores
    (fun i => upAndDown.market_close 1 (start + i)) _ _ 1
    (show upAndDown.market_close 1 (start + 0) = Dbl.fin (((start + 0 : Int)) : ℝ) by
      simp [upAndDown])
    (show upAndDown.market_close 1 (start + 1) = Dbl.fin (((start + 1 : Int)) : ℝ) by
      simp [upAndDown]) hup (Or.inl rfl)
  obtain ⟨d0, ⟨s0, hs0, d1⟩, d2⟩ := two_price_scores
    (fun i => upAndDown.market_close (1 - 1) (start + i)) _ _ (-1)
    (show upAndDown.market_close (1 - 1) (start + 0) = Dbl.fin (-(((start + 0 : Int)) : ℝ))
      by simp [upAndDown])
    (show upAndDown.market_close (1 - 1) (start + 1) = Dbl.fin (-(((start + 1 : Int)) : ℝ))
      by simp [upAndDown]) hdown (Or.inr rfl)
  have ht : (0 : ℝ) < round_binary64 (1 / 10 ^ 60) := round_binary64_pos _ (by positivity)
  have ht2 : round_binary64 (1 / 10 ^ 60) ≤ (1 / 2 : ℝ) := by
    have h := round_binary64_le (-1) (1 / 10 ^ 60 : ℝ) (by positivity) (by norm_num)
    have e : (2 : ℝ) ^ (-1 : Int) = 1 / 2 := by norm_num
    rwa [e] at h
  have hw1 : (1 : ℝ) ≤ round_binary64 (round_binary64 (1 / 10 ^ 60) + 1) := by
    have h := round_binary64_ge 0 (round_binary64 (1 / 10 ^ 60) + 1 : ℝ)
      (by rw [zpow_zero]; linarith)
    rwa [zpow_zero] at h
  rcases hw with rfl | rfl | rfl
  · show Dbl.gt
      (criterion_fl round_binary64 (fun x => round_binary64 (Real.sqrt x)) 0 2
        (fun i => upAndDown.market_close 1 (start + i)))
      (criterion_fl round_binary64 (fun x => round_binary64 (Real.sqrt x)) 0 2
        (fun i => upAndDown.market_close (1 - 1) (start + i)))
    rw [u0, d0, Dbl.gt_fin]
    norm_num
  · show Dbl.gt
      (criterion_fl round_binary64 (fun x => round_binary64 (Real.sqrt x)) 1 2
        (fun i => upAndDown.market_close 1 (start + i)))
      (criterion_fl round_binary64 (fun x => round_binary64 (Real.sqrt x)) 1 2
        (fun i => upAndDown.market_close (1 - 1) (start + i)))
    rw [u1, d1, Dbl.gt_fin]
    have p1 : (0 : ℝ) < round_binary64 (1 / s1) := round_binary64_pos _ (div_pos one_pos hs1)
    have p0 : round_binary64 (-1 / s0) < (0 : ℝ) :=
      round_binary64_neg_of_neg _ (div_neg_of_neg_of_pos (by norm_num) hs0)
    linarith
  · show Dbl.gt
      (criterion_fl round_binary64 (fun x => round_binary64 (Real.sqrt x)) 2 2
        (fun i => upAndDown.market_close 1 (start + i)))
      (criterion_fl round_binary64 (fun x => round_binary64 (Real.sqrt x)) 2 2
        (fun i => upAndDown.market_close (1 - 1) (start + i)))
    rw [u2, d2, if_pos one_pos, if_neg (by norm_num), Dbl.gt_fin]
    have hge : (2 : ℝ) ≤ round_binary64 (round_binary64 (round_binary64 (1 / 10 ^ 60) + 1)
        / round_binary64 (1 / 10 ^ 60)) := by
      have h := round_binary64_ge 1 (round_binary64 (round_binary64 (1 / 10 ^ 60) + 1)
        / round_binary64 (1 / 10 ^ 60) : ℝ) (by
          rw [zpow_one, le_div_iff₀ ht]
          linarith)
      rwa [zpow_one] at h
    have hl : (1 : ℝ) ≤ round_binary64 (round_binary64 (1 / 10 ^ 60) - -1) := by
      rw [sub_neg_eq_add]
      exact hw1
    have hle : round_binary64 (round_binary64 (1 / 10 ^ 60)
        / round_binary64 (round_binary64 (1 / 10 ^ 60) - -1)) ≤ (1 : ℝ) := by
      have hpos : (0 : ℝ) < round_binary64 (round_binary64 (1 / 10 ^ 60) - -1) := by linarith
      have h := round_binary64_le 0 (round_binary64 (1 / 10 ^ 60)
        / round_binary64 (round_binary64 (1 / 10 ^ 60) - -1) : ℝ) (div_pos ht hpos) (by
          rw [zpow_zero, div_lt_one hpos]
          linarith)
      rwa [zpow_zero] at h
    linarith

/-- A run of two passes through the loop body in `double` arithmetic: the first pass ends
in the steady state, the second leaves the loop. -/
theorem walk_forward_fl_two_passes (fl sqrt : ℝ → ℝ) (cfg : Config (Dbl ℝ))
    (g : Store (Dbl ℝ)) (hn : cfg.n_cases = 4) (hIS : cfg.IS_n = 2) (h1 : cfg.OOS1_n = 1) :
    walk_forward_fl fl sqrt cfg g
      = (finish_advance (advance (init_cursors cfg)),
          criteria_pass_fl fl sqrt cfg (finish_advance (advance (init_cursors cfg)))
            (steady_store_fl fl sqrt cfg (advance (init_cursors cfg))
              (criteria_pass_fl fl sqrt cfg (init_cursors cfg) (init_store g)))) := by
  have hb1 := loop_body_fl_steady fl sqrt cfg (init_cursors cfg) (init_store g)
    (by simp only [init_cursors, hn, hIS]; decide)
    (by simp only [init_cursors, advance, hIS, h1]; decide)
  have hb2 := loop_body_fl_done fl sqrt cfg (finish_advance (advance (init_cursors cfg)))
    (steady_store_fl fl sqrt cfg (advance (init_cursors cfg))
      (criteria_pass_fl fl sqrt cfg (init_cursors cfg) (init_store g)))
    (by simp only [init_cursors, advance, finish_advance, hn, hIS]; decide)
  unfold walk_forward_fl
  rw [main_loop_fl_again _ _ _ _ _ _ _ hb1, main_loop_fl_done _ _ _ _ _ _ _ hb2]

theorem zeroClose_sums (fl sqrt : ℝ → ℝ) (g : Store (Dbl ℝ)) (j : Int)
    (hj : j = 0 ∨ j = 1 ∨ j = 2) :
    oos1_sum_fl fl zeroClose (advance (init_cursors zeroClose))
        (criteria_pass_fl fl sqrt zeroClose (init_cursors zeroClose) (init_store g)).OOS1 j
      = Dbl.ninf := by
  obtain ⟨b, _, hb⟩ := criteria_pass_fl_OOS1_written fl sqrt zeroClose (init_cursors zeroClose)
    (init_store g) (by decide) j hj
  have he : (init_cursors zeroClose).OOS1_end = 2 := rfl
  have hn : zeroClose.n_cases = 4 := rfl
  rw [he, hn] at hb
  show forLoop 2 (2 + 1)
    (fun i crit => Dbl.add fl crit
      ((criteria_pass_fl fl sqrt zeroClose (init_cursors zeroClose) (init_store g)).OOS1
        (j * 4 + i))) (Dbl.fin 0) = Dbl.ninf
  rw [forLoop_succ _ _ _ _ (le_refl _), forLoop_empty _ _ _ _ (le_refl _), hb]
  rfl

/-- On `zeroClose` the search for the best criterion assigns nothing: `ibestcrit` keeps
the value it had before the loop was entered. -/
theorem zeroClose_ibestcrit (fl sqrt : ℝ → ℝ) (g : Store (Dbl ℝ)) :
    (best_criterion_fl fl zeroClose (advance (init_cursors zeroClose))
      (criteria_pass_fl fl sqrt zeroClose (init_cursors zeroClose) (init_store g))).2
      = g.ibestcrit := by
  have h := scan_unchanged_fl n_criteria
    (oos1_sum_fl fl zeroClose (advance (init_cursors zeroClose))
      (criteria_pass_fl fl sqrt zeroClose (init_cursors zeroClose) (init_store g)).OOS1)
    (minus_1e60 fl)
    (criteria_pass_fl fl sqrt zeroClose (init_cursors zeroClose) (init_store g)).ibestcrit
    (fun j h0 h3 => by
      have hj : j = 0 ∨ j = 1 ∨ j = 2 := by
        simp only [n_criteria] at h3
        omega
      rw [zeroClose_sums fl sqrt g j hj]
      exact fun hgt => hgt)
  unfold best_criterion_fl
  rw [h, criteria_pass_fl_ibestcrit]
  rfl

/-- C15 fails in the code, through a variable that is not initialised: on the matrix that
the program builds from the closes `1`, `1`, `0`, `1` the sum
of each criterion over the OOS1 window is `-inf`, no comparison with `-1.e60` succeeds, and
`ibestcrit` keeps the value that the uninitialised variable held when the loop was entered
(line 797 increments `crit_count` at that index).  With `5` for that value the one OOS2
realization of the run is counted in none of the three counters: their sum is `0` and
`OOS2_end - OOS2_start` is `1`. -/
theorem counters_miss_realization :
    (∀ g : Store (Dbl ℝ),
      (walk_forward_fl round_binary64 (fun x => round_binary64 (Real.sqrt x)) zeroClose
        g).2.ibestcrit = g.ibestcrit) ∧
    ∑ i in Finset.Ico 0 n_criteria,
      (walk_forward_fl round_binary64 (fun x => round_binary64 (Real.sqrt x)) zeroClose
        staleDbl).2.crit_count i = 0 ∧
    (walk_forward_fl round_binary64 (fun x => round_binary64 (Real.sqrt x)) zeroClose
        staleDbl).1.OOS2_end
      - (walk_forward_fl round_binary64 (fun x => round_binary64 (Real.sqrt x)) zeroClose
        staleDbl).1.OOS2_start = 1 ∧
    (walk_forward_fl round_binary64 (fun x => round_binary64 (Real.sqrt x)) zeroClose
        staleDbl).2.crit_count 5 = 1 ∧
    ¬ (∑ i in Finset.Ico 0 n_criteria,
        (walk_forward_fl round_binary64 (fun x => round_binary64 (Real.sqrt x)) zeroClose
          staleDbl).2.crit_count i
      = (walk_forward_fl round_binary64 (fun x => round_binary64 (Real.sqrt x)) zeroClose
          staleDbl).1.OOS2_end
        - (walk_forward_fl round_binary64 (fun x => round_binary64 (Real.sqrt x)) zeroClose
          staleDbl).1.OOS2_start) := by
  have hrun := fun g => walk_forward_fl_two_passes round_binary64
    (fun x => round_binary64 (Real.sqrt x)) zeroClose g rfl rfl rfl
  have hib : ∀ g : Store (Dbl ℝ),
      (walk_forward_fl round_binary64 (fun x => round_binary64 (Real.sqrt x)) zeroClose
        g).2.ibestcrit = g.ibestcrit := by
    intro g
    rw [hrun g]
    simp only
    rw [criteria_pass_fl_ibestcrit]
    exact zeroClose_ibestcrit _ _ g
  have hcc : ∀ i,
      (walk_forward_fl round_binary64 (fun x => round_binary64 (Real.sqrt x)) zeroClose
        staleDbl).2.crit_count i
      = Function.update (init_store staleDbl).crit_count 5
          ((init_store staleDbl).crit_count 5 + 1) i := by
    intro i
    rw [hrun staleDbl]
    simp only
    rw [criteria_pass_fl_crit_count]
    simp only [steady_store_fl, zeroClose_ibestcrit, criteria_pass_fl_crit_count]
    rfl
  obtain ⟨z0, z1, z2⟩ := init_store_crit_count staleDbl
  have z5 : (init_store staleDbl).crit_count 5 = 0 := by
    have h : (init_store staleDbl).crit_count
        = Function.update (Function.update (Function.update staleDbl.crit_count 0 0) 1 0) 2 0 :=
      forLoop_zero_three (fun i (cc : Int → Int) => Function.update cc i 0) staleDbl.crit_count
    rw [h, Function.update_noteq (by decide), Function.update_noteq (by decide),
      Function.update_noteq (by decide)]
    rfl
  have hsum : ∑ i in Finset.Ico 0 n_criteria,
      (walk_forward_fl round_binary64 (fun x => round_binary64 (Real.sqrt x)) zeroClose
        staleDbl).2.crit_count i = 0 := by
    rw [sum_Ico_n_criteria, hcc 0, hcc 1, hcc 2, Function.update_noteq (by decide),
      Function.update_noteq (by decide), Function.update_noteq (by decide), z0, z1, z2]
    rfl
  have hlen : (walk_forward_fl round_binary64 (fun x => round_binary64 (Real.sqrt x)) zeroClose
        staleDbl).1.OOS2_end
      - (walk_forward_fl round_binary64 (fun x => round_binary64 (Real.sqrt x)) zeroClose
        staleDbl).1.OOS2_start = 1 := by
    rw [hrun staleDbl]
    decide
  refine ⟨hib, hsum, hlen, ?_, ?_⟩
  · rw [hcc 5, Function.update_same, z5]
    rfl
  · rw [hsum, hlen]
    decide

/-- On `earlyZeroClose` the first market-selection loop assigns nothing: the total return
of each market over the first window is `-inf`, and `ibest` keeps the value it had before
the loop was entered. -/
theorem earlyZeroClose_ibest (fl sqrt : ℝ → ℝ) (g : Store (Dbl ℝ)) :
    (best_market_fl fl sqrt earlyZeroClose 0 (init_cursors earlyZeroClose).IS_start
      (init_store g).ibest).2 = g.ibest := by
  have h := scan_unchanged_fl earlyZeroClose.n_markets
    (fun imarket => criterion_fl fl sqrt 0 earlyZeroClose.IS_n
      (fun i => earlyZeroClose.market_close imarket
        ((init_cursors earlyZeroClose).IS_start + i)))
    (minus_1e60 fl) (init_store g).ibest
    (fun j h0 h2 => by
      have hj : j = 0 ∨ j = 1 := by
        have : j < 2 := h2
        omega
      have hs : criterion_fl fl sqrt 0 earlyZeroClose.IS_n
          (fun i => earlyZeroClose.market_close j ((init_cursors earlyZeroClose).IS_start + i))
          = Dbl.ninf := by
        simp only [criterion_fl, if_true, total_return_fl]
        show Dbl.sub fl (earlyZeroClose.market_close j (0 + (2 - 1)))
          (earlyZeroClose.market_close j (0 + 0)) = Dbl.ninf
        simp only [earlyZeroClose, if_pos hj]
        rfl
      show ¬ Dbl.gt (criterion_fl fl sqrt 0 earlyZeroClose.IS_n
          (fun i => earlyZeroClose.market_close j ((init_cursors earlyZeroClose).IS_start + i)))
        (minus_1e60 fl)
      rw [hs]
      exact fun hgt => hgt)
  unfold best_market_fl
  rw [h]
  rfl

/-- C23 fails in the code, through a variable that is not initialised: on the matrix that
the program builds from the closes `1`, `0`, `1`, `1` the total
return of each market over the first window is `-inf`, no comparison with `-1.e60` succeeds,
and line 763 reads `market_close[ibest][2]` and `market_close[ibest][1]` with the value that
the uninitialised variable `ibest` held when the loop was entered.  With `7` for that value,
which is no market of the two, the entry stored in `OOS1[0*n_cases+2]` is the difference of
two cells that are outside the matrix, and the return of neither market. -/
theorem uninitialised_market_index :
    (∀ g : Store (Dbl ℝ),
      Event.oos1 0 2 g.ibest
        ∈ (walk_forward_fl round_binary64 (fun x => round_binary64 (Real.sqrt x))
            earlyZeroClose g).2.trace ∧
      (walk_forward_fl round_binary64 (fun x => round_binary64 (Real.sqrt x))
          earlyZeroClose g).2.OOS1 (0 * 4 + 2)
        = Dbl.sub round_binary64 (earlyZeroClose.market_close g.ibest 2)
            (earlyZeroClose.market_close g.ibest 1)) ∧
    staleDbl.ibest = 7 ∧ ¬ ((0 : Int) ≤ 7 ∧ (7 : Int) < earlyZeroClose.n_markets) ∧
    (walk_forward_fl round_binary64 (fun x => round_binary64 (Real.sqrt x))
        earlyZeroClose staleDbl).2.OOS1 (0 * 4 + 2) = Dbl.fin 1 ∧
    ∀ m : Int, 0 ≤ m → m < earlyZeroClose.n_markets →
      (walk_forward_fl round_binary64 (fun x => round_binary64 (Real.sqrt x))
          earlyZeroClose staleDbl).2.OOS1 (0 * 4 + 2)
        ≠ Dbl.sub round_binary64 (earlyZeroClose.market_close m 2)
            (earlyZeroClose.market_close m 1) := by
  have hrun := fun g => walk_forward_fl_two_passes round_binary64
    (fun x => round_binary64 (Real.sqrt x)) earlyZeroClose g rfl rfl rfl
  have hgen : ∀ g : Store (Dbl ℝ),
      Event.oos1 0 2 g.ibest
        ∈ (walk_forward_fl round_binary64 (fun x => round_binary64 (Real.sqrt x))
            earlyZeroClose g).2.trace ∧
      (walk_forward_fl round_binary64 (fun x => round_binary64 (Real.sqrt x))
          earlyZeroClose g).2.OOS1 (0 * 4 + 2)
        = Dbl.sub round_binary64 (earlyZeroClose.market_close g.ibest 2)
            (earlyZeroClose.market_close g.ibest 1) := by
    intro g
    rw [hrun g]
    simp only
    constructor
    · rw [criteria_pass_fl_trace_eq, steady_store_fl_trace, criteria_pass_fl_trace_eq,
        earlyZeroClose_ibest]
      simp [init_store, init_cursors, earlyZeroClose]
    · rw [criteria_pass_fl_OOS1_other _ _ _ _ _ _ (by decide) (by decide) (by decide)]
      show (criteria_pass_fl round_binary64 (fun x => round_binary64 (Real.sqrt x))
          earlyZeroClose (init_cursors earlyZeroClose) (init_store g)).OOS1 (0 * 4 + 2) = _
      rw [criteria_pass_fl_eq]
      simp only [criteria_body_fl]
      rw [Function.update_noteq (by decide), Function.update_noteq (by decide),
        earlyZeroClose_ibest]
      exact Function.update_same _ _ _
  have hval : (walk_forward_fl round_binary64 (fun x => round_binary64 (Real.sqrt x))
        earlyZeroClose staleDbl).2.OOS1 (0 * 4 + 2) = Dbl.fin 1 := by
    rw [(hgen staleDbl).2]
    show Dbl.sub round_binary64 (earlyZeroClose.market_close 7 2)
      (earlyZeroClose.market_close 7 1) = Dbl.fin 1
    have h2 : earlyZeroClose.market_close 7 2 = Dbl.fin 1 := by
      simp [earlyZeroClose]
    have h1 : earlyZeroClose.market_close 7 1 = Dbl.fin 0 := by
      simp [earlyZeroClose]
    rw [h2, h1, Dbl.sub_fin, sub_zero, round_binary64_one]
  refine ⟨hgen, rfl, by decide, hval, ?_⟩
  intro m hm0 hm2
  have hm : m = 0 ∨ m = 1 := by
    have : m < 2 := hm2
    omega
  rw [hval]
  have h2 : earlyZeroClose.market_close m 2 = Dbl.fin 0 := by
    simp only [earlyZeroClose, if_pos hm]
    rfl
  have h1 : earlyZeroClose.market_close m 1 = Dbl.ninf := by
    simp only [earlyZeroClose, if_pos hm]
    rfl
  rw [h2, h1]
  intro hne
  cases hne

/-- C16: in the arithmetic of the code (values of type `double` with the infinities and
NaN, every operation rounded by `fl`), in a valid run on a two-market matrix in which the
finite log prices of market `A` are logarithms of values of type `float`, hence between
`-104` and `104`: if on every in-sample window of the matrix and under each of the three
criteria the score that the selection loop computes for market `A` is greater than the score
that it computes for the other market, then `A` is the market of every OOS1 decision, of
which each criterion has one for each of the cases `IS_n .. n_cases-1`, and of every OOS2
realization, of which there is one for each of the cases `IS_n+OOS1_n .. n_cases-1`,
whichever column `A` is; and every OOS1 and OOS2 entry is the step of the log price of `A`
to that case, as the code computes it.  The requirement on `fl` holds for rounding to the
nearest `double` (`round_binary64_above_sentinel`) and for exact arithmetic. -/
theorem dominant_market_selected {α : Type} [LinearOrderedField α] (fl sqrt : α → α)
    (cfg : Config (Dbl α)) (g : Store (Dbl α)) (A : Int)
    (hnm : cfg.n_markets = 2) (hA : A = 0 ∨ A = 1) (hIS : 2 ≤ cfg.IS_n)
    (h1 : 1 ≤ cfg.OOS1_n) (hn : cfg.n_cases ≥ cfg.IS_n + cfg.OOS1_n + 1)
    (hfl : ∀ x : α, -208 ≤ x → -(fl (10 ^ 60)) < fl x)
    (hrecv : ∀ d x, 0 ≤ d → d < cfg.n_cases → cfg.market_close A d = Dbl.fin x →
      -104 ≤ x ∧ x ≤ 104)
    (hdom : ∀ which start, which = 0 ∨ which = 1 ∨ which = 2 → 0 ≤ start →
      start + cfg.IS_n ≤ cfg.n_cases →
      Dbl.gt (market_score_fl fl sqrt cfg which start A)
        (market_score_fl fl sqrt cfg which start (1 - A))) :
    (∀ e, e ∈ (walk_forward_fl fl sqrt cfg g).2.trace → e.market = A) ∧
      (∀ ic, ic = 0 ∨ ic = 1 ∨ ic = 2 →
        oos1_days ic (walk_forward_fl fl sqrt cfg g).2.trace
          = intRange cfg.IS_n cfg.n_cases) ∧
      oos2_days (walk_forward_fl fl sqrt cfg g).2.trace
        = intRange (cfg.IS_n + cfg.OOS1_n) cfg.n_cases ∧
      (∀ ic d, 0 ≤ ic → ic < n_criteria → cfg.IS_n ≤ d → d < cfg.n_cases →
        (walk_forward_fl fl sqrt cfg g).2.OOS1 (ic * cfg.n_cases + d)
          = Dbl.sub fl (cfg.market_close A d) (cfg.market_close A (d - 1))) ∧
      (∀ d, cfg.IS_n + cfg.OOS1_n ≤ d → d < cfg.n_cases →
        (walk_forward_fl fl sqrt cfg g).2.OOS2 d
          = Dbl.sub fl (cfg.market_close A d) (cfg.market_close A (d - 1))) :=
  walk_forward_fl_allA fl sqrt cfg g A hnm hA hIS h1 hn hfl hrecv hdom

/-- The logarithm of a positive finite value of type `float` lies between `-104` and `104`:
such a value is at least `2^-149` and below `2^128`. -/
theorem log_of_float_bounds (x : ℝ) (h0 : (2 : ℝ) ^ (-149 : Int) ≤ x)
    (h1 : x < (2 : ℝ) ^ (128 : Int)) : -104 ≤ Real.log x ∧ Real.log x ≤ 104 := by
  have hx : 0 < x := lt_of_lt_of_le (zpow_pos (by norm_num) _) h0
  have hl := Real.log_two_lt_d9
  have hg := Real.log_two_gt_d9
  have a : Real.log ((2 : ℝ) ^ (-149 : Int)) ≤ Real.log x :=
    Real.log_le_log (zpow_pos (by norm_num) _) h0
  have b : Real.log x < Real.log ((2 : ℝ) ^ (128 : Int)) := Real.log_lt_log hx h1
  rw [Real.log_zpow] at a b
  push_cast at a b
  constructor <;> linarith

theorem upAndDown_bounded (d : Int) (x : ℝ) (hd0 : 0 ≤ d) (hd1 : d < upAndDown.n_cases)
    (hx : upAndDown.market_close 1 d = Dbl.fin x) : -104 ≤ x ∧ x ≤ 104 := by
  have hc : upAndDown.market_close 1 d = Dbl.fin (d : ℝ) := by simp [upAndDown]
  rw [hc] at hx
  injection hx with hx
  have h4 : d < 4 := hd1
  have a : (0 : ℝ) ≤ (d : ℝ) := by exact_mod_cast hd0
  have b : (d : ℝ) < 4 := by exact_mod_cast h4
  rw [← hx]
  constructor <;> linarith

/-- C16 on the matrix `upAndDown`, in which market `1` rises and market `0` falls, with
rounding to the nearest `double` and a store whose uninitialised variables hold values that
are no market and no criterion: market `1` is selected throughout, and the OOS2 entry of
case `3` is its step `1`. -/
theorem dominant_market_selected_witness :
    (upAndDown.n_markets = 2 ∧ ((1 : Int) = 0 ∨ (1 : Int) = 1) ∧ 2 ≤ upAndDown.IS_n ∧
      1 ≤ upAndDown.OOS1_n ∧
      upAndDown.n_cases ≥ upAndDown.IS_n + upAndDown.OOS1_n + 1) ∧
    (∀ e, e ∈ (walk_forward_fl round_binary64 (fun x => round_binary64 (Real.sqrt x))
        upAndDown staleDbl).2.trace → e.market = 1) ∧
    oos2_days (walk_forward_fl round_binary64 (fun x => round_binary64 (Real.sqrt x))
        upAndDown staleDbl).2.trace = [3] ∧
    (walk_forward_fl round_binary64 (fun x => round_binary64 (Real.sqrt x))
        upAndDown staleDbl).2.OOS2 3 = Dbl.fin 1 := by
  have h := dominant_market_selected round_binary64 (fun x => round_binary64 (Real.sqrt x))
    upAndDown staleDbl 1 rfl (Or.inr rfl) (by decide) (by decide) (by decide)
    round_binary64_above_sentinel upAndDown_bounded
    (fun which start hw _ _ => upAndDown_scores which start hw)
  refine ⟨by decide, h.1, ?_, ?_⟩
  · rw [h.2.2.1]
    decide
  · rw [h.2.2.2.2 3 (by decide) (by decide)]
    have h3 : upAndDown.market_close 1 3 = Dbl.fin 3 := by simp [upAndDown]
    have h2 : upAndDown.market_close 1 (3 - 1) = Dbl.fin 2 := by simp [upAndDown]
    rw [h3, h2, Dbl.sub_fin]
    have e : (3 : ℝ) - 2 = 1 := by norm_num
    rw [e, round_binary64_one]

end IeeeRuns

end ChooserDD
